import Mathlib

/-!
# Klotski puzzle solver: embedding of the Go sources and verified properties

Conventions of the embedding.

* Go `int` is the signed 64-bit integer of the usual platforms: an `int` value is an `Int`
  in `[-2^63, 2^63)`, and `wrapInt` reduces the mathematical result of an operation into
  that interval, as the machine does (an overflow wraps around, it is no panic). It is
  applied where a result can leave the interval: in the sum of `Vect2.Add`, in the cell
  count and the tag index of `Grid.Validate`, and in the sums of `nextGridPosition` and
  `RenderGrids`. The other integer expressions are indices into slices and differences of
  slice lengths; they are written without it, their outcome being the same with it. In the
  mirrored mode of `Key`, `index1` counts the cells visited so far and is at most
  `len(cells.tags)` when it is computed, and `index2` lies between `0` and
  `index1 + sizeX`, hence below `2^64`: where it is not below `2^63` it is out of the range
  of the slice with and without wrap-around. In the search tree, an index that leaves the
  interval is out of the range of the slices with and without wrap-around as well, the
  slices of a tree holding fewer than `2^62` entries (more do not fit into the address
  space). A `rune` is an `Int` as well.
* Memory is not bounded: `make` returns a slice for every non-negative length.
* A Go call that can end in a run-time panic returns an `Option`: `none` is the panic.
  A nil-able pointer result is an `Option` as well (`none` is `nil`).
* A Go `string` is the list of its bytes; `string(runes)` is the UTF-8 encoding of the
  rune slice and `<` on strings is the bytewise lexicographic order.
* The unbounded `for` loop of `solvePuzzle` and the parent walk take a fuel argument;
  running out of fuel is reported as `Outcome.timeout`.
* Of the renderer, the layout in whole grid positions is embedded; the sizes in pixels are
  `float64` values and are left out, like the XML that is written.
-/

namespace Klotski

/-! ## Go integers, slices and strings -/

/-- The value of type `int` that a computation with the mathematical result `n` yields: the
representative of `n` modulo `2^64` in `[-2^63, 2^63)` (two's complement, an overflow wraps
around). -/
def wrapInt (n : Int) : Int :=
  (n + 9223372036854775808) % 18446744073709551616 - 9223372036854775808

/-- The integer is a value of type `int`: it lies in `[-2^63, 2^63)`. -/
def isInt64 (n : Int) : Prop :=
  -9223372036854775808 ≤ n ∧ n < 9223372036854775808

instance isInt64.decidable (n : Int) : Decidable (isInt64 n) := by
  unfold isInt64
  infer_instance


/-- Slice read `xs[i]`: an index out of range panics. -/
def sliceGet {α : Type} (xs : List α) (i : Int) : Option α :=
  if i < 0 then none else xs[i.toNat]?

/-- Slice write `xs[i] = v`: an index out of range panics. -/
def sliceSet {α : Type} (xs : List α) (i : Int) (v : α) : Option (List α) :=
  if 0 ≤ i ∧ i < (xs.length : Int) then some (xs.set i.toNat v) else none

/-- Slice expression `xs[lo:len(xs)]`: bounds out of range panic. -/
def sliceFrom {α : Type} (xs : List α) (lo : Int) : Option (List α) :=
  if 0 ≤ lo ∧ lo ≤ (xs.length : Int) then some (xs.drop lo.toNat) else none

/-- The values taken by `i` in `for i := a; i < b; i++`. -/
def intRange (a b : Int) : List Int :=
  (List.range (b - a).toNat).map (fun (k : Nat) => a + (k : Int))

/-- A Go string, as its sequence of bytes. -/
abbrev GoString := List Nat

/-- UTF-8 encoding of one rune by the conversion `string([]rune)`: a rune that is not a
valid Unicode code point (negative, above U+10FFFF, or a surrogate half) is encoded as
U+FFFD. -/
def encodeRune (r : Int) : GoString :=
  if r < 0 ∨ 0x10FFFF < r ∨ (0xD800 ≤ r ∧ r ≤ 0xDFFF) then [0xEF, 0xBF, 0xBD]
  else if r < 0x80 then [r.toNat]
  else if r < 0x800 then [0xC0 + r.toNat / 64, 0x80 + r.toNat % 64]
  else if r < 0x10000 then
    [0xE0 + r.toNat / 4096, 0x80 + r.toNat / 64 % 64, 0x80 + r.toNat % 64]
  else
    [0xF0 + r.toNat / 262144, 0x80 + r.toNat / 4096 % 64, 0x80 + r.toNat / 64 % 64,
      0x80 + r.toNat % 64]

/-- The conversion `string(key)` of a rune slice. -/
def runesToString : List Int → GoString
  | [] => []
  | r :: rs => encodeRune r ++ runesToString rs

/-- The comparison `s < t` of two Go strings: bytewise lexicographic, a proper prefix is
smaller. -/
def strLess : GoString → GoString → Bool
  | [], [] => false
  | [], _ :: _ => true
  | _ :: _, [] => false
  | a :: s, b :: t => if a < b then true else if b < a then false else strLess s t

/-! ## puzzle_types: vectors, steps, tags, pieces -/

structure Vect2 where
  X : Int
  Y : Int
deriving DecidableEq, Repr

/-- The method `Vect2.Add`: the two sums are sums of `int` values. -/
def Vect2.Add (lhs rhs : Vect2) : Vect2 :=
  ⟨wrapInt (lhs.X + rhs.X), wrapInt (lhs.Y + rhs.Y)⟩

structure Step where
  Symbol : String
  Vector : Vect2
deriving DecidableEq, Repr

def StepUp : Step := ⟨"↑", ⟨0, -1⟩⟩

def StepDown : Step := ⟨"↓", ⟨0, 1⟩⟩

def StepLeft : Step := ⟨"←", ⟨-1, 0⟩⟩

def StepRight : Step := ⟨"→", ⟨1, 0⟩⟩

def StepAll : List Step := [StepUp, StepDown, StepLeft, StepRight]

/-- A piece tag: `Symbol` is a rune, `Number` the instance number. -/
structure PieceTag where
  Symbol : Int
  Number : Int
deriving DecidableEq, Repr

/-- The tag `PieceTag{'*', 0}`. -/
def PieceTagEmpty : PieceTag := ⟨42, 0⟩

/-- The tag `PieceTag{'#', 0}`. -/
def PieceTagObstacle : PieceTag := ⟨35, 0⟩

structure Piece where
  Tag : PieceTag
  Position : Vect2
  Geometry : List Vect2
deriving DecidableEq, Repr

/-- Modelled from the spec: the declaration of `Move` is not among the sources; the spec
gives "a piece index (reference into the owning board's piece list) plus a Step", and the
solver builds it as `Move{pieceIndex, step}` and reads `move.PieceIndex`, `move.Step`. -/
structure Move where
  PieceIndex : Int
  Step : Step
deriving DecidableEq, Repr

/-! ## puzzle_types: the occupancy map and its key -/

structure gridCells where
  sizeX : Int
  sizeY : Int
  tags : List PieceTag
deriving DecidableEq, Repr

def NoKeySymmetry : Int := 0

def HorizontalKeySymmetry : Int := 1

def gridCells.contains (cells : gridCells) (position : Vect2) : Bool :=
  decide (0 ≤ position.X) && decide (position.X < cells.sizeX) &&
    decide (0 ≤ position.Y) && decide (position.Y < cells.sizeY)

/-- Body of the loop of the `NoKeySymmetry` case: `key[index] = cells.tags[index].Symbol`. -/
def keyCopyStep (cells : gridCells) (key : List Int) (index : Int) : Option (List Int) :=
  match sliceGet cells.tags index with
  | none => none
  | some tag => sliceSet key index tag.Symbol

/-- The loop `for index := range(key)` of the `NoKeySymmetry` case. -/
def keyCopyLoop (cells : gridCells) : List Int → List Int → Option (List Int)
  | [], key => some key
  | index :: rest, key =>
    match keyCopyStep cells key index with
    | none => none
    | some key' => keyCopyLoop cells rest key'

/-- Body of the inner loop of the `HorizontalKeySymmetry` case, on the pair `(key1, key2)`. -/
def keyMirrorStep (cells : gridCells) (y : Int) (keys : List Int × List Int) (x : Int) :
    Option (List Int × List Int) :=
  let index1 := x + cells.sizeX * y
  let index2 := cells.sizeX - 1 - x + cells.sizeX * y
  match sliceGet cells.tags index1 with
  | none => none
  | some tag =>
    match sliceSet keys.1 index1 tag.Symbol with
    | none => none
    | some key1 =>
      match sliceSet keys.2 index2 tag.Symbol with
      | none => none
      | some key2 => some (key1, key2)

/-- The loop `for x := 0; x < cells.sizeX; x++`. -/
def keyMirrorRow (cells : gridCells) (y : Int) :
    List Int → List Int × List Int → Option (List Int × List Int)
  | [], keys => some keys
  | x :: rest, keys =>
    match keyMirrorStep cells y keys x with
    | none => none
    | some keys' => keyMirrorRow cells y rest keys'

/-- The loop `for y := 0; y < cells.sizeY; y++`. -/
def keyMirrorRows (cells : gridCells) :
    List Int → List Int × List Int → Option (List Int × List Int)
  | [], keys => some keys
  | y :: rest, keys =>
    match keyMirrorRow cells y (intRange 0 cells.sizeX) keys with
    | none => none
    | some keys' => keyMirrorRows cells rest keys'

/-- The method `gridCells.Key`; `none` is a panic (unsupported symmetry, or an index out
of range). `make([]rune, n)` is a slice of `n` zero runes. -/
def gridCells.Key (cells : gridCells) (symmetry : Int) : Option GoString :=
  if symmetry = NoKeySymmetry then
    let key := List.replicate cells.tags.length (0 : Int)
    match keyCopyLoop cells (intRange 0 key.length) key with
    | none => none
    | some key' => some (runesToString key')
  else if symmetry = HorizontalKeySymmetry then
    let key1 := List.replicate cells.tags.length (0 : Int)
    let key2 := List.replicate cells.tags.length (0 : Int)
    match keyMirrorRows cells (intRange 0 cells.sizeY) (key1, key2) with
    | none => none
    | some (key1', key2') =>
      let keyStr1 := runesToString key1'
      let keyStr2 := runesToString key2'
      if strLess keyStr1 keyStr2 then some keyStr1 else some keyStr2
  else none

/-! ## puzzle_types: the board -/

structure Grid where
  SizeX : Int
  SizeY : Int
  Pieces : List Piece
deriving DecidableEq, Repr

/-- The method `Grid.Copy`: a board is a value here, the copy is the board itself. -/
def Grid.Copy (grid : Grid) : Grid :=
  ⟨grid.SizeX, grid.SizeY, grid.Pieces⟩

/-- Body of the loop over `piece.Geometry` in `Grid.Validate`. The outer `none` is a panic,
`some none` is `return nil`, `some (some cells)` lets the loop go on. -/
def placeCell (piece : Piece) (cells : gridCells) (geom : Vect2) :
    Option (Option gridCells) :=
  let position := geom.Add piece.Position
  if !cells.contains position then some none
  else
    let tagIndex := wrapInt (position.X + wrapInt (cells.sizeX * position.Y))
    match sliceGet cells.tags tagIndex with
    | none => none
    | some tag =>
      if tag ≠ PieceTagEmpty then some none
      else
        match sliceSet cells.tags tagIndex piece.Tag with
        | none => none
        | some tags' => some (some { cells with tags := tags' })

/-- The loop `for geomIndex := range(piece.Geometry)`. -/
def placeGeometry (piece : Piece) : List Vect2 → gridCells → Option (Option gridCells)
  | [], cells => some (some cells)
  | geom :: rest, cells =>
    match placeCell piece cells geom with
    | some (some cells') => placeGeometry piece rest cells'
    | r => r

/-- The loop `for pieceIndex := range(grid.Pieces)`. -/
def placePieces : List Piece → gridCells → Option (Option gridCells)
  | [], cells => some (some cells)
  | piece :: rest, cells =>
    match placeGeometry piece piece.Geometry cells with
    | some (some cells') => placePieces rest cells'
    | r => r

/-- The loop `for tagIndex := range(cells.tags)` that marks all tags as empty. -/
def markEmpty (tags : List PieceTag) : List PieceTag :=
  tags.map (fun _ => PieceTagEmpty)

/-- The method `Grid.Validate`. The outer `none` is a panic (`make` with a negative
length, or a tag index out of range), `some none` is the `nil` result (invalid board),
`some (some cells)` the occupancy map. The length `grid.SizeX * grid.SizeY` is a product of
`int` values; `make([]PieceTag, n)` is a slice of `n` zero tags. -/
def Grid.Validate (grid : Grid) : Option (Option gridCells) :=
  let cellCount := wrapInt (grid.SizeX * grid.SizeY)
  if cellCount < 0 then none
  else
    placePieces grid.Pieces
      ⟨grid.SizeX, grid.SizeY,
        markEmpty (List.replicate cellCount.toNat (⟨0, 0⟩ : PieceTag))⟩

/-- The method `Grid.Apply`, returning the updated board; `none` is the panic of an
out-of-range piece index. -/
def Grid.Apply (grid : Grid) (move : Move) : Option Grid :=
  match sliceGet grid.Pieces move.PieceIndex with
  | none => none
  | some piece =>
    match sliceSet grid.Pieces move.PieceIndex
        { piece with Position := piece.Position.Add move.Step.Vector } with
    | none => none
    | some pieces => some { grid with Pieces := pieces }

/-! ## puzzle_types: index ranges and the search tree -/

structure IndexRange where
  A : Int
  B : Int
deriving DecidableEq, Repr

def IndexRange.IsEmpty (indexRange : IndexRange) : Bool :=
  decide (indexRange.B ≤ indexRange.A)

/-- The search tree. `nodes` and `edges` are slices of `any`: the element types are
parameters. `keys` is a `map[string]bool` in which only `true` is ever stored: the set of
its keys. -/
structure SearchTree (N E : Type) where
  nodes : List N
  edges : List E
  levels : List IndexRange
  keys : Finset GoString

def NewSearchTree (N E : Type) : SearchTree N E :=
  ⟨[], [], [], ∅⟩

/-- The method `SearchTree.Append`: the tree after the call and the returned boolean. -/
def SearchTree.Append {N E : Type} (searchTree : SearchTree N E) (node : N) (edge : E)
    (key : GoString) : SearchTree N E × Bool :=
  if key ∈ searchTree.keys then (searchTree, false)
  else
    ({ searchTree with
        nodes := searchTree.nodes ++ [node]
        edges := searchTree.edges ++ [edge]
        keys := insert key searchTree.keys }, true)

/-- The method `SearchTree.IncrementDepth`; `none` is the panic of a slice expression out
of range. -/
def SearchTree.IncrementDepth {N E : Type} (searchTree : SearchTree N E) :
    Option (SearchTree N E) :=
  let a : Int :=
    match searchTree.levels.getLast? with
    | some last => last.B
    | none => 0
  let b : Int := searchTree.edges.length
  let levels := searchTree.levels ++ [⟨a, b⟩]
  let nodesCount : Int := searchTree.nodes.length
  match sliceFrom searchTree.nodes (nodesCount - (b - a)) with
  | none => none
  | some nodes => some { searchTree with levels := levels, nodes := nodes }

def SearchTree.CurrentDepth {N E : Type} (searchTree : SearchTree N E) : IndexRange :=
  match searchTree.levels.getLast? with
  | some last => last
  | none => ⟨0, 0⟩

def SearchTree.NodeAt {N E : Type} (searchTree : SearchTree N E) (index : Int) : Option N :=
  let offset : Int :=
    match searchTree.levels.getLast? with
    | some last => last.A
    | none => 0
  sliceGet searchTree.nodes (index - offset)

def SearchTree.EdgeAt {N E : Type} (searchTree : SearchTree N E) (index : Int) : Option E :=
  sliceGet searchTree.edges index

/-- The method `SearchTree.LastIndex`; `none` is its explicit panic on an empty tree. -/
def SearchTree.LastIndex {N E : Type} (searchTree : SearchTree N E) : Option Int :=
  if searchTree.edges.length ≠ 0 then some ((searchTree.edges.length : Int) - 1) else none

/-! ## klotski_solver: the solver -/

structure SearchEdge where
  ParentIndex : Int
  Move : Move
deriving DecidableEq, Repr

/-- What a call of `solvePuzzle` ends in: `found grid path` is `return grid, path`,
`noSolution` is `return nil, nil`, `panic` a run-time panic, `timeout` the fuel of the
model running out. -/
inductive Outcome where
  | found (grid : Grid) (path : List Move)
  | noSolution
  | panic
  | timeout
deriving DecidableEq, Repr

/-- The tree of the solver: nodes are boards, an edge is `nil` or a `*SearchEdge`. -/
abbrev Tree := SearchTree Grid (Option SearchEdge)

/-- Control after a loop body: go on with the tree, or leave `solvePuzzle` with an outcome. -/
inductive Ctl where
  | next (searchTree : Tree)
  | exit (outcome : Outcome)

/-- The loop `for edge := ...; edge != nil; edge = EdgeAt(edge.ParentIndex)` collecting the
moves in `path`; `none` is a panic of `EdgeAt`, `some none` the fuel running out. -/
def walkBack (searchTree : Tree) : Nat → Option SearchEdge → List Move →
    Option (Option (List Move))
  | _, none, path => some (some path)
  | 0, some _, _ => some none
  | fuel + 1, some edge, path =>
    match searchTree.EdgeAt edge.ParentIndex with
    | none => none
    | some edge' => walkBack searchTree fuel edge' (path ++ [edge.Move])

/-- The success branch of `solvePuzzle`: collect the path from the last record and reverse
it. -/
def reconstruct (fuel : Nat) (searchTree : Tree) (grid : Grid) : Outcome :=
  match searchTree.LastIndex with
  | none => .panic
  | some last =>
    match searchTree.EdgeAt last with
    | none => .panic
    | some edge =>
      match walkBack searchTree fuel edge [] with
      | none => .panic
      | some none => .timeout
      | some (some path) => .found grid path.reverse

/-- Body of the innermost loop of `solvePuzzle`, for one parent, piece and step. -/
def tryMove (fuel : Nat) (successCondition : Grid → Bool) (symmetry : Int)
    (parentIndex pieceIndex : Int) (searchTree : Tree) (step : Step) : Ctl :=
  let move : Move := ⟨pieceIndex, step⟩
  match searchTree.NodeAt parentIndex with
  | none => .exit .panic
  | some node =>
    match node.Copy.Apply move with
    | none => .exit .panic
    | some grid =>
      match grid.Validate with
      | none => .exit .panic
      | some none => .next searchTree
      | some (some validated) =>
        match validated.Key symmetry with
        | none => .exit .panic
        | some key =>
          match searchTree.Append grid (some ⟨parentIndex, move⟩) key with
          | (_, false) => .next searchTree
          | (searchTree', true) =>
            if successCondition grid then .exit (reconstruct fuel searchTree' grid)
            else .next searchTree'

/-- The loop `for _, step := range(StepAll())`. -/
def stepLoop (fuel : Nat) (successCondition : Grid → Bool) (symmetry : Int)
    (parentIndex pieceIndex : Int) : List Step → Tree → Ctl
  | [], searchTree => .next searchTree
  | step :: rest, searchTree =>
    match tryMove fuel successCondition symmetry parentIndex pieceIndex searchTree step with
    | .next searchTree' =>
      stepLoop fuel successCondition symmetry parentIndex pieceIndex rest searchTree'
    | .exit outcome => .exit outcome

/-- The loop `for pieceIndex := range(initialGrid.Pieces)`. -/
def pieceLoop (fuel : Nat) (successCondition : Grid → Bool) (symmetry : Int)
    (parentIndex : Int) : List Int → Tree → Ctl
  | [], searchTree => .next searchTree
  | pieceIndex :: rest, searchTree =>
    match stepLoop fuel successCondition symmetry parentIndex pieceIndex StepAll searchTree with
    | .next searchTree' => pieceLoop fuel successCondition symmetry parentIndex rest searchTree'
    | .exit outcome => .exit outcome

/-- The loop `for parentIndex := indexRange.A; parentIndex < indexRange.B; parentIndex++`. -/
def parentLoop (fuel : Nat) (successCondition : Grid → Bool) (symmetry : Int)
    (pieceCount : Int) : List Int → Tree → Ctl
  | [], searchTree => .next searchTree
  | parentIndex :: rest, searchTree =>
    match pieceLoop fuel successCondition symmetry parentIndex (intRange 0 pieceCount)
        searchTree with
    | .next searchTree' => parentLoop fuel successCondition symmetry pieceCount rest searchTree'
    | .exit outcome => .exit outcome

/-- One pass of the unbounded `for` loop of `solvePuzzle`: open a new level, return
'no solution' when it is empty, otherwise expand it. -/
def searchPass (fuel : Nat) (successCondition : Grid → Bool) (symmetry : Int)
    (pieceCount : Int) (searchTree : Tree) : Ctl :=
  match searchTree.IncrementDepth with
  | none => .exit .panic
  | some searchTree' =>
    let indexRange := searchTree'.CurrentDepth
    if indexRange.IsEmpty then .exit .noSolution
    else
      parentLoop fuel successCondition symmetry pieceCount
        (intRange indexRange.A indexRange.B) searchTree'

/-- The unbounded `for` loop of `solvePuzzle`: one unit of fuel per pass. -/
def searchLoop (successCondition : Grid → Bool) (symmetry : Int) (pieceCount : Int) :
    Nat → Tree → Outcome
  | 0, _ => .timeout
  | fuel + 1, searchTree =>
    match searchPass (fuel + 1) successCondition symmetry pieceCount searchTree with
    | .exit outcome => outcome
    | .next searchTree' => searchLoop successCondition symmetry pieceCount fuel searchTree'

/-- The function `solvePuzzle`. -/
def solvePuzzle (fuel : Nat) (initialGrid : Grid) (successCondition : Grid → Bool)
    (symmetry : Int) : Outcome :=
  match initialGrid.Validate with
  | none => .panic
  | some none => .noSolution
  | some (some validated) =>
    if successCondition initialGrid then .found initialGrid []
    else
      match validated.Key symmetry with
      | none => .panic
      | some key =>
        searchLoop successCondition symmetry initialGrid.Pieces.length fuel
          ((NewSearchTree Grid (Option SearchEdge)).Append initialGrid none key).1

/-! ## Sequences of calls on a search tree -/

/-- One call on a search tree: `Append(node, edge, key)` or `IncrementDepth()`. -/
inductive TreeOp (N E : Type) where
  | append (node : N) (edge : E) (key : GoString)
  | incrementDepth

/-- The arguments of an `Append` call that returned `true`. -/
structure Admitted (N E : Type) where
  node : N
  edge : E
  key : GoString

/-- Runs a sequence of calls from a tree, keeping the log of the admitted `Append` calls
in the order of admission; `none` is a panic of one of the calls. -/
def runOps {N E : Type} :
    List (TreeOp N E) → SearchTree N E × List (Admitted N E) →
      Option (SearchTree N E × List (Admitted N E))
  | [], state => some state
  | .append node edge key :: rest, (searchTree, log) =>
    match searchTree.Append node edge key with
    | (searchTree', true) => runOps rest (searchTree', log ++ [⟨node, edge, key⟩])
    | (searchTree', false) => runOps rest (searchTree', log)
  | .incrementDepth :: rest, (searchTree, log) =>
    match searchTree.IncrementDepth with
    | none => none
    | some searchTree' => runOps rest (searchTree', log)

/-- What ties a tree to the log of its admitted `Append` calls. -/
structure TreeLogInv {N E : Type} (searchTree : SearchTree N E) (log : List (Admitted N E)) :
    Prop where
  edges_eq : searchTree.edges = log.map (fun r => r.edge)
  keys_eq : searchTree.keys = (log.map (fun r => r.key)).toFinset
  keys_nodup : (log.map (fun r => r.key)).Nodup
  a_nonneg : 0 ≤ searchTree.CurrentDepth.A
  a_le_b : searchTree.CurrentDepth.A ≤ searchTree.CurrentDepth.B
  b_le : searchTree.CurrentDepth.B ≤ (log.length : Int)
  nodes_eq : searchTree.nodes = (log.map (fun r => r.node)).drop searchTree.CurrentDepth.A.toNat

/-! ## Validation: the placements behind an occupancy map -/

/-- The absolute cells of a piece list with the tag placed on each, in the order in which
`Grid.Validate` visits them (piece by piece, offset by offset). -/
def cellTags (pieces : List Piece) : List (Vect2 × PieceTag) :=
  pieces.flatMap (fun piece => piece.Geometry.map (fun geom => (geom.Add piece.Position, piece.Tag)))

/-- Placement of one tag on one absolute cell, with the mathematical value of the tag
index: the body of the geometry loop of `Grid.Validate` once the cell is computed, on a map
whose cell count is a value of type `int` (the tag index of a cell of the board does not
overflow then). -/
def placeAt (cells : gridCells) (position : Vect2) (tag : PieceTag) :
    Option (Option gridCells) :=
  if !cells.contains position then some none
  else
    match sliceGet cells.tags (position.X + cells.sizeX * position.Y) with
    | none => none
    | some old =>
      if old ≠ PieceTagEmpty then some none
      else
        match sliceSet cells.tags (position.X + cells.sizeX * position.Y) tag with
        | none => none
        | some tags' => some (some { cells with tags := tags' })

/-- Placement of a list of (cell, tag) pairs, stopping at the first failure. -/
def placeList : List (Vect2 × PieceTag) → gridCells → Option (Option gridCells)
  | [], cells => some (some cells)
  | (position, tag) :: rest, cells =>
    match placeAt cells position tag with
    | some (some cells') => placeList rest cells'
    | r => r

/-- What ties an occupancy map under construction to the history of the placements made so
far (latest first): the size of the tag slice, and in every cell of the board the tag of
the latest placement on that cell, or the empty tag. -/
structure CellsInv (cells : gridCells) (hist : List (Vect2 × PieceTag)) : Prop where
  len : (cells.tags.length : Int) = cells.sizeX * cells.sizeY
  content : ∀ p, cells.contains p = true →
    sliceGet cells.tags (p.X + cells.sizeX * p.Y) = some ((hist.lookup p).getD PieceTagEmpty)

/-- The absolute cells `Position + offset` of a board, one entry per (piece, offset) pair, in
the order of the piece list and of each shape. -/
def Grid.absCells (grid : Grid) : List Vect2 :=
  grid.Pieces.flatMap (fun piece => piece.Geometry.map (fun geom => geom.Add piece.Position))

/-- The cell lies inside `[0,SizeX) x [0,SizeY)`. -/
def Grid.OnBoard (grid : Grid) (c : Vect2) : Prop :=
  0 ≤ c.X ∧ c.X < grid.SizeX ∧ 0 ≤ c.Y ∧ c.Y < grid.SizeY

instance Grid.decidableOnBoard (grid : Grid) (c : Vect2) : Decidable (grid.OnBoard c) := by
  unfold Grid.OnBoard
  infer_instance

/-- The placements `l` fit on the board of `cells` after the placements `hist`: every cell is
on the board, no cell occurs twice in `l`, none was placed before. -/
def Fits (cells : gridCells) (l hist : List (Vect2 × PieceTag)) : Prop :=
  (∀ e ∈ l, cells.contains e.1 = true) ∧ (l.map (fun e => e.1)).Nodup ∧
    ∀ e ∈ l, e.1 ∉ hist.map (fun e => e.1)

/-- The cell count `SizeX * SizeY` of the board is a value of type `int`: the product that
`Grid.Validate` computes for the length of the tag slice does not overflow. -/
def Grid.CellCountFits (grid : Grid) : Prop :=
  isInt64 (grid.SizeX * grid.SizeY)

instance Grid.decidableCellCountFits (grid : Grid) : Decidable grid.CellCountFits := by
  unfold Grid.CellCountFits
  infer_instance

/-- Both coordinates are values of type `int`. -/
def Vect2.IsInt64 (v : Vect2) : Prop :=
  isInt64 v.X ∧ isInt64 v.Y

instance Vect2.decidableIsInt64 (v : Vect2) : Decidable v.IsInt64 := by
  unfold Vect2.IsInt64
  infer_instance

/-- The positions of the pieces of the board are pairs of values of type `int`, as in every
board of the program. -/
def Grid.PositionsInt64 (grid : Grid) : Prop :=
  ∀ piece ∈ grid.Pieces, piece.Position.IsInt64

instance Grid.decidablePositionsInt64 (grid : Grid) : Decidable grid.PositionsInt64 := by
  unfold Grid.PositionsInt64
  infer_instance

/-! ## Keys: well-formed maps, reflection -/

/-- A well-formed occupancy map: non-negative sizes and one tag per cell. -/
def gridCells.WellFormed (cells : gridCells) : Prop :=
  0 ≤ cells.sizeX ∧ 0 ≤ cells.sizeY ∧ (cells.tags.length : Int) = cells.sizeX * cells.sizeY

instance gridCells.decidableWellFormed (cells : gridCells) : Decidable cells.WellFormed := by
  unfold gridCells.WellFormed
  infer_instance

/-- The symbol slice of a map: the `Symbol` of every tag, in the order of the tag slice. -/
def gridCells.symbols (cells : gridCells) : List Int :=
  cells.tags.map (fun tag => tag.Symbol)

/-- Progress of the two loops of the `HorizontalKeySymmetry` case: on the cells `(x, y)`
already visited (`P x y`), `key1` holds the symbol at the cell's own index and `key2` holds
it at the mirrored index. -/
structure MirrorInv (cells : gridCells) (P : Int → Int → Prop) (keys : List Int × List Int) :
    Prop where
  len1 : keys.1.length = cells.tags.length
  len2 : keys.2.length = cells.tags.length
  val : ∀ x y, 0 ≤ x → x < cells.sizeX → 0 ≤ y → y < cells.sizeY → P x y →
    sliceGet keys.1 (x + cells.sizeX * y) =
        (sliceGet cells.tags (x + cells.sizeX * y)).map (fun tag => tag.Symbol) ∧
      sliceGet keys.2 (cells.sizeX - 1 - x + cells.sizeX * y) =
        (sliceGet cells.tags (x + cells.sizeX * y)).map (fun tag => tag.Symbol)

/-- Left-right reflection of a row-major slice of `h` rows of `w` cells: each row's cells
in reversed column order. -/
def reverseRows {α : Type} (w : Nat) : Nat → List α → List α
  | 0, _ => []
  | h + 1, l => (l.take w).reverse ++ reverseRows w h (l.drop w)

/-- The left-right reflection of an occupancy map. -/
def gridCells.mirror (cells : gridCells) : gridCells :=
  ⟨cells.sizeX, cells.sizeY, reverseRows cells.sizeX.toNat cells.sizeY.toNat cells.tags⟩

/-- The left-right reflection of a cell of a board of width `sizeX`. -/
def mirrorCell (sizeX : Int) (c : Vect2) : Vect2 :=
  ⟨sizeX - 1 - c.X, c.Y⟩

/-- The left-right reflection of a piece on a board of width `sizeX`: the reference point
and every offset of the shape are reflected. -/
def Piece.mirror (sizeX : Int) (piece : Piece) : Piece :=
  ⟨piece.Tag, mirrorCell sizeX piece.Position, piece.Geometry.map (fun geom => ⟨-geom.X, geom.Y⟩)⟩

/-- The left-right mirrored board. -/
def Grid.mirror (grid : Grid) : Grid :=
  ⟨grid.SizeX, grid.SizeY, grid.Pieces.map (Piece.mirror grid.SizeX)⟩

/-! ## Valid runes -/

/-- A rune that is a valid Unicode code point: in `[0, 0x10FFFF]` and not a surrogate half. -/
def validRune (r : Int) : Prop :=
  0 ≤ r ∧ r ≤ 0x10FFFF ∧ ¬(0xD800 ≤ r ∧ r ≤ 0xDFFF)

instance validRune.decidable (r : Int) : Decidable (validRune r) := by
  unfold validRune
  infer_instance

/-! ## The search: paths, keys of boards, records and invariants -/

/-- The board passes `Grid.Validate`. -/
def Grid.IsValid (grid : Grid) : Bool :=
  match grid.Validate with
  | some (some _) => true
  | _ => false

/-- A move of a puzzle with `pieceCount` pieces: a piece index of the piece list and one of
the four unit steps. -/
def Move.Legal (pieceCount : Nat) (move : Move) : Prop :=
  0 ≤ move.PieceIndex ∧ move.PieceIndex < (pieceCount : Int) ∧ move.Step ∈ StepAll

instance Move.decidableLegal (pieceCount : Nat) (move : Move) :
    Decidable (move.Legal pieceCount) := by
  unfold Move.Legal
  infer_instance

/-- Applying the moves in order with `Grid.Apply`; `none` is a panic of `Apply`. -/
def applyMoves : Grid → List Move → Option Grid
  | grid, [] => some grid
  | grid, move :: rest =>
    match grid.Apply move with
    | none => none
    | some grid' => applyMoves grid' rest

/-- One valid move: the board after `Apply`, when it passes `Validate`. -/
def stepTo (grid : Grid) (move : Move) : Option Grid :=
  match grid.Apply move with
  | none => none
  | some grid' => if grid'.IsValid then some grid' else none

/-- Applying the moves in order, every board obtained after a move passing `Validate`. -/
def runPath : Grid → List Move → Option Grid
  | grid, [] => some grid
  | grid, move :: rest =>
    match stepTo grid move with
    | none => none
    | some grid' => runPath grid' rest

/-- The board `grid` is reached from `start` by the moves of `path`: every move is a move
of the puzzle and every board after a move is valid. -/
def Reaches (start : Grid) (path : List Move) (grid : Grid) : Prop :=
  (∀ move ∈ path, move.Legal start.Pieces.length) ∧ runPath start path = some grid

/-- The canonical key of a valid board; `none` when the board is invalid (or on a panic). -/
def keyOf (symmetry : Int) (grid : Grid) : Option GoString :=
  match grid.Validate with
  | some (some cells) => cells.Key symmetry
  | _ => none

/-- A record of the search with the path that leads to it: the proof-side view of one
admitted `Append` of the solver. -/
structure Rec where
  grid : Grid
  edge : Option SearchEdge
  key : GoString
  path : List Move

/-- The arguments of the `Append` call behind a record. -/
def Rec.adm (r : Rec) : Admitted Grid (Option SearchEdge) :=
  ⟨r.grid, r.edge, r.key⟩

/-- The parent link of record `i`: the root has no edge and the empty path, any other
record has an edge to an earlier record whose path it extends by the edge's move. -/
def RecLink (recs : List Rec) (i : Nat) (r : Rec) : Prop :=
  (r.edge = none ∧ r.path = []) ∨
    ∃ (p : Nat) (move : Move) (rp : Rec), r.edge = some ⟨(p : Int), move⟩ ∧ p < i ∧
      recs[p]? = some rp ∧ r.path = rp.path ++ [move]

/-- The move `move` on record `i` has been tried: when it leads to a valid board, the key
of that board is the key of some record. -/
def Tried (symmetry : Int) (recs : List Rec) (i : Nat) (move : Move) : Prop :=
  ∀ r grid', recs[i]? = some r → stepTo r.grid move = some grid' →
    ∃ key, keyOf symmetry grid' = some key ∧ key ∈ recs.map (fun r => r.key)

/-- What holds of the tree and its records all along the search. -/
structure RecsInv (start : Grid) (successCondition : Grid → Bool) (symmetry : Int)
    (searchTree : Tree) (recs : List Rec) : Prop where
  tree : TreeLogInv searchTree (recs.map Rec.adm)
  link : ∀ (i : Nat) (r : Rec), recs[i]? = some r → RecLink recs i r
  reach : ∀ (i : Nat) (r : Rec), recs[i]? = some r → Reaches start r.path r.grid
  key : ∀ (i : Nat) (r : Rec), recs[i]? = some r → keyOf symmetry r.grid = some r.key
  goal : ∀ (i : Nat) (r : Rec), recs[i]? = some r → successCondition r.grid = false

/-- What holds during pass `d` of the search loop (after the new level is opened): the
records of the current level are `d - 1` moves away from the start, the records admitted
during the pass are `d` moves away, every move on every record of an earlier level has
been tried. -/
structure PassInv (start : Grid) (successCondition : Grid → Bool) (symmetry : Int) (d : Nat)
    (searchTree : Tree) (recs : List Rec) extends
    RecsInv start successCondition symmetry searchTree recs : Prop where
  depth_cur : ∀ (i : Nat) (r : Rec), recs[i]? = some r → searchTree.CurrentDepth.A ≤ (i : Int) →
    (i : Int) < searchTree.CurrentDepth.B → r.path.length + 1 = d
  depth_new : ∀ (i : Nat) (r : Rec), recs[i]? = some r → searchTree.CurrentDepth.B ≤ (i : Int) →
    r.path.length = d
  expanded : ∀ (i : Nat) move, (i : Int) < searchTree.CurrentDepth.A →
    move.Legal start.Pieces.length → Tried symmetry recs i move

/-- What holds between two passes, before pass `d` opens its level: the records admitted
since the last level was opened are `d - 1` moves away from the start, every move on
every earlier record has been tried. -/
structure StartInv (start : Grid) (successCondition : Grid → Bool) (symmetry : Int) (d : Nat)
    (searchTree : Tree) (recs : List Rec) extends
    RecsInv start successCondition symmetry searchTree recs : Prop where
  depth_new : ∀ (i : Nat) (r : Rec), recs[i]? = some r → searchTree.CurrentDepth.B ≤ (i : Int) →
    r.path.length + 1 = d
  expanded : ∀ (i : Nat) move, (i : Int) < searchTree.CurrentDepth.B →
    move.Legal start.Pieces.length → Tried symmetry recs i move

/-- A return from inside pass `d`: a board that satisfies the goal, reached by `d` moves,
returned with these moves when the fuel is enough for the walk back; or, on a start board
whose cell count overflows, a panic (of `Validate` or of `Key` on a board tried). -/
def ExitOK (start : Grid) (successCondition : Grid → Bool) (d fuel : Nat) (outcome : Outcome) :
    Prop :=
  (∃ grid path, Reaches start path grid ∧ successCondition grid = true ∧ path.length = d ∧
    outcome = if d ≤ fuel then .found grid path else .timeout) ∨
  (¬start.CellCountFits ∧ outcome = .panic)

/-! ## Outcome of a loop of the search -/

/-- What a loop of pass `d` started on `searchTree` with the records `recs` ends in: either
it goes on with a tree of the same level, more records and `P` established, or it returns
from `solvePuzzle` with a solution of `d` moves. -/
def LoopOK (start : Grid) (successCondition : Grid → Bool) (symmetry : Int) (d fuel : Nat)
    (searchTree : Tree) (recs : List Rec) (P : List Rec → Prop) (result : Ctl) : Prop :=
  (∃ searchTree' more, result = .next searchTree' ∧
      PassInv start successCondition symmetry d searchTree' (recs ++ more) ∧
      searchTree'.CurrentDepth = searchTree.CurrentDepth ∧ P (recs ++ more)) ∨
    (∃ outcome, result = .exit outcome ∧ ExitOK start successCondition d fuel outcome)

/-! ## The 2x1 scenario -/

/-- The board of the 2x1 scenario: one single-cell piece with the given tag at `(x, 0)`. -/
def scenarioGrid (tag : PieceTag) (x : Int) : Grid :=
  ⟨2, 1, [⟨tag, ⟨x, 0⟩, [⟨0, 0⟩]⟩]⟩

/-- The goal of the 2x1 scenario: the piece is at position `(1, 0)`. -/
def scenarioGoal (grid : Grid) : Bool :=
  match grid.Pieces with
  | piece :: _ => decide (piece.Position = ⟨1, 0⟩)
  | [] => false

/-- The tree of the 2x1 scenario after the first level is opened. -/
def scenarioTree (tag : PieceTag) (keys : Finset GoString) : Tree :=
  ⟨[scenarioGrid tag 0], [none], [⟨0, 1⟩], keys⟩

/-! ## The possible keys of a puzzle -/

/-- All lists of length `n` over the alphabet `A`. -/
def allLists {α : Type} (A : List α) : Nat → List (List α)
  | 0 => [[]]
  | n + 1 => A.flatMap (fun a => (allLists A n).map (fun l => a :: l))

/-- The strings a key of the puzzle can be: the conversions to a string of the rune slices
with one rune per cell, taken among `'*'` and the kind symbols of the pieces. -/
def keySpace (start : Grid) : List GoString :=
  (allLists (42 :: start.Pieces.map (fun piece => piece.Tag.Symbol))
    (start.SizeX * start.SizeY).toNat).map runesToString

/-- The number of possible keys of the puzzle: the number of distinct strings among the
strings a key can be. -/
def keyBound (start : Grid) : Nat :=
  (keySpace start).toFinset.card

/-! ## Passes of the search loop -/

/-- The tree after `k` passes of the search loop that all went on; `none` when one of them
returned. -/
def iteratePass (fuel : Nat) (successCondition : Grid → Bool) (symmetry : Int)
    (pieceCount : Int) : Nat → Tree → Option Tree
  | 0, searchTree => some searchTree
  | k + 1, searchTree =>
    match searchPass fuel successCondition symmetry pieceCount searchTree with
    | .next searchTree' => iteratePass fuel successCondition symmetry pieceCount k searchTree'
    | .exit _ => none

/-! ## Interchangeable boards and coverage -/

/-- Boards with equal keys are interchangeable for the search: any two boards reached from
the start board that have the same key agree on the goal predicate, and every valid move on
the first is matched by a valid move on the second that leads to boards with the same key. -/
def KeyCompatible (start : Grid) (successCondition : Grid → Bool) (symmetry : Int) : Prop :=
  ∀ path1 path2 grid1 grid2, Reaches start path1 grid1 → Reaches start path2 grid2 →
    keyOf symmetry grid1 = keyOf symmetry grid2 →
    successCondition grid1 = successCondition grid2 ∧
    ∀ move next1, move.Legal start.Pieces.length → stepTo grid1 move = some next1 →
      ∃ move' next2, move'.Legal start.Pieces.length ∧ stepTo grid2 move' = some next2 ∧
        keyOf symmetry next1 = keyOf symmetry next2

/-- Every board reached from the start board by at most `j` moves has the key of a record. -/
def Cov (symmetry : Int) (start : Grid) (j : Nat) (recs : List Rec) : Prop :=
  ∀ path grid, Reaches start path grid → path.length ≤ j →
    ∃ (i : Nat) (r : Rec), recs[i]? = some r ∧ keyOf symmetry grid = some r.key

instance Reaches.decidable (start : Grid) (path : List Move) (grid : Grid) :
    Decidable (Reaches start path grid) := by
  unfold Reaches
  infer_instance

/-! ## Boards used as examples -/

/-- The 1x1 board on which a piece tagged with the empty tag `('*',0)` and a piece tagged
`('B',1)` both cover the cell `(0, 0)`, the piece with the empty tag first. -/
def maskedOverlap : Grid :=
  ⟨1, 1, [⟨PieceTagEmpty, ⟨0, 0⟩, [⟨0, 0⟩]⟩, ⟨⟨66, 1⟩, ⟨0, 0⟩, [⟨0, 0⟩]⟩]⟩

/-- The 2x2 board with a vertical domino `('B',1)` in the left column and a single cell
`('D',1)` in the bottom right corner. -/
def dominoBoard : Grid :=
  ⟨2, 2, [⟨⟨66, 1⟩, ⟨0, 0⟩, [⟨0, 0⟩, ⟨0, 1⟩]⟩, ⟨⟨68, 1⟩, ⟨1, 1⟩, [⟨0, 0⟩]⟩]⟩

/-- The board `maskedOverlap` with its two pieces in the other order: the piece tagged
`('B',1)` first, the piece with the empty tag second. -/
def maskedOverlapSwapped : Grid :=
  ⟨1, 1, [⟨⟨66, 1⟩, ⟨0, 0⟩, [⟨0, 0⟩]⟩, ⟨PieceTagEmpty, ⟨0, 0⟩, [⟨0, 0⟩]⟩]⟩

/-- A board of width 3 and height 6148914691236517206 with the given pieces: the product of
its sizes is `2^64 + 2`, which is 2 as a value of type `int`, so that the tag slice made by
`Grid.Validate` has 2 entries. -/
def overflowBoard (pieces : List Piece) : Grid :=
  ⟨3, 6148914691236517206, pieces⟩

/-- The single-cell piece `('A',1)` at `(x, y)`. -/
def unitPiece (x y : Int) : Piece :=
  ⟨⟨65, 1⟩, ⟨x, y⟩, [⟨0, 0⟩]⟩

/-- The 1x1 board with one piece `('A',1)` at `(-2^63, 0)` whose shape is the single offset
`(-2^63, 0)`: the sum of `Vect2.Add` wraps around, the cell of the piece is `(0, 0)`. -/
def wrapSumBoard : Grid :=
  ⟨1, 1, [⟨⟨65, 1⟩, ⟨-9223372036854775808, 0⟩, [⟨-9223372036854775808, 0⟩]⟩]⟩

/-! ## The levels of a search tree -/

/-- The levels are consecutive half-open ranges from `start` on: each has `A ≤ B`, the first
one starts at `start`, each next one starts where the previous one ends. -/
def LevelsFrom : Int → List IndexRange → Prop
  | _, [] => True
  | start, level :: rest => level.A = start ∧ level.A ≤ level.B ∧ LevelsFrom level.B rest

instance LevelsFrom.decidable : ∀ (start : Int) (levels : List IndexRange),
    Decidable (LevelsFrom start levels)
  | _, [] => isTrue trivial
  | start, level :: rest =>
    have := LevelsFrom.decidable level.B rest
    inferInstanceAs (Decidable (level.A = start ∧ level.A ≤ level.B ∧ LevelsFrom level.B rest))

/-- The calls `Append(node, edge, key)` for a list of (node, edge, key) triples. -/
def appendOps {N E : Type} (adds : List (N × E × GoString)) : List (TreeOp N E) :=
  adds.map (fun a => TreeOp.append a.1 a.2.1 a.2.2)

/-! ## Characters of a converted rune slice -/

/-- The character that the conversion `string([]rune)` writes for a rune: the rune itself
when it is a valid Unicode code point, U+FFFD otherwise. -/
def replaceInvalid (r : Int) : Int :=
  if validRune r then r else 0xFFFD

/-! ## Boards of one puzzle -/

/-- The board `other` shares the dimensions and the piece list of `grid`: the same sizes,
and piece by piece the same tag and the same shape; only the positions may differ. -/
def Grid.SamePuzzle (grid other : Grid) : Prop :=
  other.SizeX = grid.SizeX ∧ other.SizeY = grid.SizeY ∧
    other.Pieces.map (fun piece => (piece.Tag, piece.Geometry)) =
      grid.Pieces.map (fun piece => (piece.Tag, piece.Geometry))

instance Grid.decidableSamePuzzle (grid other : Grid) : Decidable (grid.SamePuzzle other) := by
  unfold Grid.SamePuzzle
  infer_instance

/-! ## svg_renderer: the layout of the diagram -/

/-- The level of the record at `index`: the number of levels that end at or before it. A
record inside the `k`-th level opened (counted from 0) has level `k`; a record admitted
since the last level was opened has the number of levels opened so far, the level that the
next `IncrementDepth` opens. -/
def levelOf (levels : List IndexRange) (index : Int) : Nat :=
  levels.countP (fun level => decide (level.B ≤ index))

/-- The log of the admitted `Append` calls of the solver. -/
abbrev SolverLog := List (Admitted Grid (Option SearchEdge))

/-- The states (tree, with the log of its admitted records) that a run of `solvePuzzle` on
`start` goes through, whatever the goal predicate: the tree seeded with the start board; a
state after `IncrementDepth`; a state after the body of the innermost loop has applied a
move of a piece to the board of a parent of the current level, found the result valid and
called `Append` with it. -/
inductive SolverState (start : Grid) (symmetry : Int) : Tree × SolverLog → Prop
  | seed (cells : gridCells) (key : GoString) (state : Tree × SolverLog) :
    start.Validate = some (some cells) → cells.Key symmetry = some key →
    runOps [TreeOp.append start none key] (NewSearchTree Grid (Option SearchEdge), []) =
      some state →
    SolverState start symmetry state
  | openLevel (state state' : Tree × SolverLog) :
    SolverState start symmetry state →
    runOps [TreeOp.incrementDepth] state = some state' →
    SolverState start symmetry state'
  | tryMove (state state' : Tree × SolverLog) (parentIndex pieceIndex : Int) (step : Step)
      (node grid : Grid) (cells : gridCells) (key : GoString) :
    SolverState start symmetry state →
    state.1.CurrentDepth.A ≤ parentIndex → parentIndex < state.1.CurrentDepth.B →
    0 ≤ pieceIndex → pieceIndex < (start.Pieces.length : Int) → step ∈ StepAll →
    state.1.NodeAt parentIndex = some node →
    node.Copy.Apply ⟨pieceIndex, step⟩ = some grid →
    grid.Validate = some (some cells) → cells.Key symmetry = some key →
    runOps [TreeOp.append grid (some ⟨parentIndex, ⟨pieceIndex, step⟩⟩) key] state =
      some state' →
    SolverState start symmetry state'

/-- What holds of the records in every state of the solver: the tree agrees with the log,
the levels are consecutive ranges from 0 that end after the root, the root record holds the
start board and no edge, and every other record has an edge to a record of the level
before its own, from whose board its board is obtained by the move of the edge. -/
structure LinkInv (start : Grid) (searchTree : Tree) (log : SolverLog) : Prop where
  tree : TreeLogInv searchTree log
  levels : LevelsFrom 0 searchTree.levels
  ends : ∀ level ∈ searchTree.levels, 1 ≤ level.B
  root : ∃ key, log[0]? = some ⟨start, none, key⟩
  link : ∀ (i : Nat) (r : Admitted Grid (Option SearchEdge)), log[i]? = some r → 1 ≤ i →
    ∃ (p : Nat) (move : Move) (rp : Admitted Grid (Option SearchEdge)),
      r.edge = some ⟨(p : Int), move⟩ ∧ log[p]? = some rp ∧
      levelOf searchTree.levels (p : Int) + 1 = levelOf searchTree.levels (i : Int) ∧
      rp.node.Copy.Apply move = some r.node

/-! ## A corridor -/

/-- The 3x1 board with one single-cell piece `('A',1)` at `(x, 0)`. -/
def corridor (x : Int) : Grid :=
  ⟨3, 1, [⟨⟨65, 1⟩, ⟨x, 0⟩, [⟨0, 0⟩]⟩]⟩

end Klotski

namespace Klotski

/-! ## Search tree: `Append`, `IncrementDepth` and the log of admitted records -/

section SearchTreeLemmas

variable {N E : Type}

theorem append_of_mem (searchTree : SearchTree N E) (node : N) (edge : E) (key : GoString)
    (h : key ∈ searchTree.keys) : searchTree.Append node edge key = (searchTree, false) := by
  simp [SearchTree.Append, h]

theorem append_of_not_mem (searchTree : SearchTree N E) (node : N) (edge : E) (key : GoString)
    (h : key ∉ searchTree.keys) :
    searchTree.Append node edge key =
      ({ searchTree with
          nodes := searchTree.nodes ++ [node]
          edges := searchTree.edges ++ [edge]
          keys := insert key searchTree.keys }, true) := by
  simp [SearchTree.Append, h]

theorem append_snd_iff (searchTree : SearchTree N E) (node : N) (edge : E) (key : GoString) :
    (searchTree.Append node edge key).2 = true ↔ key ∉ searchTree.keys := by
  by_cases h : key ∈ searchTree.keys <;> simp [SearchTree.Append, h]

theorem currentDepth_append (searchTree : SearchTree N E) (node : N) (edge : E)
    (key : GoString) :
    (searchTree.Append node edge key).1.CurrentDepth = searchTree.CurrentDepth := by
  by_cases h : key ∈ searchTree.keys <;> simp [SearchTree.Append, h, SearchTree.CurrentDepth]

theorem incrementDepth_eq (searchTree : SearchTree N E) :
    searchTree.IncrementDepth =
      match sliceFrom searchTree.nodes
          ((searchTree.nodes.length : Int) -
            ((searchTree.edges.length : Int) - searchTree.CurrentDepth.B)) with
      | none => none
      | some nodes =>
        some { searchTree with
          levels := searchTree.levels ++
            [⟨searchTree.CurrentDepth.B, (searchTree.edges.length : Int)⟩]
          nodes := nodes } := by
  unfold SearchTree.IncrementDepth SearchTree.CurrentDepth
  cases searchTree.levels.getLast? <;> rfl

theorem nodeAt_eq (searchTree : SearchTree N E) (index : Int) :
    searchTree.NodeAt index = sliceGet searchTree.nodes (index - searchTree.CurrentDepth.A) := by
  unfold SearchTree.NodeAt SearchTree.CurrentDepth
  cases searchTree.levels.getLast? <;> rfl

theorem treeLogInv_new : TreeLogInv (NewSearchTree N E) [] := by
  constructor <;> simp [NewSearchTree, SearchTree.CurrentDepth]

theorem treeLogInv_append {searchTree : SearchTree N E} {log : List (Admitted N E)}
    (inv : TreeLogInv searchTree log) (node : N) (edge : E) (key : GoString)
    (h : key ∉ searchTree.keys) :
    TreeLogInv (searchTree.Append node edge key).1 (log ++ [⟨node, edge, key⟩]) := by
  have hcd := currentDepth_append searchTree node edge key
  have hk : key ∉ log.map (fun r => r.key) := by
    have := inv.keys_eq ▸ h
    simpa using this
  have ha := inv.a_nonneg
  have hab := inv.a_le_b
  have hb := inv.b_le
  constructor
  · simp [append_of_not_mem _ _ _ _ h, inv.edges_eq]
  · simp only [append_of_not_mem _ _ _ _ h, inv.keys_eq]
    simp [List.toFinset_append, Finset.insert_eq, Finset.union_comm]
  · rw [List.map_append, List.nodup_append]
    refine ⟨inv.keys_nodup, by simp, ?_⟩
    intro a ha1 ha2
    simp at ha2
    subst ha2
    exact hk ha1
  · rw [hcd]; exact ha
  · rw [hcd]; exact hab
  · rw [hcd]; simp; omega
  · rw [hcd]
    simp only [append_of_not_mem _ _ _ _ h, inv.nodes_eq, List.map_append, List.map_cons,
      List.map_nil]
    rw [List.drop_append_of_le_length]
    simp
    omega

theorem treeLogInv_incrementDepth {searchTree : SearchTree N E} {log : List (Admitted N E)}
    (inv : TreeLogInv searchTree log) :
    ∃ searchTree', searchTree.IncrementDepth = some searchTree' ∧
      TreeLogInv searchTree' log ∧
      searchTree'.CurrentDepth = ⟨searchTree.CurrentDepth.B, (log.length : Int)⟩ ∧
      searchTree'.edges = searchTree.edges ∧ searchTree'.keys = searchTree.keys ∧
      searchTree'.levels = searchTree.levels ++
        [⟨searchTree.CurrentDepth.B, (log.length : Int)⟩] := by
  have ha := inv.a_nonneg
  have hab := inv.a_le_b
  have hb := inv.b_le
  have hlen : searchTree.edges.length = log.length := by simp [inv.edges_eq]
  have hn : (searchTree.nodes.length : Int) = log.length - searchTree.CurrentDepth.A := by
    rw [inv.nodes_eq]; simp; omega
  have hlo : (searchTree.nodes.length : Int) -
      ((searchTree.edges.length : Int) - searchTree.CurrentDepth.B) =
      searchTree.CurrentDepth.B - searchTree.CurrentDepth.A := by
    rw [hn, hlen]; ring
  have hslice : sliceFrom searchTree.nodes
      ((searchTree.nodes.length : Int) -
        ((searchTree.edges.length : Int) - searchTree.CurrentDepth.B)) =
      some ((log.map (fun r => r.node)).drop searchTree.CurrentDepth.B.toNat) := by
    rw [hlo]
    unfold sliceFrom
    rw [if_pos (by omega)]
    rw [inv.nodes_eq, List.drop_drop]
    congr 2
    omega
  rw [incrementDepth_eq, hslice]
  have hcd : ∀ nodes : List N, ({ searchTree with
      levels := searchTree.levels ++
        [⟨searchTree.CurrentDepth.B, (searchTree.edges.length : Int)⟩]
      nodes := nodes } : SearchTree N E).CurrentDepth =
      ⟨searchTree.CurrentDepth.B, (log.length : Int)⟩ := by
    intro nodes
    simp [SearchTree.CurrentDepth, hlen]
  refine ⟨_, rfl, ?_, hcd _, rfl, rfl, ?_⟩
  · constructor
    · exact inv.edges_eq
    · exact inv.keys_eq
    · exact inv.keys_nodup
    · rw [hcd]; show 0 ≤ searchTree.CurrentDepth.B; omega
    · rw [hcd]; show searchTree.CurrentDepth.B ≤ (log.length : Int); omega
    · rw [hcd]
    · rw [hcd]
  · simp [hlen]

/-- Every run of calls from a tree that agrees with its log ends (no panic) in a tree that
agrees with its log, and the log only grows. -/
theorem runOps_inv (ops : List (TreeOp N E)) :
    ∀ (searchTree : SearchTree N E) (log : List (Admitted N E)), TreeLogInv searchTree log →
      ∃ searchTree' log', runOps ops (searchTree, log) = some (searchTree', log') ∧
        TreeLogInv searchTree' log' ∧ ∃ more, log' = log ++ more := by
  induction ops with
  | nil =>
    intro searchTree log inv
    exact ⟨searchTree, log, rfl, inv, [], by simp⟩
  | cons op rest ih =>
    intro searchTree log inv
    cases op with
    | append node edge key =>
      by_cases h : key ∈ searchTree.keys
      · obtain ⟨t', l', hrun, hinv, more, hmore⟩ := ih searchTree log inv
        refine ⟨t', l', ?_, hinv, more, hmore⟩
        simp only [runOps, append_of_mem _ _ _ _ h]
        exact hrun
      · have inv' := treeLogInv_append inv node edge key h
        obtain ⟨t', l', hrun, hinv, more, hmore⟩ := ih _ _ inv'
        refine ⟨t', l', ?_, hinv, ⟨node, edge, key⟩ :: more, by simp [hmore]⟩
        simp only [runOps, append_of_not_mem _ _ _ _ h]
        simp only [append_of_not_mem _ _ _ _ h] at hrun
        exact hrun
    | incrementDepth =>
      obtain ⟨t1, h1, inv1, -⟩ := treeLogInv_incrementDepth inv
      obtain ⟨t', l', hrun, hinv, more, hmore⟩ := ih t1 log inv1
      refine ⟨t', l', ?_, hinv, more, hmore⟩
      simp only [runOps, h1]
      exact hrun

theorem sliceGet_of_nonneg {α : Type} (xs : List α) (i : Int) (h : 0 ≤ i) :
    sliceGet xs i = xs[i.toNat]? := by
  unfold sliceGet
  rw [if_neg (by omega)]

theorem sliceGet_natCast {α : Type} (xs : List α) (n : Nat) :
    sliceGet xs (n : Int) = xs[n]? := by
  rw [sliceGet_of_nonneg _ _ (by omega)]
  simp

/-- In a tree that agrees with its log, every index of the current level or later resolves
to the node of the log. -/
theorem nodeAt_of_inv {searchTree : SearchTree N E} {log : List (Admitted N E)}
    (inv : TreeLogInv searchTree log) (index : Int)
    (h : searchTree.CurrentDepth.A ≤ index) :
    searchTree.NodeAt index = (log.map (fun r => r.node))[index.toNat]? := by
  have ha := inv.a_nonneg
  rw [nodeAt_eq, sliceGet_of_nonneg _ _ (by omega), inv.nodes_eq, List.getElem?_drop]
  congr 1
  omega

theorem edgeAt_of_inv {searchTree : SearchTree N E} {log : List (Admitted N E)}
    (inv : TreeLogInv searchTree log) (index : Int) (h : 0 ≤ index) :
    searchTree.EdgeAt index = (log.map (fun r => r.edge))[index.toNat]? := by
  unfold SearchTree.EdgeAt
  rw [sliceGet_of_nonneg _ _ h, inv.edges_eq]

end SearchTreeLemmas

/-! ## C7: the contract of `Append` -/

/-- C7. Contract of `SearchTree.Append(node, edge, key)`: when `key` is already in the key
set the call returns `false` and the tree is unchanged; otherwise it returns `true`, the
record count grows by one, `LastIndex()` is the previous record count, the record at that
index holds the given edge and (in a tree built by calls from a new tree) the given node,
the key is added to the key set, all earlier edges and the level list are unchanged. -/
theorem append_contract {N E : Type} (searchTree : SearchTree N E) (node : N) (edge : E)
    (key : GoString) :
    (key ∈ searchTree.keys → searchTree.Append node edge key = (searchTree, false)) ∧
    (key ∉ searchTree.keys →
      (searchTree.Append node edge key).2 = true ∧
      (searchTree.Append node edge key).1.edges.length = searchTree.edges.length + 1 ∧
      (searchTree.Append node edge key).1.LastIndex = some (searchTree.edges.length : Int) ∧
      (searchTree.Append node edge key).1.EdgeAt (searchTree.edges.length : Int) = some edge ∧
      (∀ ops log, runOps ops (NewSearchTree N E, []) = some (searchTree, log) →
        (searchTree.Append node edge key).1.NodeAt (searchTree.edges.length : Int)
          = some node) ∧
      (searchTree.Append node edge key).1.keys = insert key searchTree.keys ∧
      (∀ index : Int, index < (searchTree.edges.length : Int) →
        (searchTree.Append node edge key).1.EdgeAt index = searchTree.EdgeAt index) ∧
      (searchTree.Append node edge key).1.edges.take searchTree.edges.length
        = searchTree.edges ∧
      (searchTree.Append node edge key).1.levels = searchTree.levels) := by
  refine ⟨append_of_mem searchTree node edge key, fun h => ?_⟩
  refine ⟨(append_snd_iff _ _ _ _).2 h, ?_, ?_, ?_, ?_, ?_, ?_, ?_, ?_⟩
  · simp [append_of_not_mem _ _ _ _ h]
  · simp [append_of_not_mem _ _ _ _ h, SearchTree.LastIndex]
  · simp [append_of_not_mem _ _ _ _ h, SearchTree.EdgeAt, sliceGet_natCast]
  · intro ops log hrun
    obtain ⟨t', l', hrun', inv, -⟩ := runOps_inv ops (NewSearchTree N E) [] treeLogInv_new
    rw [hrun] at hrun'
    cases hrun'
    have inv' := treeLogInv_append inv node edge key h
    have hlen : searchTree.edges.length = log.length := by simp [inv.edges_eq]
    have hb := inv.b_le
    have hab := inv.a_le_b
    rw [nodeAt_of_inv inv' _ (by rw [currentDepth_append]; omega), hlen]
    simp
  · simp [append_of_not_mem _ _ _ _ h]
  · intro index hlt
    simp only [append_of_not_mem _ _ _ _ h, SearchTree.EdgeAt]
    by_cases h0 : index < 0
    · simp [sliceGet, h0]
    · rw [sliceGet_of_nonneg _ _ (by omega), sliceGet_of_nonneg _ _ (by omega)]
      rw [List.getElem?_append_left (by omega)]
  · simp [append_of_not_mem _ _ _ _ h]
  · simp [append_of_not_mem _ _ _ _ h]

/-- Witness of C7: the admitted `Append` of a root record on the new tree, and the rejected
`Append` of the same key right after it. -/
theorem append_contract_witness :
    ((NewSearchTree Nat (Option Nat)).Append 5 none [42, 65]).2 = true ∧
    ((NewSearchTree Nat (Option Nat)).Append 5 none [42, 65]).1.LastIndex = some 0 ∧
    ((NewSearchTree Nat (Option Nat)).Append 5 none [42, 65]).1.NodeAt 0 = some 5 ∧
    (((NewSearchTree Nat (Option Nat)).Append 5 none [42, 65]).1.Append 6 (some 0) [42, 65])
      = (((NewSearchTree Nat (Option Nat)).Append 5 none [42, 65]).1, false) :=
  have h := (append_contract (NewSearchTree Nat (Option Nat)) 5 none [42, 65]).2
    (by simp [NewSearchTree])
  ⟨h.1, h.2.2.1, h.2.2.2.2.1 [] [] rfl,
    (append_contract ((NewSearchTree Nat (Option Nat)).Append 5 none [42, 65]).1
      6 (some 0) [42, 65]).1 (by simp [NewSearchTree, SearchTree.Append])⟩

/-! ## C6: no key is admitted twice -/

/-- C6. Key uniqueness of the search tree: in every run of `Append` and `IncrementDepth`
calls from a new tree, once `Append` has returned `true` for a key, every later `Append`
with that key returns `false` (and changes nothing); the keys of the admitted records are
pairwise distinct, they are exactly the key set, and the number of records equals the
number of keys in the key set. -/
theorem append_key_unique {N E : Type} (ops1 ops2 : List (TreeOp N E))
    (tree1 tree2 : SearchTree N E) (log1 log2 : List (Admitted N E))
    (node node' : N) (edge edge' : E) (key : GoString)
    (hrun1 : runOps ops1 (NewSearchTree N E, []) = some (tree1, log1))
    (hfirst : (tree1.Append node edge key).2 = true)
    (hrun2 : runOps ops2 ((tree1.Append node edge key).1, log1 ++ [⟨node, edge, key⟩])
      = some (tree2, log2)) :
    tree2.Append node' edge' key = (tree2, false) ∧
    (log2.map (fun r => r.key)).Nodup ∧
    tree2.keys = (log2.map (fun r => r.key)).toFinset ∧
    tree2.edges.length = log2.length ∧
    tree2.edges.length = tree2.keys.card := by
  obtain ⟨t1, l1, hrun1', inv1, -⟩ := runOps_inv ops1 (NewSearchTree N E) [] treeLogInv_new
  rw [hrun1] at hrun1'
  cases hrun1'
  have hk := (append_snd_iff _ _ _ _).1 hfirst
  have inv1' := treeLogInv_append inv1 node edge key hk
  obtain ⟨t2, l2, hrun2', inv2, more, hmore⟩ := runOps_inv ops2 _ _ inv1'
  rw [hrun2] at hrun2'
  cases hrun2'
  have hlen : tree2.edges.length = log2.length := by simp [inv2.edges_eq]
  refine ⟨?_, inv2.keys_nodup, inv2.keys_eq, hlen, ?_⟩
  · apply append_of_mem
    rw [inv2.keys_eq, hmore]
    simp
  · rw [inv2.keys_eq, List.toFinset_card_of_nodup inv2.keys_nodup, hlen]
    simp

/-- Witness of C6: a root record, a new level, then a second `Append` of the same key. -/
theorem append_key_unique_witness :
    (SearchTree.mk [5] [(none : Option Nat)] [⟨0, 1⟩] {[42, 65]}).Append 6 (some 0) [42, 65]
      = (SearchTree.mk [5] [(none : Option Nat)] [⟨0, 1⟩] {[42, 65]}, false) ∧
    ([(⟨5, none, [42, 65]⟩ : Admitted Nat (Option Nat))].map (fun r => r.key)).Nodup :=
  have h := append_key_unique ([] : List (TreeOp Nat (Option Nat))) [.incrementDepth]
    (NewSearchTree Nat (Option Nat)) (SearchTree.mk [5] [(none : Option Nat)] [⟨0, 1⟩] {[42, 65]})
    [] [⟨5, none, [42, 65]⟩] 5 6 none (some 0) [42, 65] rfl
    (by simp [NewSearchTree, SearchTree.Append]) rfl
  ⟨h.1, h.2.1⟩

/-! ## C3: the verdict of `Grid.Validate` -/

theorem markEmpty_replicate (n : Nat) (tag : PieceTag) :
    markEmpty (List.replicate n tag) = List.replicate n PieceTagEmpty := by
  simp [markEmpty]

theorem wrapInt_eq_self {n : Int} (h : isInt64 n) : wrapInt n = n := by
  unfold isInt64 at h
  unfold wrapInt
  omega

theorem wrapInt_isInt64 (n : Int) : isInt64 (wrapInt n) := by
  unfold isInt64 wrapInt
  omega

/-- The value of type `int` of a result is the integer of the interval that is congruent to
it modulo `2^64`. -/
theorem wrapInt_eq_of_congr {n m : Int} (hm : isInt64 m)
    (h : (n - m) % 18446744073709551616 = 0) : wrapInt n = m := by
  unfold isInt64 at hm
  unfold wrapInt
  omega

theorem wrapInt_congr (n : Int) : (n - wrapInt n) % 18446744073709551616 = 0 := by
  unfold wrapInt
  omega

/-- `Validate` places the pieces on the all-empty map of the size of the board, when the
cell count does not overflow. -/
theorem validate_unfold (grid : Grid) (hfit : grid.CellCountFits) :
    grid.Validate =
      if grid.SizeX * grid.SizeY < 0 then none
      else
        placePieces grid.Pieces
          ⟨grid.SizeX, grid.SizeY,
            List.replicate (grid.SizeX * grid.SizeY).toNat PieceTagEmpty⟩ := by
  unfold Grid.Validate
  simp only [wrapInt_eq_self hfit]
  rw [markEmpty_replicate]

theorem contains_iff (cells : gridCells) (p : Vect2) :
    cells.contains p = true ↔
      0 ≤ p.X ∧ p.X < cells.sizeX ∧ 0 ≤ p.Y ∧ p.Y < cells.sizeY := by
  simp [gridCells.contains, and_assoc]

theorem cellIndex_bound {w h x y : Int} (hx0 : 0 ≤ x) (hxw : x < w) (hy0 : 0 ≤ y)
    (hyh : y < h) : 0 ≤ x + w * y ∧ x + w * y < w * h := by
  have h1 : 0 ≤ w * y := mul_nonneg (by omega) hy0
  have h2 : w * (y + 1) ≤ w * h := mul_le_mul_of_nonneg_left (by omega) (by omega)
  constructor
  · omega
  · rw [mul_add, mul_one] at h2
    omega

/-- The tag index of a cell of the board does not overflow when the cell count is a value
of type `int`. -/
theorem tagIndex_eq {cells : gridCells} (hsz : cells.sizeX * cells.sizeY < 9223372036854775808)
    {p : Vect2} (hc : cells.contains p = true) :
    wrapInt (p.X + wrapInt (cells.sizeX * p.Y)) = p.X + cells.sizeX * p.Y := by
  have hb := (contains_iff cells p).1 hc
  have hidx := cellIndex_bound hb.1 hb.2.1 hb.2.2.1 hb.2.2.2
  have h1 : 0 ≤ cells.sizeX * p.Y := mul_nonneg (by omega) hb.2.2.1
  have h2 : wrapInt (cells.sizeX * p.Y) = cells.sizeX * p.Y :=
    wrapInt_eq_self ⟨by omega, by omega⟩
  rw [h2]
  exact wrapInt_eq_self ⟨by omega, by omega⟩

theorem placeCell_eq (piece : Piece) (cells : gridCells) (geom : Vect2)
    (hsz : cells.sizeX * cells.sizeY < 9223372036854775808) :
    placeCell piece cells geom = placeAt cells (geom.Add piece.Position) piece.Tag := by
  unfold placeCell placeAt
  by_cases hc : cells.contains (geom.Add piece.Position) = true
  · simp only [tagIndex_eq hsz hc]
  · simp [hc]

theorem placeAt_size {cells cells' : gridCells} {p : Vect2} {tag : PieceTag}
    (h : placeAt cells p tag = some (some cells')) :
    cells'.sizeX = cells.sizeX ∧ cells'.sizeY = cells.sizeY := by
  unfold placeAt at h
  split at h
  · cases h
  · split at h
    · cases h
    · split at h
      · cases h
      · split at h
        · cases h
        · cases h
          exact ⟨rfl, rfl⟩

theorem placeList_append (l1 l2 : List (Vect2 × PieceTag)) (cells : gridCells) :
    placeList (l1 ++ l2) cells =
      match placeList l1 cells with
      | some (some cells') => placeList l2 cells'
      | r => r := by
  induction l1 generalizing cells with
  | nil => rfl
  | cons a l1 ih =>
    obtain ⟨position, tag⟩ := a
    simp only [List.cons_append, placeList]
    rcases placeAt cells position tag with _ | _ | cells'
    · rfl
    · rfl
    · exact ih cells'

theorem placeList_size (l : List (Vect2 × PieceTag)) {cells cells' : gridCells}
    (h : placeList l cells = some (some cells')) :
    cells'.sizeX = cells.sizeX ∧ cells'.sizeY = cells.sizeY := by
  induction l generalizing cells with
  | nil =>
    simp only [placeList, Option.some.injEq] at h
    subst h
    exact ⟨rfl, rfl⟩
  | cons a l ih =>
    obtain ⟨position, tag⟩ := a
    simp only [placeList] at h
    rcases hp : placeAt cells position tag with _ | _ | cells1
    · rw [hp] at h; cases h
    · rw [hp] at h; cases h
    · rw [hp] at h
      have h1 := placeAt_size hp
      have h2 := ih h
      exact ⟨h2.1.trans h1.1, h2.2.trans h1.2⟩

theorem placeGeometry_eq (piece : Piece) (geoms : List Vect2) (cells : gridCells)
    (hsz : cells.sizeX * cells.sizeY < 9223372036854775808) :
    placeGeometry piece geoms cells =
      placeList (geoms.map (fun geom => (geom.Add piece.Position, piece.Tag))) cells := by
  induction geoms generalizing cells with
  | nil => rfl
  | cons geom rest ih =>
    simp only [placeGeometry, List.map_cons, placeList, placeCell_eq piece cells geom hsz]
    rcases hp : placeAt cells (geom.Add piece.Position) piece.Tag with _ | _ | cells'
    · rfl
    · rfl
    · have hs := placeAt_size hp
      exact ih cells' (by rw [hs.1, hs.2]; exact hsz)

theorem placePieces_eq (pieces : List Piece) (cells : gridCells)
    (hsz : cells.sizeX * cells.sizeY < 9223372036854775808) :
    placePieces pieces cells = placeList (cellTags pieces) cells := by
  induction pieces generalizing cells with
  | nil => rfl
  | cons piece rest ih =>
    simp only [placePieces, cellTags, List.flatMap_cons, placeList_append,
      placeGeometry_eq piece piece.Geometry cells hsz]
    rcases hr : placeList (List.map (fun geom => (geom.Add piece.Position, piece.Tag))
        piece.Geometry) cells with _ | _ | cells'
    · simp only [hr]
    · simp only [hr]
    · have hs := placeList_size _ hr
      simp only [hr]
      exact ih cells' (by rw [hs.1, hs.2]; exact hsz)

theorem cellIndex_inj {w x y x' y' : Int} (hx0 : 0 ≤ x) (hxw : x < w) (hx0' : 0 ≤ x')
    (hxw' : x' < w) (h : x + w * y = x' + w * y') : x = x' ∧ y = y' := by
  have hy : y = y' := by
    rcases lt_trichotomy y y' with hlt | heq | hgt
    · have h2 : w * (y + 1) ≤ w * y' := mul_le_mul_of_nonneg_left (by omega) (by omega)
      rw [mul_add, mul_one] at h2
      omega
    · exact heq
    · have h2 : w * (y' + 1) ≤ w * y := mul_le_mul_of_nonneg_left (by omega) (by omega)
      rw [mul_add, mul_one] at h2
      omega
  subst hy
  exact ⟨by omega, rfl⟩

theorem sliceGet_sliceSet {α : Type} {xs xs' : List α} {i : Int} {v : α}
    (h : sliceSet xs i v = some xs') (j : Int) :
    sliceGet xs' j = if j = i then some v else sliceGet xs j := by
  unfold sliceSet at h
  split at h
  · rename_i hi
    cases h
    unfold sliceGet
    by_cases hj : j < 0
    · have : j ≠ i := by omega
      simp [hj, this]
    · simp only [hj, if_false]
      by_cases hji : j = i
      · subst hji
        simp [List.getElem?_set]
        omega
      · simp only [hji, if_false]
        rw [List.getElem?_set_ne]
        omega
  · cases h

theorem sliceSet_length {α : Type} {xs xs' : List α} {i : Int} {v : α}
    (h : sliceSet xs i v = some xs') : xs'.length = xs.length := by
  unfold sliceSet at h
  split at h
  · cases h; simp
  · cases h

theorem placeCell_sizes {piece : Piece} {cells cells' : gridCells} {geom : Vect2}
    (h : placeCell piece cells geom = some (some cells')) :
    cells'.sizeX = cells.sizeX ∧ cells'.sizeY = cells.sizeY ∧
      cells'.tags.length = cells.tags.length := by
  unfold placeCell at h
  simp only at h
  split at h
  · cases h
  · split at h
    · cases h
    · split at h
      · cases h
      · split at h
        · cases h
        · rename_i tags' hset
          cases h
          exact ⟨rfl, rfl, sliceSet_length hset⟩

theorem placeGeometry_sizes (piece : Piece) (geoms : List Vect2) {cells cells' : gridCells}
    (h : placeGeometry piece geoms cells = some (some cells')) :
    cells'.sizeX = cells.sizeX ∧ cells'.sizeY = cells.sizeY ∧
      cells'.tags.length = cells.tags.length := by
  induction geoms generalizing cells with
  | nil =>
    simp only [placeGeometry, Option.some.injEq] at h
    subst h
    exact ⟨rfl, rfl, rfl⟩
  | cons geom rest ih =>
    simp only [placeGeometry] at h
    rcases hp : placeCell piece cells geom with _ | _ | cells1
    · rw [hp] at h; cases h
    · rw [hp] at h; cases h
    · rw [hp] at h
      have h1 := placeCell_sizes hp
      have h2 := ih h
      exact ⟨h2.1.trans h1.1, h2.2.1.trans h1.2.1, h2.2.2.trans h1.2.2⟩

theorem placePieces_sizes (pieces : List Piece) {cells cells' : gridCells}
    (h : placePieces pieces cells = some (some cells')) :
    cells'.sizeX = cells.sizeX ∧ cells'.sizeY = cells.sizeY ∧
      cells'.tags.length = cells.tags.length := by
  induction pieces generalizing cells with
  | nil =>
    simp only [placePieces, Option.some.injEq] at h
    subst h
    exact ⟨rfl, rfl, rfl⟩
  | cons piece rest ih =>
    simp only [placePieces] at h
    rcases hp : placeGeometry piece piece.Geometry cells with _ | _ | cells1
    · rw [hp] at h; cases h
    · rw [hp] at h; cases h
    · rw [hp] at h
      have h1 := placeGeometry_sizes piece _ hp
      have h2 := ih h
      exact ⟨h2.1.trans h1.1, h2.2.1.trans h1.2.1, h2.2.2.trans h1.2.2⟩

/-- An occupancy map returned by `Validate` has the sizes of the board, and as many tags as
the product of the sizes is as a value of type `int`. -/
theorem validate_sizes_wrap {grid : Grid} {cells : gridCells}
    (h : grid.Validate = some (some cells)) :
    cells.sizeX = grid.SizeX ∧ cells.sizeY = grid.SizeY ∧
      (cells.tags.length : Int) = wrapInt (grid.SizeX * grid.SizeY) := by
  unfold Grid.Validate at h
  simp only at h
  split at h
  · cases h
  · rename_i hsize
    have := placePieces_sizes _ h
    refine ⟨this.1, this.2.1, ?_⟩
    rw [this.2.2]
    simp only [markEmpty, List.length_map, List.length_replicate]
    omega

theorem validate_size_nonneg {grid : Grid} {cells : gridCells}
    (h : grid.Validate = some (some cells)) : ¬wrapInt (grid.SizeX * grid.SizeY) < 0 := by
  have := (validate_sizes_wrap h).2.2
  omega

/-- An occupancy map returned by `Validate` on a board whose cell count does not overflow
has the sizes of the board and one tag per cell. -/
theorem validate_sizes {grid : Grid} {cells : gridCells} (hfit : grid.CellCountFits)
    (h : grid.Validate = some (some cells)) :
    cells.sizeX = grid.SizeX ∧ cells.sizeY = grid.SizeY ∧
      (cells.tags.length : Int) = grid.SizeX * grid.SizeY := by
  have := validate_sizes_wrap h
  rw [wrapInt_eq_self hfit] at this
  exact this

theorem fits_nonneg {grid : Grid} (hfit : grid.CellCountFits)
    (h : ¬wrapInt (grid.SizeX * grid.SizeY) < 0) : ¬grid.SizeX * grid.SizeY < 0 := by
  rw [wrapInt_eq_self hfit] at h
  exact h

theorem placeAt_contains {cells cells' : gridCells} {p : Vect2} {t : PieceTag}
    (h : placeAt cells p t = some (some cells')) : cells.contains p = true := by
  unfold placeAt at h
  split at h
  · cases h
  · rename_i hc
    simpa using hc

theorem sliceSet_isSome {α : Type} (xs : List α) (i : Int) (v : α) (h0 : 0 ≤ i)
    (h1 : i < (xs.length : Int)) : sliceSet xs i v = some (xs.set i.toNat v) := by
  unfold sliceSet
  rw [if_pos ⟨h0, h1⟩]

theorem placeAt_invalid {cells : gridCells} {hist : List (Vect2 × PieceTag)}
    (inv : CellsInv cells hist) (p : Vect2) (tag : PieceTag)
    (h : ¬(cells.contains p = true ∧ (hist.lookup p).getD PieceTagEmpty = PieceTagEmpty)) :
    placeAt cells p tag = some none := by
  unfold placeAt
  by_cases hc : cells.contains p = true
  · have hne : (hist.lookup p).getD PieceTagEmpty ≠ PieceTagEmpty := fun he => h ⟨hc, he⟩
    simp [hc, inv.content p hc, hne]
  · simp [hc]

theorem placeAt_valid {cells : gridCells} {hist : List (Vect2 × PieceTag)}
    (inv : CellsInv cells hist) (p : Vect2) (tag : PieceTag)
    (hc : cells.contains p = true)
    (he : (hist.lookup p).getD PieceTagEmpty = PieceTagEmpty) :
    ∃ cells', placeAt cells p tag = some (some cells') ∧ CellsInv cells' ((p, tag) :: hist) ∧
      cells'.sizeX = cells.sizeX ∧ cells'.sizeY = cells.sizeY := by
  have hb := (contains_iff cells p).1 hc
  have hidx := cellIndex_bound hb.1 hb.2.1 hb.2.2.1 hb.2.2.2
  have hset := sliceSet_isSome cells.tags (p.X + cells.sizeX * p.Y) tag hidx.1
    (by rw [inv.len]; exact hidx.2)
  refine ⟨{ cells with tags := cells.tags.set (p.X + cells.sizeX * p.Y).toNat tag }, ?_, ?_,
    rfl, rfl⟩
  · unfold placeAt
    simp [hc, inv.content p hc, he, hset]
  · constructor
    · simp [inv.len]
    · intro q hq
      have hq' : cells.contains q = true := hq
      have hqb := (contains_iff cells q).1 hq'
      show sliceGet (cells.tags.set (p.X + cells.sizeX * p.Y).toNat tag)
        (q.X + cells.sizeX * q.Y) = _
      rw [sliceGet_sliceSet hset, List.lookup_cons]
      by_cases hqp : q = p
      · subst hqp
        simp
      · have hidx_ne : q.X + cells.sizeX * q.Y ≠ p.X + cells.sizeX * p.Y := by
          intro heq
          have := cellIndex_inj hqb.1 hqb.2.1 hb.1 hb.2.1 heq
          apply hqp
          cases q; cases p
          simp only [Vect2.mk.injEq]
          exact this
        have hbeq : (q == p) = false := by simpa using hqp
        rw [if_neg hidx_ne, hbeq]
        exact inv.content q hq'

theorem lookup_of_not_mem (hist : List (Vect2 × PieceTag)) (p : Vect2)
    (h : p ∉ hist.map (fun e => e.1)) : hist.lookup p = none := by
  induction hist with
  | nil => rfl
  | cons e rest ih =>
    obtain ⟨c, t⟩ := e
    simp only [List.map_cons, List.mem_cons, not_or] at h
    have hbeq : (p == c) = false := by simpa using h.1
    rw [List.lookup_cons, hbeq]
    exact ih h.2

theorem lookup_of_mem (hist : List (Vect2 × PieceTag)) (p : Vect2)
    (h : p ∈ hist.map (fun e => e.1)) : ∃ t, hist.lookup p = some t ∧ (p, t) ∈ hist := by
  induction hist with
  | nil => simp at h
  | cons e rest ih =>
    obtain ⟨c, t⟩ := e
    by_cases hpc : p = c
    · subst hpc
      exact ⟨t, by simp [List.lookup_cons], by simp⟩
    · have hbeq : (p == c) = false := by simpa using hpc
      simp only [List.map_cons, List.mem_cons, hpc, false_or] at h
      obtain ⟨t', h1, h2⟩ := ih h
      exact ⟨t', by rw [List.lookup_cons, hbeq]; exact h1, List.mem_cons_of_mem _ h2⟩

theorem contains_congr {cells cells' : gridCells} (hx : cells'.sizeX = cells.sizeX)
    (hy : cells'.sizeY = cells.sizeY) (p : Vect2) : cells'.contains p = cells.contains p := by
  simp [gridCells.contains, hx, hy]

theorem placeList_spec (l : List (Vect2 × PieceTag)) :
    ∀ (cells : gridCells) (hist : List (Vect2 × PieceTag)), CellsInv cells hist →
      (∀ e ∈ hist, e.2 ≠ PieceTagEmpty) → (∀ e ∈ l, e.2 ≠ PieceTagEmpty) →
      (Fits cells l hist ∧ ∃ cells', placeList l cells = some (some cells') ∧
          CellsInv cells' (l.reverse ++ hist) ∧
          cells'.sizeX = cells.sizeX ∧ cells'.sizeY = cells.sizeY) ∨
        (¬Fits cells l hist ∧ placeList l cells = some none) := by
  induction l with
  | nil =>
    intro cells hist inv _ _
    exact Or.inl ⟨by simp [Fits], cells, rfl, by simpa using inv, rfl, rfl⟩
  | cons e rest ih =>
    intro cells hist inv hhist hl
    obtain ⟨c, t⟩ := e
    have ht : t ≠ PieceTagEmpty := hl (c, t) (by simp)
    by_cases hok : cells.contains c = true ∧ c ∉ hist.map (fun e => e.1)
    · obtain ⟨hc, hnew⟩ := hok
      have hlook : (hist.lookup c).getD PieceTagEmpty = PieceTagEmpty := by
        rw [lookup_of_not_mem hist c hnew]; rfl
      obtain ⟨cells1, hplace, inv1, hx1, hy1⟩ := placeAt_valid inv c t hc hlook
      have hhist1 : ∀ e ∈ (c, t) :: hist, e.2 ≠ PieceTagEmpty := by
        intro e he
        rcases List.mem_cons.1 he with rfl | he
        · exact ht
        · exact hhist e he
      have hrest : ∀ e ∈ rest, e.2 ≠ PieceTagEmpty := fun e he => hl e (List.mem_cons_of_mem _ he)
      have hiff : Fits cells ((c, t) :: rest) hist ↔ Fits cells1 rest ((c, t) :: hist) := by
        constructor
        · rintro ⟨h1, h2, h3⟩
          rw [List.map_cons, List.nodup_cons] at h2
          refine ⟨fun e he => ?_, h2.2, ?_⟩
          · rw [contains_congr hx1 hy1]
            exact h1 e (List.mem_cons_of_mem _ he)
          · intro e he hmem
            rw [List.map_cons, List.mem_cons] at hmem
            rcases hmem with heq | hmem
            · exact h2.1 (List.mem_map.2 ⟨e, he, heq⟩)
            · exact h3 e (List.mem_cons_of_mem _ he) hmem
        · rintro ⟨h1, h2, h3⟩
          refine ⟨?_, ?_, ?_⟩
          · intro e he
            rcases List.mem_cons.1 he with rfl | he
            · exact hc
            · rw [← contains_congr hx1 hy1]
              exact h1 e he
          · rw [List.map_cons, List.nodup_cons]
            refine ⟨fun hmem => ?_, h2⟩
            obtain ⟨e, he, heq⟩ := List.mem_map.1 hmem
            exact h3 e he (by rw [List.map_cons, List.mem_cons]; exact Or.inl heq)
          · intro e he
            rcases List.mem_cons.1 he with rfl | he
            · exact hnew
            · intro hmem
              exact h3 e he (by rw [List.map_cons]; exact List.mem_cons_of_mem _ hmem)
      rcases ih cells1 ((c, t) :: hist) inv1 hhist1 hrest with
        ⟨hfit, cells2, hpl, inv2, hx2, hy2⟩ | ⟨hnfit, hpl⟩
      · refine Or.inl ⟨hiff.2 hfit, cells2, ?_, ?_, hx2.trans hx1, hy2.trans hy1⟩
        · simp only [placeList, hplace]; exact hpl
        · simpa using inv2
      · refine Or.inr ⟨fun h => hnfit (hiff.1 h), ?_⟩
        simp only [placeList, hplace]; exact hpl
    · refine Or.inr ⟨?_, ?_⟩
      · rintro ⟨h1, h2, h3⟩
        exact hok ⟨h1 (c, t) (by simp), h3 (c, t) (by simp)⟩
      · have : placeAt cells c t = some none := by
          apply placeAt_invalid inv
          rintro ⟨hc, he⟩
          apply hok
          refine ⟨hc, fun hmem => ?_⟩
          obtain ⟨t', h1, h2⟩ := lookup_of_mem hist c hmem
          rw [h1] at he
          exact hhist (c, t') h2 he
        simp only [placeList, this]

theorem cellTags_fst (pieces : List Piece) :
    (cellTags pieces).map (fun e => e.1) =
      pieces.flatMap (fun piece => piece.Geometry.map (fun geom => geom.Add piece.Position)) := by
  induction pieces with
  | nil => rfl
  | cons piece rest ih =>
    simp only [cellTags, List.flatMap_cons, List.map_append, List.map_map] at ih ⊢
    rw [ih]
    rfl

theorem cellTags_tag {pieces : List Piece} {e : Vect2 × PieceTag} (h : e ∈ cellTags pieces) :
    ∃ piece ∈ pieces, piece.Geometry ≠ [] ∧ e.2 = piece.Tag := by
  simp only [cellTags, List.mem_flatMap, List.mem_map] at h
  obtain ⟨piece, hp, geom, hg, rfl⟩ := h
  exact ⟨piece, hp, List.ne_nil_of_mem hg, rfl⟩

theorem cellsInv_init (sizeX sizeY : Int) (h : ¬sizeX * sizeY < 0) :
    CellsInv ⟨sizeX, sizeY, List.replicate (sizeX * sizeY).toNat PieceTagEmpty⟩ [] := by
  constructor
  · simp only [List.length_replicate]
    omega
  · intro p hp
    have hb := (contains_iff _ p).1 hp
    have hidx := cellIndex_bound hb.1 hb.2.1 hb.2.2.1 hb.2.2.2
    simp only at hidx
    rw [sliceGet_of_nonneg _ _ hidx.1, List.getElem?_replicate]
    rw [if_pos (by omega)]
    rfl

/-- Validation of a board in which no placed tag is the empty tag and whose cell count does
not overflow: either all cells fit and the result is a map that records the placements, or
they do not fit and the result is `nil`; there is no panic. -/
theorem validate_spec (grid : Grid) (hfit : grid.CellCountFits)
    (hsize : ¬grid.SizeX * grid.SizeY < 0)
    (htags : ∀ piece ∈ grid.Pieces, piece.Geometry ≠ [] → piece.Tag ≠ PieceTagEmpty) :
    (((∀ c ∈ grid.absCells, grid.OnBoard c) ∧ grid.absCells.Nodup) ∧
      ∃ cells, grid.Validate = some (some cells) ∧
        CellsInv cells (cellTags grid.Pieces).reverse ∧
        cells.sizeX = grid.SizeX ∧ cells.sizeY = grid.SizeY) ∨
    (¬((∀ c ∈ grid.absCells, grid.OnBoard c) ∧ grid.absCells.Nodup) ∧
      grid.Validate = some none) := by
  have hfit' : Fits ⟨grid.SizeX, grid.SizeY,
      List.replicate (grid.SizeX * grid.SizeY).toNat PieceTagEmpty⟩ (cellTags grid.Pieces) [] ↔
      ((∀ c ∈ grid.absCells, grid.OnBoard c) ∧ grid.absCells.Nodup) := by
    unfold Fits Grid.absCells
    rw [← cellTags_fst]
    simp only [List.map_nil, List.not_mem_nil, not_false_eq_true, implies_true, and_true,
      List.mem_map, forall_exists_index, and_imp, forall_apply_eq_imp_iff₂, contains_iff,
      Grid.OnBoard]
  have htag : ∀ e ∈ cellTags grid.Pieces, e.2 ≠ PieceTagEmpty := by
    intro e he
    obtain ⟨piece, hp, hg, heq⟩ := cellTags_tag he
    rw [heq]
    exact htags piece hp hg
  rw [validate_unfold grid hfit]
  rw [if_neg hsize, placePieces_eq _ _ hfit.2]
  rcases placeList_spec (cellTags grid.Pieces) _ [] (cellsInv_init _ _ hsize)
      (by simp) htag with ⟨h1, cells, h2, h3, h4, h5⟩ | ⟨h1, h2⟩
  · exact Or.inl ⟨hfit'.1 h1, cells, h2, by simpa using h3, h4, h5⟩
  · exact Or.inr ⟨fun h => h1 (hfit'.2 h), h2⟩

/-- The sum of `Vect2.Add` is the sum of the integers whenever that sum is a value of type
`int` in both coordinates. -/
theorem add_eq_of_isInt64 (lhs rhs : Vect2) (hx : isInt64 (lhs.X + rhs.X))
    (hy : isInt64 (lhs.Y + rhs.Y)) : lhs.Add rhs = ⟨lhs.X + rhs.X, lhs.Y + rhs.Y⟩ := by
  unfold Vect2.Add
  rw [wrapInt_eq_self hx, wrapInt_eq_self hy]

/-- C3, as stated, fails, in two ways. On the 1x1 board with two pieces that carry the
empty tag `('*',0)` and both cover cell (0,0), `Validate` returns an occupancy map although
the cell is hit by two different (piece, offset) pairs. On the board of width 3 and height
6148914691236517206, whose cell count `2^64 + 2` is 2 as an `int`, with one single-cell piece
at `(0, 1)`, the cell is inside the board and hit once, but `Validate` returns neither a map
nor `nil`: the tag index 3 is out of the range of the 2 tags and the call panics. -/
theorem validate_verdict_counterexample :
    ¬((0 : Int) ≤ (Grid.mk 1 1 [⟨PieceTagEmpty, ⟨0, 0⟩, [⟨0, 0⟩]⟩,
          ⟨PieceTagEmpty, ⟨0, 0⟩, [⟨0, 0⟩]⟩]).SizeX →
      (0 : Int) ≤ (Grid.mk 1 1 [⟨PieceTagEmpty, ⟨0, 0⟩, [⟨0, 0⟩]⟩,
          ⟨PieceTagEmpty, ⟨0, 0⟩, [⟨0, 0⟩]⟩]).SizeY →
      ((∃ cells, (Grid.mk 1 1 [⟨PieceTagEmpty, ⟨0, 0⟩, [⟨0, 0⟩]⟩,
          ⟨PieceTagEmpty, ⟨0, 0⟩, [⟨0, 0⟩]⟩]).Validate = some (some cells)) ↔
        ((∀ c ∈ (Grid.mk 1 1 [⟨PieceTagEmpty, ⟨0, 0⟩, [⟨0, 0⟩]⟩,
            ⟨PieceTagEmpty, ⟨0, 0⟩, [⟨0, 0⟩]⟩]).absCells,
          (Grid.mk 1 1 [⟨PieceTagEmpty, ⟨0, 0⟩, [⟨0, 0⟩]⟩,
            ⟨PieceTagEmpty, ⟨0, 0⟩, [⟨0, 0⟩]⟩]).OnBoard c) ∧
          (Grid.mk 1 1 [⟨PieceTagEmpty, ⟨0, 0⟩, [⟨0, 0⟩]⟩,
            ⟨PieceTagEmpty, ⟨0, 0⟩, [⟨0, 0⟩]⟩]).absCells.Nodup))) ∧
    ((0 : Int) ≤ (overflowBoard [unitPiece 0 1]).SizeX ∧
      (0 : Int) ≤ (overflowBoard [unitPiece 0 1]).SizeY ∧
      (overflowBoard [unitPiece 0 1]).absCells = [⟨0, 1⟩] ∧
      (overflowBoard [unitPiece 0 1]).OnBoard ⟨0, 1⟩ ∧
      (overflowBoard [unitPiece 0 1]).absCells.Nodup ∧
      (overflowBoard [unitPiece 0 1]).Validate = none) := by
  refine ⟨?_, by decide⟩
  intro h
  have h1 := (h (by decide) (by decide)).1 ⟨⟨1, 1, [PieceTagEmpty]⟩, by decide⟩
  exact absurd h1.2 (by decide)

/-- C3, amended. For every board with non-negative `SizeX` and `SizeY` whose cell count
`SizeX * SizeY` is a value of type `int` (below `2^63`), in which every piece with a
non-empty shape has a tag other than the empty tag `('*',0)`, `Validate` returns an
occupancy map (rather than `nil`) if and only if every absolute cell `Position + offset`,
the sum being the sum of `int` values made by `Vect2.Add`, lies inside
`[0,SizeX) x [0,SizeY)` and no cell is hit by two different (piece, offset) pairs;
when it returns no map it returns `nil`. The sum of `Vect2.Add` is the sum of the integers
whenever that sum is a value of type `int`. -/
theorem validate_verdict (grid : Grid) (hx : 0 ≤ grid.SizeX) (hy : 0 ≤ grid.SizeY)
    (hfit : grid.SizeX * grid.SizeY < 9223372036854775808)
    (htags : ∀ piece ∈ grid.Pieces, piece.Geometry ≠ [] → piece.Tag ≠ PieceTagEmpty) :
    ((∃ cells, grid.Validate = some (some cells)) ↔
      ((∀ c ∈ grid.absCells, grid.OnBoard c) ∧ grid.absCells.Nodup)) ∧
    ((¬∃ cells, grid.Validate = some (some cells)) → grid.Validate = some none) ∧
    (∀ piece ∈ grid.Pieces, ∀ geom ∈ piece.Geometry,
      geom.Add piece.Position ∈ grid.absCells ∧
      (isInt64 (geom.X + piece.Position.X) → isInt64 (geom.Y + piece.Position.Y) →
        geom.Add piece.Position = ⟨geom.X + piece.Position.X, geom.Y + piece.Position.Y⟩)) := by
  have hnn : 0 ≤ grid.SizeX * grid.SizeY := mul_nonneg hx hy
  have hsize : ¬grid.SizeX * grid.SizeY < 0 := not_lt.2 hnn
  have hfit' : grid.CellCountFits := ⟨by omega, hfit⟩
  refine ⟨?_, ?_, ?_⟩
  · rcases validate_spec grid hfit' hsize htags with ⟨h1, cells, h2, -⟩ | ⟨h1, h2⟩
    · exact ⟨fun _ => h1, fun _ => ⟨cells, h2⟩⟩
    · constructor
      · rintro ⟨cells, hc⟩
        rw [h2] at hc
        cases hc
      · intro h
        exact absurd h h1
  · intro hno
    rcases validate_spec grid hfit' hsize htags with ⟨-, cells, h2, -⟩ | ⟨-, h2⟩
    · exact absurd ⟨cells, h2⟩ hno
    · exact h2
  · intro piece hp geom hg
    refine ⟨?_, add_eq_of_isInt64 geom piece.Position⟩
    unfold Grid.absCells
    exact List.mem_flatMap.2 ⟨piece, hp, List.mem_map.2 ⟨geom, hg, rfl⟩⟩

/-- Witness of C3 (amended): the 2x2 board with a vertical domino and a single cell; and
the 1x1 board with a piece at `(-2^63, 0)` whose shape is the offset `(-2^63, 0)`, on which
the sum of `Vect2.Add` wraps around to the cell `(0, 0)` and `Validate` returns the map with
the tag of the piece in that cell. -/
theorem validate_verdict_witness :
    (((∃ cells, dominoBoard.Validate = some (some cells)) ↔
      ((∀ c ∈ dominoBoard.absCells, dominoBoard.OnBoard c) ∧ dominoBoard.absCells.Nodup)) ∧
    ((¬∃ cells, dominoBoard.Validate = some (some cells)) → dominoBoard.Validate = some none) ∧
    (∀ piece ∈ dominoBoard.Pieces, ∀ geom ∈ piece.Geometry,
      geom.Add piece.Position ∈ dominoBoard.absCells ∧
      (isInt64 (geom.X + piece.Position.X) → isInt64 (geom.Y + piece.Position.Y) →
        geom.Add piece.Position =
          ⟨geom.X + piece.Position.X, geom.Y + piece.Position.Y⟩))) ∧
    dominoBoard.Validate = some (some ⟨2, 2, [⟨66, 1⟩, PieceTagEmpty, ⟨66, 1⟩, ⟨68, 1⟩]⟩) ∧
    wrapSumBoard.absCells = [⟨0, 0⟩] ∧
    wrapSumBoard.Validate = some (some ⟨1, 1, [⟨65, 1⟩]⟩) ∧
    ((∃ cells, wrapSumBoard.Validate = some (some cells)) ↔
      ((∀ c ∈ wrapSumBoard.absCells, wrapSumBoard.OnBoard c) ∧ wrapSumBoard.absCells.Nodup)) :=
  ⟨validate_verdict dominoBoard (by decide) (by decide) (by decide) (by decide),
    by decide, by decide, by decide,
    (validate_verdict wrapSumBoard (by decide) (by decide) (by decide) (by decide)).1⟩

/-! ## C10: an invalid start board -/

/-- C10. Invalid start: when `Grid.Validate` returns `nil` on the initial board,
`solvePuzzle` returns 'no solution' for every goal predicate and every symmetry mode,
before the search loop is entered (no fuel is needed, no move is tried). -/
theorem solve_invalid_start (fuel : Nat) (initialGrid : Grid)
    (successCondition : Grid → Bool) (symmetry : Int)
    (h : initialGrid.Validate = some none) :
    solvePuzzle fuel initialGrid successCondition symmetry = .noSolution := by
  unfold solvePuzzle
  rw [h]

/-- Witness of C10: two single-cell pieces on the same cell of a 2x1 board, with a goal
predicate that holds on every board. -/
theorem solve_invalid_start_witness :
    (Grid.mk 2 1 [⟨⟨65, 1⟩, ⟨0, 0⟩, [⟨0, 0⟩]⟩, ⟨⟨66, 1⟩, ⟨0, 0⟩, [⟨0, 0⟩]⟩]).Validate
      = some none ∧
    solvePuzzle 0 (Grid.mk 2 1 [⟨⟨65, 1⟩, ⟨0, 0⟩, [⟨0, 0⟩]⟩, ⟨⟨66, 1⟩, ⟨0, 0⟩, [⟨0, 0⟩]⟩])
      (fun _ => true) HorizontalKeySymmetry = .noSolution :=
  ⟨by decide, solve_invalid_start 0 _ (fun _ => true) HorizontalKeySymmetry (by decide)⟩

/-! ## C4: the key in both modes and its mirror invariance -/

theorem mem_intRange (a b x : Int) : x ∈ intRange a b ↔ a ≤ x ∧ x < b := by
  unfold intRange
  simp only [List.mem_map, List.mem_range]
  constructor
  · rintro ⟨k, hk, rfl⟩
    omega
  · rintro ⟨h1, h2⟩
    exact ⟨(x - a).toNat, by omega, by omega⟩

theorem sliceGet_eq_some {α : Type} (xs : List α) (i : Int) (h0 : 0 ≤ i)
    (h1 : i < (xs.length : Int)) : ∃ v, sliceGet xs i = some v := by
  rw [sliceGet_of_nonneg _ _ h0]
  have : i.toNat < xs.length := by omega
  exact ⟨xs[i.toNat], List.getElem?_eq_getElem this⟩

theorem keyMirrorStep_spec {cells : gridCells} (wf : cells.WellFormed)
    {P : Int → Int → Prop} {keys : List Int × List Int} (inv : MirrorInv cells P keys)
    {x0 y0 : Int} (hx0 : 0 ≤ x0) (hxw : x0 < cells.sizeX) (hy0 : 0 ≤ y0)
    (hyh : y0 < cells.sizeY) :
    ∃ keys', keyMirrorStep cells y0 keys x0 = some keys' ∧
      MirrorInv cells (fun x y => P x y ∨ (x = x0 ∧ y = y0)) keys' := by
  obtain ⟨_, _, hlen⟩ := wf
  have hi1 := cellIndex_bound hx0 hxw hy0 hyh
  have hi2 := cellIndex_bound (w := cells.sizeX) (h := cells.sizeY)
    (x := cells.sizeX - 1 - x0) (by omega) (by omega) hy0 hyh
  obtain ⟨tag, htag⟩ := sliceGet_eq_some cells.tags (x0 + cells.sizeX * y0) hi1.1
    (by rw [hlen]; exact hi1.2)
  have hs1 := sliceSet_isSome keys.1 (x0 + cells.sizeX * y0) tag.Symbol hi1.1
    (by rw [inv.len1, hlen]; exact hi1.2)
  have hs2 := sliceSet_isSome keys.2 (cells.sizeX - 1 - x0 + cells.sizeX * y0) tag.Symbol hi2.1
    (by rw [inv.len2, hlen]; exact hi2.2)
  refine ⟨(keys.1.set (x0 + cells.sizeX * y0).toNat tag.Symbol,
    keys.2.set (cells.sizeX - 1 - x0 + cells.sizeX * y0).toNat tag.Symbol),
    by simp only [keyMirrorStep, htag, hs1, hs2], ?_⟩
  constructor
  · simp [inv.len1]
  · simp [inv.len2]
  · intro x y hx hxw' hy hyh' hP
    simp only
    rw [sliceGet_sliceSet hs1, sliceGet_sliceSet hs2]
    by_cases hxy : x = x0 ∧ y = y0
    · obtain ⟨rfl, rfl⟩ := hxy
      simp [htag]
    · have hP' : P x y := by
        rcases hP with hP | hP
        · exact hP
        · exact absurd hP hxy
      have hne1 : x + cells.sizeX * y ≠ x0 + cells.sizeX * y0 := fun heq =>
        hxy (cellIndex_inj hx hxw' hx0 hxw heq)
      have hne2 : cells.sizeX - 1 - x + cells.sizeX * y ≠
          cells.sizeX - 1 - x0 + cells.sizeX * y0 := by
        intro heq
        have := cellIndex_inj (w := cells.sizeX) (x := cells.sizeX - 1 - x)
          (y := y) (by omega) (by omega) (by omega) (by omega) heq
        exact hxy ⟨by omega, this.2⟩
      rw [if_neg hne1, if_neg hne2]
      exact inv.val x y hx hxw' hy hyh' hP'

theorem keyMirrorRow_spec {cells : gridCells} (wf : cells.WellFormed) {y0 : Int}
    (hy0 : 0 ≤ y0) (hyh : y0 < cells.sizeY) (xs : List Int) :
    ∀ {P : Int → Int → Prop} {keys : List Int × List Int}, MirrorInv cells P keys →
      (∀ x ∈ xs, 0 ≤ x ∧ x < cells.sizeX) →
      ∃ keys', keyMirrorRow cells y0 xs keys = some keys' ∧
        MirrorInv cells (fun x y => P x y ∨ (x ∈ xs ∧ y = y0)) keys' := by
  induction xs with
  | nil =>
    intro P keys inv _
    exact ⟨keys, rfl, by simpa using inv⟩
  | cons x0 rest ih =>
    intro P keys inv hxs
    have hx0 := hxs x0 (by simp)
    obtain ⟨keys1, h1, inv1⟩ := keyMirrorStep_spec wf inv hx0.1 hx0.2 hy0 hyh
    obtain ⟨keys2, h2, inv2⟩ := ih inv1 (fun x hx => hxs x (List.mem_cons_of_mem _ hx))
    refine ⟨keys2, by simp only [keyMirrorRow, h1]; exact h2, ?_⟩
    refine ⟨inv2.len1, inv2.len2, ?_⟩
    intro x y hx hxw hy hyh' hP
    apply inv2.val x y hx hxw hy hyh'
    simp only [List.mem_cons] at hP
    tauto

theorem keyMirrorRows_spec {cells : gridCells} (wf : cells.WellFormed) (ys : List Int) :
    ∀ {P : Int → Int → Prop} {keys : List Int × List Int}, MirrorInv cells P keys →
      (∀ y ∈ ys, 0 ≤ y ∧ y < cells.sizeY) →
      ∃ keys', keyMirrorRows cells ys keys = some keys' ∧
        MirrorInv cells (fun x y => P x y ∨ y ∈ ys) keys' := by
  induction ys with
  | nil =>
    intro P keys inv _
    exact ⟨keys, rfl, by simpa using inv⟩
  | cons y0 rest ih =>
    intro P keys inv hys
    have hy0 := hys y0 (by simp)
    obtain ⟨keys1, h1, inv1⟩ := keyMirrorRow_spec wf hy0.1 hy0.2 (intRange 0 cells.sizeX) inv
      (fun x hx => (mem_intRange _ _ _).1 hx)
    obtain ⟨keys2, h2, inv2⟩ := ih inv1 (fun y hy => hys y (List.mem_cons_of_mem _ hy))
    refine ⟨keys2, by simp only [keyMirrorRows, h1]; exact h2, ?_⟩
    refine ⟨inv2.len1, inv2.len2, ?_⟩
    intro x y hx hxw hy hyh' hP
    apply inv2.val x y hx hxw hy hyh'
    simp only [List.mem_cons] at hP
    rcases hP with hP | rfl | hP
    · exact Or.inl (Or.inl hP)
    · exact Or.inl (Or.inr ⟨(mem_intRange _ _ _).2 ⟨hx, hxw⟩, rfl⟩)
    · exact Or.inr hP

theorem sliceGet_map {α β : Type} (f : α → β) (xs : List α) (i : Int) :
    sliceGet (xs.map f) i = (sliceGet xs i).map f := by
  unfold sliceGet
  split
  · rfl
  · simp

/-- Two slices of `w * h` cells that agree in every cell `(x, y)` are equal. -/
theorem cells_ext {α : Type} {w h : Int} (hw0 : 0 ≤ w) (l1 l2 : List α)
    (hlen1 : (l1.length : Int) = w * h) (hlen2 : (l2.length : Int) = w * h)
    (hcell : ∀ x y, 0 ≤ x → x < w → 0 ≤ y → y < h →
      sliceGet l1 (x + w * y) = sliceGet l2 (x + w * y)) : l1 = l2 := by
  apply List.ext_getElem?
  intro n
  by_cases hn : n < l1.length
  · have hnlt : (n : Int) < w * h := by omega
    have hw : 0 < w := by
      rcases eq_or_lt_of_le hw0 with hz | hpos
      · subst hz
        simp at hnlt
        omega
      · exact hpos
    have hx0 := Int.emod_nonneg (n : Int) (b := w) (by omega)
    have hx1 := Int.emod_lt_of_pos (n : Int) hw
    have hy0 : 0 ≤ (n : Int) / w := Int.ediv_nonneg (by omega) (by omega)
    have hy1 : (n : Int) / w < h :=
      Int.ediv_lt_of_lt_mul hw (by rw [mul_comm]; exact hnlt)
    have := hcell _ _ hx0 hx1 hy0 hy1
    rw [Int.emod_add_ediv, sliceGet_natCast, sliceGet_natCast] at this
    exact this
  · have hn2 : ¬n < l2.length := by omega
    rw [List.getElem?_eq_none (by omega), List.getElem?_eq_none (by omega)]

theorem reverseRows_length {α : Type} (w : Nat) :
    ∀ (h : Nat) (l : List α), l.length = w * h → (reverseRows w h l).length = w * h := by
  intro h
  induction h with
  | zero => intro l _; simp [reverseRows]
  | succ h ih =>
    intro l hl
    have hle : w * h + w = w * (h + 1) := by ring
    simp only [reverseRows, List.length_append, List.length_reverse, List.length_take]
    rw [ih (l.drop w) (by rw [List.length_drop]; omega)]
    omega

theorem reverseRows_getElem? {α : Type} (w : Nat) :
    ∀ (h : Nat) (l : List α), l.length = w * h → ∀ x y, x < w → y < h →
      (reverseRows w h l)[w - 1 - x + w * y]? = l[x + w * y]? := by
  intro h
  induction h with
  | zero => intro l _ x y _ hy; omega
  | succ h ih =>
    intro l hl x y hx hy
    have hle : w * h + w = w * (h + 1) := by ring
    have htake : (l.take w).length = w := by rw [List.length_take]; omega
    simp only [reverseRows]
    cases y with
    | zero =>
      rw [List.getElem?_append_left (by rw [List.length_reverse, htake]; omega)]
      rw [List.getElem?_reverse (by rw [htake]; omega), htake]
      rw [List.getElem?_take_of_lt (by omega)]
      congr 1
      omega
    | succ y =>
      have hidx : w - 1 - x + w * (y + 1) = w + (w - 1 - x + w * y) := by ring
      rw [List.getElem?_append_right (by rw [List.length_reverse, htake, hidx]; omega)]
      rw [List.length_reverse, htake, hidx, Nat.add_sub_cancel_left]
      rw [ih (l.drop w) (by rw [List.length_drop]; omega) x y hx (by omega)]
      rw [List.getElem?_drop]
      congr 1
      ring

theorem mirror_wellFormed {cells : gridCells} (wf : cells.WellFormed) :
    cells.mirror.WellFormed := by
  obtain ⟨hx, hy, hlen⟩ := wf
  refine ⟨hx, hy, ?_⟩
  show ((reverseRows cells.sizeX.toNat cells.sizeY.toNat cells.tags).length : Int) = _
  have hl : cells.tags.length = cells.sizeX.toNat * cells.sizeY.toNat := by
    have : ((cells.sizeX.toNat * cells.sizeY.toNat : Nat) : Int) = cells.sizeX * cells.sizeY := by
      rw [Nat.cast_mul, Int.toNat_of_nonneg hx, Int.toNat_of_nonneg hy]
    omega
  rw [reverseRows_length _ _ _ hl, Nat.cast_mul, Int.toNat_of_nonneg hx,
    Int.toNat_of_nonneg hy]
  rfl

/-- In the reflected map, the cell `(sizeX - 1 - x, y)` holds the tag of cell `(x, y)`. -/
theorem mirror_cell {cells : gridCells} (wf : cells.WellFormed) (x y : Int) (hx0 : 0 ≤ x)
    (hxw : x < cells.sizeX) (hy0 : 0 ≤ y) (hyh : y < cells.sizeY) :
    sliceGet cells.mirror.tags (cells.sizeX - 1 - x + cells.sizeX * y) =
      sliceGet cells.tags (x + cells.sizeX * y) := by
  obtain ⟨hx, hy, hlen⟩ := wf
  have hl : cells.tags.length = cells.sizeX.toNat * cells.sizeY.toNat := by
    have : ((cells.sizeX.toNat * cells.sizeY.toNat : Nat) : Int) = cells.sizeX * cells.sizeY := by
      rw [Nat.cast_mul, Int.toNat_of_nonneg hx, Int.toNat_of_nonneg hy]
    omega
  have h := reverseRows_getElem? cells.sizeX.toNat cells.sizeY.toNat cells.tags hl
    x.toNat y.toNat (by omega) (by omega)
  have hi1 := cellIndex_bound hx0 hxw hy0 hyh
  have hi2 := cellIndex_bound (w := cells.sizeX) (h := cells.sizeY)
    (x := cells.sizeX - 1 - x) (by omega) (by omega) hy0 hyh
  have e1 : (x + cells.sizeX * y).toNat = x.toNat + cells.sizeX.toNat * y.toNat := by
    zify
    rw [Int.toNat_of_nonneg hi1.1, Int.toNat_of_nonneg hx0, Int.toNat_of_nonneg hx,
      Int.toNat_of_nonneg hy0]
  have e2 : (cells.sizeX - 1 - x + cells.sizeX * y).toNat =
      cells.sizeX.toNat - 1 - x.toNat + cells.sizeX.toNat * y.toNat := by
    have e3 : cells.sizeX.toNat - 1 - x.toNat = (cells.sizeX - 1 - x).toNat := by omega
    rw [e3]
    zify
    rw [Int.toNat_of_nonneg hi2.1, Int.toNat_of_nonneg (by omega : 0 ≤ cells.sizeX - 1 - x),
      Int.toNat_of_nonneg hx, Int.toNat_of_nonneg hy0]
  rw [sliceGet_of_nonneg _ _ hi1.1, sliceGet_of_nonneg _ _ hi2.1, e1, e2]
  exact h

theorem keyCopyLoop_spec (cells : gridCells) (indices : List Int) :
    ∀ (P : Int → Prop) (key : List Int), key.length = cells.tags.length →
      (∀ i, 0 ≤ i → i < (cells.tags.length : Int) → P i →
        sliceGet key i = (sliceGet cells.tags i).map (fun tag => tag.Symbol)) →
      (∀ i ∈ indices, 0 ≤ i ∧ i < (cells.tags.length : Int)) →
      ∃ key', keyCopyLoop cells indices key = some key' ∧ key'.length = cells.tags.length ∧
        ∀ i, 0 ≤ i → i < (cells.tags.length : Int) → (P i ∨ i ∈ indices) →
          sliceGet key' i = (sliceGet cells.tags i).map (fun tag => tag.Symbol) := by
  induction indices with
  | nil =>
    intro P key hlen hval _
    exact ⟨key, rfl, hlen, fun i h0 h1 hP => hval i h0 h1 (by simpa using hP)⟩
  | cons i0 rest ih =>
    intro P key hlen hval hidx
    have hi0 := hidx i0 (by simp)
    obtain ⟨tag, htag⟩ := sliceGet_eq_some cells.tags i0 hi0.1 hi0.2
    have hs := sliceSet_isSome key i0 tag.Symbol hi0.1 (by rw [hlen]; exact hi0.2)
    obtain ⟨key', h1, h2, h3⟩ := ih (fun i => P i ∨ i = i0) (key.set i0.toNat tag.Symbol)
      (by simp [hlen])
      (by
        intro i h0 h1 hP
        rw [sliceGet_sliceSet hs]
        by_cases hi : i = i0
        · subst hi
          simp [htag]
        · rw [if_neg hi]
          exact hval i h0 h1 (by tauto))
      (fun i hi => hidx i (List.mem_cons_of_mem _ hi))
    refine ⟨key', by simp only [keyCopyLoop, keyCopyStep, htag, hs]; exact h1, h2, ?_⟩
    intro i h0 hlt hP
    apply h3 i h0 hlt
    simp only [List.mem_cons] at hP
    tauto

/-- The key without symmetry is the conversion to a string of the symbol slice. -/
theorem key_noSymmetry (cells : gridCells) :
    cells.Key NoKeySymmetry = some (runesToString cells.symbols) := by
  obtain ⟨key', h1, h2, h3⟩ := keyCopyLoop_spec cells
    (intRange 0 (List.replicate cells.tags.length (0 : Int)).length) (fun _ => False)
    (List.replicate cells.tags.length (0 : Int)) (by simp) (by simp)
    (by
      intro i hi
      have := (mem_intRange _ _ _).1 hi
      simpa using this)
  have hkey : key' = cells.symbols := by
    apply List.ext_getElem?
    intro n
    by_cases hn : n < cells.tags.length
    · have := h3 (n : Int) (by omega) (by omega)
        (Or.inr ((mem_intRange _ _ _).2 ⟨by omega, by simp; omega⟩))
      rw [← sliceGet_map, sliceGet_natCast, sliceGet_natCast] at this
      exact this
    · rw [List.getElem?_eq_none (by omega),
        List.getElem?_eq_none (by simp [gridCells.symbols]; omega)]
  simp only [gridCells.Key, if_true, h1, hkey]

/-- The key with horizontal symmetry is the smaller of the strings of the symbol slice and
of the symbol slice of the reflected map. -/
theorem key_horizontal {cells : gridCells} (wf : cells.WellFormed) :
    cells.Key HorizontalKeySymmetry =
      some (if strLess (runesToString cells.symbols) (runesToString cells.mirror.symbols)
        then runesToString cells.symbols else runesToString cells.mirror.symbols) := by
  have inv0 : MirrorInv cells (fun _ _ => False)
      (List.replicate cells.tags.length (0 : Int), List.replicate cells.tags.length (0 : Int)) :=
    ⟨by simp, by simp, by simp⟩
  obtain ⟨keys', h1, inv⟩ := keyMirrorRows_spec wf (intRange 0 cells.sizeY) inv0
    (fun y hy => (mem_intRange _ _ _).1 hy)
  obtain ⟨hw, hh, hlen⟩ := wf
  have wf' := mirror_wellFormed ⟨hw, hh, hlen⟩
  have hk1 : keys'.1 = cells.symbols := by
    apply cells_ext (w := cells.sizeX) (h := cells.sizeY) hw _ _ (by rw [inv.len1]; exact hlen)
      (by simp only [gridCells.symbols, List.length_map]; exact hlen)
    intro x y hx hxw hy hyh
    rw [(inv.val x y hx hxw hy hyh (Or.inr ((mem_intRange _ _ _).2 ⟨hy, hyh⟩))).1]
    rw [gridCells.symbols, sliceGet_map]
  have hk2 : keys'.2 = cells.mirror.symbols := by
    apply cells_ext (w := cells.sizeX) (h := cells.sizeY) hw _ _ (by rw [inv.len2]; exact hlen)
      (by simp only [gridCells.symbols, List.length_map]; exact wf'.2.2)
    intro x y hx hxw hy hyh
    have hv := (inv.val (cells.sizeX - 1 - x) y (by omega) (by omega) hy hyh
      (Or.inr ((mem_intRange _ _ _).2 ⟨hy, hyh⟩))).2
    have hm := mirror_cell ⟨hw, hh, hlen⟩ (cells.sizeX - 1 - x) y (by omega) (by omega) hy hyh
    have hxx : cells.sizeX - 1 - (cells.sizeX - 1 - x) = x := by ring
    rw [hxx] at hv hm
    rw [hv, gridCells.symbols, sliceGet_map, hm]
  have hne : HorizontalKeySymmetry ≠ NoKeySymmetry := by decide
  obtain ⟨k1, k2⟩ := keys'
  simp only at hk1 hk2
  subst hk1 hk2
  simp only [gridCells.Key, if_neg hne, if_true, h1]
  split <;> rfl

theorem intRange_cons {a b : Int} (h : a < b) : intRange a b = a :: intRange (a + 1) b := by
  unfold intRange
  obtain ⟨k, hk⟩ : ∃ k : Nat, (b - a).toNat = k + 1 := ⟨(b - a).toNat - 1, by omega⟩
  have hk' : (b - (a + 1)).toNat = k := by omega
  rw [hk, hk', List.range_succ_eq_map, List.map_cons, List.map_map]
  simp only [Nat.cast_zero, add_zero, List.cons.injEq, true_and]
  apply List.map_congr_left
  intro i _
  simp only [Function.comp, Nat.succ_eq_add_one, Nat.cast_add, Nat.cast_one]
  omega

/-- On a map with positive sizes that holds fewer tags than a row has cells, `Key` panics in
`HorizontalKeySymmetry` mode: the first pass of the inner loop writes `key2` at the index
`sizeX - 1`, out of range. -/
theorem key_horizontal_panic (cells : gridCells) (hx : 0 < cells.sizeX) (hy : 0 < cells.sizeY)
    (hlen : (cells.tags.length : Int) < cells.sizeX) :
    cells.Key HorizontalKeySymmetry = none := by
  have hne : HorizontalKeySymmetry ≠ NoKeySymmetry := by decide
  have hstep : ∀ keys : List Int × List Int, keys.2.length = cells.tags.length →
      keyMirrorStep cells 0 keys 0 = none := by
    intro keys hk
    unfold keyMirrorStep
    simp only
    cases h1 : sliceGet cells.tags (0 + cells.sizeX * 0) with
    | none => rfl
    | some tag =>
      simp only
      cases h2 : sliceSet keys.1 (0 + cells.sizeX * 0) tag.Symbol with
      | none => rfl
      | some key1 =>
        simp only
        have h3 : sliceSet keys.2 (cells.sizeX - 1 - 0 + cells.sizeX * 0) tag.Symbol = none := by
          unfold sliceSet
          rw [if_neg]
          rw [hk]
          omega
        rw [h3]
  simp only [gridCells.Key, if_neg hne, if_true]
  rw [intRange_cons hy]
  simp only [keyMirrorRows]
  rw [intRange_cons hx]
  have h0 := hstep (List.replicate cells.tags.length (0 : Int),
    List.replicate cells.tags.length (0 : Int)) (List.length_replicate _ _)
  simp only [keyMirrorRow, h0]

theorem strLess_asymm : ∀ (s t : GoString), strLess s t = true → strLess t s = false
  | [], [], h => by simp [strLess] at h
  | [], _ :: _, _ => by simp [strLess]
  | _ :: _, [], h => by simp [strLess] at h
  | a :: s, b :: t, h => by
    simp only [strLess] at h ⊢
    by_cases hab : a < b
    · have hba : ¬b < a := by omega
      simp [hab, hba]
    · by_cases hba : b < a
      · simp [hab, hba] at h
      · simp only [hab, hba, if_false] at h ⊢
        exact strLess_asymm s t h

theorem strLess_connex : ∀ (s t : GoString), strLess s t = false → strLess t s = false → s = t
  | [], [], _, _ => rfl
  | [], _ :: _, h, _ => by simp [strLess] at h
  | _ :: _, [], _, h => by simp [strLess] at h
  | a :: s, b :: t, h1, h2 => by
    simp only [strLess] at h1 h2
    by_cases hab : a < b
    · simp [hab] at h1
    · by_cases hba : b < a
      · simp [hba] at h2
      · simp only [hab, hba, if_false] at h1 h2
        have : a = b := by omega
        rw [this, strLess_connex s t h1 h2]

/-- Choosing the smaller of two strings does not depend on their order. -/
theorem strMin_comm (s t : GoString) :
    (if strLess s t then s else t) = (if strLess t s then t else s) := by
  by_cases h1 : strLess s t = true
  · rw [if_pos h1, if_neg (by rw [strLess_asymm s t h1]; simp)]
  · by_cases h2 : strLess t s = true
    · rw [if_neg h1, if_pos h2]
    · rw [if_neg h1, if_neg h2]
      exact (strLess_connex s t (by simpa using h1) (by simpa using h2)).symm

theorem mirror_mirror {cells : gridCells} (wf : cells.WellFormed) :
    cells.mirror.mirror = cells := by
  have wf1 := mirror_wellFormed wf
  have wf2 := mirror_wellFormed wf1
  obtain ⟨hw, hh, hlen⟩ := wf
  have htags : cells.mirror.mirror.tags = cells.tags := by
    apply cells_ext (w := cells.sizeX) (h := cells.sizeY) hw _ _ wf2.2.2 hlen
    intro x y hx hxw hy hyh
    have hsx : cells.mirror.sizeX = cells.sizeX := rfl
    have hsy : cells.mirror.sizeY = cells.sizeY := rfl
    have h1 := mirror_cell wf1 (cells.sizeX - 1 - x) y (by omega) (by omega) hy
      (by omega)
    have h2 := mirror_cell ⟨hw, hh, hlen⟩ x y hx hxw hy hyh
    have hxx : cells.sizeX - 1 - (cells.sizeX - 1 - x) = x := by ring
    change sliceGet cells.mirror.mirror.tags
      (cells.sizeX - 1 - (cells.sizeX - 1 - x) + cells.sizeX * y) =
      sliceGet cells.mirror.tags (cells.sizeX - 1 - x + cells.sizeX * y) at h1
    rw [hxx] at h1
    rw [h1, h2]
  cases cells
  simp only [gridCells.mirror] at htags ⊢
  rw [htags]

theorem key_mirror {cells : gridCells} (wf : cells.WellFormed) :
    cells.mirror.Key HorizontalKeySymmetry = cells.Key HorizontalKeySymmetry := by
  rw [key_horizontal wf, key_horizontal (mirror_wellFormed wf), mirror_mirror wf, strMin_comm]

theorem placeAt_sizes {cells cells' : gridCells} {p : Vect2} {t : PieceTag}
    (h : placeAt cells p t = some (some cells')) :
    cells'.sizeX = cells.sizeX ∧ cells'.sizeY = cells.sizeY ∧
      cells'.tags.length = cells.tags.length := by
  unfold placeAt at h
  split at h
  · cases h
  · split at h
    · cases h
    · split at h
      · cases h
      · split at h
        · cases h
        · rename_i tags' hset
          cases h
          exact ⟨rfl, rfl, sliceSet_length hset⟩

theorem placeList_sizes (l : List (Vect2 × PieceTag)) :
    ∀ {cells cells' : gridCells}, placeList l cells = some (some cells') →
      cells'.sizeX = cells.sizeX ∧ cells'.sizeY = cells.sizeY ∧
        cells'.tags.length = cells.tags.length := by
  induction l with
  | nil =>
    intro cells cells' h
    simp only [placeList, Option.some.injEq] at h
    subst h
    exact ⟨rfl, rfl, rfl⟩
  | cons e rest ih =>
    intro cells cells' h
    obtain ⟨p, t⟩ := e
    simp only [placeList] at h
    cases h1 : placeAt cells p t with
    | none => rw [h1] at h; cases h
    | some r =>
      cases r with
      | none => rw [h1] at h; cases h
      | some cells1 =>
        rw [h1] at h
        have e1 := placeAt_sizes h1
        have e2 := ih h
        exact ⟨e2.1.trans e1.1, e2.2.1.trans e1.2.1, e2.2.2.trans e1.2.2⟩

theorem validate_wellFormed {grid : Grid} {cells : gridCells} (hfit : grid.CellCountFits)
    (hx : 0 ≤ grid.SizeX) (hy : 0 ≤ grid.SizeY) (h : grid.Validate = some (some cells)) :
    cells.WellFormed := by
  obtain ⟨h1, h2, h3⟩ := validate_sizes hfit h
  exact ⟨by rw [h1]; exact hx, by rw [h2]; exact hy, by rw [h1, h2]; exact h3⟩

theorem placeAt_wellFormed {cells cells' : gridCells} {p : Vect2} {t : PieceTag}
    (wf : cells.WellFormed) (h : placeAt cells p t = some (some cells')) :
    cells'.WellFormed := by
  obtain ⟨h1, h2, h3⟩ := placeAt_sizes h
  obtain ⟨hw, hh, hlen⟩ := wf
  exact ⟨by rw [h1]; exact hw, by rw [h2]; exact hh, by rw [h1, h2, h3]; exact hlen⟩

theorem placeAt_mirror {cells : gridCells} (wf : cells.WellFormed) (p : Vect2) (t : PieceTag) :
    placeAt cells.mirror (mirrorCell cells.sizeX p) t =
      (placeAt cells p t).map (Option.map gridCells.mirror) := by
  have hsx : cells.mirror.sizeX = cells.sizeX := rfl
  have hsy : cells.mirror.sizeY = cells.sizeY := rfl
  have hmx : (mirrorCell cells.sizeX p).X = cells.sizeX - 1 - p.X := rfl
  have hmy : (mirrorCell cells.sizeX p).Y = p.Y := rfl
  by_cases hc : cells.contains p = true
  · have hb := (contains_iff cells p).1 hc
    have hc' : cells.mirror.contains (mirrorCell cells.sizeX p) = true := by
      rw [contains_iff, hsx, hsy, hmx, hmy]
      omega
    have hcell := mirror_cell wf p.X p.Y hb.1 hb.2.1 hb.2.2.1 hb.2.2.2
    have hi1 := cellIndex_bound hb.1 hb.2.1 hb.2.2.1 hb.2.2.2
    have hi2 := cellIndex_bound (w := cells.sizeX) (h := cells.sizeY)
      (x := cells.sizeX - 1 - p.X) (by omega) (by omega) hb.2.2.1 hb.2.2.2
    obtain ⟨old, hold⟩ := sliceGet_eq_some cells.tags _ hi1.1 (by rw [wf.2.2]; exact hi1.2)
    have hs1 := sliceSet_isSome cells.tags _ t hi1.1 (by rw [wf.2.2]; exact hi1.2)
    have hs2 := sliceSet_isSome cells.mirror.tags (cells.sizeX - 1 - p.X + cells.sizeX * p.Y) t
      hi2.1 (by rw [(mirror_wellFormed wf).2.2]; exact hi2.2)
    have hp : placeAt cells p t =
        if old ≠ PieceTagEmpty then some none
        else some (some { cells with tags := cells.tags.set (p.X + cells.sizeX * p.Y).toNat t }) := by
      unfold placeAt
      simp only [hc, hold, hs1]
      rfl
    have hp' : placeAt cells.mirror (mirrorCell cells.sizeX p) t =
        if old ≠ PieceTagEmpty then some none
        else some (some { cells.mirror with
          tags := cells.mirror.tags.set (cells.sizeX - 1 - p.X + cells.sizeX * p.Y).toNat t }) := by
      unfold placeAt
      simp only [hc', hsx, hmx, hmy, hcell, hold, hs2]
      rfl
    rw [hp, hp']
    by_cases hold' : old ≠ PieceTagEmpty
    · simp [hold']
    · simp only [hold', if_false, Option.map_some']
      congr 2
      have wfn : ({ cells with tags := cells.tags.set (p.X + cells.sizeX * p.Y).toNat t } :
          gridCells).WellFormed := ⟨wf.1, wf.2.1, by simpa using wf.2.2⟩
      have htags : cells.mirror.tags.set (cells.sizeX - 1 - p.X + cells.sizeX * p.Y).toNat t =
          ({ cells with tags := cells.tags.set (p.X + cells.sizeX * p.Y).toNat t } :
            gridCells).mirror.tags := by
        apply cells_ext (w := cells.sizeX) (h := cells.sizeY) wf.1 _ _
          (by simpa using (mirror_wellFormed wf).2.2) (mirror_wellFormed wfn).2.2
        intro x y hx hxw hy hyh
        have hm1 := mirror_cell wfn (cells.sizeX - 1 - x) y (by show 0 ≤ _; omega)
          (by show _ < cells.sizeX; omega) hy hyh
        have hm2 := mirror_cell wf (cells.sizeX - 1 - x) y (by omega) (by omega) hy hyh
        have hxx : cells.sizeX - 1 - (cells.sizeX - 1 - x) = x := by ring
        change sliceGet _ (cells.sizeX - 1 - (cells.sizeX - 1 - x) + cells.sizeX * y) =
          sliceGet (cells.tags.set (p.X + cells.sizeX * p.Y).toNat t)
            (cells.sizeX - 1 - x + cells.sizeX * y) at hm1
        rw [hxx] at hm1 hm2
        rw [hm1, sliceGet_sliceSet hs1, sliceGet_sliceSet hs2, hm2]
        by_cases hxp : x = cells.sizeX - 1 - p.X
        · subst hxp
          have : cells.sizeX - 1 - (cells.sizeX - 1 - p.X) = p.X := by ring
          simp [this]
        · have hne1 : x + cells.sizeX * y ≠ cells.sizeX - 1 - p.X + cells.sizeX * p.Y := by
            intro heq
            exact hxp (cellIndex_inj hx hxw (by omega) (by omega) heq).1
          have hne2 : cells.sizeX - 1 - x + cells.sizeX * y ≠ p.X + cells.sizeX * p.Y := by
            intro heq
            have := (cellIndex_inj (w := cells.sizeX) (by omega) (by omega) hb.1 hb.2.1 heq).1
            exact hxp (by omega)
          rw [if_neg hne1, if_neg hne2]
      simp only [gridCells.mirror] at htags ⊢
      rw [htags]
  · have hc' : ¬cells.mirror.contains (mirrorCell cells.sizeX p) = true := by
      rw [contains_iff, hsx, hsy, hmx, hmy]
      rw [contains_iff] at hc
      omega
    simp [placeAt, hc, hc']

theorem placeList_mirror (l : List (Vect2 × PieceTag)) :
    ∀ {cells : gridCells}, cells.WellFormed →
      placeList (l.map (fun e => (mirrorCell cells.sizeX e.1, e.2))) cells.mirror =
        (placeList l cells).map (Option.map gridCells.mirror) := by
  induction l with
  | nil => intro cells _; rfl
  | cons e rest ih =>
    intro cells wf
    obtain ⟨p, t⟩ := e
    simp only [List.map_cons, placeList, placeAt_mirror wf]
    cases h1 : placeAt cells p t with
    | none => rfl
    | some r =>
      cases r with
      | none => rfl
      | some cells1 =>
        have hsx := (placeAt_sizes h1).1
        simp only [Option.map_some']
        rw [← hsx]
        exact ih (placeAt_wellFormed wf h1)

theorem placeList_contains (l : List (Vect2 × PieceTag)) :
    ∀ {cells cells' : gridCells}, placeList l cells = some (some cells') →
      ∀ e ∈ l, cells.contains e.1 = true := by
  induction l with
  | nil => intro _ _ _ e he; simp at he
  | cons a rest ih =>
    intro cells cells' h e he
    obtain ⟨p, t⟩ := a
    simp only [placeList] at h
    rcases hp : placeAt cells p t with _ | _ | cells1
    · rw [hp] at h; cases h
    · rw [hp] at h; cases h
    · rw [hp] at h
      rcases List.mem_cons.1 he with rfl | he
      · exact placeAt_contains hp
      · have hs := placeAt_sizes hp
        rw [← contains_congr hs.1 hs.2.1]
        exact ih h e he

/-- The cell of a mirrored piece is the reflection of the cell of the piece, for a cell of
the board: the sum of `int` values that gives it does not leave the board. -/
theorem add_mirror {sizeX : Int} (hsx : sizeX ≤ 9223372036854775808) (geom position : Vect2)
    (h0 : 0 ≤ (geom.Add position).X) (h1 : (geom.Add position).X < sizeX) :
    (Vect2.mk (-geom.X) geom.Y).Add (mirrorCell sizeX position) =
      mirrorCell sizeX (geom.Add position) := by
  simp only [Vect2.Add, mirrorCell, Vect2.mk.injEq, and_true] at h0 h1 ⊢
  unfold wrapInt at h0 h1 ⊢
  omega

theorem cellTags_mirror (sizeX sizeY : Int) (hfit : sizeX * sizeY < 9223372036854775808)
    (pieces : List Piece)
    (hon : ∀ e ∈ cellTags pieces, 0 ≤ e.1.X ∧ e.1.X < sizeX ∧ 0 ≤ e.1.Y ∧ e.1.Y < sizeY) :
    cellTags (pieces.map (Piece.mirror sizeX)) =
      (cellTags pieces).map (fun e => (mirrorCell sizeX e.1, e.2)) := by
  induction pieces with
  | nil => rfl
  | cons piece rest ih =>
    have hrest : ∀ e ∈ cellTags rest,
        0 ≤ e.1.X ∧ e.1.X < sizeX ∧ 0 ≤ e.1.Y ∧ e.1.Y < sizeY := by
      intro e he
      apply hon
      simp only [cellTags, List.flatMap_cons, List.mem_append] at he ⊢
      exact Or.inr he
    have ih' := ih hrest
    simp only [cellTags, List.map_cons, List.flatMap_cons, List.map_append] at ih' ⊢
    rw [ih']
    congr 1
    simp only [Piece.mirror, List.map_map]
    apply List.map_congr_left
    intro geom hg
    have hb := hon (geom.Add piece.Position, piece.Tag) (by
      simp only [cellTags, List.flatMap_cons, List.mem_append, List.mem_map]
      exact Or.inl ⟨geom, hg, rfl⟩)
    simp only at hb
    have hsx : sizeX ≤ 9223372036854775808 := by
      have h1 : sizeX * 1 ≤ sizeX * sizeY := mul_le_mul_of_nonneg_left (by omega) (by omega)
      omega
    simp only [Function.comp, Prod.mk.injEq, and_true]
    exact add_mirror hsx geom piece.Position hb.1 hb.2.1

theorem replicate_mirror (sizeX sizeY : Int) (t : PieceTag)
    (wf : gridCells.WellFormed ⟨sizeX, sizeY, List.replicate (sizeX * sizeY).toNat t⟩) :
    gridCells.mirror ⟨sizeX, sizeY, List.replicate (sizeX * sizeY).toNat t⟩ =
      ⟨sizeX, sizeY, List.replicate (sizeX * sizeY).toNat t⟩ := by
  have wf' := mirror_wellFormed wf
  have htags : (gridCells.mirror ⟨sizeX, sizeY, List.replicate (sizeX * sizeY).toNat t⟩).tags =
      List.replicate (sizeX * sizeY).toNat t := by
    apply cells_ext (w := sizeX) (h := sizeY) wf.1 _ _ wf'.2.2 wf.2.2
    intro x y hx hxw hy hyh
    have hm := mirror_cell wf (sizeX - 1 - x) y (by show 0 ≤ _; omega)
      (by show _ < sizeX; omega) hy hyh
    have hxx : sizeX - 1 - (sizeX - 1 - x) = x := by ring
    change sliceGet _ (sizeX - 1 - (sizeX - 1 - x) + sizeX * y) =
      sliceGet (List.replicate (sizeX * sizeY).toNat t) (sizeX - 1 - x + sizeX * y) at hm
    rw [hxx] at hm
    rw [hm]
    have hi1 := cellIndex_bound hx hxw hy hyh
    have hi2 := cellIndex_bound (w := sizeX) (h := sizeY) (x := sizeX - 1 - x) (by omega)
      (by omega) hy hyh
    rw [sliceGet_of_nonneg _ _ hi1.1, sliceGet_of_nonneg _ _ hi2.1,
      List.getElem?_replicate, List.getElem?_replicate, if_pos (by omega), if_pos (by omega)]
  simp only [gridCells.mirror] at htags ⊢
  rw [htags]

/-- Validation commutes with the left-right reflection of a valid board whose cell count
does not overflow. -/
theorem validate_mirror (grid : Grid) (hfit : grid.CellCountFits) (hx : 0 ≤ grid.SizeX)
    (hy : 0 ≤ grid.SizeY) {cells : gridCells} (hv : grid.Validate = some (some cells)) :
    grid.mirror.Validate = some (some cells.mirror) := by
  have hsize : ¬grid.SizeX * grid.SizeY < 0 := not_lt.2 (mul_nonneg hx hy)
  have wf0 : gridCells.WellFormed
      ⟨grid.SizeX, grid.SizeY, List.replicate (grid.SizeX * grid.SizeY).toNat PieceTagEmpty⟩ :=
    ⟨hx, hy, by simp only [List.length_replicate]; omega⟩
  have h := placeList_mirror (cellTags grid.Pieces) wf0
  rw [replicate_mirror _ _ _ wf0] at h
  rw [validate_unfold grid hfit, if_neg hsize, placePieces_eq _ _ hfit.2] at hv
  have hon : ∀ e ∈ cellTags grid.Pieces,
      0 ≤ e.1.X ∧ e.1.X < grid.SizeX ∧ 0 ≤ e.1.Y ∧ e.1.Y < grid.SizeY := by
    intro e he
    exact (contains_iff _ _).1 (placeList_contains _ hv e he)
  have hfitm : grid.mirror.CellCountFits := hfit
  rw [validate_unfold grid.mirror hfitm]
  simp only [Grid.mirror, if_neg hsize]
  rw [placePieces_eq _ _ hfit.2, cellTags_mirror _ _ hfit.2 _ hon, h, hv]
  rfl

/-- C4, as stated, fails on a board whose cell count overflows. The board of width 3 and
height 6148914691236517206 with one single-cell piece at `(0, 0)` is valid: `Validate`
returns a map, whose tag slice has the 2 entries that the product of the sizes, `2^64 + 2`,
is as an `int`. On this map `Key` panics in `HorizontalKeySymmetry` mode (the mirrored index
2 of the first cell is out of range), so that the board gets no key; and on the mirrored
board, with the piece at `(2, 0)`, `Validate` itself panics. -/
theorem key_mirror_invariant_counterexample :
    (overflowBoard [unitPiece 0 0]).Validate
      = some (some ⟨3, 6148914691236517206, [⟨65, 1⟩, PieceTagEmpty]⟩) ∧
    (gridCells.mk 3 6148914691236517206 [⟨65, 1⟩, PieceTagEmpty]).Key HorizontalKeySymmetry
      = none ∧
    (overflowBoard [unitPiece 0 0]).mirror = overflowBoard [unitPiece 2 0] ∧
    (overflowBoard [unitPiece 0 0]).mirror.Validate = none :=
  ⟨by decide, key_horizontal_panic _ (by decide) (by decide) (by decide), by decide, by decide⟩

/-- C4, amended. Mirror invariance of the canonical key: for every occupancy map with
non-negative sizes that holds one tag per cell, `Key` in `HorizontalKeySymmetry` mode
returns a key, and returns the same key on the left-right reflection of the map (each row's
cells in reversed column order); hence a valid board with non-negative sizes whose cell
count `SizeX * SizeY` is a value of type `int` (below `2^63`) and its left-right mirrored
board get the identical key: the map of the board holds one tag per cell, and the map of
the mirrored board is the reflection of the map of the board. -/
theorem key_mirror_invariant :
    (∀ cells : gridCells, cells.WellFormed →
      ∃ key, cells.Key HorizontalKeySymmetry = some key ∧
        cells.mirror.Key HorizontalKeySymmetry = some key) ∧
    (∀ (grid : Grid) (cells : gridCells), 0 ≤ grid.SizeX → 0 ≤ grid.SizeY →
      grid.SizeX * grid.SizeY < 9223372036854775808 →
      grid.Validate = some (some cells) →
      cells.WellFormed ∧ grid.mirror.Validate = some (some cells.mirror) ∧
        cells.mirror.Key HorizontalKeySymmetry = cells.Key HorizontalKeySymmetry) := by
  constructor
  · intro cells wf
    exact ⟨_, key_horizontal wf, by rw [key_mirror wf, key_horizontal wf]⟩
  · intro grid cells hx hy hlt hv
    have hfit : grid.CellCountFits := ⟨by have := mul_nonneg hx hy; omega, hlt⟩
    have wf := validate_wellFormed hfit hx hy hv
    exact ⟨wf, validate_mirror grid hfit hx hy hv, key_mirror wf⟩

/-- Witness of C4 (amended): the 3x2 board with a horizontal domino in the top left corner
and a single cell below it, and its mirrored board. -/
theorem key_mirror_invariant_witness :
    (Grid.mk 3 2 [⟨⟨67, 1⟩, ⟨0, 0⟩, [⟨0, 0⟩, ⟨1, 0⟩]⟩, ⟨⟨68, 1⟩, ⟨0, 1⟩, [⟨0, 0⟩]⟩]).mirror.Validate
      = some (some ⟨3, 2, [PieceTagEmpty, ⟨67, 1⟩, ⟨67, 1⟩,
          PieceTagEmpty, PieceTagEmpty, ⟨68, 1⟩]⟩) ∧
    (gridCells.mk 3 2 [PieceTagEmpty, ⟨67, 1⟩, ⟨67, 1⟩,
        PieceTagEmpty, PieceTagEmpty, ⟨68, 1⟩]).Key HorizontalKeySymmetry
      = (gridCells.mk 3 2 [⟨67, 1⟩, ⟨67, 1⟩, PieceTagEmpty,
        ⟨68, 1⟩, PieceTagEmpty, PieceTagEmpty]).Key HorizontalKeySymmetry :=
  have h := key_mirror_invariant.2
    (Grid.mk 3 2 [⟨⟨67, 1⟩, ⟨0, 0⟩, [⟨0, 0⟩, ⟨1, 0⟩]⟩, ⟨⟨68, 1⟩, ⟨0, 1⟩, [⟨0, 0⟩]⟩])
    (gridCells.mk 3 2 [⟨67, 1⟩, ⟨67, 1⟩, PieceTagEmpty, ⟨68, 1⟩, PieceTagEmpty, PieceTagEmpty])
    (by decide) (by decide) (by decide) (by decide)
  ⟨h.2.1, h.2.2⟩

/-! ## C5: what the key identifies -/

theorem encodeRune_ne_nil (r : Int) : encodeRune r ≠ [] := by
  unfold encodeRune
  split
  · simp
  · split
    · simp
    · split
      · simp
      · split <;> simp

theorem encodeRune_append_inj {r1 r2 : Int} (h1 : validRune r1) (h2 : validRune r2)
    {s1 s2 : GoString} (h : encodeRune r1 ++ s1 = encodeRune r2 ++ s2) :
    r1 = r2 ∧ s1 = s2 := by
  obtain ⟨h1a, h1b, h1c⟩ := h1
  obtain ⟨h2a, h2b, h2c⟩ := h2
  have n1 : ¬(r1 < 0 ∨ 0x10FFFF < r1 ∨ (0xD800 ≤ r1 ∧ r1 ≤ 0xDFFF)) := by omega
  have n2 : ¬(r2 < 0 ∨ 0x10FFFF < r2 ∨ (0xD800 ≤ r2 ∧ r2 ≤ 0xDFFF)) := by omega
  unfold encodeRune at h
  rw [if_neg n1, if_neg n2] at h
  split_ifs at h
  all_goals
    simp only [List.cons_append, List.nil_append, List.cons.injEq] at h
  all_goals first
    | omega
    | exact ⟨by omega, by simp only [h, and_self]⟩

theorem runesToString_inj : ∀ (l1 l2 : List Int), (∀ r ∈ l1, validRune r) →
    (∀ r ∈ l2, validRune r) → runesToString l1 = runesToString l2 → l1 = l2
  | [], [], _, _, _ => rfl
  | [], r :: rs, _, _, h => by
    simp only [runesToString] at h
    have := encodeRune_ne_nil r
    cases hr : encodeRune r with
    | nil => exact absurd hr this
    | cons a t => rw [hr] at h; cases h
  | r :: rs, [], _, _, h => by
    simp only [runesToString] at h
    have := encodeRune_ne_nil r
    cases hr : encodeRune r with
    | nil => exact absurd hr this
    | cons a t => rw [hr] at h; cases h
  | r1 :: l1, r2 :: l2, h1, h2, h => by
    simp only [runesToString] at h
    obtain ⟨hr, hs⟩ := encodeRune_append_inj (h1 r1 (by simp)) (h2 r2 (by simp)) h
    rw [hr, runesToString_inj l1 l2 (fun r hr => h1 r (List.mem_cons_of_mem _ hr))
      (fun r hr => h2 r (List.mem_cons_of_mem _ hr)) hs]

theorem reverseRows_map {α β : Type} (f : α → β) (w : Nat) :
    ∀ (h : Nat) (l : List α), (reverseRows w h l).map f = reverseRows w h (l.map f) := by
  intro h
  induction h with
  | zero => intro l; rfl
  | succ h ih =>
    intro l
    simp only [reverseRows, List.map_append, List.map_reverse, List.map_take, List.map_drop, ih]

theorem reverseRows_involutive {α : Type} (w : Nat) :
    ∀ (h : Nat) (l : List α), l.length = w * h →
      reverseRows w h (reverseRows w h l) = l := by
  intro h
  induction h with
  | zero =>
    intro l hl
    have : l = [] := List.eq_nil_of_length_eq_zero (by simpa using hl)
    simp [reverseRows, this]
  | succ h ih =>
    intro l hl
    have hle : w * h + w = w * (h + 1) := by ring
    have htake : ((l.take w).reverse).length = w := by
      rw [List.length_reverse, List.length_take]; omega
    simp only [reverseRows]
    rw [List.take_left' htake, List.drop_left' htake, List.reverse_reverse,
      ih (l.drop w) (by rw [List.length_drop]; omega), List.take_append_drop]

theorem reverseRows_mem {α : Type} (w : Nat) :
    ∀ (h : Nat) (l : List α) (a : α), a ∈ reverseRows w h l → a ∈ l := by
  intro h
  induction h with
  | zero => intro l a ha; simp [reverseRows] at ha
  | succ h ih =>
    intro l a ha
    simp only [reverseRows, List.mem_append, List.mem_reverse] at ha
    rcases ha with ha | ha
    · exact List.mem_of_mem_take ha
    · exact List.mem_of_mem_drop (ih _ _ ha)

theorem mirror_symbols (cells : gridCells) :
    cells.mirror.symbols = reverseRows cells.sizeX.toNat cells.sizeY.toNat cells.symbols := by
  simp only [gridCells.symbols, gridCells.mirror, reverseRows_map]

theorem wellFormed_length {cells : gridCells} (wf : cells.WellFormed) :
    cells.symbols.length = cells.sizeX.toNat * cells.sizeY.toNat := by
  obtain ⟨hx, hy, hlen⟩ := wf
  have : ((cells.sizeX.toNat * cells.sizeY.toNat : Nat) : Int) = cells.sizeX * cells.sizeY := by
    rw [Nat.cast_mul, Int.toNat_of_nonneg hx, Int.toNat_of_nonneg hy]
  simp only [gridCells.symbols, List.length_map]
  omega

/-- C5, as stated, fails: the 1x1 maps whose only cell has the rune -1, respectively the
rune U+FFFD, as kind symbol get the same key, although their symbols differ: `string(key)`
turns every invalid rune into U+FFFD. -/
theorem key_identifies_counterexample :
    (gridCells.mk 1 1 [⟨-1, 0⟩]).WellFormed ∧ (gridCells.mk 1 1 [⟨0xFFFD, 0⟩]).WellFormed ∧
    (gridCells.mk 1 1 [⟨-1, 0⟩]).Key NoKeySymmetry
      = (gridCells.mk 1 1 [⟨0xFFFD, 0⟩]).Key NoKeySymmetry ∧
    (gridCells.mk 1 1 [⟨-1, 0⟩]).Key HorizontalKeySymmetry
      = (gridCells.mk 1 1 [⟨0xFFFD, 0⟩]).Key HorizontalKeySymmetry ∧
    (gridCells.mk 1 1 [⟨-1, 0⟩]).symbols ≠ (gridCells.mk 1 1 [⟨0xFFFD, 0⟩]).symbols ∧
    (gridCells.mk 1 1 [⟨-1, 0⟩]).symbols ≠ (gridCells.mk 1 1 [⟨0xFFFD, 0⟩]).mirror.symbols := by
  refine ⟨by decide, by decide, by decide, by decide, by decide, by decide⟩

/-- C5, amended. For two occupancy maps of the same width and height whose kind symbols are
all valid Unicode code points, `Key` returns the same string only if the symbols coincide
up to the symmetry: without symmetry only if the symbols agree in every cell, with
horizontal symmetry only if they agree in every cell or one symbol grid is the left-right
mirror image of the other. -/
theorem key_identifies (m1 m2 : gridCells) (wf1 : m1.WellFormed) (wf2 : m2.WellFormed)
    (hx : m1.sizeX = m2.sizeX) (hy : m1.sizeY = m2.sizeY)
    (hv1 : ∀ r ∈ m1.symbols, validRune r) (hv2 : ∀ r ∈ m2.symbols, validRune r) :
    (m1.Key NoKeySymmetry = m2.Key NoKeySymmetry → m1.symbols = m2.symbols) ∧
    (m1.Key HorizontalKeySymmetry = m2.Key HorizontalKeySymmetry →
      m1.symbols = m2.symbols ∨ m1.symbols = m2.mirror.symbols) := by
  have hm1 : ∀ r ∈ m1.mirror.symbols, validRune r := by
    intro r hr
    rw [mirror_symbols] at hr
    exact hv1 r (reverseRows_mem _ _ _ _ hr)
  have hm2 : ∀ r ∈ m2.mirror.symbols, validRune r := by
    intro r hr
    rw [mirror_symbols] at hr
    exact hv2 r (reverseRows_mem _ _ _ _ hr)
  have hflip : ∀ {a b : List Int}, a.length = m1.sizeX.toNat * m1.sizeY.toNat →
      reverseRows m1.sizeX.toNat m1.sizeY.toNat a = b →
      a = reverseRows m1.sizeX.toNat m1.sizeY.toNat b := by
    intro a b ha hab
    rw [← hab, reverseRows_involutive _ _ _ ha]
  constructor
  · intro h
    rw [key_noSymmetry, key_noSymmetry, Option.some.injEq] at h
    exact runesToString_inj _ _ hv1 hv2 h
  · intro h
    rw [key_horizontal wf1, key_horizontal wf2, Option.some.injEq] at h
    have hl1 := wellFormed_length wf1
    have hl2 := wellFormed_length wf2
    rw [mirror_symbols m2, ← hx, ← hy]
    rw [← hx, ← hy] at hl2
    split_ifs at h
    · exact Or.inl (runesToString_inj _ _ hv1 hv2 h)
    · have := runesToString_inj _ _ hv1 hm2 h
      rw [mirror_symbols m2, ← hx, ← hy] at this
      exact Or.inr this
    · have := runesToString_inj _ _ hm1 hv2 h
      rw [mirror_symbols m1] at this
      exact Or.inr (hflip hl1 this)
    · have := runesToString_inj _ _ hm1 hm2 h
      rw [mirror_symbols m1, mirror_symbols m2, ← hx, ← hy] at this
      left
      have h2 := hflip hl1 this
      rw [reverseRows_involutive _ _ _ hl2] at h2
      exact h2

/-- Witness of C5 (amended): the 2x1 maps `A*` and `*A` have the same key under horizontal
symmetry, and each is the mirror image of the other. -/
theorem key_identifies_witness :
    (gridCells.mk 2 1 [⟨65, 1⟩, ⟨42, 0⟩]).Key HorizontalKeySymmetry
      = (gridCells.mk 2 1 [⟨42, 0⟩, ⟨65, 1⟩]).Key HorizontalKeySymmetry ∧
    ((gridCells.mk 2 1 [⟨65, 1⟩, ⟨42, 0⟩]).symbols
        = (gridCells.mk 2 1 [⟨42, 0⟩, ⟨65, 1⟩]).symbols ∨
      (gridCells.mk 2 1 [⟨65, 1⟩, ⟨42, 0⟩]).symbols
        = (gridCells.mk 2 1 [⟨42, 0⟩, ⟨65, 1⟩]).mirror.symbols) :=
  ⟨by decide, (key_identifies (gridCells.mk 2 1 [⟨65, 1⟩, ⟨42, 0⟩])
    (gridCells.mk 2 1 [⟨42, 0⟩, ⟨65, 1⟩]) (by decide) (by decide) rfl rfl
    (by decide) (by decide)).2 (by decide)⟩

/-! ## The search: boards, paths and the walk back -/

theorem copy_eq (grid : Grid) : grid.Copy = grid := rfl

theorem apply_spec {grid : Grid} {move : Move} (h0 : 0 ≤ move.PieceIndex)
    (h1 : move.PieceIndex < (grid.Pieces.length : Int)) :
    ∃ grid', grid.Apply move = some grid' := by
  obtain ⟨piece, hp⟩ := sliceGet_eq_some grid.Pieces move.PieceIndex h0 h1
  have hs := sliceSet_isSome grid.Pieces move.PieceIndex
    { piece with Position := piece.Position.Add move.Step.Vector } h0 h1
  exact ⟨⟨grid.SizeX, grid.SizeY, grid.Pieces.set move.PieceIndex.toNat
    ⟨piece.Tag, piece.Position.Add move.Step.Vector, piece.Geometry⟩⟩,
    by simp only [Grid.Apply, hp, hs]⟩

theorem apply_frame {grid grid' : Grid} {move : Move} (h : grid.Apply move = some grid') :
    grid'.SizeX = grid.SizeX ∧ grid'.SizeY = grid.SizeY ∧
      grid'.Pieces.length = grid.Pieces.length ∧
      grid'.Pieces.map (fun piece => piece.Tag) = grid.Pieces.map (fun piece => piece.Tag) := by
  unfold Grid.Apply at h
  split at h
  · cases h
  · rename_i piece hp
    split at h
    · cases h
    · rename_i pieces hs
      cases h
      refine ⟨rfl, rfl, sliceSet_length hs, ?_⟩
      unfold sliceSet at hs
      split at hs
      · rename_i hi
        cases hs
        rw [sliceGet_of_nonneg _ _ hi.1] at hp
        simp only
        rw [List.map_set]
        apply List.ext_getElem?
        intro k
        rw [List.getElem?_set]
        split
        · rename_i hk
          subst hk
          split
          · rw [List.getElem?_map, hp]; rfl
          · rename_i hlt
            simp only [List.length_map] at hlt
            rw [List.getElem?_eq_none (by simp; omega)]
        · rfl
      · cases hs

theorem placeAt_ne_none {cells : gridCells} (hlen : (cells.tags.length : Int) = cells.sizeX * cells.sizeY)
    (p : Vect2) (t : PieceTag) : placeAt cells p t ≠ none := by
  unfold placeAt
  by_cases hc : cells.contains p = true
  · have hb := (contains_iff cells p).1 hc
    have hi := cellIndex_bound hb.1 hb.2.1 hb.2.2.1 hb.2.2.2
    obtain ⟨old, hold⟩ := sliceGet_eq_some cells.tags _ hi.1 (by rw [hlen]; exact hi.2)
    have hs := sliceSet_isSome cells.tags _ t hi.1 (by rw [hlen]; exact hi.2)
    simp only [hc, hold, hs]
    by_cases ho : old = PieceTagEmpty <;> simp [ho]
  · simp [hc]

theorem placeList_ne_none (l : List (Vect2 × PieceTag)) :
    ∀ {cells : gridCells}, (cells.tags.length : Int) = cells.sizeX * cells.sizeY →
      placeList l cells ≠ none := by
  induction l with
  | nil => intro cells _; simp [placeList]
  | cons e rest ih =>
    intro cells hlen
    obtain ⟨p, t⟩ := e
    simp only [placeList]
    cases h1 : placeAt cells p t with
    | none => exact absurd h1 (placeAt_ne_none hlen p t)
    | some r =>
      cases r with
      | none => simp
      | some cells1 =>
        obtain ⟨e1, e2, e3⟩ := placeAt_sizes h1
        exact ih (by rw [e1, e2, e3]; exact hlen)

/-- On a board whose cell count does not overflow, `Validate` panics only on a negative
`SizeX * SizeY`. -/
theorem validate_ne_none {grid : Grid} (hfit : grid.CellCountFits)
    (h : ¬wrapInt (grid.SizeX * grid.SizeY) < 0) : grid.Validate ≠ none := by
  have h' := fits_nonneg hfit h
  rw [validate_unfold grid hfit]
  rw [if_neg h', placePieces_eq _ _ hfit.2]
  apply placeList_ne_none
  simp only [List.length_replicate]
  omega

/-- On the occupancy map of a valid board whose cell count does not overflow, `Key` returns a
key in both supported modes. -/
theorem key_total {grid : Grid} {cells : gridCells} (hfit : grid.CellCountFits)
    (h : grid.Validate = some (some cells))
    {symmetry : Int} (hsym : symmetry = NoKeySymmetry ∨ symmetry = HorizontalKeySymmetry) :
    ∃ key, cells.Key symmetry = some key := by
  rcases hsym with rfl | rfl
  · exact ⟨_, key_noSymmetry cells⟩
  · obtain ⟨h1, h2, h3⟩ := validate_sizes hfit h
    have hnn := fits_nonneg hfit (validate_size_nonneg h)
    by_cases hy : 0 < cells.sizeY
    · have hx : 0 ≤ cells.sizeX := by
        by_contra hx
        apply hnn
        rw [← h1, ← h2]
        exact mul_neg_of_neg_of_pos (by omega) hy
      exact ⟨_, key_horizontal ⟨hx, by omega, by rw [h1, h2]; exact h3⟩⟩
    · have hr : intRange 0 cells.sizeY = [] := by
        unfold intRange
        have : (cells.sizeY - 0).toNat = 0 := by omega
        rw [this]
        rfl
      have hne : HorizontalKeySymmetry ≠ NoKeySymmetry := by decide
      simp only [gridCells.Key, if_neg hne, if_true, hr, keyMirrorRows]
      split <;> exact ⟨_, rfl⟩

theorem runPath_append (grid : Grid) (p q : List Move) :
    runPath grid (p ++ q) = (runPath grid p).bind (fun grid' => runPath grid' q) := by
  induction p generalizing grid with
  | nil => rfl
  | cons move rest ih =>
    simp only [List.cons_append, runPath]
    cases stepTo grid move with
    | none => rfl
    | some grid' => exact ih grid'

theorem stepTo_apply {grid grid' : Grid} {move : Move} (h : stepTo grid move = some grid') :
    grid.Apply move = some grid' ∧ grid'.IsValid = true := by
  unfold stepTo at h
  split at h
  · cases h
  · rename_i g1 hg
    split at h
    · rename_i hv
      cases h
      exact ⟨hg, hv⟩
    · cases h

theorem runPath_frame (path : List Move) :
    ∀ {grid grid' : Grid}, runPath grid path = some grid' →
      grid'.SizeX = grid.SizeX ∧ grid'.SizeY = grid.SizeY ∧
        grid'.Pieces.length = grid.Pieces.length ∧
        grid'.Pieces.map (fun piece => piece.Tag) = grid.Pieces.map (fun piece => piece.Tag) := by
  induction path with
  | nil =>
    intro grid grid' h
    simp only [runPath, Option.some.injEq] at h
    subst h
    exact ⟨rfl, rfl, rfl, rfl⟩
  | cons move rest ih =>
    intro grid grid' h
    simp only [runPath] at h
    cases hs : stepTo grid move with
    | none => rw [hs] at h; cases h
    | some g1 =>
      rw [hs] at h
      obtain ⟨e1, e2, e3, e4⟩ := apply_frame (stepTo_apply hs).1
      obtain ⟨f1, f2, f3, f4⟩ := ih h
      exact ⟨f1.trans e1, f2.trans e2, f3.trans e3, f4.trans e4⟩

theorem reaches_nil (start : Grid) : Reaches start [] start :=
  ⟨by simp, rfl⟩

theorem reaches_snoc {start grid grid' : Grid} {path : List Move} {move : Move}
    (h : Reaches start path grid) (hm : move.Legal start.Pieces.length)
    (hs : stepTo grid move = some grid') : Reaches start (path ++ [move]) grid' := by
  refine ⟨?_, ?_⟩
  · intro m hmem
    rcases List.mem_append.1 hmem with h1 | h1
    · exact h.1 m h1
    · simp only [List.mem_singleton] at h1
      subst h1
      exact hm
  · rw [runPath_append, h.2]
    simp only [Option.bind, runPath, hs]

theorem getElem?_append_some {α : Type} {l : List α} {i : Nat} {a : α} (more : List α)
    (h : l[i]? = some a) : (l ++ more)[i]? = some a := by
  have hi : i < l.length := by
    by_contra hi
    rw [List.getElem?_eq_none (by omega)] at h
    cases h
  rw [List.getElem?_append_left hi]
  exact h

theorem recLink_mono {recs : List Rec} {i : Nat} {r : Rec} (more : List Rec)
    (h : RecLink recs i r) : RecLink (recs ++ more) i r := by
  rcases h with h | ⟨p, move, rp, h1, h2, h3, h4⟩
  · exact Or.inl h
  · exact Or.inr ⟨p, move, rp, h1, h2, getElem?_append_some more h3, h4⟩

theorem tried_mono {symmetry : Int} {recs : List Rec} {i : Nat} {move : Move}
    (more : List Rec) (hi : i < recs.length) (h : Tried symmetry recs i move) :
    Tried symmetry (recs ++ more) i move := by
  intro r grid' hr hs
  rw [List.getElem?_append_left hi] at hr
  obtain ⟨key, h1, h2⟩ := h r grid' hr hs
  exact ⟨key, h1, by rw [List.map_append]; exact List.mem_append_left _ h2⟩

/-- The walk back from a record collects the moves of its path, last move first, when the
fuel covers the length of the path, and runs out of fuel otherwise. -/
theorem walkBack_spec {searchTree : Tree} {recs : List Rec}
    (inv : TreeLogInv searchTree (recs.map Rec.adm))
    (link : ∀ (i : Nat) (r : Rec), recs[i]? = some r → RecLink recs i r) :
    ∀ (i : Nat) (r : Rec), recs[i]? = some r → ∀ (fuel : Nat) (acc : List Move),
      walkBack searchTree fuel r.edge acc =
        if r.path.length ≤ fuel then some (some (acc ++ r.path.reverse)) else some none := by
  intro i
  induction i using Nat.strong_induction_on with
  | _ i ih =>
    intro r hr fuel acc
    rcases link i r hr with ⟨h1, h2⟩ | ⟨p, move, rp, h1, h2, h3, h4⟩
    · rw [h1, h2]
      cases fuel <;> simp [walkBack]
    · rw [h1, h4]
      cases fuel with
      | zero => simp [walkBack]
      | succ fuel =>
        have hedge : searchTree.EdgeAt (p : Int) = some rp.edge := by
          rw [edgeAt_of_inv inv _ (by omega)]
          simp only [Int.toNat_ofNat, List.map_map, List.getElem?_map, h3]
          rfl
        simp only [walkBack, hedge]
        rw [ih p h2 rp h3 fuel (acc ++ [move])]
        simp only [List.length_append, List.length_singleton, Nat.add_le_add_iff_right,
          List.reverse_append, List.reverse_singleton, List.append_assoc]

/-! ## The search: one candidate move -/

theorem getElem?_snoc_cases {α : Type} {l : List α} {a r : α} {i : Nat}
    (h : (l ++ [a])[i]? = some r) :
    (i < l.length ∧ l[i]? = some r) ∨ (i = l.length ∧ r = a) := by
  by_cases hi : i < l.length
  · rw [List.getElem?_append_left hi] at h
    exact Or.inl ⟨hi, h⟩
  · rw [List.getElem?_append_right (by omega)] at h
    by_cases h0 : i - l.length = 0
    · rw [h0] at h
      simp only [List.getElem?_cons_zero, Option.some.injEq] at h
      exact Or.inr ⟨by omega, h.symm⟩
    · obtain ⟨k, hk⟩ := Nat.exists_eq_succ_of_ne_zero h0
      rw [hk] at h
      simp at h

theorem getElem?_lt_length {α : Type} {l : List α} {a : α} {i : Nat} (h : l[i]? = some a) :
    i < l.length := by
  by_contra hi
  rw [List.getElem?_eq_none (by omega)] at h
  cases h

/-- The success branch returns the board with the path of the last record when the fuel
covers the walk back, and runs out of fuel otherwise. -/
theorem reconstruct_spec {searchTree : Tree} {recs : List Rec} {last : Rec}
    (inv : TreeLogInv searchTree ((recs ++ [last]).map Rec.adm))
    (link : ∀ (i : Nat) (r : Rec), (recs ++ [last])[i]? = some r →
      RecLink (recs ++ [last]) i r)
    (fuel : Nat) (grid : Grid) :
    reconstruct fuel searchTree grid =
      if last.path.length ≤ fuel then .found grid last.path else .timeout := by
  have hlen : searchTree.edges.length = recs.length + 1 := by
    rw [inv.edges_eq]
    simp
  have hlast : (recs ++ [last])[recs.length]? = some last := by
    rw [List.getElem?_append_right (by omega)]
    simp
  have hidx : searchTree.LastIndex = some (recs.length : Int) := by
    unfold SearchTree.LastIndex
    rw [if_pos (by omega), hlen]
    simp
  have hedge : searchTree.EdgeAt (recs.length : Int) = some last.edge := by
    rw [edgeAt_of_inv inv _ (by omega)]
    simp only [Int.toNat_ofNat, List.map_map, List.getElem?_map, hlast]
    rfl
  simp only [reconstruct, hidx, hedge, walkBack_spec inv link _ _ hlast fuel []]
  by_cases hf : last.path.length ≤ fuel
  · simp [hf]
  · simp [hf]

end Klotski

namespace Klotski

theorem tryMove_spec {start : Grid} {goal : Grid → Bool} {symmetry : Int}
    (hsym : symmetry = NoKeySymmetry ∨ symmetry = HorizontalKeySymmetry)
    (hsize : ¬wrapInt (start.SizeX * start.SizeY) < 0) {d : Nat} (fuel : Nat)
    {searchTree : Tree}
    {recs : List Rec} (inv : PassInv start goal symmetry d searchTree recs)
    {parentIndex pieceIndex : Int} {step : Step}
    (hp0 : searchTree.CurrentDepth.A ≤ parentIndex)
    (hp1 : parentIndex < searchTree.CurrentDepth.B)
    (hm : Move.Legal start.Pieces.length ⟨pieceIndex, step⟩) :
    (∃ searchTree' more,
        tryMove fuel goal symmetry parentIndex pieceIndex searchTree step = .next searchTree' ∧
        PassInv start goal symmetry d searchTree' (recs ++ more) ∧
        searchTree'.CurrentDepth = searchTree.CurrentDepth ∧
        Tried symmetry (recs ++ more) parentIndex.toNat ⟨pieceIndex, step⟩) ∨
      (∃ outcome,
        tryMove fuel goal symmetry parentIndex pieceIndex searchTree step = .exit outcome ∧
        ExitOK start goal d fuel outcome) := by
  have hA := inv.tree.a_nonneg
  have hB := inv.tree.b_le
  simp only [List.length_map] at hB
  have hpi : parentIndex.toNat < recs.length := by omega
  have hcast : (parentIndex.toNat : Int) = parentIndex := Int.toNat_of_nonneg (by omega)
  obtain ⟨rp, hrp⟩ : ∃ rp, recs[parentIndex.toNat]? = some rp :=
    ⟨recs[parentIndex.toNat], List.getElem?_eq_getElem hpi⟩
  have hnode : searchTree.NodeAt parentIndex = some rp.grid := by
    rw [nodeAt_of_inv inv.tree _ hp0]
    simp only [List.map_map, List.getElem?_map, hrp]
    rfl
  have hreach := inv.reach _ _ hrp
  obtain ⟨f1, f2, f3, -⟩ := runPath_frame _ hreach.2
  obtain ⟨b', happ⟩ := @apply_spec rp.grid ⟨pieceIndex, step⟩ hm.1
    (by rw [f3]; exact hm.2.1)
  obtain ⟨e1, e2, -, -⟩ := apply_frame happ
  have hvne : start.CellCountFits → b'.Validate ≠ none := fun hfit =>
    validate_ne_none (by unfold Grid.CellCountFits; rw [e1, e2, f1, f2]; exact hfit)
      (by rw [e1, e2, f1, f2]; exact hsize)
  have hnil : PassInv start goal symmetry d searchTree (recs ++ []) := by
    rw [List.append_nil]; exact inv
  cases hv : b'.Validate with
  | none =>
    by_cases hfit : start.CellCountFits
    · exact absurd hv (hvne hfit)
    · refine Or.inr ⟨.panic, ?_, Or.inr ⟨hfit, rfl⟩⟩
      simp only [tryMove, hnode, copy_eq, happ, hv]
  | some res =>
    cases res with
    | none =>
      refine Or.inl ⟨searchTree, [], ?_, hnil, rfl, ?_⟩
      · simp only [tryMove, hnode, copy_eq, happ, hv]
      · intro r grid' hr hs
        rw [List.append_nil, hrp] at hr
        cases hr
        simp [stepTo, happ, Grid.IsValid, hv] at hs
    | some validated =>
      cases hkey : validated.Key symmetry with
      | none =>
        by_cases hfit : start.CellCountFits
        · have hfit' : b'.CellCountFits := by
            unfold Grid.CellCountFits; rw [e1, e2, f1, f2]; exact hfit
          obtain ⟨key, hkey'⟩ := key_total hfit' hv hsym
          rw [hkey] at hkey'
          cases hkey'
        · refine Or.inr ⟨.panic, ?_, Or.inr ⟨hfit, rfl⟩⟩
          simp only [tryMove, hnode, copy_eq, happ, hv, hkey]
      | some key =>
      have hstep : stepTo rp.grid ⟨pieceIndex, step⟩ = some b' := by
        simp [stepTo, happ, Grid.IsValid, hv]
      have hkeyOf : keyOf symmetry b' = some key := by
        simp only [keyOf, hv, hkey]
      by_cases hmem : key ∈ searchTree.keys
      · refine Or.inl ⟨searchTree, [], ?_, hnil, rfl, ?_⟩
        · simp only [tryMove, hnode, copy_eq, happ, hv, hkey, append_of_mem _ _ _ _ hmem]
        · intro r grid' hr hs
          rw [List.append_nil, hrp] at hr
          cases hr
          rw [hstep] at hs
          cases hs
          refine ⟨key, hkeyOf, ?_⟩
          rw [inv.tree.keys_eq, List.mem_toFinset] at hmem
          simpa [Rec.adm, List.map_map] using hmem
      · obtain ⟨t', happend⟩ : ∃ t', searchTree.Append b'
            (some (⟨parentIndex, ⟨pieceIndex, step⟩⟩ : SearchEdge)) key = (t', true) :=
          ⟨_, append_of_not_mem _ _ _ _ hmem⟩
        have ht1 : (searchTree.Append b'
            (some (⟨parentIndex, ⟨pieceIndex, step⟩⟩ : SearchEdge)) key).1 = t' := by
          rw [happend]
        have htree' : TreeLogInv t' ((recs ++ [(Rec.mk b' (some ⟨parentIndex, ⟨pieceIndex, step⟩⟩) key (rp.path ++ [⟨pieceIndex, step⟩]))]).map Rec.adm) := by
          have := treeLogInv_append inv.tree b'
            (some (⟨parentIndex, ⟨pieceIndex, step⟩⟩ : SearchEdge)) key hmem
          rw [ht1] at this
          rw [List.map_append]
          exact this
        have hcd' : t'.CurrentDepth = searchTree.CurrentDepth := by
          rw [← ht1]
          exact currentDepth_append _ _ _ _
        have hlink' : ∀ (i : Nat) (r : Rec), (recs ++ [(Rec.mk b' (some ⟨parentIndex, ⟨pieceIndex, step⟩⟩) key (rp.path ++ [⟨pieceIndex, step⟩]))])[i]? = some r →
            RecLink (recs ++ [(Rec.mk b' (some ⟨parentIndex, ⟨pieceIndex, step⟩⟩) key (rp.path ++ [⟨pieceIndex, step⟩]))]) i r := by
          intro i r hr
          rcases getElem?_snoc_cases hr with ⟨_, h⟩ | ⟨hi, rfl⟩
          · exact recLink_mono _ (inv.link i r h)
          · exact Or.inr ⟨parentIndex.toNat, ⟨pieceIndex, step⟩, rp, by rw [hcast], by omega,
              getElem?_append_some _ hrp, rfl⟩
        have hreach' : Reaches start (rp.path ++ [⟨pieceIndex, step⟩]) b' :=
          reaches_snoc hreach hm hstep
        have hdepth : (rp.path ++ [(⟨pieceIndex, step⟩ : Move)]).length = d := by
          rw [List.length_append, List.length_singleton]
          exact inv.depth_cur _ _ hrp (by omega) (by omega)
        by_cases hg : goal b' = true
        · refine Or.inr ⟨_, ?_, Or.inl ⟨b', rp.path ++ [⟨pieceIndex, step⟩], hreach', hg, hdepth,
            rfl⟩⟩
          simp only [tryMove, hnode, copy_eq, happ, hv, hkey, happend, hg, if_true]
          rw [reconstruct_spec htree' hlink' fuel b', hdepth]
        · refine Or.inl ⟨t', [(Rec.mk b' (some ⟨parentIndex, ⟨pieceIndex, step⟩⟩) key (rp.path ++ [⟨pieceIndex, step⟩]))], ?_, ?_, hcd', ?_⟩
          · simp only [tryMove, hnode, copy_eq, happ, hv, hkey, happend, hg]
            rfl
          · refine ⟨⟨htree', hlink', ?_, ?_, ?_⟩, ?_, ?_, ?_⟩
            · intro i r hr
              rcases getElem?_snoc_cases hr with ⟨_, h⟩ | ⟨_, rfl⟩
              · exact inv.reach i r h
              · exact hreach'
            · intro i r hr
              rcases getElem?_snoc_cases hr with ⟨_, h⟩ | ⟨_, rfl⟩
              · exact inv.key i r h
              · exact hkeyOf
            · intro i r hr
              rcases getElem?_snoc_cases hr with ⟨_, h⟩ | ⟨_, rfl⟩
              · exact inv.goal i r h
              · simpa using hg
            · intro i r hr h1 h2
              rw [hcd'] at h1 h2
              rcases getElem?_snoc_cases hr with ⟨_, h⟩ | ⟨hi, rfl⟩
              · exact inv.depth_cur i r h h1 h2
              · omega
            · intro i r hr h1
              rw [hcd'] at h1
              rcases getElem?_snoc_cases hr with ⟨_, h⟩ | ⟨_, rfl⟩
              · exact inv.depth_new i r h h1
              · exact hdepth
            · intro i move h1 hlegal
              rw [hcd'] at h1
              have hab := inv.tree.a_le_b
              exact tried_mono _ (by omega) (inv.expanded i move h1 hlegal)
          · intro r grid' hr hs
            rw [List.getElem?_append_left hpi, hrp] at hr
            cases hr
            rw [hstep] at hs
            cases hs
            exact ⟨key, hkeyOf, by simp⟩

/-! ## The search: the three nested loops -/

/-- Sequencing of loop bodies: a loop over `xs` whose body establishes `Q x` establishes
`Q x` for every `x` of `xs`, provided `Q x` survives the admission of more records. -/
theorem loop_spec {α : Type} {start : Grid} {goal : Grid → Bool} {symmetry : Int} {d fuel : Nat}
    (body : α → Tree → Ctl) (loop : List α → Tree → Ctl)
    (hnil : ∀ t, loop [] t = .next t)
    (hcons : ∀ x xs t, loop (x :: xs) t =
      match body x t with
      | .next t' => loop xs t'
      | .exit outcome => .exit outcome)
    (cd : IndexRange) (Q : α → List Rec → Prop)
    (hmono : ∀ x recs more, cd.B ≤ (recs.length : Int) → Q x recs → Q x (recs ++ more))
    (xs : List α) :
    (∀ x ∈ xs, ∀ t recs, PassInv start goal symmetry d t recs → t.CurrentDepth = cd →
      LoopOK start goal symmetry d fuel t recs (Q x) (body x t)) →
    ∀ t recs, PassInv start goal symmetry d t recs → t.CurrentDepth = cd →
      LoopOK start goal symmetry d fuel t recs (fun recs' => ∀ x ∈ xs, Q x recs') (loop xs t) := by
  induction xs with
  | nil =>
    intro _ t recs inv _
    exact Or.inl ⟨t, [], hnil t, by rw [List.append_nil]; exact inv, rfl, by simp⟩
  | cons x rest ih =>
    intro hbody t recs inv hcd
    rcases hbody x (by simp) t recs inv hcd with ⟨t1, more1, h1, inv1, hcd1, hq1⟩ | ⟨o, h1, ho⟩
    · have hcd1' : t1.CurrentDepth = cd := hcd1.trans hcd
      rcases ih (fun y hy => hbody y (List.mem_cons_of_mem _ hy)) t1 (recs ++ more1) inv1 hcd1'
        with ⟨t2, more2, h2, inv2, hcd2, hq2⟩ | ⟨o, h2, ho⟩
      · refine Or.inl ⟨t2, more1 ++ more2, ?_, ?_, hcd2.trans hcd1, ?_⟩
        · rw [hcons, h1]; exact h2
        · rw [← List.append_assoc]; exact inv2
        · rw [← List.append_assoc]
          intro y hy
          rcases List.mem_cons.1 hy with rfl | hy
          · have hb := inv1.tree.b_le
            rw [hcd1', List.length_map] at hb
            exact hmono _ _ _ hb hq1
          · exact hq2 y hy
      · exact Or.inr ⟨o, by rw [hcons, h1]; exact h2, ho⟩
    · exact Or.inr ⟨o, by rw [hcons, h1], ho⟩

theorem tried_mono_of_le {symmetry : Int} {recs : List Rec} {i : Int} {move : Move}
    {cd : IndexRange} (h0 : 0 ≤ i) (hi : i < cd.B) (more : List Rec)
    (hb : cd.B ≤ (recs.length : Int))
    (h : Tried symmetry recs i.toNat move) : Tried symmetry (recs ++ more) i.toNat move :=
  tried_mono more (by omega) h

/-- Expansion of one level: when the loop over the parents of the level goes on, every move
of the puzzle has been tried on every record of the level. -/
theorem parentLoop_spec {start : Grid} {goal : Grid → Bool} {symmetry : Int}
    (hsym : symmetry = NoKeySymmetry ∨ symmetry = HorizontalKeySymmetry)
    (hsize : ¬wrapInt (start.SizeX * start.SizeY) < 0) {d : Nat} (fuel : Nat) {searchTree : Tree}
    {recs : List Rec} (inv : PassInv start goal symmetry d searchTree recs) :
    LoopOK start goal symmetry d fuel searchTree recs
      (fun recs' => ∀ parentIndex ∈ intRange searchTree.CurrentDepth.A searchTree.CurrentDepth.B,
        ∀ pieceIndex ∈ intRange 0 (start.Pieces.length : Int), ∀ step ∈ StepAll,
          Tried symmetry recs' parentIndex.toNat ⟨pieceIndex, step⟩)
      (parentLoop fuel goal symmetry (start.Pieces.length : Int)
        (intRange searchTree.CurrentDepth.A searchTree.CurrentDepth.B) searchTree) := by
  have hA := inv.tree.a_nonneg
  refine (loop_spec
    (fun parentIndex t => pieceLoop fuel goal symmetry parentIndex
      (intRange 0 (start.Pieces.length : Int)) t)
    (parentLoop fuel goal symmetry (start.Pieces.length : Int))
    (fun _ => rfl) (fun _ _ _ => rfl) searchTree.CurrentDepth
    (fun parentIndex recs' => (0 ≤ parentIndex ∧ parentIndex < searchTree.CurrentDepth.B) ∧
      ∀ pieceIndex ∈ intRange 0 (start.Pieces.length : Int), ∀ step ∈ StepAll,
        Tried symmetry recs' parentIndex.toNat ⟨pieceIndex, step⟩)
    ?_ _ ?_ searchTree recs inv rfl).imp ?_ id
  · intro parentIndex recs' more hb ⟨hlt, hq⟩
    exact ⟨hlt, fun pi hpi s hs => tried_mono_of_le hlt.1 hlt.2 more hb (hq pi hpi s hs)⟩
  · intro parentIndex hparent t1 recs1 inv1 hcd1
    have hp := (mem_intRange _ _ _).1 hparent
    refine (loop_spec
      (fun pieceIndex t => stepLoop fuel goal symmetry parentIndex pieceIndex StepAll t)
      (pieceLoop fuel goal symmetry parentIndex)
      (fun _ => rfl) (fun _ _ _ => rfl) searchTree.CurrentDepth
      (fun pieceIndex recs' => ∀ step ∈ StepAll,
        Tried symmetry recs' parentIndex.toNat ⟨pieceIndex, step⟩)
      ?_ _ ?_ t1 recs1 inv1 hcd1).imp ?_ id
    · intro pieceIndex recs' more hb hq s hs
      exact tried_mono_of_le (by omega) hp.2 more hb (hq s hs)
    · intro pieceIndex hpiece t2 recs2 inv2 hcd2
      have hpc := (mem_intRange _ _ _).1 hpiece
      refine loop_spec
        (fun step t => tryMove fuel goal symmetry parentIndex pieceIndex t step)
        (stepLoop fuel goal symmetry parentIndex pieceIndex)
        (fun _ => rfl) (fun _ _ _ => rfl) searchTree.CurrentDepth
        (fun step recs' => Tried symmetry recs' parentIndex.toNat ⟨pieceIndex, step⟩)
        ?_ _ ?_ t2 recs2 inv2 hcd2
      · intro step recs' more hb hq
        exact tried_mono_of_le (by omega) hp.2 more hb hq
      · intro step hstep t3 recs3 inv3 hcd3
        exact tryMove_spec hsym hsize fuel inv3 (by rw [hcd3]; exact hp.1)
          (by rw [hcd3]; exact hp.2) ⟨hpc.1, hpc.2, hstep⟩
    · rintro ⟨t', more, h1, h2, h3, h4⟩
      exact ⟨t', more, h1, h2, h3, ⟨by omega, hp.2⟩, h4⟩
  · rintro ⟨t', more, h1, h2, h3, h4⟩
    exact ⟨t', more, h1, h2, h3, fun p hp pi hpi s hs => (h4 p hp).2 pi hpi s hs⟩

/-! ## The search: one pass, and soundness of the loop -/

theorem start_pass {start : Grid} {goal : Grid → Bool} {symmetry : Int} {d : Nat}
    {searchTree : Tree} {recs : List Rec} (inv : StartInv start goal symmetry d searchTree recs) :
    ∃ t1, searchTree.IncrementDepth = some t1 ∧
      t1.CurrentDepth = ⟨searchTree.CurrentDepth.B, (recs.length : Int)⟩ ∧
      PassInv start goal symmetry d t1 recs := by
  obtain ⟨t1, h1, inv1, hcd, -⟩ := treeLogInv_incrementDepth inv.tree
  rw [List.length_map] at hcd
  refine ⟨t1, h1, hcd, ⟨⟨inv1, inv.link, inv.reach, inv.key, inv.goal⟩, ?_, ?_, ?_⟩⟩
  · intro i r hr h2 _
    rw [hcd] at h2
    exact inv.depth_new i r hr h2
  · intro i r hr h2
    rw [hcd] at h2
    have := getElem?_lt_length hr
    simp only at h2
    omega
  · intro i move h2 hlegal
    rw [hcd] at h2
    exact inv.expanded i move h2 hlegal

theorem end_pass {start : Grid} {goal : Grid → Bool} {symmetry : Int} {d : Nat}
    {searchTree : Tree} {recs : List Rec} (inv : PassInv start goal symmetry d searchTree recs)
    (htried : ∀ parentIndex ∈ intRange searchTree.CurrentDepth.A searchTree.CurrentDepth.B,
      ∀ pieceIndex ∈ intRange 0 (start.Pieces.length : Int), ∀ step ∈ StepAll,
        Tried symmetry recs parentIndex.toNat ⟨pieceIndex, step⟩) :
    StartInv start goal symmetry (d + 1) searchTree recs := by
  refine ⟨inv.toRecsInv, ?_, ?_⟩
  · intro i r hr h2
    rw [inv.depth_new i r hr h2]
  · intro i move h2 hlegal
    by_cases hlt : (i : Int) < searchTree.CurrentDepth.A
    · exact inv.expanded i move hlt hlegal
    · have := htried (i : Int) ((mem_intRange _ _ _).2 ⟨by omega, h2⟩) move.PieceIndex
        ((mem_intRange _ _ _).2 ⟨hlegal.1, hlegal.2.1⟩) move.Step hlegal.2.2
      simpa using this

/-- One pass of the search loop between two passes: either nothing was admitted since the
last level was opened and the pass returns 'no solution', or the level is expanded and
the pass returns a solution of `d` moves or leaves the tree ready for pass `d + 1`. -/
theorem searchPass_spec {start : Grid} {goal : Grid → Bool} {symmetry : Int}
    (hsym : symmetry = NoKeySymmetry ∨ symmetry = HorizontalKeySymmetry)
    (hsize : ¬wrapInt (start.SizeX * start.SizeY) < 0) {d : Nat} (fuel : Nat) {searchTree : Tree}
    {recs : List Rec} (inv : StartInv start goal symmetry d searchTree recs) :
    (searchTree.CurrentDepth.B = (recs.length : Int) ∧
      searchPass fuel goal symmetry (start.Pieces.length : Int) searchTree = .exit .noSolution) ∨
    (searchTree.CurrentDepth.B < (recs.length : Int) ∧
      ((∃ t' more,
          searchPass fuel goal symmetry (start.Pieces.length : Int) searchTree = .next t' ∧
          StartInv start goal symmetry (d + 1) t' (recs ++ more) ∧
          t'.CurrentDepth.B = (recs.length : Int)) ∨
        (∃ outcome,
          searchPass fuel goal symmetry (start.Pieces.length : Int) searchTree = .exit outcome ∧
          ExitOK start goal d fuel outcome))) := by
  obtain ⟨t1, h1, hcd, inv1⟩ := start_pass inv
  have hb := inv.tree.b_le
  rw [List.length_map] at hb
  by_cases hempty : searchTree.CurrentDepth.B = (recs.length : Int)
  · refine Or.inl ⟨hempty, ?_⟩
    simp only [searchPass, h1, hcd, IndexRange.IsEmpty, hempty]
    simp
  · refine Or.inr ⟨by omega, ?_⟩
    have hne : ¬(recs.length : Int) ≤ searchTree.CurrentDepth.B := by omega
    have hpass : searchPass fuel goal symmetry (start.Pieces.length : Int) searchTree =
        parentLoop fuel goal symmetry (start.Pieces.length : Int)
          (intRange t1.CurrentDepth.A t1.CurrentDepth.B) t1 := by
      simp only [searchPass, h1, hcd, IndexRange.IsEmpty, hne, decide_False]
      rfl
    rw [hpass]
    rcases parentLoop_spec hsym hsize fuel inv1 with ⟨t', more, h2, inv2, hcd2, hq⟩ | hexit
    · refine Or.inl ⟨t', more, h2, ?_, by rw [hcd2, hcd]⟩
      apply end_pass inv2
      rw [hcd2]
      exact hq
    · exact Or.inr hexit

/-- The tree seeded with the start board, ready for pass 1. -/
theorem startInv_seed {start : Grid} {goal : Grid → Bool} {symmetry : Int} {key : GoString}
    (hkey : keyOf symmetry start = some key) (hgoal : goal start = false) :
    StartInv start goal symmetry 1
      ((NewSearchTree Grid (Option SearchEdge)).Append start none key).1
      [⟨start, none, key, []⟩] := by
  have hnot : key ∉ (NewSearchTree Grid (Option SearchEdge)).keys := by simp [NewSearchTree]
  have htree := treeLogInv_append (treeLogInv_new (N := Grid) (E := Option SearchEdge))
    start none key hnot
  have hcd : ((NewSearchTree Grid (Option SearchEdge)).Append start none key).1.CurrentDepth
      = ⟨0, 0⟩ := by
    rw [currentDepth_append]
    rfl
  have hone : ∀ (i : Nat) (r : Rec), [Rec.mk start none key []][i]? = some r →
      i = 0 ∧ r = ⟨start, none, key, []⟩ := by
    intro i r hr
    cases i with
    | zero => simp at hr; exact ⟨rfl, hr.symm⟩
    | succ i => simp at hr
  refine ⟨⟨htree, ?_, ?_, ?_, ?_⟩, ?_, ?_⟩
  · intro i r hr
    obtain ⟨-, rfl⟩ := hone i r hr
    exact Or.inl ⟨rfl, rfl⟩
  · intro i r hr
    obtain ⟨-, rfl⟩ := hone i r hr
    exact reaches_nil start
  · intro i r hr
    obtain ⟨-, rfl⟩ := hone i r hr
    exact hkey
  · intro i r hr
    obtain ⟨-, rfl⟩ := hone i r hr
    exact hgoal
  · intro i r hr _
    obtain ⟨-, rfl⟩ := hone i r hr
    rfl
  · intro i move h2 _
    rw [hcd] at h2
    simp only at h2
    omega

/-- Soundness of the search loop: a returned solution is a path of valid moves from the
start board to the returned board, on which the goal predicate holds. -/
theorem searchLoop_sound {start : Grid} {goal : Grid → Bool} {symmetry : Int}
    (hsym : symmetry = NoKeySymmetry ∨ symmetry = HorizontalKeySymmetry)
    (hsize : ¬wrapInt (start.SizeX * start.SizeY) < 0) (fuel : Nat) :
    ∀ {d : Nat} {searchTree : Tree} {recs : List Rec},
      StartInv start goal symmetry d searchTree recs → ∀ {grid : Grid} {path : List Move},
      searchLoop goal symmetry (start.Pieces.length : Int) fuel searchTree = .found grid path →
      Reaches start path grid ∧ goal grid = true := by
  induction fuel with
  | zero =>
    intro d t recs _ grid path h
    simp [searchLoop] at h
  | succ fuel ih =>
    intro d t recs inv grid path h
    simp only [searchLoop] at h
    rcases searchPass_spec hsym hsize (fuel + 1) inv with ⟨-, h1⟩ | ⟨-, h1 | h1⟩
    · rw [h1] at h
      cases h
    · obtain ⟨t', more, h1, inv', -⟩ := h1
      rw [h1] at h
      exact ih inv' h
    · obtain ⟨o, h1, ⟨g, p, hreach, hg, -, ho⟩ | ⟨-, ho⟩⟩ := h1
      · rw [h1] at h
        simp only at h
        rw [ho] at h
        split at h
        · cases h
          exact ⟨hreach, hg⟩
        · cases h
      · rw [h1] at h
        simp only at h
        rw [ho] at h
        cases h

/-! ## C1: soundness of `solvePuzzle` -/

theorem runPath_applyMoves (path : List Move) :
    ∀ {grid grid' : Grid}, runPath grid path = some grid' → applyMoves grid path = some grid' := by
  induction path with
  | nil => intro grid grid' h; exact h
  | cons move rest ih =>
    intro grid grid' h
    simp only [runPath] at h
    cases hs : stepTo grid move with
    | none => rw [hs] at h; cases h
    | some g1 =>
      rw [hs] at h
      simp only [applyMoves, (stepTo_apply hs).1]
      exact ih h

theorem runPath_valid_last (path : List Move) :
    ∀ {grid grid' : Grid}, runPath grid path = some grid' → path ≠ [] →
      grid'.IsValid = true := by
  induction path with
  | nil => intro grid grid' _ hne; exact absurd rfl hne
  | cons move rest ih =>
    intro grid grid' h _
    simp only [runPath] at h
    cases hs : stepTo grid move with
    | none => rw [hs] at h; cases h
    | some g1 =>
      rw [hs] at h
      by_cases hrest : rest = []
      · subst hrest
        simp only [runPath, Option.some.injEq] at h
        subst h
        exact (stepTo_apply hs).2
      · exact ih h hrest

theorem runPath_take {grid grid' : Grid} {path : List Move} (h : runPath grid path = some grid')
    (k : Nat) : ∃ board, runPath grid (path.take k) = some board := by
  have hsplit : path = path.take k ++ path.drop k := (List.take_append_drop k path).symm
  rw [hsplit, runPath_append] at h
  cases hk : runPath grid (path.take k) with
  | none => rw [hk] at h; cases h
  | some board => exact ⟨board, rfl⟩

theorem isValid_iff (grid : Grid) :
    grid.IsValid = true ↔ ∃ cells, grid.Validate = some (some cells) := by
  unfold Grid.IsValid
  constructor
  · intro h
    split at h
    · rename_i cells hc
      exact ⟨cells, hc⟩
    · cases h
  · rintro ⟨cells, hc⟩
    rw [hc]

theorem key_unsupported (cells : gridCells) {symmetry : Int} (h0 : symmetry ≠ NoKeySymmetry)
    (h1 : symmetry ≠ HorizontalKeySymmetry) : cells.Key symmetry = none := by
  simp only [gridCells.Key, if_neg h0, if_neg h1]

/-- The run of `solvePuzzle` after the start board is validated, the goal is found not to
hold on it, and its key is computed. -/
theorem solvePuzzle_seeded {fuel : Nat} {start : Grid} {goal : Grid → Bool} {symmetry : Int}
    {cells : gridCells} {key : GoString} (hv : start.Validate = some (some cells))
    (hg : goal start = false) (hk : cells.Key symmetry = some key) :
    solvePuzzle fuel start goal symmetry =
      searchLoop goal symmetry (start.Pieces.length : Int) fuel
        ((NewSearchTree Grid (Option SearchEdge)).Append start none key).1 := by
  simp only [solvePuzzle, hv, hg, hk]
  rfl

/-- C1. Soundness of `solvePuzzle`: whenever it returns a board with a move list (for any
fuel, initial board, goal predicate and symmetry mode), applying the moves in order with
`Grid.Apply` to a copy of the initial board yields exactly the returned board, every board
obtained after a move passes `Grid.Validate`, and the goal predicate holds on the returned
board. -/
theorem solve_sound (fuel : Nat) (initialGrid : Grid) (successCondition : Grid → Bool)
    (symmetry : Int) (grid : Grid) (path : List Move)
    (h : solvePuzzle fuel initialGrid successCondition symmetry = .found grid path) :
    applyMoves initialGrid.Copy path = some grid ∧
    (∀ k, 0 < k → k ≤ path.length →
      ∃ board cells, applyMoves initialGrid.Copy (path.take k) = some board ∧
        board.Validate = some (some cells)) ∧
    successCondition grid = true := by
  have key : Reaches initialGrid path grid ∧ successCondition grid = true := by
    cases hv : initialGrid.Validate with
    | none => simp [solvePuzzle, hv] at h
    | some res =>
      cases res with
      | none => simp [solvePuzzle, hv] at h
      | some cells =>
        by_cases hg : successCondition initialGrid = true
        · simp only [solvePuzzle, hv, hg, if_true, Outcome.found.injEq] at h
          obtain ⟨rfl, rfl⟩ := h
          exact ⟨reaches_nil _, hg⟩
        · have hg' : successCondition initialGrid = false := by simpa using hg
          cases hk0 : cells.Key symmetry with
          | none => simp [solvePuzzle, hv, hg', hk0] at h
          | some k0 =>
            by_cases hsym : symmetry = NoKeySymmetry ∨ symmetry = HorizontalKeySymmetry
            · rw [solvePuzzle_seeded hv hg' hk0] at h
              have hkeyOf : keyOf symmetry initialGrid = some k0 := by
                simp only [keyOf, hv, hk0]
              exact searchLoop_sound hsym (validate_size_nonneg hv) fuel
                (startInv_seed hkeyOf hg') h
            · have hk := key_unsupported cells (fun h0 => hsym (Or.inl h0))
                (fun h1 => hsym (Or.inr h1))
              rw [hk] at hk0
              cases hk0
  obtain ⟨⟨-, hrun⟩, hgoal⟩ := key
  refine ⟨runPath_applyMoves path hrun, ?_, hgoal⟩
  intro k hk0 hk1
  obtain ⟨board, hb⟩ := runPath_take hrun k
  have hne : path.take k ≠ [] := by
    intro hnil
    have := congrArg List.length hnil
    simp only [List.length_take, List.length_nil] at this
    omega
  obtain ⟨cells, hc⟩ := (isValid_iff board).1 (runPath_valid_last _ hb hne)
  exact ⟨board, cells, runPath_applyMoves _ hb, hc⟩

/-- Witness of C1: the solution returned on the 2x1 board with one single-cell piece. -/
theorem solve_sound_witness :
    applyMoves (Grid.mk 2 1 [⟨⟨65, 1⟩, ⟨0, 0⟩, [⟨0, 0⟩]⟩]).Copy [⟨0, StepRight⟩]
      = some (Grid.mk 2 1 [⟨⟨65, 1⟩, ⟨1, 0⟩, [⟨0, 0⟩]⟩]) ∧
    (∀ k, 0 < k → k ≤ [(⟨0, StepRight⟩ : Move)].length →
      ∃ board cells,
        applyMoves (Grid.mk 2 1 [⟨⟨65, 1⟩, ⟨0, 0⟩, [⟨0, 0⟩]⟩]).Copy
          ([(⟨0, StepRight⟩ : Move)].take k) = some board ∧
        board.Validate = some (some cells)) ∧
    (fun g : Grid => decide (g.Pieces.map (fun piece => piece.Position) = [⟨1, 0⟩]))
      (Grid.mk 2 1 [⟨⟨65, 1⟩, ⟨1, 0⟩, [⟨0, 0⟩]⟩]) = true :=
  solve_sound 1 (Grid.mk 2 1 [⟨⟨65, 1⟩, ⟨0, 0⟩, [⟨0, 0⟩]⟩])
    (fun g => decide (g.Pieces.map (fun piece => piece.Position) = [⟨1, 0⟩]))
    NoKeySymmetry (Grid.mk 2 1 [⟨⟨65, 1⟩, ⟨1, 0⟩, [⟨0, 0⟩]⟩]) [⟨0, StepRight⟩] (by decide)

/-! ## C8: the 2x1 scenario -/

theorem scen_up (tag : PieceTag) (keys : Finset GoString) (fuel : Nat) (symmetry : Int) :
    tryMove fuel scenarioGoal symmetry 0 0 (scenarioTree tag keys) StepUp
      = .next (scenarioTree tag keys) := rfl

theorem scen_down (tag : PieceTag) (keys : Finset GoString) (fuel : Nat) (symmetry : Int) :
    tryMove fuel scenarioGoal symmetry 0 0 (scenarioTree tag keys) StepDown
      = .next (scenarioTree tag keys) := rfl

theorem scen_left (tag : PieceTag) (keys : Finset GoString) (fuel : Nat) (symmetry : Int) :
    tryMove fuel scenarioGoal symmetry 0 0 (scenarioTree tag keys) StepLeft
      = .next (scenarioTree tag keys) := rfl

theorem scen_right (tag : PieceTag) (keys : Finset GoString) (fuel : Nat) (symmetry : Int) :
    tryMove fuel scenarioGoal symmetry 0 0 (scenarioTree tag keys) StepRight
      = match (gridCells.mk 2 1 [PieceTagEmpty, tag]).Key symmetry with
        | none => .exit .panic
        | some key =>
          match (scenarioTree tag keys).Append (scenarioGrid tag 1)
              (some ⟨0, ⟨0, StepRight⟩⟩) key with
          | (_, false) => .next (scenarioTree tag keys)
          | (searchTree', true) =>
            .exit (reconstruct fuel searchTree' (scenarioGrid tag 1)) := rfl

theorem ctl_match_id (c : Ctl) :
    (match c with
      | .next t => Ctl.next t
      | .exit o => Ctl.exit o) = c := by
  cases c <;> rfl

theorem scen_steps (tag : PieceTag) (keys : Finset GoString) (fuel : Nat) (symmetry : Int) :
    stepLoop fuel scenarioGoal symmetry 0 0 StepAll (scenarioTree tag keys)
      = tryMove fuel scenarioGoal symmetry 0 0 (scenarioTree tag keys) StepRight := by
  simp only [stepLoop, StepAll, scen_up, scen_down, scen_left]
  exact ctl_match_id _

theorem scen_pass (tag : PieceTag) (keys : Finset GoString) (fuel : Nat) (symmetry : Int) :
    searchPass fuel scenarioGoal symmetry 1 ⟨[scenarioGrid tag 0], [none], [], keys⟩
      = tryMove fuel scenarioGoal symmetry 0 0 (scenarioTree tag keys) StepRight := by
  have h1 : searchPass fuel scenarioGoal symmetry 1 ⟨[scenarioGrid tag 0], [none], [], keys⟩
      = (match (match stepLoop fuel scenarioGoal symmetry 0 0 StepAll (scenarioTree tag keys) with
          | .next t => Ctl.next t
          | .exit o => Ctl.exit o) with
        | .next t => Ctl.next t
        | .exit o => Ctl.exit o) := rfl
  rw [h1, ctl_match_id, ctl_match_id, scen_steps]

/-- The second pass of the 2x1 scenario when the first pass admitted nothing. -/
theorem scen_pass_empty (tag : PieceTag) (keys : Finset GoString) (fuel : Nat)
    (symmetry : Int) :
    searchPass fuel scenarioGoal symmetry 1 (scenarioTree tag keys) = .exit .noSolution := rfl

theorem encodeRune_star : encodeRune 42 = [42] := by decide

theorem scen_key_ne (s : Int) (h : s ≠ 42) :
    runesToString [42, s] ≠ runesToString [s, 42] := by
  intro heq
  simp only [runesToString, encodeRune_star, List.append_nil, List.cons_append,
    List.nil_append] at heq
  by_cases hv : validRune s
  · have := @encodeRune_append_inj 42 s (by decide) hv (encodeRune s) [42]
      (by rw [encodeRune_star]; exact heq)
    exact h this.1.symm
  · have henc : encodeRune s = [0xEF, 0xBF, 0xBD] := by
      unfold encodeRune
      rw [if_pos]
      unfold validRune at hv
      omega
    rw [henc] at heq
    simp at heq

/-- C8, as stated, fails: with horizontal key symmetry the goal board of the 2x1 scenario
is the mirror image of the start board and gets the key of the start board, so it is never
admitted and `solvePuzzle` returns 'no solution' (here for the piece tag `('A',1)`). -/
theorem scenario_2x1_counterexample :
    solvePuzzle 5 (scenarioGrid ⟨65, 1⟩ 0) scenarioGoal HorizontalKeySymmetry = .noSolution := by
  decide

/-- C8, amended. On the board with `SizeX = 2`, `SizeY = 1` holding a single piece with
shape `{(0,0)}` at position `(0,0)`, with the goal 'that piece is at position `(1,0)`':
under `NoKeySymmetry`, when the kind symbol of the piece is not `'*'`, `solvePuzzle` returns
success with the single move 'piece 0, right step `(+1,0)`' and the final board with the
piece at `(1,0)`; under `HorizontalKeySymmetry` it returns 'no solution'. -/
theorem scenario_2x1 (tag : PieceTag) (fuel : Nat) :
    (tag.Symbol ≠ 42 →
      solvePuzzle (fuel + 1) (scenarioGrid tag 0) scenarioGoal NoKeySymmetry
        = .found (scenarioGrid tag 1) [⟨0, StepRight⟩] ∧
      StepRight.Vector = ⟨1, 0⟩ ∧
      (scenarioGrid tag 1).Pieces.map (fun piece => piece.Position) = [⟨1, 0⟩]) ∧
    solvePuzzle (fuel + 2) (scenarioGrid tag 0) scenarioGoal HorizontalKeySymmetry
      = .noSolution := by
  have hv : (scenarioGrid tag 0).Validate = some (some ⟨2, 1, [tag, PieceTagEmpty]⟩) := rfl
  have hg : scenarioGoal (scenarioGrid tag 0) = false := rfl
  have hwf0 : (gridCells.mk 2 1 [tag, PieceTagEmpty]).WellFormed := by
    refine ⟨?_, ?_, ?_⟩ <;> simp
  have hwf1 : (gridCells.mk 2 1 [PieceTagEmpty, tag]).WellFormed := by
    refine ⟨?_, ?_, ?_⟩ <;> simp
  have hlen : ((scenarioGrid tag 0).Pieces.length : Int) = 1 := rfl
  constructor
  · intro hs
    refine ⟨?_, rfl, rfl⟩
    have hne := scen_key_ne tag.Symbol hs
    have hk : (gridCells.mk 2 1 [tag, PieceTagEmpty]).Key NoKeySymmetry
        = some (runesToString [tag.Symbol, 42]) := key_noSymmetry _
    have hk1 : (gridCells.mk 2 1 [PieceTagEmpty, tag]).Key NoKeySymmetry
        = some (runesToString [42, tag.Symbol]) := key_noSymmetry _
    have hseed : ((NewSearchTree Grid (Option SearchEdge)).Append (scenarioGrid tag 0) none
        (runesToString [tag.Symbol, 42])).1
        = ⟨[scenarioGrid tag 0], [none], [], {runesToString [tag.Symbol, 42]}⟩ := by
      simp [SearchTree.Append, NewSearchTree]
    have hnot : runesToString [42, tag.Symbol] ∉
        (scenarioTree tag {runesToString [tag.Symbol, 42]}).keys := by
      simpa [scenarioTree] using hne
    rw [solvePuzzle_seeded hv hg hk, hseed, hlen]
    simp only [searchLoop, scen_pass, scen_right, hk1, append_of_not_mem _ _ _ _ hnot]
    simp [reconstruct, SearchTree.LastIndex, SearchTree.EdgeAt, sliceGet, walkBack, scenarioTree]
  · have hk : (gridCells.mk 2 1 [tag, PieceTagEmpty]).Key HorizontalKeySymmetry
        = some (if strLess (runesToString [tag.Symbol, 42]) (runesToString [42, tag.Symbol])
            then runesToString [tag.Symbol, 42] else runesToString [42, tag.Symbol]) :=
      key_horizontal hwf0
    have hk1 : (gridCells.mk 2 1 [PieceTagEmpty, tag]).Key HorizontalKeySymmetry
        = some (if strLess (runesToString [tag.Symbol, 42]) (runesToString [42, tag.Symbol])
            then runesToString [tag.Symbol, 42] else runesToString [42, tag.Symbol]) := by
      rw [key_horizontal hwf1, strMin_comm]
      rfl
    generalize (if strLess (runesToString [tag.Symbol, 42]) (runesToString [42, tag.Symbol])
      then runesToString [tag.Symbol, 42] else runesToString [42, tag.Symbol]) = k0 at hk hk1
    have hseed : ((NewSearchTree Grid (Option SearchEdge)).Append (scenarioGrid tag 0) none
        k0).1 = ⟨[scenarioGrid tag 0], [none], [], {k0}⟩ := by
      simp [SearchTree.Append, NewSearchTree]
    have hmem : k0 ∈ (scenarioTree tag {k0}).keys := by simp [scenarioTree]
    rw [solvePuzzle_seeded hv hg hk, hseed, hlen]
    simp only [searchLoop, scen_pass, scen_right, hk1, append_of_mem _ _ _ _ hmem,
      scen_pass_empty]

/-- Witness of C8 (amended): the piece `('A',1)`. -/
theorem scenario_2x1_witness :
    solvePuzzle 1 (scenarioGrid ⟨65, 1⟩ 0) scenarioGoal NoKeySymmetry
      = .found (scenarioGrid ⟨65, 1⟩ 1) [⟨0, StepRight⟩] :=
  ((scenario_2x1 ⟨65, 1⟩ 0).1 (by decide)).1

/-! ## The possible keys of a puzzle: a bound on the number of records -/

theorem allLists_length {α : Type} (A : List α) (n : Nat) :
    (allLists A n).length = A.length ^ n := by
  induction n with
  | zero => rfl
  | succ n ih =>
    have hsum : ∀ (B : List α), (B.flatMap (fun a => (allLists A n).map (fun l => a :: l))).length
        = B.length * A.length ^ n := by
      intro B
      induction B with
      | nil => simp
      | cons b B ihB =>
        simp only [List.flatMap_cons, List.length_append, List.length_map, ih, ihB,
          List.length_cons]
        ring
    simp only [allLists, hsum]
    ring

theorem mem_allLists {α : Type} (A : List α) :
    ∀ (l : List α), (∀ x ∈ l, x ∈ A) → l ∈ allLists A l.length
  | [], _ => by simp [allLists]
  | a :: l, h => by
    simp only [allLists, List.length_cons, List.mem_flatMap, List.mem_map]
    exact ⟨a, h a (by simp), l, mem_allLists A l (fun x hx => h x (List.mem_cons_of_mem _ hx)), rfl⟩

theorem keySpace_length (start : Grid) :
    (keySpace start).length =
      (start.Pieces.length + 1) ^ (start.SizeX * start.SizeY).toNat := by
  simp [keySpace, allLists_length]

/-- There are at most `(pieces + 1) ^ cells` possible keys. -/
theorem keyBound_le (start : Grid) :
    keyBound start ≤ (start.Pieces.length + 1) ^ (start.SizeX * start.SizeY).toNat := by
  rw [← keySpace_length]
  exact List.toFinset_card_le _

theorem placeAt_tags {cells cells' : gridCells} {p : Vect2} {t : PieceTag}
    (h : placeAt cells p t = some (some cells')) :
    ∀ x ∈ cells'.tags, x ∈ cells.tags ∨ x = t := by
  unfold placeAt at h
  split at h
  · cases h
  · split at h
    · cases h
    · split at h
      · cases h
      · split at h
        · cases h
        · rename_i tags' hset
          cases h
          unfold sliceSet at hset
          split at hset
          · cases hset
            intro x hx
            exact List.mem_or_eq_of_mem_set hx
          · cases hset

theorem placeList_tags (l : List (Vect2 × PieceTag)) :
    ∀ {cells cells' : gridCells}, placeList l cells = some (some cells') →
      ∀ x ∈ cells'.tags, x ∈ cells.tags ∨ x ∈ l.map (fun e => e.2) := by
  induction l with
  | nil =>
    intro cells cells' h x hx
    simp only [placeList, Option.some.injEq] at h
    subst h
    exact Or.inl hx
  | cons e rest ih =>
    intro cells cells' h x hx
    obtain ⟨p, t⟩ := e
    simp only [placeList] at h
    cases h1 : placeAt cells p t with
    | none => rw [h1] at h; cases h
    | some r =>
      cases r with
      | none => rw [h1] at h; cases h
      | some cells1 =>
        rw [h1] at h
        rcases ih h x hx with h2 | h2
        · rcases placeAt_tags h1 x h2 with h3 | h3
          · exact Or.inl h3
          · exact Or.inr (by simp [h3])
        · exact Or.inr (by simp only [List.map_cons, List.mem_cons]; exact Or.inr h2)

/-- Every tag of the occupancy map of a board is the empty tag or the tag of a piece. -/
theorem validate_tags {grid : Grid} {cells : gridCells} (hfit : grid.CellCountFits)
    (h : grid.Validate = some (some cells)) :
    ∀ x ∈ cells.tags, x = PieceTagEmpty ∨ x ∈ grid.Pieces.map (fun piece => piece.Tag) := by
  intro x hx
  rw [validate_unfold grid hfit] at h
  split at h
  · cases h
  · rw [placePieces_eq _ _ hfit.2] at h
    rcases placeList_tags _ h x hx with h1 | h1
    · exact Or.inl (List.eq_of_mem_replicate h1)
    · right
      obtain ⟨e, he, rfl⟩ := List.mem_map.1 h1
      obtain ⟨piece, hp, -, heq⟩ := cellTags_tag he
      exact List.mem_map.2 ⟨piece, hp, heq.symm⟩

/-- The key of a board reached from the start board is one of the possible keys. -/
theorem key_mem_keySpace {start grid : Grid} {path : List Move} {symmetry : Int}
    (hfit : start.CellCountFits) (hx : 0 ≤ start.SizeX) (hy : 0 ≤ start.SizeY)
    (hsym : symmetry = NoKeySymmetry ∨ symmetry = HorizontalKeySymmetry)
    (hreach : Reaches start path grid) {key : GoString} (hkey : keyOf symmetry grid = some key) :
    key ∈ keySpace start := by
  obtain ⟨f1, f2, -, f4⟩ := runPath_frame _ hreach.2
  have hfit' : grid.CellCountFits := by
    unfold Grid.CellCountFits
    rw [f1, f2]
    exact hfit
  unfold keyOf at hkey
  split at hkey
  · rename_i cells hv
    have wf := validate_wellFormed hfit' (by rw [f1]; exact hx) (by rw [f2]; exact hy) hv
    obtain ⟨s1, s2, s3⟩ := validate_sizes hfit' hv
    have htags := validate_tags hfit' hv
    have hsymb : ∀ r ∈ cells.symbols,
        r ∈ (42 : Int) :: start.Pieces.map (fun piece => piece.Tag.Symbol) := by
      intro r hr
      obtain ⟨t, ht, rfl⟩ := List.mem_map.1 hr
      rcases htags t ht with rfl | h2
      · simp [PieceTagEmpty]
      · rw [f4] at h2
        obtain ⟨piece, hp, rfl⟩ := List.mem_map.1 h2
        exact List.mem_cons_of_mem _ (List.mem_map.2 ⟨piece, hp, rfl⟩)
    have hlen : cells.symbols.length = (start.SizeX * start.SizeY).toNat := by
      simp only [gridCells.symbols, List.length_map]
      rw [← f1, ← f2]
      omega
    have hmsymb : ∀ r ∈ cells.mirror.symbols,
        r ∈ (42 : Int) :: start.Pieces.map (fun piece => piece.Tag.Symbol) := by
      intro r hr
      rw [mirror_symbols] at hr
      exact hsymb r (reverseRows_mem _ _ _ _ hr)
    have hmlen : cells.mirror.symbols.length = (start.SizeX * start.SizeY).toNat := by
      have := (mirror_wellFormed wf).2.2
      simp only [gridCells.symbols, List.length_map]
      have e1 : cells.mirror.sizeX = cells.sizeX := rfl
      have e2 : cells.mirror.sizeY = cells.sizeY := rfl
      rw [e1, e2, s1, s2, f1, f2] at this
      omega
    have hin1 : runesToString cells.symbols ∈ keySpace start := by
      unfold keySpace
      rw [← hlen]
      exact List.mem_map.2 ⟨_, mem_allLists _ _ hsymb, rfl⟩
    have hin2 : runesToString cells.mirror.symbols ∈ keySpace start := by
      unfold keySpace
      rw [← hmlen]
      exact List.mem_map.2 ⟨_, mem_allLists _ _ hmsymb, rfl⟩
    rcases hsym with rfl | rfl
    · rw [key_noSymmetry, Option.some.injEq] at hkey
      rw [← hkey]
      exact hin1
    · rw [key_horizontal wf, Option.some.injEq] at hkey
      rw [← hkey]
      split
      · exact hin1
      · exact hin2
  · cases hkey

/-- The number of records never exceeds the number of possible keys. -/
theorem recs_length_le {start : Grid} {goal : Grid → Bool} {symmetry : Int}
    (hfit : start.CellCountFits) (hx : 0 ≤ start.SizeX) (hy : 0 ≤ start.SizeY)
    (hsym : symmetry = NoKeySymmetry ∨ symmetry = HorizontalKeySymmetry)
    {searchTree : Tree} {recs : List Rec}
    (inv : RecsInv start goal symmetry searchTree recs) : recs.length ≤ keyBound start := by
  have hnd := inv.tree.keys_nodup
  have hsub : ((recs.map Rec.adm).map (fun r => r.key)).toFinset ⊆ (keySpace start).toFinset := by
    intro k hk
    rw [List.mem_toFinset] at hk ⊢
    simp only [List.map_map, List.mem_map, Function.comp] at hk
    obtain ⟨r, hr, rfl⟩ := hk
    obtain ⟨i, hi, hget⟩ := List.getElem_of_mem hr
    have hget' : recs[i]? = some r := by rw [List.getElem?_eq_getElem hi, hget]
    exact key_mem_keySpace hfit hx hy hsym (inv.reach i r hget') (inv.key i r hget')
  have := Finset.card_le_card hsub
  rw [List.toFinset_card_of_nodup hnd] at this
  simpa [keyBound] using this

/-! ## Termination of the search loop -/

theorem startInv_pos {start : Grid} {goal : Grid → Bool} {symmetry : Int} {d : Nat}
    {searchTree : Tree} {recs : List Rec} (inv : StartInv start goal symmetry d searchTree recs)
    (hlt : searchTree.CurrentDepth.B < (recs.length : Int)) : 1 ≤ d := by
  have ha := inv.tree.a_nonneg
  have hab := inv.tree.a_le_b
  have hi : recs.length - 1 < recs.length := by omega
  have := inv.depth_new (recs.length - 1) recs[recs.length - 1]
    (List.getElem?_eq_getElem hi) (by omega)
  omega

/-- After a pass that admitted nothing, the next pass returns 'no solution'. -/
theorem searchPass_after_idle {start : Grid} {goal : Grid → Bool} {symmetry : Int}
    (hsym : symmetry = NoKeySymmetry ∨ symmetry = HorizontalKeySymmetry)
    (hsize : ¬wrapInt (start.SizeX * start.SizeY) < 0) {d : Nat} (fuel : Nat) {searchTree : Tree}
    {recs : List Rec} (inv : StartInv start goal symmetry d searchTree recs)
    (hB : searchTree.CurrentDepth.B = (recs.length : Int)) :
    searchPass fuel goal symmetry (start.Pieces.length : Int) searchTree = .exit .noSolution := by
  rcases searchPass_spec hsym hsize fuel inv with ⟨-, h1⟩ | ⟨hlt, -⟩
  · exact h1
  · omega

/-- Termination of the search loop: with enough fuel it returns a solution or 'no solution'. -/
theorem searchLoop_total {start : Grid} {goal : Grid → Bool} {symmetry : Int}
    (hfit : start.CellCountFits) (hx : 0 ≤ start.SizeX) (hy : 0 ≤ start.SizeY)
    (hsym : symmetry = NoKeySymmetry ∨ symmetry = HorizontalKeySymmetry) (fuel : Nat) :
    ∀ {d : Nat} {searchTree : Tree} {recs : List Rec},
      StartInv start goal symmetry d searchTree recs →
      d + 2 * (keyBound start - recs.length) + 1 ≤ fuel →
      searchLoop goal symmetry (start.Pieces.length : Int) fuel searchTree = .noSolution ∨
        ∃ grid path,
          searchLoop goal symmetry (start.Pieces.length : Int) fuel searchTree
            = .found grid path := by
  have hsize : ¬wrapInt (start.SizeX * start.SizeY) < 0 := by
    rw [wrapInt_eq_self hfit]
    exact not_lt.2 (mul_nonneg hx hy)
  induction fuel with
  | zero => intro d t recs _ h; omega
  | succ fuel ih =>
    intro d t recs inv hfuel
    simp only [searchLoop]
    rcases searchPass_spec hsym hsize (fuel + 1) inv with ⟨-, h1⟩ | ⟨hlt, h1 | h1⟩
    · rw [h1]
      exact Or.inl rfl
    · obtain ⟨t', more, h1, inv', hB⟩ := h1
      rw [h1]
      have hK := recs_length_le hfit hx hy hsym inv'.toRecsInv
      have hd := startInv_pos inv hlt
      by_cases hmore : more = []
      · subst hmore
        obtain ⟨f, rfl⟩ : ∃ f, fuel = f + 1 := ⟨fuel - 1, by omega⟩
        simp only [searchLoop]
        rw [searchPass_after_idle hsym hsize (f + 1) inv' (by simpa using hB)]
        exact Or.inl rfl
      · have hlen : 1 ≤ more.length := by
          rcases more with _ | ⟨a, l⟩
          · exact absurd rfl hmore
          · simp
        rw [List.length_append] at hK
        exact ih inv' (by rw [List.length_append]; omega)
    · obtain ⟨o, h1, ⟨g, p, -, -, -, ho⟩ | ⟨hnf, -⟩⟩ := h1
      · rw [h1, ho, if_pos (by omega)]
        exact Or.inr ⟨g, p, rfl⟩
      · exact absurd hfit hnf

/-- Exhaustion: when no board reached from the start board satisfies the goal, the search
loop returns 'no solution' within one pass more than there are possible keys. -/
theorem searchLoop_exhaust {start : Grid} {goal : Grid → Bool} {symmetry : Int}
    (hfit : start.CellCountFits) (hx : 0 ≤ start.SizeX) (hy : 0 ≤ start.SizeY)
    (hsym : symmetry = NoKeySymmetry ∨ symmetry = HorizontalKeySymmetry)
    (hno : ∀ path grid, Reaches start path grid → goal grid = false) (fuel : Nat) :
    ∀ {d : Nat} {searchTree : Tree} {recs : List Rec},
      StartInv start goal symmetry d searchTree recs →
      (keyBound start - recs.length) + 2 ≤ fuel →
      searchLoop goal symmetry (start.Pieces.length : Int) fuel searchTree = .noSolution := by
  have hsize : ¬wrapInt (start.SizeX * start.SizeY) < 0 := by
    rw [wrapInt_eq_self hfit]
    exact not_lt.2 (mul_nonneg hx hy)
  induction fuel with
  | zero => intro d t recs _ h; omega
  | succ fuel ih =>
    intro d t recs inv hfuel
    simp only [searchLoop]
    rcases searchPass_spec hsym hsize (fuel + 1) inv with ⟨-, h1⟩ | ⟨hlt, h1 | h1⟩
    · rw [h1]
    · obtain ⟨t', more, h1, inv', hB⟩ := h1
      rw [h1]
      have hK := recs_length_le hfit hx hy hsym inv'.toRecsInv
      by_cases hmore : more = []
      · subst hmore
        obtain ⟨f, rfl⟩ : ∃ f, fuel = f + 1 := ⟨fuel - 1, by omega⟩
        simp only [searchLoop]
        rw [searchPass_after_idle hsym hsize (f + 1) inv' (by simpa using hB)]
      · have hlen : 1 ≤ more.length := by
          rcases more with _ | ⟨a, l⟩
          · exact absurd rfl hmore
          · simp
        rw [List.length_append] at hK
        exact ih inv' (by rw [List.length_append]; omega)
    · obtain ⟨o, h1, ⟨g, p, hreach, hg, -, -⟩ | ⟨hnf, -⟩⟩ := h1
      · rw [hno p g hreach] at hg
        cases hg
      · exact absurd hfit hnf

theorem keys_card {start : Grid} {goal : Grid → Bool} {symmetry : Int}
    {searchTree : Tree} {recs : List Rec}
    (inv : RecsInv start goal symmetry searchTree recs) : searchTree.keys.card = recs.length := by
  rw [inv.tree.keys_eq, List.toFinset_card_of_nodup inv.tree.keys_nodup]
  simp

/-- Every tree between two passes satisfies the invariant of the search. -/
theorem iteratePass_inv {start : Grid} {goal : Grid → Bool} {symmetry : Int}
    (hsym : symmetry = NoKeySymmetry ∨ symmetry = HorizontalKeySymmetry)
    (hsize : ¬wrapInt (start.SizeX * start.SizeY) < 0) (fuel k : Nat) :
    ∀ {d : Nat} {t0 t : Tree} {recs : List Rec}, StartInv start goal symmetry d t0 recs →
      iteratePass fuel goal symmetry (start.Pieces.length : Int) k t0 = some t →
      ∃ d' recs', StartInv start goal symmetry d' t recs' := by
  induction k with
  | zero =>
    intro d t0 t recs inv h
    simp only [iteratePass, Option.some.injEq] at h
    subst h
    exact ⟨d, recs, inv⟩
  | succ k ih =>
    intro d t0 t recs inv h
    simp only [iteratePass] at h
    rcases searchPass_spec hsym hsize fuel inv with ⟨-, h1⟩ | ⟨-, h1 | h1⟩
    · rw [h1] at h; cases h
    · obtain ⟨t', more, h1, inv', -⟩ := h1
      rw [h1] at h
      exact ih inv' h
    · obtain ⟨o, h1, -⟩ := h1
      rw [h1] at h; cases h

/-- The loop returns within one pass more than there are possible keys. -/
theorem iteratePass_bound {start : Grid} {goal : Grid → Bool} {symmetry : Int}
    (hfit : start.CellCountFits) (hx : 0 ≤ start.SizeX) (hy : 0 ≤ start.SizeY)
    (hsym : symmetry = NoKeySymmetry ∨ symmetry = HorizontalKeySymmetry) (fuel k : Nat) :
    ∀ {d : Nat} {t0 : Tree} {recs : List Rec}, StartInv start goal symmetry d t0 recs →
      (keyBound start - recs.length) + 2 ≤ k →
      iteratePass fuel goal symmetry (start.Pieces.length : Int) k t0 = none := by
  have hsize : ¬wrapInt (start.SizeX * start.SizeY) < 0 := by
    rw [wrapInt_eq_self hfit]
    exact not_lt.2 (mul_nonneg hx hy)
  induction k with
  | zero => intro d t0 recs _ h; omega
  | succ k ih =>
    intro d t0 recs inv hk
    simp only [iteratePass]
    rcases searchPass_spec hsym hsize fuel inv with ⟨-, h1⟩ | ⟨-, h1 | h1⟩
    · rw [h1]
    · obtain ⟨t', more, h1, inv', hB⟩ := h1
      rw [h1]
      have hK := recs_length_le hfit hx hy hsym inv'.toRecsInv
      by_cases hmore : more = []
      · subst hmore
        obtain ⟨f, rfl⟩ : ∃ f, k = f + 1 := ⟨k - 1, by omega⟩
        simp only [iteratePass]
        rw [searchPass_after_idle hsym hsize fuel inv' (by simpa using hB)]
      · have hlen : 1 ≤ more.length := by
          rcases more with _ | ⟨a, l⟩
          · exact absurd rfl hmore
          · simp
        rw [List.length_append] at hK
        exact ih inv' (by rw [List.length_append]; omega)
    · obtain ⟨o, h1, -⟩ := h1
      rw [h1]

/-- A pass returns, or admits a new key, or is followed by a pass that returns
'no solution'. -/
theorem pass_progress {start : Grid} {goal : Grid → Bool} {symmetry : Int}
    (hsym : symmetry = NoKeySymmetry ∨ symmetry = HorizontalKeySymmetry)
    (hsize : ¬wrapInt (start.SizeX * start.SizeY) < 0) (fuel : Nat) {d : Nat} {searchTree : Tree}
    {recs : List Rec} (inv : StartInv start goal symmetry d searchTree recs) :
    (∃ outcome,
      searchPass fuel goal symmetry (start.Pieces.length : Int) searchTree = .exit outcome) ∨
    ∃ t', searchPass fuel goal symmetry (start.Pieces.length : Int) searchTree = .next t' ∧
      (searchTree.keys.card < t'.keys.card ∨
        searchPass fuel goal symmetry (start.Pieces.length : Int) t' = .exit .noSolution) := by
  rcases searchPass_spec hsym hsize fuel inv with ⟨-, h1⟩ | ⟨-, h1 | h1⟩
  · exact Or.inl ⟨_, h1⟩
  · obtain ⟨t', more, h1, inv', hB⟩ := h1
    refine Or.inr ⟨t', h1, ?_⟩
    by_cases hmore : more = []
    · subst hmore
      exact Or.inr (searchPass_after_idle hsym hsize fuel inv' (by simpa using hB))
    · left
      rw [keys_card inv.toRecsInv, keys_card inv'.toRecsInv, List.length_append]
      rcases more with _ | ⟨a, l⟩
      · exact absurd rfl hmore
      · simp
  · obtain ⟨o, h1, -⟩ := h1
    exact Or.inl ⟨o, h1⟩

/-! ## C9: termination and exhaustion -/

/-- C9, as stated, fails, in two ways. On the 1x1 board filled by one piece, with a goal
that never holds, the first pass of the expand loop neither returns nor admits a new key: it
goes on with the key set and the record list of the seeded tree, only the level `(0,1)` is
opened; the second pass then returns 'no solution'. And on the board of width 3 and height
6148914691236517206, whose cell count `2^64 + 2` is 2 as an `int`, with one single-cell piece
at `(0, 0)`, `solvePuzzle` returns neither a solution nor 'no solution': the board is valid,
and the move 'down' of the first pass makes `Validate` read the tag slice at index 3, out of
the range of its 2 entries, which panics. -/
theorem solve_terminates_counterexample :
    (((NewSearchTree Grid (Option SearchEdge)).Append
        (Grid.mk 1 1 [⟨⟨65, 1⟩, ⟨0, 0⟩, [⟨0, 0⟩]⟩]) none [65]).1
      = ⟨[Grid.mk 1 1 [⟨⟨65, 1⟩, ⟨0, 0⟩, [⟨0, 0⟩]⟩]], [none], [], {[65]}⟩ ∧
    searchPass 3 (fun _ => false) NoKeySymmetry 1
        ⟨[Grid.mk 1 1 [⟨⟨65, 1⟩, ⟨0, 0⟩, [⟨0, 0⟩]⟩]], [none], [], {[65]}⟩
      = .next ⟨[Grid.mk 1 1 [⟨⟨65, 1⟩, ⟨0, 0⟩, [⟨0, 0⟩]⟩]], [none], [⟨0, 1⟩], {[65]}⟩ ∧
    searchPass 3 (fun _ => false) NoKeySymmetry 1
        ⟨[Grid.mk 1 1 [⟨⟨65, 1⟩, ⟨0, 0⟩, [⟨0, 0⟩]⟩]], [none], [⟨0, 1⟩], {[65]}⟩
      = .exit .noSolution ∧
    solvePuzzle 1 (Grid.mk 1 1 [⟨⟨65, 1⟩, ⟨0, 0⟩, [⟨0, 0⟩]⟩]) (fun _ => false) NoKeySymmetry
      = .timeout ∧
    solvePuzzle 2 (Grid.mk 1 1 [⟨⟨65, 1⟩, ⟨0, 0⟩, [⟨0, 0⟩]⟩]) (fun _ => false) NoKeySymmetry
      = .noSolution) ∧
    ((0 : Int) ≤ (overflowBoard [unitPiece 0 0]).SizeX ∧
      (0 : Int) ≤ (overflowBoard [unitPiece 0 0]).SizeY ∧
      (overflowBoard [unitPiece 0 0]).IsValid = true ∧
      (overflowBoard [unitPiece 0 0]).Apply ⟨0, StepDown⟩ = some (overflowBoard [unitPiece 0 1]) ∧
      (overflowBoard [unitPiece 0 1]).Validate = none ∧
      solvePuzzle 1 (overflowBoard [unitPiece 0 0]) (fun _ => false) NoKeySymmetry = .panic ∧
      solvePuzzle 5 (overflowBoard [unitPiece 0 0]) (fun _ => false) NoKeySymmetry = .panic) :=
  ⟨⟨rfl, rfl, rfl, by decide, by decide⟩, by decide⟩

/-- C9, amended. Termination and exhaustion: for every board with non-negative dimensions
whose cell count `SizeX * SizeY` is a value of type `int` (below `2^63`), every goal
predicate and each supported symmetry mode, `solvePuzzle` terminates (fuel twice the number
of possible keys is enough), returning a solution or 'no solution'; every pass of the expand
loop returns, or admits at least one new key, or admits none and is followed by a pass that
returns 'no solution', so the loop returns within one pass more than there are possible
keys, the possible keys being the distinct strings of `SizeX * SizeY` symbols taken among
`'*'` and the kind symbols of the pieces (at most `(pieces + 1) ^ cells` strings); and when
no board reached from the initial board through valid moves satisfies the goal predicate,
`solvePuzzle` returns 'no solution'. -/
theorem solve_terminates (initialGrid : Grid) (successCondition : Grid → Bool)
    (symmetry : Int) (hx : 0 ≤ initialGrid.SizeX) (hy : 0 ≤ initialGrid.SizeY)
    (hlt : initialGrid.SizeX * initialGrid.SizeY < 9223372036854775808)
    (hsym : symmetry = NoKeySymmetry ∨ symmetry = HorizontalKeySymmetry) :
    (∀ fuel, 2 * keyBound initialGrid ≤ fuel →
      solvePuzzle fuel initialGrid successCondition symmetry = .noSolution ∨
        ∃ grid path, solvePuzzle fuel initialGrid successCondition symmetry
          = .found grid path) ∧
    ((∀ path grid, Reaches initialGrid path grid → successCondition grid = false) →
      ∀ fuel, keyBound initialGrid + 1 ≤ fuel →
        solvePuzzle fuel initialGrid successCondition symmetry = .noSolution) ∧
    (∀ cells key fuel, initialGrid.Validate = some (some cells) →
      successCondition initialGrid = false → cells.Key symmetry = some key →
      iteratePass fuel successCondition symmetry (initialGrid.Pieces.length : Int)
        (keyBound initialGrid + 1)
        ((NewSearchTree Grid (Option SearchEdge)).Append initialGrid none key).1 = none ∧
      ∀ k t,
        iteratePass fuel successCondition symmetry (initialGrid.Pieces.length : Int) k
          ((NewSearchTree Grid (Option SearchEdge)).Append initialGrid none key).1 = some t →
        (∃ outcome,
          searchPass fuel successCondition symmetry (initialGrid.Pieces.length : Int) t
            = .exit outcome) ∨
        ∃ t', searchPass fuel successCondition symmetry (initialGrid.Pieces.length : Int) t
            = .next t' ∧
          (t.keys.card < t'.keys.card ∨
            searchPass fuel successCondition symmetry (initialGrid.Pieces.length : Int) t'
              = .exit .noSolution)) ∧
    keyBound initialGrid = (keySpace initialGrid).toFinset.card ∧
    keyBound initialGrid ≤
      (initialGrid.Pieces.length + 1) ^ (initialGrid.SizeX * initialGrid.SizeY).toNat := by
  have hfit : initialGrid.CellCountFits := ⟨by have := mul_nonneg hx hy; omega, hlt⟩
  have hsize : ¬wrapInt (initialGrid.SizeX * initialGrid.SizeY) < 0 := by
    rw [wrapInt_eq_self hfit]
    exact not_lt.2 (mul_nonneg hx hy)
  have hseed : ∀ {cells key}, initialGrid.Validate = some (some cells) →
      successCondition initialGrid = false → cells.Key symmetry = some key →
      StartInv initialGrid successCondition symmetry 1
        ((NewSearchTree Grid (Option SearchEdge)).Append initialGrid none key).1
        [⟨initialGrid, none, key, []⟩] := by
    intro cells key hv hg hk
    exact startInv_seed (by simp only [keyOf, hv, hk]) hg
  refine ⟨?_, ?_, ?_, rfl, keyBound_le initialGrid⟩
  · intro fuel hfuel
    cases hv : initialGrid.Validate with
    | none => exact absurd hv (validate_ne_none hfit hsize)
    | some res =>
      cases res with
      | none => exact Or.inl (by simp only [solvePuzzle, hv])
      | some cells =>
        by_cases hg : successCondition initialGrid = true
        · exact Or.inr ⟨initialGrid, [], by simp only [solvePuzzle, hv, hg, if_true]⟩
        · have hg' : successCondition initialGrid = false := by simpa using hg
          obtain ⟨key, hk⟩ := key_total hfit hv hsym
          rw [solvePuzzle_seeded hv hg' hk]
          have inv := hseed hv hg' hk
          have hK := recs_length_le hfit hx hy hsym inv.toRecsInv
          simp only [List.length_singleton] at hK
          exact searchLoop_total hfit hx hy hsym fuel inv
            (by simp only [List.length_singleton]; omega)
  · intro hno fuel hfuel
    cases hv : initialGrid.Validate with
    | none => exact absurd hv (validate_ne_none hfit hsize)
    | some res =>
      cases res with
      | none => simp only [solvePuzzle, hv]
      | some cells =>
        have hg' : successCondition initialGrid = false := hno [] _ (reaches_nil _)
        obtain ⟨key, hk⟩ := key_total hfit hv hsym
        rw [solvePuzzle_seeded hv hg' hk]
        have inv := hseed hv hg' hk
        have hK := recs_length_le hfit hx hy hsym inv.toRecsInv
        simp only [List.length_singleton] at hK
        exact searchLoop_exhaust hfit hx hy hsym hno fuel inv
          (by simp only [List.length_singleton]; omega)
  · intro cells key fuel hv hg hk
    have inv := hseed hv hg hk
    have hK := recs_length_le hfit hx hy hsym inv.toRecsInv
    simp only [List.length_singleton] at hK
    refine ⟨iteratePass_bound hfit hx hy hsym fuel _ inv
      (by simp only [List.length_singleton]; omega), ?_⟩
    intro k t ht
    obtain ⟨d', recs', inv'⟩ := iteratePass_inv hsym hsize fuel k inv ht
    exact pass_progress hsym hsize fuel inv'

/-- Witness of C9 (amended): the 1x1 board filled by one piece, with a goal that never
holds: there are 2 possible keys and three passes of fuel give 'no solution'. (The 2x1
board with two single-cell pieces of the kind `'D'` has 4 possible keys.) -/
theorem solve_terminates_witness :
    keyBound (Grid.mk 1 1 [⟨⟨65, 1⟩, ⟨0, 0⟩, [⟨0, 0⟩]⟩]) = 2 ∧
    keyBound (Grid.mk 2 1 [⟨⟨68, 1⟩, ⟨0, 0⟩, [⟨0, 0⟩]⟩, ⟨⟨68, 2⟩, ⟨1, 0⟩, [⟨0, 0⟩]⟩]) = 4 ∧
    solvePuzzle 3 (Grid.mk 1 1 [⟨⟨65, 1⟩, ⟨0, 0⟩, [⟨0, 0⟩]⟩]) (fun _ => false)
      HorizontalKeySymmetry = .noSolution :=
  ⟨by decide, by decide,
    (solve_terminates (Grid.mk 1 1 [⟨⟨65, 1⟩, ⟨0, 0⟩, [⟨0, 0⟩]⟩]) (fun _ => false)
      HorizontalKeySymmetry (by decide) (by decide) (by decide) (Or.inr rfl)).2.1
      (fun _ _ _ => rfl) 3 (by decide)⟩

/-! ## Optimality of the search loop -/

theorem reaches_snoc_inv {start grid : Grid} {path : List Move} {move : Move}
    (h : Reaches start (path ++ [move]) grid) :
    ∃ grid', Reaches start path grid' ∧ move.Legal start.Pieces.length ∧
      stepTo grid' move = some grid := by
  obtain ⟨hlegal, hrun⟩ := h
  rw [runPath_append] at hrun
  cases hp : runPath start path with
  | none => rw [hp] at hrun; cases hrun
  | some g1 =>
    rw [hp] at hrun
    simp only [Option.bind, runPath] at hrun
    cases hs : stepTo g1 move with
    | none => rw [hs] at hrun; cases hrun
    | some g2 =>
      rw [hs] at hrun
      simp only [Option.some.injEq] at hrun
      subst hrun
      exact ⟨g1, ⟨fun m hm => hlegal m (List.mem_append_left _ hm), hp⟩,
        hlegal move (by simp), hs⟩

theorem exists_rec_of_key_mem {recs : List Rec} {key : GoString}
    (h : key ∈ recs.map (fun r => r.key)) : ∃ (i : Nat) (r : Rec), recs[i]? = some r ∧ r.key = key := by
  obtain ⟨r, hr, rfl⟩ := List.mem_map.1 h
  obtain ⟨i, hi, hget⟩ := List.getElem_of_mem hr
  exact ⟨i, r, by rw [List.getElem?_eq_getElem hi, hget], rfl⟩

/-- One more level of coverage: when every board within `j` moves has the key of one of the
first records, and every move on these records has been tried, every board within `j + 1`
moves has the key of a record. -/
theorem cov_step {start : Grid} {goal : Grid → Bool} {symmetry : Int}
    (hcompat : KeyCompatible start goal symmetry) {j : Nat} {recs more : List Rec}
    (hcov : Cov symmetry start j recs)
    (hreach : ∀ (i : Nat) (r : Rec), recs[i]? = some r → Reaches start r.path r.grid)
    (hkey : ∀ (i : Nat) (r : Rec), recs[i]? = some r → keyOf symmetry r.grid = some r.key)
    (htried : ∀ (i : Nat) (move : Move), i < recs.length → move.Legal start.Pieces.length →
      Tried symmetry (recs ++ more) i move) :
    Cov symmetry start (j + 1) (recs ++ more) := by
  intro path grid hr hlen
  by_cases hle : path.length ≤ j
  · obtain ⟨i, r, h1, h2⟩ := hcov path grid hr hle
    exact ⟨i, r, getElem?_append_some more h1, h2⟩
  · rcases List.eq_nil_or_concat path with rfl | ⟨path', move, rfl⟩
    · simp at hle
    · rw [List.concat_eq_append] at hr hlen hle
      obtain ⟨g1, hr1, hlegal, hs⟩ := reaches_snoc_inv hr
      have hlen' : path'.length ≤ j := by
        simp only [List.length_append, List.length_singleton] at hlen
        omega
      obtain ⟨i, r, h1, h2⟩ := hcov path' g1 hr1 hlen'
      have hkeys : keyOf symmetry g1 = keyOf symmetry r.grid := by
        rw [h2, hkey i r h1]
      obtain ⟨move', next2, hl2, hs2, hk2⟩ :=
        (hcompat path' r.path g1 r.grid hr1 (hreach i r h1) hkeys).2 move grid hlegal hs
      obtain ⟨k, hk, hmem⟩ := htried i move' (getElem?_lt_length h1) hl2 r next2
        (getElem?_append_some more h1) hs2
      obtain ⟨i', r', h3, h4⟩ := exists_rec_of_key_mem hmem
      exact ⟨i', r', h3, by rw [hk2, hk, h4]⟩

/-- When every move on every record has been tried, every board reached from the start
board has the key of a record. -/
theorem cov_closed {start : Grid} {goal : Grid → Bool} {symmetry : Int}
    (hcompat : KeyCompatible start goal symmetry) {recs : List Rec}
    (hcov : Cov symmetry start 0 recs)
    (hreach : ∀ (i : Nat) (r : Rec), recs[i]? = some r → Reaches start r.path r.grid)
    (hkey : ∀ (i : Nat) (r : Rec), recs[i]? = some r → keyOf symmetry r.grid = some r.key)
    (htried : ∀ (i : Nat) (move : Move), i < recs.length → move.Legal start.Pieces.length →
      Tried symmetry recs i move) :
    ∀ j, Cov symmetry start j recs := by
  intro j
  induction j with
  | zero => exact hcov
  | succ j ih =>
    have := @cov_step _ _ _ hcompat _ _ [] ih hreach hkey
      (by simpa using htried)
    simpa using this

theorem cov_mono {symmetry : Int} {start : Grid} {j j' : Nat} {recs : List Rec}
    (h : Cov symmetry start j recs) (hle : j' ≤ j) : Cov symmetry start j' recs :=
  fun path grid hr hlen => h path grid hr (by omega)

/-- A board that has the key of a record does not satisfy the goal. -/
theorem goal_false_of_cov {start : Grid} {goal : Grid → Bool} {symmetry : Int}
    (hcompat : KeyCompatible start goal symmetry) {searchTree : Tree} {recs : List Rec}
    (inv : RecsInv start goal symmetry searchTree recs) {j : Nat}
    (hcov : Cov symmetry start j recs) {path : List Move} {grid : Grid}
    (hr : Reaches start path grid) (hlen : path.length ≤ j) : goal grid = false := by
  obtain ⟨i, r, h1, h2⟩ := hcov path grid hr hlen
  have hkeys : keyOf symmetry grid = keyOf symmetry r.grid := by
    rw [h2, inv.key i r h1]
  rw [(hcompat path r.path grid r.grid hr (inv.reach i r h1) hkeys).1]
  exact inv.goal i r h1

/-- Optimality of the search loop: started at pass `d` with every board within `d - 1` moves
covered, it returns a solution of exactly `L` moves, `L` being the least number of moves
that reaches a board satisfying the goal. -/
theorem searchLoop_optimal {start : Grid} {goal : Grid → Bool} {symmetry : Int}
    (hsym : symmetry = NoKeySymmetry ∨ symmetry = HorizontalKeySymmetry)
    (hfit : start.CellCountFits) (hsize : ¬wrapInt (start.SizeX * start.SizeY) < 0)
    (hcompat : KeyCompatible start goal symmetry) {L : Nat}
    (hL : ∃ path grid, Reaches start path grid ∧ goal grid = true ∧ path.length = L)
    (hleast : ∀ path grid, Reaches start path grid → goal grid = true → L ≤ path.length)
    (fuel : Nat) :
    ∀ {d : Nat} {searchTree : Tree} {recs : List Rec},
      StartInv start goal symmetry (d + 1) searchTree recs → Cov symmetry start d recs →
      d + 1 ≤ L → 2 * L ≤ fuel + (d + 1) →
      ∃ grid path,
        searchLoop goal symmetry (start.Pieces.length : Int) fuel searchTree
          = .found grid path ∧ path.length = L := by
  obtain ⟨pathL, gridL, hrL, hgL, hlenL⟩ := hL
  induction fuel with
  | zero => intro d t recs _ _ h1 h2; omega
  | succ fuel ih =>
    intro d t recs inv hcov hd hfuel
    simp only [searchLoop]
    rcases searchPass_spec hsym hsize (fuel + 1) inv with ⟨hB, -⟩ | ⟨-, h1 | h1⟩
    · exfalso
      have hall := cov_closed hcompat (cov_mono hcov (Nat.zero_le d)) inv.reach inv.key
        (fun i move hi hl => inv.expanded i move (by omega) hl)
      have := goal_false_of_cov hcompat inv.toRecsInv (hall L) hrL (by omega)
      rw [this] at hgL
      cases hgL
    · obtain ⟨t', more, h1, inv', hB⟩ := h1
      rw [h1]
      have hcov' : Cov symmetry start (d + 1) (recs ++ more) :=
        cov_step hcompat hcov inv.reach inv.key
          (fun i move hi hl => inv'.expanded i move (by omega) hl)
      have hne : d + 1 ≠ L := by
        intro heq
        have := goal_false_of_cov hcompat inv'.toRecsInv hcov' hrL (by omega)
        rw [this] at hgL
        cases hgL
      exact ih inv' hcov' (by omega) (by omega)
    · obtain ⟨o, h1, ⟨g, p, hreach, hg, hlen, ho⟩ | ⟨hnf, -⟩⟩ := h1
      · rw [h1, ho, if_pos (by omega)]
        have := hleast p g hreach hg
        exact ⟨g, p, rfl, by omega⟩
      · exact absurd hfit hnf

/-! ## C2: BFS optimality -/

/-- What holds of the start board and is kept by every valid move holds of every board
reached from the start board. -/
theorem reaches_invariant {start : Grid} (P : Grid → Prop) (h0 : P start)
    (hstep : ∀ grid move grid', P grid → move.Legal start.Pieces.length →
      stepTo grid move = some grid' → P grid') :
    ∀ (path : List Move) (grid : Grid), Reaches start path grid → P grid := by
  intro path
  induction path using List.reverseRecOn with
  | nil =>
    intro grid h
    have := h.2
    simp only [runPath, Option.some.injEq] at this
    rw [← this]
    exact h0
  | append_singleton path move ih =>
    intro grid h
    obtain ⟨g1, hr1, hlegal, hs⟩ := reaches_snoc_inv h
    exact hstep g1 move grid (ih g1 hr1) hlegal hs

/-- When the key tells the boards reached from the start board apart, boards with equal
keys are interchangeable. -/
theorem keyCompatible_of_injective {start : Grid} {goal : Grid → Bool} {symmetry : Int}
    (h : ∀ path1 path2 grid1 grid2, Reaches start path1 grid1 → Reaches start path2 grid2 →
      keyOf symmetry grid1 = keyOf symmetry grid2 → grid1 = grid2) :
    KeyCompatible start goal symmetry := by
  intro path1 path2 grid1 grid2 h1 h2 hk
  have := h path1 path2 grid1 grid2 h1 h2 hk
  subst this
  exact ⟨rfl, fun move next1 hl hs => ⟨move, next1, hl, hs, rfl⟩⟩

theorem overflow_table :
    stepTo (overflowBoard [unitPiece 0 0]) ⟨0, StepUp⟩ = none ∧
    stepTo (overflowBoard [unitPiece 0 0]) ⟨0, StepDown⟩ = none ∧
    stepTo (overflowBoard [unitPiece 0 0]) ⟨0, StepLeft⟩ = none ∧
    stepTo (overflowBoard [unitPiece 0 0]) ⟨0, StepRight⟩ = some (overflowBoard [unitPiece 1 0]) ∧
    stepTo (overflowBoard [unitPiece 1 0]) ⟨0, StepUp⟩ = none ∧
    stepTo (overflowBoard [unitPiece 1 0]) ⟨0, StepDown⟩ = none ∧
    stepTo (overflowBoard [unitPiece 1 0]) ⟨0, StepLeft⟩ = some (overflowBoard [unitPiece 0 0]) ∧
    stepTo (overflowBoard [unitPiece 1 0]) ⟨0, StepRight⟩ = none := by
  decide

/-- On the board `overflowBoard` with one single-cell piece at `(0,0)`, the piece is at
`(0,0)` or at `(1,0)` on every board reached by valid moves: the tag slice has 2 entries. -/
theorem overflow_reach (path : List Move) (grid : Grid)
    (h : Reaches (overflowBoard [unitPiece 0 0]) path grid) :
    grid = overflowBoard [unitPiece 0 0] ∨ grid = overflowBoard [unitPiece 1 0] := by
  refine reaches_invariant
    (fun g => g = overflowBoard [unitPiece 0 0] ∨ g = overflowBoard [unitPiece 1 0])
    (Or.inl rfl) ?_ path grid h
  intro g move g' hP hlegal hs
  obtain ⟨pi, step⟩ := move
  obtain ⟨h0, h1, hstep⟩ := hlegal
  have hpi : pi = 0 := by
    simp only [overflowBoard, List.length_singleton, Nat.cast_one] at h1
    simp only at h0
    omega
  subst hpi
  obtain ⟨t1, t2, t3, t4, t5, t6, t7, t8⟩ := overflow_table
  simp only [StepAll, List.mem_cons, List.mem_singleton, List.not_mem_nil, or_false] at hstep
  rcases hP with rfl | rfl <;> rcases hstep with rfl | rfl | rfl | rfl
  · rw [t1] at hs; cases hs
  · rw [t2] at hs; cases hs
  · rw [t3] at hs; cases hs
  · rw [t4] at hs; cases hs; exact Or.inr rfl
  · rw [t5] at hs; cases hs
  · rw [t6] at hs; cases hs
  · rw [t7] at hs; cases hs; exact Or.inl rfl
  · rw [t8] at hs; cases hs

/-- On that board the key tells the boards reached apart. -/
theorem overflow_injective (path1 path2 : List Move) (grid1 grid2 : Grid)
    (h1 : Reaches (overflowBoard [unitPiece 0 0]) path1 grid1)
    (h2 : Reaches (overflowBoard [unitPiece 0 0]) path2 grid2)
    (hk : keyOf NoKeySymmetry grid1 = keyOf NoKeySymmetry grid2) : grid1 = grid2 := by
  rcases overflow_reach path1 grid1 h1 with rfl | rfl <;>
    rcases overflow_reach path2 grid2 h2 with rfl | rfl
  · rfl
  · exact absurd hk (by decide)
  · exact absurd hk (by decide)
  · rfl

/-- C2, as stated, fails, in two ways. On the 3x1 board with one single-cell piece in the
middle and the goal 'the piece is at `(2,0)`', one valid move (right) reaches the goal, so
the least length is 1, but under `HorizontalKeySymmetry` the boards with the piece at
`(0,0)` and at `(2,0)` have the same key: the second one is never admitted and `solvePuzzle`
returns 'no solution'. And on the board of width 3 and height 6148914691236517206, whose
cell count `2^64 + 2` is 2 as an `int`, with one single-cell piece at `(0,0)` and the goal
'the piece is at `(1,0)`', under `NoKeySymmetry`: the board is valid, boards with equal keys
are equal, one valid move (right) reaches the goal, but `solvePuzzle` panics on the move
'down', tried before: `Validate` reads the tag slice at index 3, out of range. -/
theorem bfs_optimal_counterexample :
    ((Grid.mk 3 1 [⟨⟨65, 1⟩, ⟨1, 0⟩, [⟨0, 0⟩]⟩]).IsValid = true ∧
    (fun g : Grid => decide (g.Pieces.map (fun piece => piece.Position) = [⟨2, 0⟩]))
      (Grid.mk 3 1 [⟨⟨65, 1⟩, ⟨1, 0⟩, [⟨0, 0⟩]⟩]) = false ∧
    Reaches (Grid.mk 3 1 [⟨⟨65, 1⟩, ⟨1, 0⟩, [⟨0, 0⟩]⟩]) [⟨0, StepRight⟩]
      (Grid.mk 3 1 [⟨⟨65, 1⟩, ⟨2, 0⟩, [⟨0, 0⟩]⟩]) ∧
    (fun g : Grid => decide (g.Pieces.map (fun piece => piece.Position) = [⟨2, 0⟩]))
      (Grid.mk 3 1 [⟨⟨65, 1⟩, ⟨2, 0⟩, [⟨0, 0⟩]⟩]) = true ∧
    solvePuzzle 5 (Grid.mk 3 1 [⟨⟨65, 1⟩, ⟨1, 0⟩, [⟨0, 0⟩]⟩])
      (fun g => decide (g.Pieces.map (fun piece => piece.Position) = [⟨2, 0⟩]))
      HorizontalKeySymmetry = .noSolution) ∧
    ((overflowBoard [unitPiece 0 0]).IsValid = true ∧
    KeyCompatible (overflowBoard [unitPiece 0 0])
      (fun g => decide (g.Pieces.map (fun piece => piece.Position) = [⟨1, 0⟩])) NoKeySymmetry ∧
    (fun g : Grid => decide (g.Pieces.map (fun piece => piece.Position) = [⟨1, 0⟩]))
      (overflowBoard [unitPiece 0 0]) = false ∧
    Reaches (overflowBoard [unitPiece 0 0]) [⟨0, StepRight⟩] (overflowBoard [unitPiece 1 0]) ∧
    (fun g : Grid => decide (g.Pieces.map (fun piece => piece.Position) = [⟨1, 0⟩]))
      (overflowBoard [unitPiece 1 0]) = true ∧
    solvePuzzle 5 (overflowBoard [unitPiece 0 0])
      (fun g => decide (g.Pieces.map (fun piece => piece.Position) = [⟨1, 0⟩]))
      NoKeySymmetry = .panic) := by
  refine ⟨⟨by decide, by decide, by decide, by decide, by decide⟩,
    by decide, keyCompatible_of_injective overflow_injective, by decide, by decide, by decide,
    by decide⟩

/-- C2, amended. BFS optimality: for every valid initial board whose cell count
`SizeX * SizeY` is a value of type `int` (the product does not overflow), every goal
predicate and each supported symmetry mode such that boards with equal keys are
interchangeable for the search (any two boards reached from the initial board by valid
moves that have the same key agree on the goal predicate, and every valid move on one is
matched by a valid move on the other that leads to boards with the same key), if `L` is the
least length of a sequence of moves that keeps every intermediate board valid and ends on a
board satisfying the goal predicate, then `solvePuzzle` returns (fuel `2 * L` is enough) a
solution whose move sequence has length exactly `L`. -/
theorem bfs_optimal (initialGrid : Grid) (successCondition : Grid → Bool) (symmetry : Int)
    (hsym : symmetry = NoKeySymmetry ∨ symmetry = HorizontalKeySymmetry)
    (hvalid : ∃ cells, initialGrid.Validate = some (some cells))
    (hfit : initialGrid.CellCountFits)
    (hcompat : KeyCompatible initialGrid successCondition symmetry) (L : Nat)
    (hL : ∃ path grid, Reaches initialGrid path grid ∧ successCondition grid = true ∧
      path.length = L)
    (hleast : ∀ path grid, Reaches initialGrid path grid → successCondition grid = true →
      L ≤ path.length)
    (fuel : Nat) (hfuel : 2 * L ≤ fuel) :
    ∃ grid path, solvePuzzle fuel initialGrid successCondition symmetry = .found grid path ∧
      path.length = L := by
  obtain ⟨cells, hv⟩ := hvalid
  by_cases hg : successCondition initialGrid = true
  · have h0 := hleast [] initialGrid (reaches_nil _) hg
    simp only [List.length_nil, Nat.le_zero] at h0
    exact ⟨initialGrid, [], by simp only [solvePuzzle, hv, hg, if_true], h0.symm⟩
  · have hg' : successCondition initialGrid = false := by simpa using hg
    obtain ⟨key, hk⟩ := key_total hfit hv hsym
    have hkeyOf : keyOf symmetry initialGrid = some key := by simp only [keyOf, hv, hk]
    have inv := @startInv_seed _ successCondition _ _ hkeyOf hg'
    have hcov : Cov symmetry initialGrid 0 [⟨initialGrid, none, key, []⟩] := by
      intro path grid hr hlen
      have hnil : path = [] := List.eq_nil_of_length_eq_zero (by omega)
      subst hnil
      have := hr.2
      simp only [runPath, Option.some.injEq] at this
      subst this
      exact ⟨0, _, rfl, hkeyOf⟩
    have hpos : 1 ≤ L := by
      obtain ⟨path, grid, hr, hgoal, hlen⟩ := hL
      by_contra hlt
      have hnil : path = [] := List.eq_nil_of_length_eq_zero (by omega)
      subst hnil
      have := hr.2
      simp only [runPath, Option.some.injEq] at this
      subst this
      rw [hg'] at hgoal
      cases hgoal
    rw [solvePuzzle_seeded hv hg' hk]
    exact searchLoop_optimal hsym hfit (validate_size_nonneg hv) hcompat hL hleast fuel inv hcov
      hpos (by omega)

theorem scenario_table :
    stepTo (scenarioGrid ⟨65, 1⟩ 0) ⟨0, StepUp⟩ = none ∧
    stepTo (scenarioGrid ⟨65, 1⟩ 0) ⟨0, StepDown⟩ = none ∧
    stepTo (scenarioGrid ⟨65, 1⟩ 0) ⟨0, StepLeft⟩ = none ∧
    stepTo (scenarioGrid ⟨65, 1⟩ 0) ⟨0, StepRight⟩ = some (scenarioGrid ⟨65, 1⟩ 1) ∧
    stepTo (scenarioGrid ⟨65, 1⟩ 1) ⟨0, StepUp⟩ = none ∧
    stepTo (scenarioGrid ⟨65, 1⟩ 1) ⟨0, StepDown⟩ = none ∧
    stepTo (scenarioGrid ⟨65, 1⟩ 1) ⟨0, StepLeft⟩ = some (scenarioGrid ⟨65, 1⟩ 0) ∧
    stepTo (scenarioGrid ⟨65, 1⟩ 1) ⟨0, StepRight⟩ = none := by
  decide

/-- In the 2x1 scenario the piece is at `(0,0)` or at `(1,0)` on every board reached from
the start board. -/
theorem scenario_reach (path : List Move) (grid : Grid)
    (h : Reaches (scenarioGrid ⟨65, 1⟩ 0) path grid) :
    grid = scenarioGrid ⟨65, 1⟩ 0 ∨ grid = scenarioGrid ⟨65, 1⟩ 1 := by
  refine reaches_invariant (fun g => g = scenarioGrid ⟨65, 1⟩ 0 ∨ g = scenarioGrid ⟨65, 1⟩ 1)
    (Or.inl rfl) ?_ path grid h
  intro g move g' hP hlegal hs
  obtain ⟨pi, step⟩ := move
  obtain ⟨h0, h1, hstep⟩ := hlegal
  have hpi : pi = 0 := by
    simp only [scenarioGrid, List.length_singleton, Nat.cast_one] at h1
    simp only at h0
    omega
  subst hpi
  obtain ⟨t1, t2, t3, t4, t5, t6, t7, t8⟩ := scenario_table
  simp only [StepAll, List.mem_cons, List.mem_singleton, List.not_mem_nil, or_false] at hstep
  rcases hP with rfl | rfl <;> rcases hstep with rfl | rfl | rfl | rfl
  · rw [t1] at hs; cases hs
  · rw [t2] at hs; cases hs
  · rw [t3] at hs; cases hs
  · rw [t4] at hs; cases hs; exact Or.inr rfl
  · rw [t5] at hs; cases hs
  · rw [t6] at hs; cases hs
  · rw [t7] at hs; cases hs; exact Or.inl rfl
  · rw [t8] at hs; cases hs

/-- Witness of C2 (amended): the 2x1 scenario without symmetry, where the least length
is 1. -/
theorem bfs_optimal_witness :
    ∃ grid path,
      solvePuzzle 2 (scenarioGrid ⟨65, 1⟩ 0) scenarioGoal NoKeySymmetry = .found grid path ∧
      path.length = 1 :=
  bfs_optimal (scenarioGrid ⟨65, 1⟩ 0) scenarioGoal NoKeySymmetry (Or.inl rfl)
    ⟨_, rfl⟩ (by decide)
    (keyCompatible_of_injective (by
      intro p1 p2 g1 g2 h1 h2 hk
      rcases scenario_reach p1 g1 h1 with rfl | rfl <;>
        rcases scenario_reach p2 g2 h2 with rfl | rfl
      · rfl
      · exact absurd hk (by decide)
      · exact absurd hk (by decide)
      · rfl))
    1 ⟨[⟨0, StepRight⟩], scenarioGrid ⟨65, 1⟩ 1, by decide, by decide, rfl⟩
    (by
      intro path grid hr hg
      rcases path with _ | ⟨m, rest⟩
      · have := hr.2
        simp only [runPath, Option.some.injEq] at this
        subst this
        cases hg
      · simp)
    2 (by decide)

/-! ## C11: the goal holds on the initial board -/

/-- C11. Goal already satisfied: for every initial board that passes `Validate` and on
which the goal predicate holds, for every symmetry mode (every value of the mode, the key
is not computed) and every fuel, `solvePuzzle` returns success with the initial board itself
as the final board and an empty move sequence. -/
theorem solve_goal_at_start (fuel : Nat) (initialGrid : Grid) (successCondition : Grid → Bool)
    (symmetry : Int) (hvalid : initialGrid.IsValid = true)
    (hgoal : successCondition initialGrid = true) :
    solvePuzzle fuel initialGrid successCondition symmetry = .found initialGrid [] := by
  obtain ⟨cells, hcells⟩ := (isValid_iff initialGrid).1 hvalid
  simp only [solvePuzzle, hcells, hgoal, if_true]

/-- Witness of C11: the 2x1 board with its piece already on the goal cell `(1, 0)`, without
fuel and with a symmetry value that `Key` does not support. -/
theorem solve_goal_at_start_witness :
    (scenarioGrid ⟨65, 1⟩ 1).IsValid = true ∧ scenarioGoal (scenarioGrid ⟨65, 1⟩ 1) = true ∧
      solvePuzzle 0 (scenarioGrid ⟨65, 1⟩ 1) scenarioGoal 7 = .found (scenarioGrid ⟨65, 1⟩ 1) [] :=
  ⟨by decide, by decide,
    solve_goal_at_start 0 (scenarioGrid ⟨65, 1⟩ 1) scenarioGoal 7 (by decide) (by decide)⟩

/-! ## C12: the content of the occupancy map -/

/-- In a placement history without two placements on the same cell, the lookup of a cell
gives the tag placed on it. -/
theorem lookup_of_mem_nodup (hist : List (Vect2 × PieceTag)) (p : Vect2) (t : PieceTag)
    (hnd : (hist.map (fun e => e.1)).Nodup) (h : (p, t) ∈ hist) : hist.lookup p = some t := by
  induction hist with
  | nil => simp at h
  | cons e rest ih =>
    obtain ⟨c, t0⟩ := e
    rw [List.map_cons, List.nodup_cons] at hnd
    rcases List.mem_cons.1 h with heq | hmem
    · cases heq
      simp [List.lookup_cons]
    · have hpc : p ≠ c := by
        rintro rfl
        exact hnd.1 (List.mem_map.2 ⟨(p, t), hmem, rfl⟩)
      have hbeq : (p == c) = false := by simpa using hpc
      rw [List.lookup_cons, hbeq]
      exact ih hnd.2 hmem

theorem mem_cellTags {pieces : List Piece} {piece : Piece} {geom : Vect2} (hp : piece ∈ pieces)
    (hg : geom ∈ piece.Geometry) : (geom.Add piece.Position, piece.Tag) ∈ cellTags pieces := by
  simp only [cellTags, List.mem_flatMap, List.mem_map]
  exact ⟨piece, hp, geom, hg, rfl⟩

theorem mem_absCells {grid : Grid} {c : Vect2} :
    c ∈ grid.absCells ↔ ∃ piece ∈ grid.Pieces, ∃ geom ∈ piece.Geometry,
      geom.Add piece.Position = c := by
  simp only [Grid.absCells, List.mem_flatMap, List.mem_map]

/-- C12, as stated, fails, in two ways. On the 1x1 board whose cell `(0, 0)` is covered
first by a piece tagged with the empty tag `('*',0)` and then by a piece tagged `('B',1)`,
`Validate` returns a map; two pieces land on the cell, and its entry `('B',1)` is not the
tag of the first of them. On the board of width 3 and height 6148914691236517206 without
pieces, `Validate` returns a map with 2 tags, not `SizeX * SizeY`: the product `2^64 + 2`
is 2 as an `int`. -/
theorem validate_content_counterexample :
    (maskedOverlap.Validate = some (some ⟨1, 1, [⟨66, 1⟩]⟩) ∧
    maskedOverlap.absCells.count ⟨0, 0⟩ = 2 ∧
    ¬(∀ piece ∈ maskedOverlap.Pieces, ∀ geom ∈ piece.Geometry,
        geom.Add piece.Position = ⟨0, 0⟩ →
        sliceGet (gridCells.mk 1 1 [⟨66, 1⟩]).tags (0 + maskedOverlap.SizeX * 0) =
          some piece.Tag)) ∧
    ((overflowBoard []).Validate
        = some (some ⟨3, 6148914691236517206, [PieceTagEmpty, PieceTagEmpty]⟩) ∧
      ((gridCells.mk 3 6148914691236517206 [PieceTagEmpty, PieceTagEmpty]).tags.length : Int)
        ≠ (overflowBoard []).SizeX * (overflowBoard []).SizeY) := by
  refine ⟨⟨by decide, by decide, by decide⟩, by decide⟩

/-- C12, amended. Content of the occupancy map: whenever `Validate` returns a map for a
board whose cell count `SizeX * SizeY` is a value of type `int` (the product does not
overflow) and in which every piece with a non-empty shape has a tag other than the empty
tag `('*',0)`, the map has the board's `SizeX` and `SizeY` and exactly `SizeX*SizeY` cells,
and for every cell `(x, y)` with `0 <= x < SizeX`, `0 <= y < SizeY`: at most one (piece,
offset) pair lands on the cell, `Position + offset` being the sum of `int` values made by
`Vect2.Add` (the sum of the integers whenever that sum is a value of type `int`); the entry
at index `x + SizeX*y` is the tag of every piece one of whose offsets lands on the cell, and
it is the empty tag when no piece covers the cell. -/
theorem validate_content (grid : Grid) (cells : gridCells)
    (hval : grid.Validate = some (some cells)) (hfit : grid.CellCountFits)
    (htags : ∀ piece ∈ grid.Pieces, piece.Geometry ≠ [] → piece.Tag ≠ PieceTagEmpty) :
    cells.sizeX = grid.SizeX ∧ cells.sizeY = grid.SizeY ∧
    (cells.tags.length : Int) = grid.SizeX * grid.SizeY ∧
    (∀ x y : Int, 0 ≤ x → x < grid.SizeX → 0 ≤ y → y < grid.SizeY →
      grid.absCells.count ⟨x, y⟩ ≤ 1 ∧
      (∀ piece ∈ grid.Pieces, ∀ geom ∈ piece.Geometry, geom.Add piece.Position = ⟨x, y⟩ →
        sliceGet cells.tags (x + grid.SizeX * y) = some piece.Tag) ∧
      ((∀ piece ∈ grid.Pieces, ∀ geom ∈ piece.Geometry, geom.Add piece.Position ≠ ⟨x, y⟩) →
        sliceGet cells.tags (x + grid.SizeX * y) = some PieceTagEmpty)) ∧
    (∀ piece ∈ grid.Pieces, ∀ geom ∈ piece.Geometry,
      isInt64 (geom.X + piece.Position.X) → isInt64 (geom.Y + piece.Position.Y) →
      geom.Add piece.Position = ⟨geom.X + piece.Position.X, geom.Y + piece.Position.Y⟩) := by
  obtain ⟨hsx, hsy, hlen⟩ := validate_sizes hfit hval
  refine ⟨hsx, hsy, hlen, ?_,
    fun piece _ geom _ => add_eq_of_isInt64 geom piece.Position⟩
  rcases validate_spec grid hfit (fits_nonneg hfit (validate_size_nonneg hval)) htags with
    ⟨⟨-, hnd⟩, cells', hval', inv, -, -⟩ | ⟨-, hnil⟩
  · rw [hval] at hval'
    cases hval'
    intro x y hx0 hx1 hy0 hy1
    have hc : cells.contains ⟨x, y⟩ = true :=
      (contains_iff cells ⟨x, y⟩).2 ⟨hx0, by rw [hsx]; exact hx1, hy0, by rw [hsy]; exact hy1⟩
    have hcontent := inv.content ⟨x, y⟩ hc
    simp only [hsx] at hcontent
    have hkeys : ((cellTags grid.Pieces).reverse.map (fun e => e.1)).Nodup := by
      rw [List.map_reverse, List.nodup_reverse, cellTags_fst]
      exact hnd
    refine ⟨List.nodup_iff_count_le_one.1 hnd _, ?_, ?_⟩
    · intro piece hp geom hg hland
      have hmem : ((⟨x, y⟩ : Vect2), piece.Tag) ∈ (cellTags grid.Pieces).reverse := by
        rw [List.mem_reverse, ← hland]
        exact mem_cellTags hp hg
      rw [hcontent, lookup_of_mem_nodup _ _ _ hkeys hmem]
      rfl
    · intro hfree
      have hnot : (⟨x, y⟩ : Vect2) ∉ (cellTags grid.Pieces).reverse.map (fun e => e.1) := by
        rw [List.map_reverse, List.mem_reverse, cellTags_fst]
        intro hmem
        obtain ⟨piece, hp, geom, hg, hland⟩ := mem_absCells.1 hmem
        exact hfree piece hp geom hg hland
      rw [hcontent, lookup_of_not_mem _ _ hnot]
      rfl
  · rw [hval] at hnil
    cases hnil

/-- Witness of C12 (amended): the 2x2 board with a vertical domino and a single cell, whose
map is `B* / BD`; and the 1x1 board with a piece `('A',1)` at `(-2^63, 0)` whose shape is
the offset `(-2^63, 0)`: the sum of `Vect2.Add` wraps around to the cell `(0, 0)`, and the
map holds the tag of the piece in that cell. -/
theorem validate_content_witness :
    dominoBoard.Validate = some (some ⟨2, 2, [⟨66, 1⟩, PieceTagEmpty, ⟨66, 1⟩, ⟨68, 1⟩]⟩) ∧
    (∀ x y : Int, 0 ≤ x → x < dominoBoard.SizeX → 0 ≤ y → y < dominoBoard.SizeY →
      dominoBoard.absCells.count ⟨x, y⟩ ≤ 1 ∧
      (∀ piece ∈ dominoBoard.Pieces, ∀ geom ∈ piece.Geometry,
        geom.Add piece.Position = ⟨x, y⟩ →
        sliceGet (gridCells.mk 2 2 [⟨66, 1⟩, PieceTagEmpty, ⟨66, 1⟩, ⟨68, 1⟩]).tags
          (x + dominoBoard.SizeX * y) = some piece.Tag) ∧
      ((∀ piece ∈ dominoBoard.Pieces, ∀ geom ∈ piece.Geometry,
        geom.Add piece.Position ≠ ⟨x, y⟩) →
        sliceGet (gridCells.mk 2 2 [⟨66, 1⟩, PieceTagEmpty, ⟨66, 1⟩, ⟨68, 1⟩]).tags
          (x + dominoBoard.SizeX * y) = some PieceTagEmpty)) ∧
    wrapSumBoard.Validate = some (some ⟨1, 1, [⟨65, 1⟩]⟩) ∧
    (Vect2.mk (-9223372036854775808) 0).Add ⟨-9223372036854775808, 0⟩ = ⟨0, 0⟩ ∧
    ((gridCells.mk 1 1 [⟨65, 1⟩]).tags.length : Int) = wrapSumBoard.SizeX * wrapSumBoard.SizeY :=
  ⟨by decide,
    (validate_content dominoBoard ⟨2, 2, [⟨66, 1⟩, PieceTagEmpty, ⟨66, 1⟩, ⟨68, 1⟩]⟩
      (by decide) (by decide) (by decide)).2.2.2.1,
    by decide, by decide,
    (validate_content wrapSumBoard ⟨1, 1, [⟨65, 1⟩]⟩
      (by decide) (by decide) (by decide)).2.2.1⟩

/-! ## C13: the key without symmetry -/

/-- C13, as stated, fails, in two ways. The 1x1 board with one piece whose kind symbol is the
surrogate code point U+D800 has the map with that symbol in its only cell, and `Key` returns
for it the bytes `EF BF BD`, the string of the one character U+FFFD, which is not the cell's
symbol: `string(key)` replaces every rune that is not a valid code point. The map with the
symbol U+FFFD gets the same key. And the board of width 3 and height 6148914691236517206
without pieces has a map with 2 tags (the product of the sizes, `2^64 + 2`, is 2 as an
`int`), whose key `"**"` has 2 characters, not `SizeX * SizeY`. -/
theorem key_plain_counterexample :
    ((Grid.mk 1 1 [⟨⟨0xD800, 1⟩, ⟨0, 0⟩, [⟨0, 0⟩]⟩]).Validate
      = some (some ⟨1, 1, [⟨0xD800, 1⟩]⟩) ∧
    (gridCells.mk 1 1 [⟨0xD800, 1⟩]).symbols = [0xD800] ∧
    (gridCells.mk 1 1 [⟨0xD800, 1⟩]).Key NoKeySymmetry = some [0xEF, 0xBF, 0xBD] ∧
    (gridCells.mk 1 1 [⟨0xFFFD, 1⟩]).Key NoKeySymmetry = some [0xEF, 0xBF, 0xBD] ∧
    runesToString [0xFFFD] = [0xEF, 0xBF, 0xBD] ∧ validRune 0xFFFD ∧
    ¬(∀ chars : List Int, (∀ c ∈ chars, validRune c) →
      (gridCells.mk 1 1 [⟨0xD800, 1⟩]).Key NoKeySymmetry = some (runesToString chars) →
      chars = (gridCells.mk 1 1 [⟨0xD800, 1⟩]).symbols)) ∧
    ((overflowBoard []).Validate
        = some (some ⟨3, 6148914691236517206, [PieceTagEmpty, PieceTagEmpty]⟩) ∧
      (gridCells.mk 3 6148914691236517206 [PieceTagEmpty, PieceTagEmpty]).Key NoKeySymmetry
        = some (runesToString [42, 42]) ∧
      (([42, 42] : List Int).length : Int) ≠
        (gridCells.mk 3 6148914691236517206 [PieceTagEmpty, PieceTagEmpty]).sizeX *
          (gridCells.mk 3 6148914691236517206 [PieceTagEmpty, PieceTagEmpty]).sizeY) := by
  refine ⟨⟨by decide, by decide, by decide, by decide, by decide, by decide, ?_⟩, by decide⟩
  intro h
  exact absurd (h [0xFFFD] (by decide) (by decide)) (by decide)

theorem encodeRune_replaceInvalid (r : Int) : encodeRune (replaceInvalid r) = encodeRune r := by
  unfold replaceInvalid
  split
  · rfl
  · rename_i h
    have hinv : r < 0 ∨ 0x10FFFF < r ∨ (0xD800 ≤ r ∧ r ≤ 0xDFFF) := by
      unfold validRune at h
      omega
    unfold encodeRune
    rw [if_pos hinv]
    rfl

theorem validRune_replaceInvalid (r : Int) : validRune (replaceInvalid r) := by
  unfold replaceInvalid
  split
  · assumption
  · decide

theorem runesToString_replaceInvalid : ∀ runes : List Int,
    runesToString (runes.map replaceInvalid) = runesToString runes
  | [] => rfl
  | r :: rest => by
    simp only [List.map_cons, runesToString, encodeRune_replaceInvalid,
      runesToString_replaceInvalid rest]

/-- C13, amended. Key in `NoKeySymmetry` mode: for every occupancy map with non-negative
sizes that holds one tag per cell (`SizeX * SizeY` tags), `Key` returns the conversion to a
string of the rune slice that holds, for each cell in row-major order (index
`x + SizeX*y`), that cell's tag `Symbol`: the string of `SizeX*SizeY` characters, one per
cell, which is the cell's `Symbol` when the symbol is a valid Unicode code point and U+FFFD
otherwise (a sequence of valid characters has the key as its string exactly when it is that
sequence). The tag's instance `Number` never influences the key: two maps of equal size
whose tags have the same `Symbol` in every cell get equal keys. -/
theorem key_plain (cells : gridCells) (wf : cells.WellFormed) :
    cells.Key NoKeySymmetry = some (runesToString cells.symbols) ∧
    (cells.symbols.length : Int) = cells.sizeX * cells.sizeY ∧
    (∀ x y : Int, 0 ≤ x → x < cells.sizeX → 0 ≤ y → y < cells.sizeY →
      ∃ tag, sliceGet cells.tags (x + cells.sizeX * y) = some tag ∧
        sliceGet cells.symbols (x + cells.sizeX * y) = some tag.Symbol) ∧
    (∀ chars : List Int, (∀ c ∈ chars, validRune c) →
      (cells.Key NoKeySymmetry = some (runesToString chars) ↔
        chars = cells.symbols.map replaceInvalid)) ∧
    ((∀ tag ∈ cells.tags, validRune tag.Symbol) →
      cells.symbols.map replaceInvalid = cells.symbols) ∧
    (∀ other : gridCells, other.WellFormed → other.sizeX = cells.sizeX →
      other.sizeY = cells.sizeY →
      (∀ x y : Int, 0 ≤ x → x < cells.sizeX → 0 ≤ y → y < cells.sizeY →
        (sliceGet other.tags (x + cells.sizeX * y)).map (fun tag => tag.Symbol) =
          (sliceGet cells.tags (x + cells.sizeX * y)).map (fun tag => tag.Symbol)) →
      other.Key NoKeySymmetry = cells.Key NoKeySymmetry) := by
  have hlen : (cells.symbols.length : Int) = cells.sizeX * cells.sizeY := by
    simp only [gridCells.symbols, List.length_map]
    exact wf.2.2
  refine ⟨key_noSymmetry cells, hlen, ?_, ?_, ?_, ?_⟩
  · intro x y hx0 hx1 hy0 hy1
    have hidx := cellIndex_bound hx0 hx1 hy0 hy1
    obtain ⟨tag, htag⟩ := sliceGet_eq_some cells.tags (x + cells.sizeX * y) hidx.1
      (by rw [wf.2.2]; exact hidx.2)
    refine ⟨tag, htag, ?_⟩
    rw [gridCells.symbols, sliceGet_map, htag]
    rfl
  · intro chars hchars
    rw [key_noSymmetry, Option.some.injEq, ← runesToString_replaceInvalid cells.symbols]
    constructor
    · intro hkey
      refine (runesToString_inj _ _ ?_ hchars hkey).symm
      intro r hr
      obtain ⟨r0, -, rfl⟩ := List.mem_map.1 hr
      exact validRune_replaceInvalid r0
    · intro heq
      rw [heq]
  · intro hvalid
    have hid : cells.symbols.map replaceInvalid = cells.symbols.map id := by
      apply List.map_congr_left
      intro r hr
      simp only [gridCells.symbols, List.mem_map] at hr
      obtain ⟨tag, htag, rfl⟩ := hr
      unfold replaceInvalid
      rw [if_pos (hvalid tag htag)]
      rfl
    rw [hid, List.map_id]
  · intro other wfo hsx hsy hcell
    rw [key_noSymmetry, key_noSymmetry]
    congr 2
    apply @cells_ext Int cells.sizeX cells.sizeY wf.1
    · simp only [gridCells.symbols, List.length_map]
      rw [wfo.2.2, hsx, hsy]
    · exact hlen
    · intro x y hx0 hx1 hy0 hy1
      rw [gridCells.symbols, gridCells.symbols, sliceGet_map, sliceGet_map]
      exact hcell x y hx0 hx1 hy0 hy1

/-- Witness of C13 (amended): the 3x2 map `AA* / B**` has the key `"AA*B**"`, and renumbering
the instances does not change it. -/
theorem key_plain_witness :
    (gridCells.mk 3 2 [⟨65, 1⟩, ⟨65, 1⟩, PieceTagEmpty,
        ⟨66, 1⟩, PieceTagEmpty, PieceTagEmpty]).Key NoKeySymmetry
      = some [65, 65, 42, 66, 42, 42] ∧
    (gridCells.mk 3 2 [⟨65, 2⟩, ⟨65, 3⟩, PieceTagEmpty,
        ⟨66, 5⟩, PieceTagEmpty, PieceTagEmpty]).Key NoKeySymmetry
      = (gridCells.mk 3 2 [⟨65, 1⟩, ⟨65, 1⟩, PieceTagEmpty,
        ⟨66, 1⟩, PieceTagEmpty, PieceTagEmpty]).Key NoKeySymmetry :=
  ⟨(key_plain (gridCells.mk 3 2 [⟨65, 1⟩, ⟨65, 1⟩, PieceTagEmpty,
        ⟨66, 1⟩, PieceTagEmpty, PieceTagEmpty]) (by decide)).1,
    by decide⟩

/-! ## C14: the key with horizontal symmetry -/

/-- The comparison `<` of Go strings is the lexicographic order of the byte lists. -/
theorem strLess_iff_lt : ∀ (s t : GoString), strLess s t = true ↔ s < t
  | [], [] => by
    simp only [strLess]
    constructor
    · intro h
      cases h
    · intro h
      exact absurd h (lt_irrefl _)
  | [], b :: t => by
    simp only [strLess, true_iff]
    exact List.Lex.nil
  | a :: s, [] => by
    simp only [strLess]
    constructor
    · intro h
      cases h
    · intro h
      cases h
  | a :: s, b :: t => by
    simp only [strLess]
    by_cases hab : a < b
    · simp only [hab, if_true, true_iff]
      exact List.Lex.rel hab
    · by_cases hba : b < a
      · simp only [hab, hba, if_false, if_true]
        constructor
        · intro h
          cases h
        · intro h
          cases h with
          | cons _ => exact absurd hba (lt_irrefl _)
          | rel h1 => exact absurd h1 hab
      · simp only [hab, hba, if_false]
        have heq : a = b := by omega
        subst heq
        rw [strLess_iff_lt s t]
        constructor
        · intro h
          exact List.Lex.cons h
        · intro h
          cases h with
          | cons h3 => exact h3
          | rel h1 => exact absurd h1 hab

/-- C14, as stated, fails, in two ways. The board with `SizeX = -1`, `SizeY = -1` and no
piece is valid: `Validate` returns a map with one tag, the empty tag. On this map the two
loops of the `HorizontalKeySymmetry` case do not run, and `Key` returns the string of the one
zero rune that `make` put into `key2`: the byte `00`, which is not the serialization `"*"`
of the map (nor of a rearrangement of its symbols, nor of the empty symbol slice). And the
board of width 3 and height 6148914691236517206 without pieces is valid as well, with a map
of 2 tags (the product of the sizes, `2^64 + 2`, is 2 as an `int`), on which `Key` panics in
`HorizontalKeySymmetry` mode: no string is returned. -/
theorem key_horizontal_first_counterexample :
    ((Grid.mk (-1) (-1) []).Validate = some (some ⟨-1, -1, [PieceTagEmpty]⟩) ∧
      (gridCells.mk (-1) (-1) [PieceTagEmpty]).Key HorizontalKeySymmetry = some [0] ∧
      (gridCells.mk (-1) (-1) [PieceTagEmpty]).Key NoKeySymmetry = some [42] ∧
      runesToString (gridCells.mk (-1) (-1) [PieceTagEmpty]).symbols = [42] ∧
      (∀ l : List Int, l.Perm (gridCells.mk (-1) (-1) [PieceTagEmpty]).symbols →
        runesToString l ≠ [0]) ∧
      runesToString [] ≠ [0]) ∧
    ((overflowBoard []).Validate
        = some (some ⟨3, 6148914691236517206, [PieceTagEmpty, PieceTagEmpty]⟩) ∧
      (gridCells.mk 3 6148914691236517206 [PieceTagEmpty, PieceTagEmpty]).Key
        HorizontalKeySymmetry = none) := by
  refine ⟨⟨by decide, by decide, by decide, by decide, ?_, by decide⟩, by decide,
    key_horizontal_panic _ (by decide) (by decide) (by decide)⟩
  intro l hl
  have hs : (gridCells.mk (-1) (-1) [PieceTagEmpty]).symbols = [42] := by decide
  rw [hs] at hl
  rw [List.perm_singleton.1 hl]
  decide

/-- C14, amended. Key in `HorizontalKeySymmetry` mode: for every occupancy map with
non-negative sizes that holds one tag per cell (`SizeX * SizeY` tags), with `s1` the
row-major symbol serialization of the map (its key without symmetry) and `s2` the row-major
symbol serialization of the map with every row's columns reversed (cell `(x, y)` of the
reversed symbol slice is cell `(SizeX - 1 - x, y)` of the symbol slice), `Key` returns `s1`
when `s1 < s2` and `s2` otherwise: a string that is equal to `s1` or to `s2` and is less
than or equal to both in the lexicographic order. -/
theorem key_horizontal_first (cells : gridCells) (wf : cells.WellFormed) :
    ∃ key s1 s2 : GoString, cells.Key HorizontalKeySymmetry = some key ∧
      s1 = runesToString cells.symbols ∧
      s2 = runesToString (reverseRows cells.sizeX.toNat cells.sizeY.toNat cells.symbols) ∧
      cells.Key NoKeySymmetry = some s1 ∧
      ((reverseRows cells.sizeX.toNat cells.sizeY.toNat cells.symbols).length : Int) =
        cells.sizeX * cells.sizeY ∧
      (∀ x y : Int, 0 ≤ x → x < cells.sizeX → 0 ≤ y → y < cells.sizeY →
        sliceGet (reverseRows cells.sizeX.toNat cells.sizeY.toNat cells.symbols)
            (x + cells.sizeX * y) =
          sliceGet cells.symbols (cells.sizeX - 1 - x + cells.sizeX * y)) ∧
      key = (if s1 < s2 then s1 else s2) ∧
      (key = s1 ∨ key = s2) ∧ key ≤ s1 ∧ key ≤ s2 := by
  refine ⟨_, _, _, key_horizontal wf, rfl, rfl, key_noSymmetry cells, ?_, ?_, ?_⟩
  · rw [← mirror_symbols]
    simp only [gridCells.symbols, List.length_map]
    exact (mirror_wellFormed wf).2.2
  · intro x y hx0 hx1 hy0 hy1
    have h := mirror_cell wf (cells.sizeX - 1 - x) y (by omega) (by omega) hy0 hy1
    have hxx : cells.sizeX - 1 - (cells.sizeX - 1 - x) = x := by ring
    rw [hxx] at h
    rw [← mirror_symbols, gridCells.symbols, gridCells.symbols, sliceGet_map, sliceGet_map, h]
  · rw [mirror_symbols]
    by_cases h : strLess (runesToString cells.symbols)
        (runesToString (reverseRows cells.sizeX.toNat cells.sizeY.toNat cells.symbols)) = true
    · have h' := (strLess_iff_lt _ _).1 h
      rw [if_pos h, if_pos h']
      exact ⟨rfl, Or.inl rfl, le_refl _, le_of_lt h'⟩
    · have h' : ¬runesToString cells.symbols <
          runesToString (reverseRows cells.sizeX.toNat cells.sizeY.toNat cells.symbols) :=
        fun hc => h ((strLess_iff_lt _ _).2 hc)
      rw [if_neg h, if_neg h']
      exact ⟨rfl, Or.inr rfl, not_lt.1 h', le_refl _⟩

/-- Witness of C14 (amended): on the 2x1 map `B*` the two serializations are `"B*"` and
`"*B"`, and the key is `"*B"`. -/
theorem key_horizontal_first_witness :
    ∃ key s1 s2 : GoString,
      (gridCells.mk 2 1 [⟨66, 1⟩, PieceTagEmpty]).Key HorizontalKeySymmetry = some key ∧
      s1 = [66, 42] ∧ s2 = [42, 66] ∧ key = [42, 66] ∧ key ≤ s1 ∧ key ≤ s2 := by
  obtain ⟨key, s1, s2, h1, h2, h3, -, -, -, h4, -, h5, h6⟩ :=
    key_horizontal_first (gridCells.mk 2 1 [⟨66, 1⟩, PieceTagEmpty]) (by decide)
  have e1 : s1 = [66, 42] := by rw [h2]; decide
  have e2 : s2 = [42, 66] := by rw [h3]; decide
  refine ⟨key, s1, s2, h1, e1, e2, ?_, h5, h6⟩
  rw [h4, e1, e2]
  decide

/-! ## C15, C16: the frame of `Apply`, inverse moves -/

/-- The board returned by `Apply` for a piece index of the piece list. -/
theorem apply_eq {grid : Grid} {move : Move} {piece : Piece}
    (hp : sliceGet grid.Pieces move.PieceIndex = some piece) :
    0 ≤ move.PieceIndex ∧ move.PieceIndex < (grid.Pieces.length : Int) ∧
    grid.Apply move = some ⟨grid.SizeX, grid.SizeY, grid.Pieces.set move.PieceIndex.toNat
      ⟨piece.Tag, piece.Position.Add move.Step.Vector, piece.Geometry⟩⟩ := by
  have h0 : 0 ≤ move.PieceIndex := by
    by_contra hneg
    unfold sliceGet at hp
    rw [if_pos (by omega)] at hp
    cases hp
  have h1 : move.PieceIndex < (grid.Pieces.length : Int) := by
    rw [sliceGet_of_nonneg _ _ h0] at hp
    have := (List.getElem?_eq_some_iff.1 hp).1
    omega
  refine ⟨h0, h1, ?_⟩
  have hs := sliceSet_isSome grid.Pieces move.PieceIndex
    { piece with Position := piece.Position.Add move.Step.Vector } h0 h1
  simp only [Grid.Apply, hp, hs]

/-- Writing back the element that a slice already holds changes nothing. -/
theorem set_of_getElem? {α : Type} (xs : List α) (i : Nat) (v : α) (h : xs[i]? = some v) :
    xs.set i v = xs := by
  apply List.ext_getElem?
  intro k
  rw [List.getElem?_set]
  split
  · rename_i hk
    subst hk
    split
    · exact h.symm
    · rename_i hlt
      rw [List.getElem?_eq_none (by omega)]
  · rfl

/-- C15. Frame of `Grid.Apply`: for every board and every move whose piece index is within
the piece list, `Apply` succeeds, with no validity check, and changes only the `Position` of
the referenced piece, which becomes the old `Position` plus the step's vector, the sum that
`Vect2.Add` makes of them: in each coordinate the sum of the two `int` values, which is the
sum of the integers whenever that is a value of type `int` and is reduced into
`[-2^63, 2^63)` where it is not; `SizeX`, `SizeY`, the number and order of the pieces, the
`Tag` and `Geometry` of the referenced piece and every other piece are unchanged. -/
theorem apply_position_only (grid : Grid) (move : Move) (h0 : 0 ≤ move.PieceIndex)
    (h1 : move.PieceIndex < (grid.Pieces.length : Int)) :
    ∃ grid' piece, sliceGet grid.Pieces move.PieceIndex = some piece ∧
      grid.Apply move = some grid' ∧
      grid'.SizeX = grid.SizeX ∧ grid'.SizeY = grid.SizeY ∧
      grid'.Pieces.length = grid.Pieces.length ∧
      sliceGet grid'.Pieces move.PieceIndex =
        some ⟨piece.Tag, piece.Position.Add move.Step.Vector, piece.Geometry⟩ ∧
      piece.Position.Add move.Step.Vector =
        ⟨wrapInt (piece.Position.X + move.Step.Vector.X),
          wrapInt (piece.Position.Y + move.Step.Vector.Y)⟩ ∧
      (isInt64 (piece.Position.X + move.Step.Vector.X) →
        isInt64 (piece.Position.Y + move.Step.Vector.Y) →
        sliceGet grid'.Pieces move.PieceIndex =
          some ⟨piece.Tag, ⟨piece.Position.X + move.Step.Vector.X,
            piece.Position.Y + move.Step.Vector.Y⟩, piece.Geometry⟩) ∧
      ∀ index : Int, index ≠ move.PieceIndex →
        sliceGet grid'.Pieces index = sliceGet grid.Pieces index := by
  obtain ⟨piece, hp⟩ := sliceGet_eq_some grid.Pieces move.PieceIndex h0 h1
  obtain ⟨-, -, happly⟩ := apply_eq hp
  have hset := sliceSet_isSome grid.Pieces move.PieceIndex
    (⟨piece.Tag, piece.Position.Add move.Step.Vector, piece.Geometry⟩ : Piece) h0 h1
  have hget : sliceGet (grid.Pieces.set move.PieceIndex.toNat
      ⟨piece.Tag, piece.Position.Add move.Step.Vector, piece.Geometry⟩) move.PieceIndex =
      some ⟨piece.Tag, piece.Position.Add move.Step.Vector, piece.Geometry⟩ := by
    rw [sliceGet_sliceSet hset, if_pos rfl]
  refine ⟨_, piece, hp, happly, rfl, rfl, by simp, hget, rfl, ?_, ?_⟩
  · intro hx hy
    rw [hget, add_eq_of_isInt64 _ _ hx hy]
  · intro index hne
    rw [sliceGet_sliceSet hset, if_neg hne]

/-- Witness of C15: on the 2x1 board with its piece at `(1, 0)`, the move of piece 0 to the
right is applied although the piece leaves the board: the result is the board with the piece
at `(2, 0)`, which does not pass `Validate`. At the limit of the type `int` the sum wraps
around: the move to the right of a piece at `(2^63 - 1, 0)` puts it at `(-2^63, 0)`. -/
theorem apply_position_only_witness :
    (∃ grid' piece, sliceGet (scenarioGrid ⟨65, 1⟩ 1).Pieces 0 = some piece ∧
      (scenarioGrid ⟨65, 1⟩ 1).Apply ⟨0, StepRight⟩ = some grid' ∧
      grid'.SizeX = 2 ∧ grid'.SizeY = 1 ∧ grid'.Pieces.length = 1 ∧
      sliceGet grid'.Pieces 0 =
        some ⟨piece.Tag, piece.Position.Add ⟨1, 0⟩, piece.Geometry⟩ ∧
      piece.Position.Add ⟨1, 0⟩ =
        ⟨wrapInt (piece.Position.X + 1), wrapInt (piece.Position.Y + 0)⟩ ∧
      (isInt64 (piece.Position.X + 1) → isInt64 (piece.Position.Y + 0) →
        sliceGet grid'.Pieces 0 =
          some ⟨piece.Tag, ⟨piece.Position.X + 1, piece.Position.Y + 0⟩, piece.Geometry⟩) ∧
      ∀ index : Int, index ≠ 0 →
        sliceGet grid'.Pieces index = sliceGet (scenarioGrid ⟨65, 1⟩ 1).Pieces index) ∧
    (scenarioGrid ⟨65, 1⟩ 1).Apply ⟨0, StepRight⟩ = some (scenarioGrid ⟨65, 1⟩ 2) ∧
    (scenarioGrid ⟨65, 1⟩ 2).IsValid = false ∧
    (Grid.mk 2 1 [unitPiece 9223372036854775807 0]).Apply ⟨0, StepRight⟩
      = some (Grid.mk 2 1 [unitPiece (-9223372036854775808) 0]) :=
  ⟨apply_position_only (scenarioGrid ⟨65, 1⟩ 1) ⟨0, StepRight⟩ (by decide) (by decide),
    by decide, by decide, by decide⟩

/-- Adding a vector and then its negation gives the coordinates reduced to the type `int`. -/
theorem add_neg_cancel_wrap (p v : Vect2) :
    (p.Add v).Add ⟨-v.X, -v.Y⟩ = ⟨wrapInt p.X, wrapInt p.Y⟩ := by
  obtain ⟨px, py⟩ := p
  simp only [Vect2.Add, Vect2.mk.injEq]
  unfold wrapInt
  constructor <;> omega

/-- C16. Inverse moves: the four steps returned by `StepAll` are up `(0,-1)`, down `(0,+1)`,
left `(-1,0)` and right `(+1,0)`; each has an opposite step in `StepAll`, whose vector is
its negation; and for every board (the positions of its pieces being values of type `int`),
every piece index within the piece list and every step, applying the move and then the
move of the same piece with a step of the negated vector returns the board as it was before
the first move, also when the first move wraps around a limit of the type `int`. (Without
the typing of the positions: the two moves return the board with the coordinates of the
piece reduced to the type `int`.) -/
theorem apply_inverse :
    StepAll = [StepUp, StepDown, StepLeft, StepRight] ∧
    StepUp.Vector = ⟨0, -1⟩ ∧ StepDown.Vector = ⟨0, 1⟩ ∧
    StepLeft.Vector = ⟨-1, 0⟩ ∧ StepRight.Vector = ⟨1, 0⟩ ∧
    (∀ step ∈ StepAll, ∃ opposite ∈ StepAll,
      opposite.Vector = ⟨-step.Vector.X, -step.Vector.Y⟩) ∧
    (∀ (grid : Grid) (pieceIndex : Int) (step opposite : Step), 0 ≤ pieceIndex →
      pieceIndex < (grid.Pieces.length : Int) →
      opposite.Vector = ⟨-step.Vector.X, -step.Vector.Y⟩ →
      ∃ moved piece, sliceGet grid.Pieces pieceIndex = some piece ∧
        grid.Apply ⟨pieceIndex, step⟩ = some moved ∧
        moved.Apply ⟨pieceIndex, opposite⟩ = some ⟨grid.SizeX, grid.SizeY,
          grid.Pieces.set pieceIndex.toNat
            ⟨piece.Tag, ⟨wrapInt piece.Position.X, wrapInt piece.Position.Y⟩,
              piece.Geometry⟩⟩) ∧
    (∀ (grid : Grid) (pieceIndex : Int) (step opposite : Step), grid.PositionsInt64 →
      0 ≤ pieceIndex → pieceIndex < (grid.Pieces.length : Int) →
      opposite.Vector = ⟨-step.Vector.X, -step.Vector.Y⟩ →
      ∃ moved, grid.Apply ⟨pieceIndex, step⟩ = some moved ∧
        moved.Apply ⟨pieceIndex, opposite⟩ = some grid) := by
  have hgeneral : ∀ (grid : Grid) (pieceIndex : Int) (step opposite : Step), 0 ≤ pieceIndex →
      pieceIndex < (grid.Pieces.length : Int) →
      opposite.Vector = ⟨-step.Vector.X, -step.Vector.Y⟩ →
      ∃ moved piece, sliceGet grid.Pieces pieceIndex = some piece ∧
        grid.Apply ⟨pieceIndex, step⟩ = some moved ∧
        moved.Apply ⟨pieceIndex, opposite⟩ = some ⟨grid.SizeX, grid.SizeY,
          grid.Pieces.set pieceIndex.toNat
            ⟨piece.Tag, ⟨wrapInt piece.Position.X, wrapInt piece.Position.Y⟩,
              piece.Geometry⟩⟩ := by
    intro grid pieceIndex step opposite h0 h1 hopp
    obtain ⟨piece, hp⟩ := sliceGet_eq_some grid.Pieces pieceIndex h0 h1
    obtain ⟨-, -, happly⟩ := @apply_eq grid ⟨pieceIndex, step⟩ piece hp
    refine ⟨_, piece, hp, happly, ?_⟩
    have hlt : pieceIndex.toNat < grid.Pieces.length := by omega
    have hp2 : sliceGet (grid.Pieces.set pieceIndex.toNat
        ⟨piece.Tag, piece.Position.Add step.Vector, piece.Geometry⟩) pieceIndex =
        some ⟨piece.Tag, piece.Position.Add step.Vector, piece.Geometry⟩ := by
      rw [sliceGet_of_nonneg _ _ h0, List.getElem?_set_self hlt]
    obtain ⟨-, -, hback⟩ := @apply_eq ⟨grid.SizeX, grid.SizeY,
      grid.Pieces.set pieceIndex.toNat
        ⟨piece.Tag, piece.Position.Add step.Vector, piece.Geometry⟩⟩
      ⟨pieceIndex, opposite⟩ _ hp2
    rw [hback]
    simp only [List.set_set, hopp, add_neg_cancel_wrap]
  refine ⟨rfl, rfl, rfl, rfl, rfl, by decide, hgeneral, ?_⟩
  intro grid pieceIndex step opposite hint h0 h1 hopp
  obtain ⟨moved, piece, hp, happly, hback⟩ := hgeneral grid pieceIndex step opposite h0 h1 hopp
  refine ⟨moved, happly, ?_⟩
  rw [hback]
  have hp1 := hp
  rw [sliceGet_of_nonneg _ _ h0] at hp1
  have hmem : piece ∈ grid.Pieces := List.getElem?_mem hp1
  obtain ⟨hx, hy⟩ := hint piece hmem
  have hpiece : (⟨piece.Tag, ⟨wrapInt piece.Position.X, wrapInt piece.Position.Y⟩,
      piece.Geometry⟩ : Piece) = piece := by
    rw [wrapInt_eq_self hx, wrapInt_eq_self hy]
  rw [hpiece, set_of_getElem? _ _ _ hp1]

/-- Witness of C16: on the 2x2 board with a domino and a single cell, moving the single
cell (piece 1) up and then down gives back the board, through a board on which the piece
sits at `(1, 0)`; and on the board with one piece at `(2^63 - 1, 0)`, moving the piece right,
to `(-2^63, 0)`, and then left gives back the board. -/
theorem apply_inverse_witness :
    dominoBoard.Apply ⟨1, StepUp⟩ =
      some ⟨2, 2, [⟨⟨66, 1⟩, ⟨0, 0⟩, [⟨0, 0⟩, ⟨0, 1⟩]⟩, ⟨⟨68, 1⟩, ⟨1, 0⟩, [⟨0, 0⟩]⟩]⟩ ∧
    (∃ moved, dominoBoard.Apply ⟨1, StepUp⟩ = some moved ∧
      moved.Apply ⟨1, StepDown⟩ = some dominoBoard) ∧
    (Grid.mk 2 1 [unitPiece 9223372036854775807 0]).Apply ⟨0, StepRight⟩
      = some (Grid.mk 2 1 [unitPiece (-9223372036854775808) 0]) ∧
    (Grid.mk 2 1 [unitPiece (-9223372036854775808) 0]).Apply ⟨0, StepLeft⟩
      = some (Grid.mk 2 1 [unitPiece 9223372036854775807 0]) :=
  ⟨by decide,
    apply_inverse.2.2.2.2.2.2.2 dominoBoard 1 StepUp StepDown (by decide) (by decide)
      (by decide) (by decide), by decide, by decide⟩

/-! ## C17: validation and the order of the pieces -/

/-- C17, as stated, fails, in two ways. The 1x1 board with a piece tagged with the empty tag
`('*',0)` and a piece tagged `('B',1)` on the same cell passes `Validate` when the piece with
the empty tag comes first, and is invalid when the two pieces are swapped. And on the board
of width 3 and height 6148914691236517206, whose cell count `2^64 + 2` is 2 as an `int`, with
a piece at `(-1, 0)`, outside the board, and a piece at `(0, 1)`: `Validate` returns invalid
when the piece outside the board comes first, and panics when the piece at `(0, 1)` comes
first (its tag index 3 is out of the range of the 2 tags). -/
theorem validate_perm_counterexample :
    (maskedOverlap.Pieces.Perm maskedOverlapSwapped.Pieces ∧
    maskedOverlapSwapped.SizeX = maskedOverlap.SizeX ∧
    maskedOverlapSwapped.SizeY = maskedOverlap.SizeY ∧
    maskedOverlap.Validate = some (some ⟨1, 1, [⟨66, 1⟩]⟩) ∧
    maskedOverlapSwapped.Validate = some none) ∧
    ((overflowBoard [unitPiece (-1) 0, unitPiece 0 1]).Pieces.Perm
        (overflowBoard [unitPiece 0 1, unitPiece (-1) 0]).Pieces ∧
      (overflowBoard [unitPiece (-1) 0, unitPiece 0 1]).Validate = some none ∧
      (overflowBoard [unitPiece 0 1, unitPiece (-1) 0]).Validate = none) :=
  ⟨⟨List.Perm.swap _ _ [], rfl, rfl, by decide, by decide⟩,
    List.Perm.swap _ _ [], by decide, by decide⟩

/-- C17, amended. Order independence of validation: for every board whose cell count
`SizeX * SizeY` is a value of type `int` (the product does not overflow) and in which every
piece with a non-empty shape has a tag other than the empty tag `('*',0)`, and every
reordering (permutation) of its piece list, `Validate` returns invalid on the reordered
board if and only if it returns invalid on the original board, and it returns a map on the
one if and only if it returns a map on the other. -/
theorem validate_perm (grid : Grid) (pieces : List Piece) (hperm : grid.Pieces.Perm pieces)
    (hfit : grid.CellCountFits)
    (htags : ∀ piece ∈ grid.Pieces, piece.Geometry ≠ [] → piece.Tag ≠ PieceTagEmpty) :
    ((Grid.mk grid.SizeX grid.SizeY pieces).Validate = some none ↔
      grid.Validate = some none) ∧
    ((∃ cells, (Grid.mk grid.SizeX grid.SizeY pieces).Validate = some (some cells)) ↔
      ∃ cells, grid.Validate = some (some cells)) := by
  have hfitp : (Grid.mk grid.SizeX grid.SizeY pieces).CellCountFits := hfit
  by_cases hsize : grid.SizeX * grid.SizeY < 0
  · have h1 : grid.Validate = none := by
      rw [validate_unfold grid hfit, if_pos hsize]
    have h2 : (Grid.mk grid.SizeX grid.SizeY pieces).Validate = none := by
      rw [validate_unfold _ hfitp, if_pos hsize]
    rw [h1, h2]
    simp
  · have htags' : ∀ piece ∈ (Grid.mk grid.SizeX grid.SizeY pieces).Pieces,
        piece.Geometry ≠ [] → piece.Tag ≠ PieceTagEmpty :=
      fun piece hp => htags piece (hperm.mem_iff.2 hp)
    have hcells : grid.absCells.Perm (Grid.mk grid.SizeX grid.SizeY pieces).absCells :=
      List.Perm.flatMap_right _ hperm
    have hboth : ((∀ c ∈ (Grid.mk grid.SizeX grid.SizeY pieces).absCells,
          (Grid.mk grid.SizeX grid.SizeY pieces).OnBoard c) ∧
          (Grid.mk grid.SizeX grid.SizeY pieces).absCells.Nodup) ↔
        ((∀ c ∈ grid.absCells, grid.OnBoard c) ∧ grid.absCells.Nodup) := by
      rw [← hcells.nodup_iff]
      constructor
      · rintro ⟨h1, h2⟩
        exact ⟨fun c hc => h1 c (hcells.mem_iff.1 hc), h2⟩
      · rintro ⟨h1, h2⟩
        exact ⟨fun c hc => h1 c (hcells.mem_iff.2 hc), h2⟩
    rcases validate_spec grid hfit hsize htags with ⟨hf, cells, hv, -⟩ | ⟨hf, hv⟩
    · rcases validate_spec (Grid.mk grid.SizeX grid.SizeY pieces) hfitp hsize htags' with
        ⟨-, cells', hv', -⟩ | ⟨hf', -⟩
      · rw [hv, hv']
        simp
      · exact absurd (hboth.2 hf) hf'
    · rcases validate_spec (Grid.mk grid.SizeX grid.SizeY pieces) hfitp hsize htags' with
        ⟨hf', -⟩ | ⟨-, hv'⟩
      · exact absurd (hboth.1 hf') hf
      · rw [hv, hv']
        simp

/-- Witness of C17 (amended): the 2x2 board with a domino and a single cell, with its two
pieces swapped, passes `Validate` like the board itself. -/
theorem validate_perm_witness :
    ((Grid.mk 2 2 [⟨⟨68, 1⟩, ⟨1, 1⟩, [⟨0, 0⟩]⟩,
        ⟨⟨66, 1⟩, ⟨0, 0⟩, [⟨0, 0⟩, ⟨0, 1⟩]⟩]).Validate = some none ↔
      dominoBoard.Validate = some none) ∧
    ((∃ cells, (Grid.mk 2 2 [⟨⟨68, 1⟩, ⟨1, 1⟩, [⟨0, 0⟩]⟩,
        ⟨⟨66, 1⟩, ⟨0, 0⟩, [⟨0, 0⟩, ⟨0, 1⟩]⟩]).Validate = some (some cells)) ↔
      ∃ cells, dominoBoard.Validate = some (some cells)) :=
  validate_perm dominoBoard [⟨⟨68, 1⟩, ⟨1, 1⟩, [⟨0, 0⟩]⟩, ⟨⟨66, 1⟩, ⟨0, 0⟩, [⟨0, 0⟩, ⟨0, 1⟩]⟩]
    (List.Perm.swap _ _ []) (by decide) (by decide)

/-! ## C18, C19: edges are kept, levels partition the records -/

section TreeRuns

variable {N E : Type}

theorem runOps_append (ops1 ops2 : List (TreeOp N E)) :
    ∀ state : SearchTree N E × List (Admitted N E),
      runOps (ops1 ++ ops2) state = (runOps ops1 state).bind (runOps ops2) := by
  induction ops1 with
  | nil =>
    intro state
    rfl
  | cons op rest ih =>
    intro state
    obtain ⟨searchTree, log⟩ := state
    cases op with
    | append node edge key =>
      simp only [List.cons_append, runOps]
      split <;> exact ih _
    | incrementDepth =>
      simp only [List.cons_append, runOps]
      split
      · rfl
      · exact ih _

theorem levels_append (searchTree : SearchTree N E) (node : N) (edge : E) (key : GoString) :
    (searchTree.Append node edge key).1.levels = searchTree.levels := by
  by_cases h : key ∈ searchTree.keys <;> simp [SearchTree.Append, h]

theorem levelsFrom_snoc : ∀ (start : Int) (levels : List IndexRange) (b : Int),
    LevelsFrom start levels →
    (match levels.getLast? with
      | some last => last.B
      | none => start) ≤ b →
    LevelsFrom start (levels ++ [⟨match levels.getLast? with
      | some last => last.B
      | none => start, b⟩])
  | start, [], b, _, hb => by
    simp only [List.getLast?_nil, List.nil_append] at hb ⊢
    exact ⟨rfl, hb, trivial⟩
  | start, level :: rest, b, h, hb => by
    obtain ⟨h1, h2, h3⟩ := h
    have hlast : (match (level :: rest).getLast? with
        | some last => last.B
        | none => start) =
        (match rest.getLast? with
        | some last => last.B
        | none => level.B) := by
      cases rest with
      | nil => rfl
      | cons l ls =>
        rw [List.getLast?_cons_cons, List.getLast?_eq_getLast _ (List.cons_ne_nil l ls)]
    rw [hlast] at hb ⊢
    exact ⟨h1, h2, levelsFrom_snoc level.B rest b h3 hb⟩

theorem currentDepth_b (searchTree : SearchTree N E) :
    searchTree.CurrentDepth.B =
      (match searchTree.levels.getLast? with
        | some last => last.B
        | none => 0) := by
  unfold SearchTree.CurrentDepth
  cases searchTree.levels.getLast? <;> rfl

/-- Every run of calls from a tree that agrees with its log and whose levels are consecutive
ranges from 0 ends in such a tree. -/
theorem runOps_levels (ops : List (TreeOp N E)) :
    ∀ (searchTree : SearchTree N E) (log : List (Admitted N E)), TreeLogInv searchTree log →
      LevelsFrom 0 searchTree.levels →
      ∃ searchTree' log', runOps ops (searchTree, log) = some (searchTree', log') ∧
        TreeLogInv searchTree' log' ∧ LevelsFrom 0 searchTree'.levels ∧
        ∃ more, log' = log ++ more := by
  induction ops with
  | nil =>
    intro searchTree log inv hlev
    exact ⟨searchTree, log, rfl, inv, hlev, [], by simp⟩
  | cons op rest ih =>
    intro searchTree log inv hlev
    cases op with
    | append node edge key =>
      by_cases h : key ∈ searchTree.keys
      · obtain ⟨t', l', hrun, hinv, hlev', more, hmore⟩ := ih searchTree log inv hlev
        refine ⟨t', l', ?_, hinv, hlev', more, hmore⟩
        simp only [runOps, append_of_mem _ _ _ _ h]
        exact hrun
      · have inv' := treeLogInv_append inv node edge key h
        have hl := levels_append searchTree node edge key
        obtain ⟨t', l', hrun, hinv, hlev', more, hmore⟩ := ih _ _ inv' (by rw [hl]; exact hlev)
        refine ⟨t', l', ?_, hinv, hlev', ⟨node, edge, key⟩ :: more, by simp [hmore]⟩
        simp only [runOps, append_of_not_mem _ _ _ _ h]
        simp only [append_of_not_mem _ _ _ _ h] at hrun
        exact hrun
    | incrementDepth =>
      obtain ⟨t1, h1, inv1, -, -, -, hlevels⟩ := treeLogInv_incrementDepth inv
      have hb := inv.b_le
      have hlev1 : LevelsFrom 0 t1.levels := by
        rw [hlevels, currentDepth_b]
        apply levelsFrom_snoc 0 _ _ hlev
        rw [← currentDepth_b]
        exact hb
      obtain ⟨t', l', hrun, hinv, hlev', more, hmore⟩ := ih t1 log inv1 hlev1
      refine ⟨t', l', ?_, hinv, hlev', more, hmore⟩
      simp only [runOps, h1]
      exact hrun

/-- A run of `Append` calls leaves the levels as they are. -/
theorem runOps_appendOps (adds : List (N × E × GoString)) :
    ∀ (searchTree searchTree' : SearchTree N E) (log log' : List (Admitted N E)),
      runOps (appendOps adds) (searchTree, log) = some (searchTree', log') →
      searchTree'.levels = searchTree.levels := by
  induction adds with
  | nil =>
    intro searchTree searchTree' log log' h
    simp only [appendOps, List.map_nil, runOps, Option.some.injEq, Prod.mk.injEq] at h
    rw [h.1]
  | cons a rest ih =>
    intro searchTree searchTree' log log' h
    have hl := levels_append searchTree a.1 a.2.1 a.2.2
    simp only [appendOps, List.map_cons, runOps] at h
    split at h
    · rename_i t1 heq
      rw [← hl, heq]
      exact ih _ _ _ _ h
    · rename_i t1 heq
      rw [← hl, heq]
      exact ih _ _ _ _ h

end TreeRuns

/-- C18. Permanent edge retention: for every sequence of `Append` and `IncrementDepth` calls
on a new tree (none of them panics), the record count is the number of admitted `Append`
calls and, for every index `i` below it, `EdgeAt(i)` returns the edge that was passed to the
`i`-th admitted `Append`; it still returns that edge after any further sequence of `Append`
and `IncrementDepth` calls. In particular, after a first `Append` with some edge (`nil` for
the root record of the solver) and any further calls, `EdgeAt(0)` returns that edge. -/
theorem edge_retention {N E : Type} (ops1 ops2 : List (TreeOp N E)) :
    (∃ t1 log1 t2 log2,
      runOps ops1 (NewSearchTree N E, []) = some (t1, log1) ∧
      runOps (ops1 ++ ops2) (NewSearchTree N E, []) = some (t2, log2) ∧
      t1.edges.length = log1.length ∧ t2.edges.length = log2.length ∧
      (∃ more, log2 = log1 ++ more) ∧
      (∀ (i : Nat) (r : Admitted N E), log1[i]? = some r →
        t1.EdgeAt (i : Int) = some r.edge ∧ t2.EdgeAt (i : Int) = some r.edge)) ∧
    (∀ (node : N) (edge : E) (key : GoString), ∃ t log,
      runOps (TreeOp.append node edge key :: ops1) (NewSearchTree N E, []) = some (t, log) ∧
        t.EdgeAt 0 = some edge) := by
  constructor
  · obtain ⟨t1, log1, hrun1, inv1, -⟩ := runOps_inv ops1 (NewSearchTree N E) [] treeLogInv_new
    obtain ⟨t2, log2, hrun2, inv2, more, hmore⟩ := runOps_inv ops2 t1 log1 inv1
    refine ⟨t1, log1, t2, log2, hrun1, ?_, by simp [inv1.edges_eq], by simp [inv2.edges_eq],
      ⟨more, hmore⟩, ?_⟩
    · rw [runOps_append, hrun1]
      exact hrun2
    · intro i r hr
      constructor
      · rw [edgeAt_of_inv inv1 _ (by omega)]
        simp [hr]
      · have hi : i < log1.length := (List.getElem?_eq_some_iff.1 hr).1
        rw [edgeAt_of_inv inv2 _ (by omega), hmore, List.map_append, Int.toNat_ofNat,
          List.getElem?_append_left (by simpa using hi), List.getElem?_map, hr]
        rfl
  · intro node edge key
    have hnew : key ∉ (NewSearchTree N E).keys := by simp [NewSearchTree]
    have inv0 := treeLogInv_append (treeLogInv_new) node edge key hnew
    obtain ⟨t, log, hrun, inv, more, hmore⟩ := runOps_inv ops1 _ _ inv0
    refine ⟨t, log, ?_, ?_⟩
    · simp only [runOps, append_of_not_mem _ _ _ _ hnew]
      simp only [append_of_not_mem _ _ _ _ hnew] at hrun
      exact hrun
    · rw [edgeAt_of_inv inv 0 (by omega), hmore]
      simp

/-- Witness of C18: the root record of a solver tree, appended with no edge, is still
resolved to 'no parent' after a level is opened and a second record is appended. -/
theorem edge_retention_witness :
    ∃ t log, runOps [TreeOp.append (scenarioGrid ⟨65, 1⟩ 0) none [65, 42],
        TreeOp.incrementDepth,
        TreeOp.append (scenarioGrid ⟨65, 1⟩ 1) (some ⟨0, ⟨0, StepRight⟩⟩) [42, 65]]
      (NewSearchTree Grid (Option SearchEdge), []) = some (t, log) ∧
      t.EdgeAt 0 = some none :=
  (edge_retention [TreeOp.incrementDepth,
      TreeOp.append (scenarioGrid ⟨65, 1⟩ 1) (some ⟨0, ⟨0, StepRight⟩⟩) [42, 65]] []).2
    (scenarioGrid ⟨65, 1⟩ 0) none [65, 42]

/-- C19. Levels partition the record list: a new tree has no level and `CurrentDepth` is
`(0,0)` on it; after every sequence of `Append` and `IncrementDepth` calls on a new tree
(none of them panics) the recorded levels are consecutive half-open ranges with `A <= B`,
the first starting at 0 and each next one starting where the previous ends, and
`CurrentDepth` returns the last of them (`(0,0)` when there is none), which ends at or below
the record count; an `IncrementDepth` then appends the range from that end to the record
count at the time of the call and leaves the records as they are; and after further
`Append` calls the next `IncrementDepth` opens the range from the record count at the
previous `IncrementDepth` to the record count at its own call: exactly the records admitted
in between. -/
theorem levels_partition {N E : Type} (ops : List (TreeOp N E))
    (adds : List (N × E × GoString)) :
    (NewSearchTree N E).CurrentDepth = ⟨0, 0⟩ ∧
    ∃ t log, runOps ops (NewSearchTree N E, []) = some (t, log) ∧
      t.edges.length = log.length ∧
      LevelsFrom 0 t.levels ∧
      t.CurrentDepth = t.levels.getLast?.getD ⟨0, 0⟩ ∧
      t.CurrentDepth.B ≤ (t.edges.length : Int) ∧
      ∃ t1, t.IncrementDepth = some t1 ∧
        t1.levels = t.levels ++ [⟨t.CurrentDepth.B, (t.edges.length : Int)⟩] ∧
        t1.CurrentDepth = ⟨t.CurrentDepth.B, (t.edges.length : Int)⟩ ∧
        t1.edges = t.edges ∧
        ∃ t2 log2 t3, runOps (appendOps adds) (t1, log) = some (t2, log2) ∧
          (∃ more, log2 = log ++ more) ∧ t2.edges.length = log2.length ∧
          t2.IncrementDepth = some t3 ∧
          t3.CurrentDepth = ⟨(log.length : Int), (log2.length : Int)⟩ := by
  refine ⟨rfl, ?_⟩
  obtain ⟨t, log, hrun, inv, hlev, -⟩ :=
    runOps_levels ops (NewSearchTree N E) [] treeLogInv_new trivial
  have hlen : t.edges.length = log.length := by simp [inv.edges_eq]
  obtain ⟨t1, h1, inv1, hcd1, hedges1, -, hlevels1⟩ := treeLogInv_incrementDepth inv
  obtain ⟨t2, log2, hrun2, inv2, more, hmore⟩ := runOps_inv (appendOps adds) t1 log inv1
  have hlen2 : t2.edges.length = log2.length := by simp [inv2.edges_eq]
  obtain ⟨t3, h3, -, hcd3, -⟩ := treeLogInv_incrementDepth inv2
  have hcd2 : t2.CurrentDepth = t1.CurrentDepth := by
    unfold SearchTree.CurrentDepth
    rw [runOps_appendOps adds _ _ _ _ hrun2]
  refine ⟨t, log, hrun, hlen, hlev, ?_, ?_, t1, h1, ?_, ?_, hedges1, t2, log2, t3, hrun2,
    ⟨more, hmore⟩, hlen2, h3, ?_⟩
  · unfold SearchTree.CurrentDepth
    cases t.levels.getLast? <;> rfl
  · rw [hlen]
    exact inv.b_le
  · rw [hlevels1, hlen]
  · rw [hcd1, hlen]
  · rw [hcd3, hcd2, hcd1]

/-- Witness of C19: a tree seeded with one record, a level opened, two records admitted (a
third `Append` is refused, its key being known), and the next level opened: the levels are
`[0,1)` and `[1,3)`. -/
theorem levels_partition_witness :
    (runOps [TreeOp.append (0 : Nat) (0 : Nat) [65], TreeOp.incrementDepth,
        TreeOp.append 1 0 [66], TreeOp.append 2 0 [65], TreeOp.append 3 1 [67],
        TreeOp.incrementDepth] (NewSearchTree Nat Nat, [])).map
          (fun state => (state.1.nodes, state.1.edges, state.1.levels))
      = some ([1, 3], [0, 0, 1], [⟨0, 1⟩, ⟨1, 3⟩]) ∧
    LevelsFrom 0 [⟨0, 1⟩, ⟨1, 3⟩] ∧
    ∃ t log, runOps [TreeOp.append (0 : Nat) (0 : Nat) [65]] (NewSearchTree Nat Nat, [])
        = some (t, log) ∧
      ∃ t1, t.IncrementDepth = some t1 ∧
        ∃ t2 log2 t3, runOps (appendOps [(1, 0, [66]), (2, 0, [65]), (3, 1, [67])]) (t1, log)
            = some (t2, log2) ∧
          t2.IncrementDepth = some t3 ∧
          t3.CurrentDepth = ⟨(log.length : Int), (log2.length : Int)⟩ := by
  refine ⟨by decide, by decide, ?_⟩
  obtain ⟨-, t, log, h1, -, -, -, -, t1, h2, -, -, -, t2, log2, t3, h3, -, -, h4, h5⟩ :=
    levels_partition [TreeOp.append (0 : Nat) (0 : Nat) [65]]
      [(1, 0, [66]), (2, 0, [65]), (3, 1, [67])]
  exact ⟨t, log, h1, t1, h2, t2, log2, t3, h3, h4, h5⟩

/-! ## C20: the symmetry modes of `Key` -/

/-- C20, as stated, fails on a map whose tag slice is shorter than the board: the board of
width 3 and height 6148914691236517206 without pieces is valid, `Validate` returns for it a
map with 2 tags (the product of the sizes, `2^64 + 2`, is 2 as an `int`); on this map `Key`
returns a key in `NoKeySymmetry` mode, but panics in `HorizontalKeySymmetry` mode: the first
pass of its loops writes `key2` at index 2, out of range. -/
theorem key_modes_counterexample :
    (overflowBoard []).Validate
      = some (some ⟨3, 6148914691236517206, [PieceTagEmpty, PieceTagEmpty]⟩) ∧
    (gridCells.mk 3 6148914691236517206 [PieceTagEmpty, PieceTagEmpty]).Key NoKeySymmetry
      = some [42, 42] ∧
    (gridCells.mk 3 6148914691236517206 [PieceTagEmpty, PieceTagEmpty]).Key
      HorizontalKeySymmetry = none :=
  ⟨by decide, by decide, key_horizontal_panic _ (by decide) (by decide) (by decide)⟩

/-- C20, amended. Unsupported symmetry mode is fatal: on every occupancy map, `Key` panics
(no key is produced) for every symmetry-mode value other than `NoKeySymmetry` and
`HorizontalKeySymmetry`; it returns a key in `NoKeySymmetry` mode on every map, and in
`HorizontalKeySymmetry` mode on every map with non-negative sizes and one tag per cell and
on every map returned by `Validate` for a board whose cell count `SizeX * SizeY` is a value
of type `int` (the product does not overflow); in `HorizontalKeySymmetry` mode it panics on
every map with positive sizes that holds fewer tags than a row has cells. -/
theorem key_modes :
    (∀ (cells : gridCells) (symmetry : Int), symmetry ≠ NoKeySymmetry →
      symmetry ≠ HorizontalKeySymmetry → cells.Key symmetry = none) ∧
    (∀ cells : gridCells, ∃ key, cells.Key NoKeySymmetry = some key) ∧
    (∀ cells : gridCells, cells.WellFormed →
      ∃ key, cells.Key HorizontalKeySymmetry = some key) ∧
    (∀ (grid : Grid) (cells : gridCells), grid.CellCountFits →
      grid.Validate = some (some cells) →
      ∃ key, cells.Key HorizontalKeySymmetry = some key) ∧
    (∀ cells : gridCells, 0 < cells.sizeX → 0 < cells.sizeY →
      (cells.tags.length : Int) < cells.sizeX → cells.Key HorizontalKeySymmetry = none) :=
  ⟨fun cells _ h0 h1 => key_unsupported cells h0 h1,
    fun cells => ⟨_, key_noSymmetry cells⟩,
    fun _ wf => ⟨_, key_horizontal wf⟩,
    fun _ _ hfit hv => key_total hfit hv (Or.inr rfl),
    fun cells hx hy hlen => key_horizontal_panic cells hx hy hlen⟩

/-- Witness of C20 (amended): on the map `B* / BD` of the 2x2 board with a domino and a
single cell, `Key` panics for the mode values 2 and -1 and returns the keys `"B*BD"` and
`"*BDB"` in the two supported modes. -/
theorem key_modes_witness :
    (gridCells.mk 2 2 [⟨66, 1⟩, PieceTagEmpty, ⟨66, 1⟩, ⟨68, 1⟩]).Key 2 = none ∧
    (gridCells.mk 2 2 [⟨66, 1⟩, PieceTagEmpty, ⟨66, 1⟩, ⟨68, 1⟩]).Key (-1) = none ∧
    (gridCells.mk 2 2 [⟨66, 1⟩, PieceTagEmpty, ⟨66, 1⟩, ⟨68, 1⟩]).Key NoKeySymmetry
      = some [66, 42, 66, 68] ∧
    (gridCells.mk 2 2 [⟨66, 1⟩, PieceTagEmpty, ⟨66, 1⟩, ⟨68, 1⟩]).Key HorizontalKeySymmetry
      = some [42, 66, 68, 66] ∧
    ∃ key, (gridCells.mk 2 2 [⟨66, 1⟩, PieceTagEmpty, ⟨66, 1⟩, ⟨68, 1⟩]).Key
      HorizontalKeySymmetry = some key :=
  ⟨key_modes.1 _ 2 (by decide) (by decide), key_modes.1 _ (-1) (by decide) (by decide),
    by decide, by decide, key_modes.2.2.2.1 dominoBoard _ (by decide) (by decide)⟩

/-! ## C21: the states of the current level stay resolvable -/

/-- C21. State trimming keeps the current level resolvable: for every sequence of `Append`
and `IncrementDepth` calls on a new tree (none of them panics), the nodes retained number
exactly the record count minus `CurrentDepth().A`; for every absolute index `i` with
`CurrentDepth().A <= i < record count`, `NodeAt(i)` succeeds and returns the state that was
passed to the `i`-th admitted `Append`; and the bounds of the slice expression of the next
`IncrementDepth` are valid, so that it succeeds and again retains the record count minus
`CurrentDepth().A` nodes. -/
theorem node_resolvable {N E : Type} (ops : List (TreeOp N E)) :
    ∃ t log, runOps ops (NewSearchTree N E, []) = some (t, log) ∧
      t.edges.length = log.length ∧
      0 ≤ t.CurrentDepth.A ∧ t.CurrentDepth.A ≤ (t.edges.length : Int) ∧
      (t.nodes.length : Int) = (t.edges.length : Int) - t.CurrentDepth.A ∧
      (∀ i : Int, t.CurrentDepth.A ≤ i → i < (t.edges.length : Int) →
        ∃ r, log[i.toNat]? = some r ∧ t.NodeAt i = some r.node) ∧
      0 ≤ (t.nodes.length : Int) - ((t.edges.length : Int) - t.CurrentDepth.B) ∧
      (t.nodes.length : Int) - ((t.edges.length : Int) - t.CurrentDepth.B) ≤
        (t.nodes.length : Int) ∧
      ∃ t', t.IncrementDepth = some t' ∧
        t'.CurrentDepth = ⟨t.CurrentDepth.B, (t.edges.length : Int)⟩ ∧
        (t'.nodes.length : Int) = (t'.edges.length : Int) - t'.CurrentDepth.A ∧
        ∀ i : Int, t'.CurrentDepth.A ≤ i → i < (t'.edges.length : Int) →
          ∃ r, log[i.toNat]? = some r ∧ t'.NodeAt i = some r.node := by
  have hnodes : ∀ (searchTree : SearchTree N E) (log : List (Admitted N E)),
      TreeLogInv searchTree log →
      searchTree.edges.length = log.length ∧
      (searchTree.nodes.length : Int) =
        (searchTree.edges.length : Int) - searchTree.CurrentDepth.A ∧
      ∀ i : Int, searchTree.CurrentDepth.A ≤ i → i < (searchTree.edges.length : Int) →
        ∃ r, log[i.toNat]? = some r ∧ searchTree.NodeAt i = some r.node := by
    intro searchTree log inv
    have ha := inv.a_nonneg
    have hab := inv.a_le_b
    have hb := inv.b_le
    have hlen : searchTree.edges.length = log.length := by simp [inv.edges_eq]
    refine ⟨hlen, ?_, ?_⟩
    · rw [inv.nodes_eq, hlen]
      simp only [List.length_drop, List.length_map]
      omega
    · intro i h1 h2
      have hi : i.toNat < log.length := by omega
      refine ⟨log[i.toNat], List.getElem?_eq_getElem hi, ?_⟩
      rw [nodeAt_of_inv inv i h1, List.getElem?_map, List.getElem?_eq_getElem hi]
      rfl
  obtain ⟨t, log, hrun, inv, -⟩ := runOps_inv ops (NewSearchTree N E) [] treeLogInv_new
  obtain ⟨hlen, hcount, hat⟩ := hnodes t log inv
  obtain ⟨t1, h1, inv1, hcd1, -⟩ := treeLogInv_incrementDepth inv
  obtain ⟨-, hcount1, hat1⟩ := hnodes t1 log inv1
  have ha := inv.a_nonneg
  have hab := inv.a_le_b
  have hb := inv.b_le
  refine ⟨t, log, hrun, hlen, ha, by omega, hcount, hat, by omega, by omega, t1, h1, ?_,
    hcount1, hat1⟩
  rw [hcd1, hlen]

/-- Witness of C21: after the root and a level, two records are admitted and the next level
is opened; the root's state is trimmed, the states of records 1 and 2 are resolved. -/
theorem node_resolvable_witness :
    (runOps [TreeOp.append (10 : Nat) (0 : Nat) [65], TreeOp.incrementDepth,
        TreeOp.append 11 0 [66], TreeOp.append 12 0 [67],
        TreeOp.incrementDepth] (NewSearchTree Nat Nat, [])).map
          (fun state => (state.1.nodes, state.1.CurrentDepth, state.1.NodeAt 1,
            state.1.NodeAt 2, state.1.NodeAt 0))
      = some ([11, 12], ⟨1, 3⟩, some 11, some 12, none) ∧
    ∃ t log, runOps [TreeOp.append (10 : Nat) (0 : Nat) [65], TreeOp.incrementDepth,
        TreeOp.append 11 0 [66], TreeOp.append 12 0 [67],
        TreeOp.incrementDepth] (NewSearchTree Nat Nat, []) = some (t, log) ∧
      (t.nodes.length : Int) = (t.edges.length : Int) - t.CurrentDepth.A := by
  refine ⟨by decide, ?_⟩
  obtain ⟨t, log, h1, -, -, -, h2, -⟩ :=
    node_resolvable [TreeOp.append (10 : Nat) (0 : Nat) [65], TreeOp.incrementDepth,
      TreeOp.append 11 0 [66], TreeOp.append 12 0 [67], TreeOp.incrementDepth]
  exact ⟨t, log, h1, h2⟩

/-! ## C22: the parent links of the search -/

theorem levelOf_cons (level : IndexRange) (rest : List IndexRange) (index : Int) :
    levelOf (level :: rest) index =
      levelOf rest index + (if level.B ≤ index then 1 else 0) := by
  unfold levelOf
  rw [List.countP_cons]
  simp

theorem levelOf_snoc (levels : List IndexRange) (level : IndexRange) (index : Int) :
    levelOf (levels ++ [level]) index =
      levelOf levels index + (if level.B ≤ index then 1 else 0) := by
  unfold levelOf
  rw [List.countP_append, List.countP_cons]
  simp

theorem levelOf_le (levels : List IndexRange) (index : Int) :
    levelOf levels index ≤ levels.length :=
  List.countP_le_length _

/-- Consecutive levels: each one ends before the later ones begin. -/
theorem levelsFrom_pairwise : ∀ (start : Int) (levels : List IndexRange),
    LevelsFrom start levels →
    levels.Pairwise (fun a b => a.B ≤ b.A) ∧ ∀ level ∈ levels, start ≤ level.A ∧ level.A ≤ level.B
  | _, [], _ => ⟨List.Pairwise.nil, by simp⟩
  | start, level :: rest, h => by
    obtain ⟨h1, h2, h3⟩ := h
    obtain ⟨ih1, ih2⟩ := levelsFrom_pairwise level.B rest h3
    refine ⟨List.Pairwise.cons (fun b hb => (ih2 b hb).1) ih1, ?_⟩
    intro l hl
    rcases List.mem_cons.1 hl with rfl | hl
    · exact ⟨by omega, h2⟩
    · have := ih2 l hl
      exact ⟨by omega, this.2⟩

/-- No level is counted for an index below every end. -/
theorem levelOf_eq_zero (levels : List IndexRange) (index : Int)
    (h : ∀ level ∈ levels, index < level.B) : levelOf levels index = 0 := by
  unfold levelOf
  rw [List.countP_eq_zero]
  intro level hl
  have := h level hl
  simp only [decide_eq_true_eq]
  omega

/-- Every level is counted for an index at or after every end. -/
theorem levelOf_eq_length (levels : List IndexRange) (index : Int)
    (h : ∀ level ∈ levels, level.B ≤ index) : levelOf levels index = levels.length := by
  unfold levelOf
  rw [List.countP_eq_length]
  intro level hl
  simpa using h level hl

/-- An index whose level is one of the levels opened lies in the range of that level. -/
theorem levelOf_range : ∀ (start : Int) (levels : List IndexRange), LevelsFrom start levels →
    ∀ index : Int, start ≤ index → levelOf levels index < levels.length →
    ∃ level, levels[levelOf levels index]? = some level ∧ level.A ≤ index ∧ index < level.B
  | _, [], _, index, _, hlt => by simp at hlt
  | start, level :: rest, h, index, hstart, hlt => by
    obtain ⟨h1, h2, h3⟩ := h
    rw [levelOf_cons] at hlt ⊢
    by_cases hb : level.B ≤ index
    · rw [if_pos hb] at hlt ⊢
      simp only [List.length_cons, Nat.add_lt_add_iff_right] at hlt
      obtain ⟨l, hl, hr⟩ := levelOf_range level.B rest h3 index hb hlt
      exact ⟨l, by rw [List.getElem?_cons_succ]; exact hl, hr⟩
    · rw [if_neg hb]
      have hzero : levelOf rest index = 0 := by
        apply levelOf_eq_zero
        intro l hl
        have := (levelsFrom_pairwise level.B rest h3).2 l hl
        omega
      rw [hzero]
      exact ⟨level, by simp, by omega, by omega⟩

/-- An index in the range of the `k`-th level has level `k`. -/
theorem levelOf_of_range : ∀ (start : Int) (levels : List IndexRange), LevelsFrom start levels →
    ∀ (k : Nat) (level : IndexRange) (index : Int), levels[k]? = some level →
    level.A ≤ index → index < level.B → levelOf levels index = k
  | _, [], _, k, level, index, hk, _, _ => by simp at hk
  | start, first :: rest, h, k, level, index, hk, ha, hb => by
    obtain ⟨h1, h2, h3⟩ := h
    rw [levelOf_cons]
    cases k with
    | zero =>
      simp only [List.getElem?_cons_zero, Option.some.injEq] at hk
      subst hk
      rw [if_neg (by omega)]
      have hzero : levelOf rest index = 0 := by
        apply levelOf_eq_zero
        intro l hl
        have := (levelsFrom_pairwise first.B rest h3).2 l hl
        omega
      rw [hzero]
    | succ k =>
      rw [List.getElem?_cons_succ] at hk
      have hmem : level ∈ rest := List.getElem?_mem hk
      have := (levelsFrom_pairwise first.B rest h3).2 level hmem
      rw [if_pos (by omega), levelOf_of_range first.B rest h3 k level index hk ha hb]

theorem levelOf_mono (levels : List IndexRange) {i j : Int} (h : i ≤ j) :
    levelOf levels i ≤ levelOf levels j := by
  unfold levelOf
  apply List.countP_mono_left
  intro level _ hl
  simp only [decide_eq_true_eq] at hl ⊢
  omega

theorem linkInv_seed {start : Grid} (key : GoString) :
    LinkInv start ((NewSearchTree Grid (Option SearchEdge)).Append start none key).1
      [⟨start, none, key⟩] := by
  have hnew : key ∉ (NewSearchTree Grid (Option SearchEdge)).keys := by simp [NewSearchTree]
  have htree := treeLogInv_append (treeLogInv_new (N := Grid) (E := Option SearchEdge))
    start none key hnew
  have hlevels : ((NewSearchTree Grid (Option SearchEdge)).Append start none key).1.levels
      = [] := by
    rw [levels_append]
    rfl
  refine ⟨htree, by rw [hlevels]; trivial, by rw [hlevels]; simp, ⟨key, rfl⟩, ?_⟩
  intro i r hr hi
  rw [List.getElem?_eq_none (by simp; omega)] at hr
  cases hr

theorem linkInv_open {start : Grid} {searchTree searchTree' : Tree} {log : SolverLog}
    (inv : LinkInv start searchTree log) (h : searchTree.IncrementDepth = some searchTree') :
    LinkInv start searchTree' log := by
  obtain ⟨t1, h1, inv1, -, -, -, hlevels⟩ := treeLogInv_incrementDepth inv.tree
  rw [h, Option.some.injEq] at h1
  subst h1
  have hb := inv.tree.b_le
  obtain ⟨key, hroot⟩ := inv.root
  have hlen : 1 ≤ log.length := by
    have := (List.getElem?_eq_some_iff.1 hroot).1
    omega
  have hsame : ∀ q : Nat, q < log.length →
      levelOf searchTree'.levels (q : Int) = levelOf searchTree.levels (q : Int) := by
    intro q hq
    rw [hlevels, levelOf_snoc, if_neg (by simp only; omega)]
    rfl
  refine ⟨inv1, ?_, ?_, ⟨key, hroot⟩, ?_⟩
  · rw [hlevels, currentDepth_b]
    apply levelsFrom_snoc 0 _ _ inv.levels
    rw [← currentDepth_b]
    exact hb
  · intro level hl
    rw [hlevels] at hl
    rcases List.mem_append.1 hl with hl | hl
    · exact inv.ends level hl
    · simp only [List.mem_singleton] at hl
      subst hl
      simp only
      omega
  · intro i r hr hi
    obtain ⟨p, move, rp, e1, e2, e3, e4⟩ := inv.link i r hr hi
    refine ⟨p, move, rp, e1, e2, ?_, e4⟩
    rw [hsame p (List.getElem?_eq_some_iff.1 e2).1, hsame i (List.getElem?_eq_some_iff.1 hr).1]
    exact e3

/-- The levels of the parents of the current level and of the records admitted since it
was opened. -/
theorem levelOf_current {searchTree : Tree} (hlevels : LevelsFrom 0 searchTree.levels)
    {parentIndex : Int} (ha : searchTree.CurrentDepth.A ≤ parentIndex)
    (hb : parentIndex < searchTree.CurrentDepth.B) {index : Int}
    (hn : searchTree.CurrentDepth.B ≤ index) :
    levelOf searchTree.levels parentIndex + 1 = levelOf searchTree.levels index := by
  rcases List.eq_nil_or_concat searchTree.levels with hnil | ⟨init, last, hconcat⟩
  · simp only [SearchTree.CurrentDepth, hnil, List.getLast?_nil] at ha hb
    omega
  · rw [List.concat_eq_append] at hconcat
    have hcd : searchTree.CurrentDepth = last := by
      simp only [SearchTree.CurrentDepth, hconcat, List.getLast?_append, List.getLast?_singleton]
      rfl
    rw [hcd] at ha hb hn
    rw [hconcat] at hlevels ⊢
    obtain ⟨hpair, hle⟩ := levelsFrom_pairwise 0 _ hlevels
    rw [List.pairwise_append] at hpair
    have hinit : ∀ level ∈ init, level.B ≤ last.A :=
      fun level hl => hpair.2.2 level hl last (by simp)
    rw [levelOf_snoc, levelOf_snoc, if_neg (by omega), if_pos hn,
      levelOf_eq_length init parentIndex (fun level hl => by have := hinit level hl; omega),
      levelOf_eq_length init index (fun level hl => by
        have := hinit level hl
        have := (hle last (by simp)).2
        omega)]

theorem linkInv_append {start : Grid} {searchTree : Tree} {log : SolverLog}
    (inv : LinkInv start searchTree log) {parentIndex : Int} {move : Move} {node grid : Grid}
    {key : GoString} (ha : searchTree.CurrentDepth.A ≤ parentIndex)
    (hb : parentIndex < searchTree.CurrentDepth.B)
    (hnode : searchTree.NodeAt parentIndex = some node)
    (happly : node.Copy.Apply move = some grid) (hkey : key ∉ searchTree.keys) :
    LinkInv start (searchTree.Append grid (some ⟨parentIndex, move⟩) key).1
      (log ++ [⟨grid, some ⟨parentIndex, move⟩, key⟩]) := by
  have htree := treeLogInv_append inv.tree grid (some ⟨parentIndex, move⟩) key hkey
  have hlevels := levels_append searchTree grid (some ⟨parentIndex, move⟩) key
  have ha0 := inv.tree.a_nonneg
  have hble := inv.tree.b_le
  obtain ⟨rootKey, hroot⟩ := inv.root
  refine ⟨htree, by rw [hlevels]; exact inv.levels, by rw [hlevels]; exact inv.ends,
    ⟨rootKey, getElem?_append_some _ hroot⟩, ?_⟩
  intro i r hr hi
  rw [hlevels]
  by_cases hlt : i < log.length
  · rw [List.getElem?_append_left hlt] at hr
    obtain ⟨p, mv, rp, e1, e2, e3, e4⟩ := inv.link i r hr hi
    exact ⟨p, mv, rp, e1, getElem?_append_some _ e2, e3, e4⟩
  · have hi' : i = log.length := by
      have := getElem?_lt_length hr
      simp only [List.length_append, List.length_singleton] at this
      omega
    subst hi'
    rw [List.getElem?_append_right (le_refl _)] at hr
    simp only [Nat.sub_self, List.getElem?_cons_zero, Option.some.injEq] at hr
    subst hr
    have hp0 : 0 ≤ parentIndex := by omega
    have hnode' := hnode
    rw [nodeAt_of_inv inv.tree parentIndex ha, List.getElem?_map] at hnode'
    cases hrp : log[parentIndex.toNat]? with
    | none =>
      rw [hrp] at hnode'
      cases hnode'
    | some rp =>
      rw [hrp] at hnode'
      simp only [Option.map_some', Option.some.injEq] at hnode'
      refine ⟨parentIndex.toNat, move, rp, ?_, getElem?_append_some _ hrp, ?_, ?_⟩
      · rw [Int.toNat_of_nonneg hp0]
      · rw [Int.toNat_of_nonneg hp0]
        exact levelOf_current inv.levels ha hb hble
      · rw [hnode']
        exact happly

/-- Every state of the solver satisfies the invariant of the parent links. -/
theorem linkInv_of_state {start : Grid} {symmetry : Int} {state : Tree × SolverLog}
    (h : SolverState start symmetry state) : LinkInv start state.1 state.2 := by
  induction h with
  | seed cells key state _ _ hrun =>
    have hnew : key ∉ (NewSearchTree Grid (Option SearchEdge)).keys := by simp [NewSearchTree]
    simp only [runOps, append_of_not_mem _ _ _ _ hnew, List.nil_append, Option.some.injEq] at hrun
    subst hrun
    have := @linkInv_seed start key
    simp only [append_of_not_mem _ _ _ _ hnew] at this
    exact this
  | openLevel state state' _ hrun ih =>
    obtain ⟨searchTree, log⟩ := state
    simp only [runOps] at hrun
    cases hinc : searchTree.IncrementDepth with
    | none =>
      rw [hinc] at hrun
      cases hrun
    | some t1 =>
      rw [hinc] at hrun
      simp only [Option.some.injEq] at hrun
      subst hrun
      exact linkInv_open ih hinc
  | tryMove state state' parentIndex pieceIndex step node grid cells key _ ha hb _ _ _ hnode
      happly _ _ hrun ih =>
    obtain ⟨searchTree, log⟩ := state
    by_cases hkey : key ∈ searchTree.keys
    · simp only [runOps, append_of_mem _ _ _ _ hkey, Option.some.injEq] at hrun
      subst hrun
      exact ih
    · simp only [runOps, append_of_not_mem _ _ _ _ hkey, Option.some.injEq] at hrun
      subst hrun
      have := linkInv_append ih ha hb hnode happly hkey
      simp only [append_of_not_mem _ _ _ _ hkey] at this
      exact this

theorem applyMoves_snoc (path : List Move) (move : Move) :
    ∀ grid : Grid, applyMoves grid (path ++ [move]) =
      (applyMoves grid path).bind (fun board => board.Apply move) := by
  induction path with
  | nil =>
    intro grid
    simp only [List.nil_append, applyMoves, Option.bind]
    cases grid.Apply move <;> rfl
  | cons first rest ih =>
    intro grid
    simp only [List.cons_append, applyMoves]
    cases grid.Apply first with
    | none => rfl
    | some board => exact ih board

/-- The walk back from a record: it collects as many moves as the level of the record, last
move first, which replayed from the start board give the board of the record; it runs out
of fuel exactly when the fuel is less than the level. -/
theorem walkBack_level {start : Grid} {searchTree : Tree} {log : SolverLog}
    (inv : LinkInv start searchTree log) :
    ∀ (i : Nat) (r : Admitted Grid (Option SearchEdge)), log[i]? = some r →
      ∃ path : List Move, path.length = levelOf searchTree.levels (i : Int) ∧
        applyMoves start path.reverse = some r.node ∧
        ∀ (fuel : Nat) (acc : List Move), walkBack searchTree fuel r.edge acc =
          if path.length ≤ fuel then some (some (acc ++ path)) else some none := by
  intro i
  induction i using Nat.strong_induction_on with
  | _ i ih =>
    intro r hr
    by_cases hi : i = 0
    · subst hi
      obtain ⟨key, hroot⟩ := inv.root
      rw [hroot, Option.some.injEq] at hr
      subst hr
      refine ⟨[], ?_, rfl, ?_⟩
      · rw [List.length_nil]
        symm
        apply levelOf_eq_zero
        intro level hl
        have := inv.ends level hl
        simp only [Nat.cast_zero]
        omega
      · intro fuel acc
        cases fuel <;> simp [walkBack]
    · obtain ⟨p, move, rp, e1, e2, e3, e4⟩ := inv.link i r hr (by omega)
      have hpi : p < i := by
        by_contra hge
        have := levelOf_mono searchTree.levels
          (show (i : Int) ≤ (p : Int) by omega)
        omega
      obtain ⟨path, h1, h2, h3⟩ := ih p hpi rp e2
      refine ⟨move :: path, ?_, ?_, ?_⟩
      · rw [List.length_cons, h1, e3]
      · rw [List.reverse_cons, applyMoves_snoc, h2]
        exact e4
      · intro fuel acc
        rw [e1]
        cases fuel with
        | zero => simp [walkBack]
        | succ fuel =>
          have hedge : searchTree.EdgeAt (p : Int) = some rp.edge := by
            rw [edgeAt_of_inv inv.tree _ (by omega)]
            simp only [Int.toNat_ofNat, List.getElem?_map, e2]
            rfl
          simp only [walkBack, hedge]
          rw [h3 fuel (acc ++ [move])]
          simp only [List.length_cons, Nat.add_le_add_iff_right, List.append_assoc,
            List.singleton_append]

/-- The body of the innermost loop of the solver leads from a state of the solver to a state
of the solver, on the same level. -/
theorem tryMove_state {start : Grid} {symmetry : Int} {searchTree : Tree} {log : SolverLog}
    (hs : SolverState start symmetry (searchTree, log)) (fuel : Nat) (goal : Grid → Bool)
    {parentIndex pieceIndex : Int} {step : Step}
    (ha : searchTree.CurrentDepth.A ≤ parentIndex) (hb : parentIndex < searchTree.CurrentDepth.B)
    (hp0 : 0 ≤ pieceIndex) (hp1 : pieceIndex < (start.Pieces.length : Int))
    (hstep : step ∈ StepAll) {searchTree' : Tree}
    (h : tryMove fuel goal symmetry parentIndex pieceIndex searchTree step = .next searchTree') :
    searchTree'.CurrentDepth = searchTree.CurrentDepth ∧
      ∃ log', SolverState start symmetry (searchTree', log') := by
  unfold tryMove at h
  simp only at h
  cases hnode : searchTree.NodeAt parentIndex with
  | none => rw [hnode] at h; cases h
  | some node =>
    rw [hnode] at h
    simp only at h
    cases happly : node.Copy.Apply ⟨pieceIndex, step⟩ with
    | none => rw [happly] at h; cases h
    | some grid =>
      rw [happly] at h
      simp only at h
      cases hval : grid.Validate with
      | none => rw [hval] at h; cases h
      | some verdict =>
        cases verdict with
        | none =>
          rw [hval] at h
          simp only [Ctl.next.injEq] at h
          subst h
          exact ⟨rfl, log, hs⟩
        | some cells =>
          rw [hval] at h
          simp only at h
          cases hkey : cells.Key symmetry with
          | none => rw [hkey] at h; cases h
          | some key =>
            rw [hkey] at h
            simp only at h
            by_cases hmem : key ∈ searchTree.keys
            · rw [append_of_mem _ _ _ _ hmem] at h
              simp only [Ctl.next.injEq] at h
              subst h
              exact ⟨rfl, log, hs⟩
            · have hcd := currentDepth_append searchTree grid
                (some ⟨parentIndex, ⟨pieceIndex, step⟩⟩) key
              have hrun : runOps [TreeOp.append grid
                  (some ⟨parentIndex, ⟨pieceIndex, step⟩⟩) key] (searchTree, log) =
                  some ((searchTree.Append grid (some ⟨parentIndex, ⟨pieceIndex, step⟩⟩) key).1,
                    log ++ [⟨grid, some ⟨parentIndex, ⟨pieceIndex, step⟩⟩, key⟩]) := by
                simp only [runOps, append_of_not_mem _ _ _ _ hmem]
              have hstate := SolverState.tryMove (searchTree, log) _ parentIndex pieceIndex step
                node grid cells key hs ha hb hp0 hp1 hstep hnode happly hval hkey hrun
              rw [append_of_not_mem _ _ _ _ hmem] at h hcd hstate
              simp only at h
              split at h
              · cases h
              · simp only [Ctl.next.injEq] at h
                subst h
                exact ⟨hcd, _, hstate⟩

theorem stepLoop_state {start : Grid} {symmetry : Int} (fuel : Nat) (goal : Grid → Bool)
    (cd : IndexRange) {parentIndex pieceIndex : Int} (ha : cd.A ≤ parentIndex)
    (hb : parentIndex < cd.B) (hp0 : 0 ≤ pieceIndex)
    (hp1 : pieceIndex < (start.Pieces.length : Int)) :
    ∀ (steps : List Step), (∀ step ∈ steps, step ∈ StepAll) →
      ∀ (searchTree searchTree' : Tree) (log : SolverLog),
        SolverState start symmetry (searchTree, log) → searchTree.CurrentDepth = cd →
        stepLoop fuel goal symmetry parentIndex pieceIndex steps searchTree = .next searchTree' →
        searchTree'.CurrentDepth = cd ∧ ∃ log', SolverState start symmetry (searchTree', log') := by
  intro steps
  induction steps with
  | nil =>
    intro _ t t' log hs hcd h
    simp only [stepLoop, Ctl.next.injEq] at h
    subst h
    exact ⟨hcd, log, hs⟩
  | cons step rest ih =>
    intro hsub t t' log hs hcd h
    simp only [stepLoop] at h
    cases hbody : tryMove fuel goal symmetry parentIndex pieceIndex t step with
    | exit outcome => rw [hbody] at h; cases h
    | next t1 =>
      rw [hbody] at h
      obtain ⟨hcd1, log1, hs1⟩ := tryMove_state hs fuel goal (by rw [hcd]; exact ha)
        (by rw [hcd]; exact hb) hp0 hp1 (hsub step (by simp)) hbody
      exact ih (fun s hs' => hsub s (List.mem_cons_of_mem _ hs')) t1 t' log1 hs1
        (hcd1.trans hcd) h

theorem pieceLoop_state {start : Grid} {symmetry : Int} (fuel : Nat) (goal : Grid → Bool)
    (cd : IndexRange) {parentIndex : Int} (ha : cd.A ≤ parentIndex) (hb : parentIndex < cd.B) :
    ∀ (pieces : List Int),
      (∀ pieceIndex ∈ pieces, 0 ≤ pieceIndex ∧ pieceIndex < (start.Pieces.length : Int)) →
      ∀ (searchTree searchTree' : Tree) (log : SolverLog),
        SolverState start symmetry (searchTree, log) → searchTree.CurrentDepth = cd →
        pieceLoop fuel goal symmetry parentIndex pieces searchTree = .next searchTree' →
        searchTree'.CurrentDepth = cd ∧ ∃ log', SolverState start symmetry (searchTree', log') := by
  intro pieces
  induction pieces with
  | nil =>
    intro _ t t' log hs hcd h
    simp only [pieceLoop, Ctl.next.injEq] at h
    subst h
    exact ⟨hcd, log, hs⟩
  | cons pieceIndex rest ih =>
    intro hsub t t' log hs hcd h
    simp only [pieceLoop] at h
    cases hbody : stepLoop fuel goal symmetry parentIndex pieceIndex StepAll t with
    | exit outcome => rw [hbody] at h; cases h
    | next t1 =>
      rw [hbody] at h
      have hp := hsub pieceIndex (by simp)
      obtain ⟨hcd1, log1, hs1⟩ := stepLoop_state fuel goal cd ha hb hp.1 hp.2 StepAll
        (fun _ hstep => hstep) t t1 log hs hcd hbody
      exact ih (fun p hp' => hsub p (List.mem_cons_of_mem _ hp')) t1 t' log1 hs1 hcd1 h

theorem parentLoop_state {start : Grid} {symmetry : Int} (fuel : Nat) (goal : Grid → Bool)
    (cd : IndexRange) :
    ∀ (parents : List Int), (∀ parentIndex ∈ parents, cd.A ≤ parentIndex ∧ parentIndex < cd.B) →
      ∀ (searchTree searchTree' : Tree) (log : SolverLog),
        SolverState start symmetry (searchTree, log) → searchTree.CurrentDepth = cd →
        parentLoop fuel goal symmetry (start.Pieces.length : Int) parents searchTree =
          .next searchTree' →
        searchTree'.CurrentDepth = cd ∧ ∃ log', SolverState start symmetry (searchTree', log') := by
  intro parents
  induction parents with
  | nil =>
    intro _ t t' log hs hcd h
    simp only [parentLoop, Ctl.next.injEq] at h
    subst h
    exact ⟨hcd, log, hs⟩
  | cons parentIndex rest ih =>
    intro hsub t t' log hs hcd h
    simp only [parentLoop] at h
    cases hbody : pieceLoop fuel goal symmetry parentIndex
        (intRange 0 (start.Pieces.length : Int)) t with
    | exit outcome => rw [hbody] at h; cases h
    | next t1 =>
      rw [hbody] at h
      have hp := hsub parentIndex (by simp)
      obtain ⟨hcd1, log1, hs1⟩ := pieceLoop_state fuel goal cd hp.1 hp.2
        (intRange 0 (start.Pieces.length : Int)) (fun p hp' => (mem_intRange _ _ _).1 hp')
        t t1 log hs hcd hbody
      exact ih (fun p hp' => hsub p (List.mem_cons_of_mem _ hp')) t1 t' log1 hs1 hcd1 h

/-- A pass of the search loop that goes on leads from a state of the solver to a state of
the solver. -/
theorem searchPass_state {start : Grid} {symmetry : Int} (fuel : Nat) (goal : Grid → Bool)
    {searchTree searchTree' : Tree} {log : SolverLog}
    (hs : SolverState start symmetry (searchTree, log))
    (h : searchPass fuel goal symmetry (start.Pieces.length : Int) searchTree =
      .next searchTree') :
    ∃ log', SolverState start symmetry (searchTree', log') := by
  unfold searchPass at h
  cases hinc : searchTree.IncrementDepth with
  | none => rw [hinc] at h; cases h
  | some t1 =>
    rw [hinc] at h
    simp only at h
    have hs1 : SolverState start symmetry (t1, log) :=
      SolverState.openLevel (searchTree, log) (t1, log) hs (by simp only [runOps, hinc])
    split at h
    · cases h
    · exact (parentLoop_state fuel goal t1.CurrentDepth _
        (fun p hp => (mem_intRange _ _ _).1 hp) t1 searchTree' log hs1 rfl h).2

/-- The tree after any number of passes of the search loop is a state of the solver. -/
theorem iteratePass_state {start : Grid} {symmetry : Int} (fuel : Nat) (goal : Grid → Bool) :
    ∀ (k : Nat) (searchTree searchTree' : Tree) (log : SolverLog),
      SolverState start symmetry (searchTree, log) →
      iteratePass fuel goal symmetry (start.Pieces.length : Int) k searchTree =
        some searchTree' →
      ∃ log', SolverState start symmetry (searchTree', log') := by
  intro k
  induction k with
  | zero =>
    intro t t' log hs h
    simp only [iteratePass, Option.some.injEq] at h
    subst h
    exact ⟨log, hs⟩
  | succ k ih =>
    intro t t' log hs h
    simp only [iteratePass] at h
    cases hpass : searchPass fuel goal symmetry (start.Pieces.length : Int) t with
    | exit outcome => rw [hpass] at h; cases h
    | next t1 =>
      rw [hpass] at h
      obtain ⟨log1, hs1⟩ := searchPass_state fuel goal hs hpass
      exact ih t1 t' log1 hs1 h

/-- A record admitted since the last level was opened has the number of levels as level. -/
theorem levelOf_new {searchTree : Tree} (hlevels : LevelsFrom 0 searchTree.levels)
    {index : Int} (hn : searchTree.CurrentDepth.B ≤ index) :
    levelOf searchTree.levels index = searchTree.levels.length := by
  apply levelOf_eq_length
  intro level hl
  rcases List.eq_nil_or_concat searchTree.levels with hnil | ⟨init, last, hconcat⟩
  · rw [hnil] at hl
    cases hl
  · rw [List.concat_eq_append] at hconcat
    have hcd : searchTree.CurrentDepth = last := by
      simp only [SearchTree.CurrentDepth, hconcat, List.getLast?_append, List.getLast?_singleton]
      rfl
    rw [hcd] at hn
    rw [hconcat] at hlevels hl
    obtain ⟨hpair, hle⟩ := levelsFrom_pairwise 0 _ hlevels
    rw [List.pairwise_append] at hpair
    rcases List.mem_append.1 hl with hl | hl
    · have := hpair.2.2 level hl last (by simp)
      have := (hle last (by simp)).2
      omega
    · simp only [List.mem_singleton] at hl
      subst hl
      exact hn

/-- C22. Parent-link invariant of the search: in every tree state that a run of
`solvePuzzle` goes through (for any goal predicate; the trees between the passes of the
search loop are such states), with the level of a record being the index of the level
range that holds it (the number of levels opened, for a record admitted since the last
level was opened): record 0 holds the start board and is the only record with no parent
edge; every other record carries a `SearchEdge` whose `ParentIndex` lies in the range of the
level just before the record's own level, hence is smaller than the record's own index, and
the record's board is the parent's board with the edge's move applied; and the walk back
from a record of level `i` collects exactly `i` moves before it ends at the edge `nil` of the
root (it needs fuel `i`), moves which replayed from the start board give the record's
board. -/
theorem parent_links (start : Grid) (symmetry : Int) :
    (∀ state : Tree × SolverLog, SolverState start symmetry state →
      state.1.edges.length = state.2.length ∧ LevelsFrom 0 state.1.levels ∧
      (∃ key, state.2[0]? = some ⟨start, none, key⟩) ∧
      ∀ (i : Nat) (r : Admitted Grid (Option SearchEdge)), state.2[i]? = some r →
        state.1.EdgeAt (i : Int) = some r.edge ∧
        (r.edge = none ↔ i = 0) ∧
        (∀ (k : Nat) (level : IndexRange), state.1.levels[k]? = some level →
          level.A ≤ (i : Int) → (i : Int) < level.B → levelOf state.1.levels (i : Int) = k) ∧
        (state.1.CurrentDepth.B ≤ (i : Int) →
          levelOf state.1.levels (i : Int) = state.1.levels.length) ∧
        (1 ≤ i → ∃ (p : Nat) (move : Move) (rp : Admitted Grid (Option SearchEdge))
            (level : IndexRange),
          r.edge = some ⟨(p : Int), move⟩ ∧ state.2[p]? = some rp ∧ p < i ∧
          levelOf state.1.levels (i : Int) = levelOf state.1.levels (p : Int) + 1 ∧
          state.1.levels[levelOf state.1.levels (p : Int)]? = some level ∧
          level.A ≤ (p : Int) ∧ (p : Int) < level.B ∧
          rp.node.Copy.Apply move = some r.node) ∧
        ∃ path : List Move, path.length = levelOf state.1.levels (i : Int) ∧
          applyMoves start path.reverse = some r.node ∧
          ∀ fuel : Nat, walkBack state.1 fuel r.edge [] =
            if levelOf state.1.levels (i : Int) ≤ fuel then some (some path) else some none) ∧
    (∀ (cells : gridCells) (key : GoString) (fuel : Nat) (goal : Grid → Bool) (k : Nat)
        (searchTree : Tree),
      start.Validate = some (some cells) → cells.Key symmetry = some key →
      iteratePass fuel goal symmetry (start.Pieces.length : Int) k
        ((NewSearchTree Grid (Option SearchEdge)).Append start none key).1 = some searchTree →
      ∃ log, SolverState start symmetry (searchTree, log)) := by
  constructor
  · intro state hstate
    have inv := linkInv_of_state hstate
    obtain ⟨searchTree, log⟩ := state
    simp only at inv ⊢
    refine ⟨by simp [inv.tree.edges_eq], inv.levels, inv.root, ?_⟩
    intro i r hr
    have hedge : searchTree.EdgeAt (i : Int) = some r.edge := by
      rw [edgeAt_of_inv inv.tree _ (by omega)]
      simp only [Int.toNat_ofNat, List.getElem?_map, hr]
      rfl
    have hlink : 1 ≤ i → ∃ (p : Nat) (move : Move) (rp : Admitted Grid (Option SearchEdge))
        (level : IndexRange),
        r.edge = some ⟨(p : Int), move⟩ ∧ log[p]? = some rp ∧ p < i ∧
        levelOf searchTree.levels (i : Int) = levelOf searchTree.levels (p : Int) + 1 ∧
        searchTree.levels[levelOf searchTree.levels (p : Int)]? = some level ∧
        level.A ≤ (p : Int) ∧ (p : Int) < level.B ∧
        rp.node.Copy.Apply move = some r.node := by
      intro hi
      obtain ⟨p, move, rp, e1, e2, e3, e4⟩ := inv.link i r hr hi
      have hpi : p < i := by
        by_contra hge
        have := levelOf_mono searchTree.levels (show (i : Int) ≤ (p : Int) by omega)
        omega
      have hlt : levelOf searchTree.levels (p : Int) < searchTree.levels.length := by
        have := levelOf_le searchTree.levels (i : Int)
        omega
      obtain ⟨level, h1, h2, h3⟩ := levelOf_range 0 _ inv.levels (p : Int) (by omega) hlt
      exact ⟨p, move, rp, level, e1, e2, hpi, e3.symm, h1, h2, h3, e4⟩
    refine ⟨hedge, ?_, ?_, ?_, hlink, ?_⟩
    · constructor
      · intro hnone
        by_contra hi
        obtain ⟨p, move, rp, level, e1, -⟩ := hlink (by omega)
        rw [hnone] at e1
        cases e1
      · intro hi
        subst hi
        obtain ⟨key, hroot⟩ := inv.root
        rw [hroot, Option.some.injEq] at hr
        rw [← hr]
    · intro k level hk ha hb
      exact levelOf_of_range 0 _ inv.levels k level (i : Int) hk ha hb
    · intro hnew
      exact levelOf_new inv.levels hnew
    · obtain ⟨path, h1, h2, h3⟩ := walkBack_level inv i r hr
      refine ⟨path, h1, h2, ?_⟩
      intro fuel
      rw [h3 fuel [], h1, List.nil_append]
  · intro cells key fuel goal k searchTree hv hk hiter
    have hnew : key ∉ (NewSearchTree Grid (Option SearchEdge)).keys := by simp [NewSearchTree]
    have hseed : SolverState start symmetry
        (((NewSearchTree Grid (Option SearchEdge)).Append start none key).1,
          [⟨start, none, key⟩]) :=
      SolverState.seed cells key _ hv hk
        (by simp only [runOps, append_of_not_mem _ _ _ _ hnew, List.nil_append])
    exact iteratePass_state fuel goal k _ _ _ hseed hiter

/-- Witness of C22: on the 3x1 board with one piece at the left end and a goal that never
holds, the tree after two passes is a state of the solver with three records, one per
level; record 2 has record 1 as parent and record 1 the root, and the walk back from
record 2 collects two moves. -/
theorem parent_links_witness :
    ∃ (searchTree : Tree) (log : SolverLog),
      iteratePass 3 (fun _ => false) NoKeySymmetry 1 2
        ((NewSearchTree Grid (Option SearchEdge)).Append (corridor 0) none [65, 42, 42]).1
          = some searchTree ∧
      SolverState (corridor 0) NoKeySymmetry (searchTree, log) ∧
      searchTree.edges = [none, some ⟨0, ⟨0, StepRight⟩⟩, some ⟨1, ⟨0, StepRight⟩⟩] ∧
      searchTree.levels = [⟨0, 1⟩, ⟨1, 2⟩] ∧
      levelOf searchTree.levels 0 = 0 ∧ levelOf searchTree.levels 1 = 1 ∧
      levelOf searchTree.levels 2 = 2 ∧
      walkBack searchTree 2 (some ⟨1, ⟨0, StepRight⟩⟩) [] =
        some (some [⟨0, StepRight⟩, ⟨0, StepRight⟩]) := by
  have hsome : ((iteratePass 3 (fun _ => false) NoKeySymmetry 1 2
      ((NewSearchTree Grid (Option SearchEdge)).Append (corridor 0) none [65, 42, 42]).1).map
        (fun t => (t.edges, t.levels))) =
      some ([none, some ⟨0, ⟨0, StepRight⟩⟩, some ⟨1, ⟨0, StepRight⟩⟩], [⟨0, 1⟩, ⟨1, 2⟩]) := by
    decide
  cases hiter : iteratePass 3 (fun _ => false) NoKeySymmetry 1 2
      ((NewSearchTree Grid (Option SearchEdge)).Append (corridor 0) none [65, 42, 42]).1 with
  | none =>
    rw [hiter] at hsome
    cases hsome
  | some searchTree =>
    rw [hiter] at hsome
    simp only [Option.map_some', Option.some.injEq, Prod.mk.injEq] at hsome
    obtain ⟨hedges, hlevels⟩ := hsome
    obtain ⟨log, hstate⟩ := (parent_links (corridor 0) NoKeySymmetry).2
      ⟨3, 1, [⟨65, 1⟩, PieceTagEmpty, PieceTagEmpty]⟩ [65, 42, 42] 3 (fun _ => false) 2
      searchTree (by decide) (by decide) hiter
    refine ⟨searchTree, log, rfl, hstate, hedges, hlevels, ?_, ?_, ?_, ?_⟩
    · rw [hlevels]; decide
    · rw [hlevels]; decide
    · rw [hlevels]; decide
    · simp [walkBack, SearchTree.EdgeAt, hedges, sliceGet]

/-! ## C23: keys without symmetry tell the boards of a puzzle apart -/

/-- A non-empty shape inside a box is moved onto itself by the zero translation only. -/
theorem shift_zero (shape : List Vect2) (g0 : Vect2) (h0 : g0 ∈ shape) (dx dy : Int)
    (hclosed : ∀ g ∈ shape, (⟨g.X + dx, g.Y + dy⟩ : Vect2) ∈ shape)
    (loX loY w h : Int)
    (hbox : ∀ g ∈ shape, loX ≤ g.X ∧ g.X < loX + w ∧ loY ≤ g.Y ∧ g.Y < loY + h) :
    dx = 0 ∧ dy = 0 := by
  have hiter : ∀ n : Nat, ∀ g ∈ shape,
      (⟨g.X + (n : Int) * dx, g.Y + (n : Int) * dy⟩ : Vect2) ∈ shape := by
    intro n
    induction n with
    | zero =>
      intro g hg
      simpa using hg
    | succ n ih =>
      intro g hg
      have := hclosed _ (ih g hg)
      simp only at this
      have e1 : g.X + ((n + 1 : Nat) : Int) * dx = g.X + (n : Int) * dx + dx := by
        push_cast; ring
      have e2 : g.Y + ((n + 1 : Nat) : Int) * dy = g.Y + (n : Int) * dy + dy := by
        push_cast; ring
      rw [e1, e2]
      exact this
  obtain ⟨b1, b2, b3, b4⟩ := hbox g0 h0
  constructor
  · have hw : 0 < w := by omega
    have hm := hbox _ (hiter w.toNat g0 h0)
    simp only [Int.toNat_of_nonneg (le_of_lt hw)] at hm
    by_contra hne
    rcases lt_or_gt_of_ne hne with hneg | hpos
    · have : w * dx ≤ -w := by nlinarith
      omega
    · have : w ≤ w * dx := by nlinarith
      omega
  · have hh : 0 < h := by omega
    have hm := hbox _ (hiter h.toNat g0 h0)
    simp only [Int.toNat_of_nonneg (le_of_lt hh)] at hm
    by_contra hne
    rcases lt_or_gt_of_ne hne with hneg | hpos
    · have : h * dy ≤ -h := by nlinarith
      omega
    · have : h ≤ h * dy := by nlinarith
      omega

/-- The cells of a valid board without empty-tagged pieces whose cell count does not
overflow: every cell of a piece is on
the board and holds the tag of the piece, every other cell of the board holds the empty
tag. -/
theorem validate_cells {grid : Grid} {cells : gridCells} (hfit : grid.CellCountFits)
    (hval : grid.Validate = some (some cells))
    (htags : ∀ piece ∈ grid.Pieces, piece.Geometry ≠ [] → piece.Tag ≠ PieceTagEmpty) :
    (∀ piece ∈ grid.Pieces, ∀ geom ∈ piece.Geometry,
      grid.OnBoard (geom.Add piece.Position) ∧
        sliceGet cells.tags ((geom.Add piece.Position).X +
          grid.SizeX * (geom.Add piece.Position).Y) = some piece.Tag) ∧
    (∀ c : Vect2, grid.OnBoard c →
      (∀ piece ∈ grid.Pieces, ∀ geom ∈ piece.Geometry, geom.Add piece.Position ≠ c) →
      sliceGet cells.tags (c.X + grid.SizeX * c.Y) = some PieceTagEmpty) := by
  obtain ⟨hsx, hsy, -⟩ := validate_sizes hfit hval
  rcases validate_spec grid hfit (fits_nonneg hfit (validate_size_nonneg hval)) htags with
    ⟨⟨hon, hnd⟩, cells', hval', inv, -, -⟩ | ⟨-, hnil⟩
  · rw [hval] at hval'
    cases hval'
    have hkeys : ((cellTags grid.Pieces).reverse.map (fun e => e.1)).Nodup := by
      rw [List.map_reverse, List.nodup_reverse, cellTags_fst]
      exact hnd
    have hcontains : ∀ c : Vect2, grid.OnBoard c → cells.contains c = true := by
      intro c hc
      exact (contains_iff cells c).2 ⟨hc.1, by rw [hsx]; exact hc.2.1, hc.2.2.1,
        by rw [hsy]; exact hc.2.2.2⟩
    constructor
    · intro piece hp geom hg
      have hc : grid.OnBoard (geom.Add piece.Position) :=
        hon _ (mem_absCells.2 ⟨piece, hp, geom, hg, rfl⟩)
      refine ⟨hc, ?_⟩
      have hcontent := inv.content _ (hcontains _ hc)
      simp only [hsx] at hcontent
      have hmem : (geom.Add piece.Position, piece.Tag) ∈ (cellTags grid.Pieces).reverse := by
        rw [List.mem_reverse]
        exact mem_cellTags hp hg
      rw [hcontent, lookup_of_mem_nodup _ _ _ hkeys hmem]
      rfl
    · intro c hc hfree
      have hcontent := inv.content _ (hcontains _ hc)
      simp only [hsx] at hcontent
      have hnot : c ∉ (cellTags grid.Pieces).reverse.map (fun e => e.1) := by
        rw [List.map_reverse, List.mem_reverse, cellTags_fst]
        intro hmem
        obtain ⟨piece, hp, geom, hg, hland⟩ := mem_absCells.1 hmem
        exact hfree piece hp geom hg hland
      rw [hcontent, lookup_of_not_mem _ _ hnot]
      rfl
  · rw [hval] at hnil
    cases hnil

/-- The cell of an offset on two boards on which it lies inside the board: the difference
of the two cells is the difference of the two positions as a value of type `int`. -/
theorem cell_shift (g p1 p2 : Vect2) (w h : Int)
    (h1 : 0 ≤ (g.Add p1).X ∧ (g.Add p1).X < w ∧ 0 ≤ (g.Add p1).Y ∧ (g.Add p1).Y < h)
    (h2 : 0 ≤ (g.Add p2).X ∧ (g.Add p2).X < w ∧ 0 ≤ (g.Add p2).Y ∧ (g.Add p2).Y < h) :
    g.Add p2 = ⟨(g.Add p1).X + wrapInt (p2.X - p1.X), (g.Add p1).Y + wrapInt (p2.Y - p1.Y)⟩ := by
  simp only [Vect2.Add, Vect2.mk.injEq] at h1 h2 ⊢
  unfold wrapInt at h1 h2 ⊢
  constructor <;> omega

/-- On two valid boards of the same size with the same symbol in every cell, a piece of the
one and the piece of the other that has the same tag and shape sit at the same position,
when kind symbols are not shared between pieces and are not the empty marker, the cell count
does not overflow and the positions are values of type `int`. -/
theorem piece_position_eq {g1 g2 : Grid} {cells1 cells2 : gridCells}
    (hfit : g1.CellCountFits)
    (hv1 : g1.Validate = some (some cells1)) (hv2 : g2.Validate = some (some cells2))
    (hsx : g2.SizeX = g1.SizeX) (hsy : g2.SizeY = g1.SizeY)
    (hsymbols : cells1.symbols = cells2.symbols)
    (ht1 : ∀ piece ∈ g1.Pieces, piece.Geometry ≠ [] → piece.Tag ≠ PieceTagEmpty)
    (ht2 : ∀ piece ∈ g2.Pieces, piece.Geometry ≠ [] → piece.Tag ≠ PieceTagEmpty)
    (hnd : (g1.Pieces.map (fun piece => piece.Tag.Symbol)).Nodup)
    {p1 p2 : Piece} (hp1 : p1 ∈ g1.Pieces) (hp2 : p2 ∈ g2.Pieces)
    (htag : p1.Tag = p2.Tag) (hgeo : p1.Geometry = p2.Geometry) (hne : p1.Geometry ≠ [])
    (hstar : p1.Tag.Symbol ≠ 42) (hi1 : p1.Position.IsInt64) (hi2 : p2.Position.IsInt64) :
    p1.Position = p2.Position := by
  have hfit2 : g2.CellCountFits := by
    unfold Grid.CellCountFits
    rw [hsx, hsy]
    exact hfit
  obtain ⟨g0, hg0⟩ := List.exists_mem_of_ne_nil _ hne
  obtain ⟨hc1, hfree1⟩ := validate_cells hfit hv1 ht1
  obtain ⟨hc2, -⟩ := validate_cells hfit2 hv2 ht2
  have hon2 : ∀ g ∈ p1.Geometry, g1.OnBoard (g.Add p2.Position) := by
    intro g hg
    have := (hc2 p2 hp2 g (by rw [← hgeo]; exact hg)).1
    unfold Grid.OnBoard at this ⊢
    rw [hsx, hsy] at this
    exact this
  have hshift : ∀ g ∈ p1.Geometry, g.Add p2.Position =
      ⟨(g.Add p1.Position).X + wrapInt (p2.Position.X - p1.Position.X),
        (g.Add p1.Position).Y + wrapInt (p2.Position.Y - p1.Position.Y)⟩ :=
    fun g hg => cell_shift g p1.Position p2.Position g1.SizeX g1.SizeY
      (hc1 p1 hp1 g hg).1 (hon2 g hg)
  have hcover : ∀ g ∈ p1.Geometry,
      g.Add p2.Position ∈ p1.Geometry.map (fun g' => g'.Add p1.Position) := by
    intro g hg
    obtain ⟨-, hentry2⟩ := hc2 p2 hp2 g (by rw [← hgeo]; exact hg)
    have hsym2 : sliceGet cells2.symbols ((g.Add p2.Position).X +
        g1.SizeX * (g.Add p2.Position).Y) = some p1.Tag.Symbol := by
      rw [gridCells.symbols, sliceGet_map, ← hsx, hentry2, htag]
      rfl
    rw [← hsymbols, gridCells.symbols, sliceGet_map] at hsym2
    by_cases hcov : ∃ q ∈ g1.Pieces, ∃ g' ∈ q.Geometry,
        g'.Add q.Position = g.Add p2.Position
    · obtain ⟨q, hq, g', hg', hland⟩ := hcov
      obtain ⟨-, hentry1⟩ := hc1 q hq g' hg'
      rw [hland] at hentry1
      rw [hentry1] at hsym2
      simp only [Option.map_some', Option.some.injEq] at hsym2
      have hqp : q = p1 := List.inj_on_of_nodup_map hnd hq hp1 hsym2
      subst hqp
      exact List.mem_map.2 ⟨g', hg', hland⟩
    · have hempty := hfree1 (g.Add p2.Position) (hon2 g hg) (by
        intro q hq g' hg' hland
        exact hcov ⟨q, hq, g', hg', hland⟩)
      rw [hempty] at hsym2
      simp only [Option.map_some', Option.some.injEq] at hsym2
      exact absurd hsym2.symm hstar
  have hzero := shift_zero (p1.Geometry.map (fun g' => g'.Add p1.Position))
    (g0.Add p1.Position) (List.mem_map.2 ⟨g0, hg0, rfl⟩)
    (wrapInt (p2.Position.X - p1.Position.X)) (wrapInt (p2.Position.Y - p1.Position.Y))
    (by
      intro c hc
      obtain ⟨g, hg, rfl⟩ := List.mem_map.1 hc
      rw [← hshift g hg]
      exact hcover g hg)
    0 0 g1.SizeX g1.SizeY
    (by
      intro c hc
      obtain ⟨g, hg, rfl⟩ := List.mem_map.1 hc
      have := (hc1 p1 hp1 g hg).1
      unfold Grid.OnBoard at this
      omega)
  obtain ⟨p1t, ⟨x1, y1⟩, p1g⟩ := p1
  obtain ⟨p2t, ⟨x2, y2⟩, p2g⟩ := p2
  obtain ⟨⟨a1, a2⟩, ⟨a3, a4⟩⟩ := hi1
  obtain ⟨⟨b1, b2⟩, ⟨b3, b4⟩⟩ := hi2
  obtain ⟨z1, z2⟩ := hzero
  simp only at a1 a2 a3 a4 b1 b2 b3 b4 z1 z2
  simp only [Vect2.mk.injEq]
  unfold wrapInt at z1 z2
  constructor <;> omega

/-- What a board inherits from a board of which it shares the piece list. -/
theorem samePuzzle_pieces {start grid : Grid} (h : start.SamePuzzle grid) :
    (grid.Pieces.map (fun piece => piece.Tag.Symbol) =
      start.Pieces.map (fun piece => piece.Tag.Symbol)) ∧
    (∀ piece ∈ grid.Pieces, ∃ original ∈ start.Pieces,
      original.Tag = piece.Tag ∧ original.Geometry = piece.Geometry) := by
  obtain ⟨-, -, hmap⟩ := h
  constructor
  · have := congrArg (List.map (fun e : PieceTag × List Vect2 => e.1.Symbol)) hmap
    simpa only [List.map_map] using this
  · intro piece hp
    have hmem : (piece.Tag, piece.Geometry) ∈
        grid.Pieces.map (fun piece => (piece.Tag, piece.Geometry)) :=
      List.mem_map.2 ⟨piece, hp, rfl⟩
    rw [hmap] at hmem
    obtain ⟨original, ho, heq⟩ := List.mem_map.1 hmem
    simp only [Prod.mk.injEq] at heq
    exact ⟨original, ho, heq.1, heq.2⟩

/-- Without symmetry, two valid boards of a puzzle whose pieces have non-empty shapes and
pairwise distinct valid kind symbols other than `'*'` have the same key only when they are
the same board. -/
theorem samePuzzle_key_inj {start g1 g2 : Grid} (hfit : start.CellCountFits)
    (hi1 : g1.PositionsInt64) (hi2 : g2.PositionsInt64)
    (hshape : ∀ piece ∈ start.Pieces, piece.Geometry ≠ [])
    (hkinds : (start.Pieces.map (fun piece => piece.Tag.Symbol)).Nodup)
    (hrunes : ∀ piece ∈ start.Pieces, validRune piece.Tag.Symbol ∧ piece.Tag.Symbol ≠ 42)
    (h1 : start.SamePuzzle g1) (h2 : start.SamePuzzle g2)
    (hv1 : g1.IsValid = true) (hv2 : g2.IsValid = true)
    (hkey : keyOf NoKeySymmetry g1 = keyOf NoKeySymmetry g2) : g1 = g2 := by
  obtain ⟨cells1, hc1⟩ := (isValid_iff g1).1 hv1
  obtain ⟨cells2, hc2⟩ := (isValid_iff g2).1 hv2
  have hfit1 : g1.CellCountFits := by
    unfold Grid.CellCountFits
    rw [h1.1, h1.2.1]
    exact hfit
  have hfit2 : g2.CellCountFits := by
    unfold Grid.CellCountFits
    rw [h2.1, h2.2.1]
    exact hfit
  obtain ⟨hsym1, horig1⟩ := samePuzzle_pieces h1
  obtain ⟨hsym2, horig2⟩ := samePuzzle_pieces h2
  have hprops : ∀ {grid : Grid}, (∀ piece ∈ grid.Pieces, ∃ original ∈ start.Pieces,
      original.Tag = piece.Tag ∧ original.Geometry = piece.Geometry) →
      ∀ piece ∈ grid.Pieces, piece.Geometry ≠ [] ∧ validRune piece.Tag.Symbol ∧
        piece.Tag.Symbol ≠ 42 ∧ piece.Tag ≠ PieceTagEmpty := by
    intro grid horig piece hp
    obtain ⟨original, ho, ht, hg⟩ := horig piece hp
    have hr := hrunes original ho
    rw [ht] at hr
    refine ⟨by rw [← hg]; exact hshape original ho, hr.1, hr.2, ?_⟩
    intro hempty
    rw [hempty] at hr
    exact hr.2 rfl
  have hvalid : ∀ {grid : Grid} {cells : gridCells}, grid.CellCountFits →
      grid.Validate = some (some cells) →
      (∀ piece ∈ grid.Pieces, ∃ original ∈ start.Pieces,
        original.Tag = piece.Tag ∧ original.Geometry = piece.Geometry) →
      ∀ r ∈ cells.symbols, validRune r := by
    intro grid cells hf hc horig r hr
    simp only [gridCells.symbols, List.mem_map] at hr
    obtain ⟨tag, htag, rfl⟩ := hr
    rcases validate_tags hf hc tag htag with rfl | hmem
    · decide
    · obtain ⟨piece, hp, rfl⟩ := List.mem_map.1 hmem
      exact (hprops horig piece hp).2.1
  have hsymbols : cells1.symbols = cells2.symbols := by
    simp only [keyOf, hc1, hc2, key_noSymmetry, Option.some.injEq] at hkey
    exact runesToString_inj _ _ (hvalid hfit1 hc1 horig1) (hvalid hfit2 hc2 horig2) hkey
  have hpieces : g1.Pieces = g2.Pieces := by
    apply List.ext_getElem?
    intro k
    have hk := congrArg (fun l => l[k]?) (h1.2.2.trans h2.2.2.symm)
    simp only [List.getElem?_map] at hk
    cases e1 : g1.Pieces[k]? with
    | none =>
      cases e2 : g2.Pieces[k]? with
      | none => rfl
      | some p2 =>
        rw [e1, e2] at hk
        cases hk
    | some p1 =>
      cases e2 : g2.Pieces[k]? with
      | none =>
        rw [e1, e2] at hk
        cases hk
      | some p2 =>
        rw [e1, e2] at hk
        simp only [Option.map_some', Option.some.injEq, Prod.mk.injEq] at hk
        have hp1 : p1 ∈ g1.Pieces := List.getElem?_mem e1
        have hp2 : p2 ∈ g2.Pieces := List.getElem?_mem e2
        have hpos := piece_position_eq hfit1 hc1 hc2 (h2.1.trans h1.1.symm)
          (h2.2.1.trans h1.2.1.symm)
          hsymbols (fun piece hp _ => (hprops horig1 piece hp).2.2.2)
          (fun piece hp _ => (hprops horig2 piece hp).2.2.2)
          (by rw [hsym1]; exact hkinds) hp1 hp2 hk.1 hk.2 (hprops horig1 p1 hp1).1
          (hprops horig1 p1 hp1).2.2.1 (hi1 p1 hp1) (hi2 p2 hp2)
        obtain ⟨t1, q1, s1⟩ := p1
        obtain ⟨t2, q2, s2⟩ := p2
        simp only at hk hpos
        rw [hk.1, hk.2, hpos]
  obtain ⟨x1, y1, l1⟩ := g1
  obtain ⟨x2, y2, l2⟩ := g2
  have e1 := h1.1.trans h2.1.symm
  have e2 := h1.2.1.trans h2.2.1.symm
  simp only at e1 e2 hpieces
  rw [e1, e2, hpieces]

theorem samePuzzle_refl (grid : Grid) : grid.SamePuzzle grid := ⟨rfl, rfl, rfl⟩

theorem samePuzzle_trans {g1 g2 g3 : Grid} (h12 : g1.SamePuzzle g2) (h23 : g2.SamePuzzle g3) :
    g1.SamePuzzle g3 :=
  ⟨h23.1.trans h12.1, h23.2.1.trans h12.2.1, h23.2.2.trans h12.2.2⟩

/-- A move keeps the dimensions and the piece list. -/
theorem apply_samePuzzle {grid grid' : Grid} {move : Move} (h : grid.Apply move = some grid') :
    grid.SamePuzzle grid' := by
  cases hp : sliceGet grid.Pieces move.PieceIndex with
  | none =>
    simp only [Grid.Apply, hp] at h
    cases h
  | some piece =>
    obtain ⟨h0, h1, happly⟩ := apply_eq hp
    rw [happly, Option.some.injEq] at h
    subst h
    refine ⟨rfl, rfl, ?_⟩
    simp only
    rw [List.map_set]
    apply set_of_getElem?
    rw [List.getElem?_map, ← sliceGet_of_nonneg _ _ h0, hp]
    rfl

/-- A move leaves positions that are values of type `int`. -/
theorem apply_int64 {grid grid' : Grid} {move : Move} (hint : grid.PositionsInt64)
    (h : grid.Apply move = some grid') : grid'.PositionsInt64 := by
  cases hp : sliceGet grid.Pieces move.PieceIndex with
  | none =>
    simp only [Grid.Apply, hp] at h
    cases h
  | some piece =>
    obtain ⟨h0, h1, happly⟩ := apply_eq hp
    rw [happly, Option.some.injEq] at h
    subst h
    intro q hq
    rcases List.mem_or_eq_of_mem_set hq with hq | rfl
    · exact hint q hq
    · exact ⟨wrapInt_isInt64 _, wrapInt_isInt64 _⟩

/-- Every board reached from a valid start board is a valid board of the same puzzle, with
positions that are values of type `int` when those of the start board are. -/
theorem reaches_samePuzzle {start : Grid} (hvalid : start.IsValid = true) (path : List Move)
    (grid : Grid) (h : Reaches start path grid) :
    start.SamePuzzle grid ∧ grid.IsValid = true ∧
      (start.PositionsInt64 → grid.PositionsInt64) := by
  refine reaches_invariant
    (fun g => start.SamePuzzle g ∧ g.IsValid = true ∧ (start.PositionsInt64 → g.PositionsInt64))
    ⟨samePuzzle_refl start, hvalid, fun h => h⟩ ?_ path grid h
  intro g move g' hP _ hs
  obtain ⟨happly, hv⟩ := stepTo_apply hs
  exact ⟨samePuzzle_trans hP.1 (apply_samePuzzle happly), hv,
    fun hint => apply_int64 (hP.2.2 hint) happly⟩

/-- Boards with the same tags, shapes and positions, piece by piece, are the same board. -/
theorem pieces_eq_of_positions {l1 l2 : List Piece}
    (hshape : l1.map (fun piece => (piece.Tag, piece.Geometry)) =
      l2.map (fun piece => (piece.Tag, piece.Geometry)))
    (hpos : l1.map (fun piece => piece.Position) = l2.map (fun piece => piece.Position)) :
    l1 = l2 := by
  induction l1 generalizing l2 with
  | nil =>
    cases l2 with
    | nil => rfl
    | cons q rest => simp at hpos
  | cons p rest ih =>
    cases l2 with
    | nil => simp at hpos
    | cons q rest2 =>
      simp only [List.map_cons, List.cons.injEq, Prod.mk.injEq] at hshape hpos
      obtain ⟨t1, q1, s1⟩ := p
      obtain ⟨t2, q2, s2⟩ := q
      simp only at hshape hpos
      rw [hshape.1.1, hshape.1.2, hpos.1, ih hshape.2 hpos.2]

/-- When some board reached from the start board satisfies the goal and boards with equal
keys are interchangeable, the search loop never returns 'no solution'. -/
theorem searchLoop_no_miss {start : Grid} {goal : Grid → Bool} {symmetry : Int}
    (hsym : symmetry = NoKeySymmetry ∨ symmetry = HorizontalKeySymmetry)
    (hfit : start.CellCountFits) (hsize : ¬wrapInt (start.SizeX * start.SizeY) < 0)
    (hcompat : KeyCompatible start goal symmetry) {L : Nat}
    (hL : ∃ path grid, Reaches start path grid ∧ goal grid = true ∧ path.length = L)
    (fuel : Nat) :
    ∀ {d : Nat} {searchTree : Tree} {recs : List Rec},
      StartInv start goal symmetry (d + 1) searchTree recs → Cov symmetry start d recs →
      d + 1 ≤ L →
      searchLoop goal symmetry (start.Pieces.length : Int) fuel searchTree ≠ .noSolution := by
  obtain ⟨pathL, gridL, hrL, hgL, hlenL⟩ := hL
  induction fuel with
  | zero =>
    intro d t recs _ _ _ h
    simp [searchLoop] at h
  | succ fuel ih =>
    intro d t recs inv hcov hd
    simp only [searchLoop]
    rcases searchPass_spec hsym hsize (fuel + 1) inv with ⟨hB, -⟩ | ⟨-, h1 | h1⟩
    · exfalso
      have hall := cov_closed hcompat (cov_mono hcov (Nat.zero_le d)) inv.reach inv.key
        (fun i move hi hl => inv.expanded i move (by omega) hl)
      have := goal_false_of_cov hcompat inv.toRecsInv (hall L) hrL (by omega)
      rw [this] at hgL
      cases hgL
    · obtain ⟨t', more, h1, inv', hB⟩ := h1
      rw [h1]
      have hcov' : Cov symmetry start (d + 1) (recs ++ more) :=
        cov_step hcompat hcov inv.reach inv.key
          (fun i move hi hl => inv'.expanded i move (by omega) hl)
      have hne : d + 1 ≠ L := by
        intro heq
        have := goal_false_of_cov hcompat inv'.toRecsInv hcov' hrL (by omega)
        rw [this] at hgL
        cases hgL
      exact ih inv' hcov' (by omega)
    · obtain ⟨o, h1, ⟨g, p, -, -, -, ho⟩ | ⟨hnf, -⟩⟩ := h1
      · rw [h1, ho]
        by_cases hle : d + 1 ≤ fuel + 1 <;> simp [hle]
      · exact absurd hfit hnf

/-- The solver on a valid start board whose cell count does not overflow, when boards with
equal keys are interchangeable: it returns a shortest solution when a board satisfying the goal can be reached, and returns
'no solution' only when none can. -/
theorem solvePuzzle_compat {start : Grid} {goal : Grid → Bool} {symmetry : Int}
    (hsym : symmetry = NoKeySymmetry ∨ symmetry = HorizontalKeySymmetry)
    (hvalid : start.IsValid = true) (hfit : start.CellCountFits)
    (hcompat : KeyCompatible start goal symmetry) :
    (∀ L : Nat,
      (∃ path grid, Reaches start path grid ∧ goal grid = true ∧ path.length = L) →
      (∀ path grid, Reaches start path grid → goal grid = true → L ≤ path.length) →
      ∀ fuel : Nat, 2 * L ≤ fuel →
        ∃ grid path, solvePuzzle fuel start goal symmetry = .found grid path ∧
          path.length = L ∧ Reaches start path grid ∧ goal grid = true) ∧
    (∀ fuel : Nat, solvePuzzle fuel start goal symmetry = .noSolution →
      ∀ path grid, Reaches start path grid → goal grid = false) := by
  obtain ⟨cells, hv⟩ := (isValid_iff start).1 hvalid
  have hsize := validate_size_nonneg hv
  obtain ⟨key, hk⟩ := key_total hfit hv hsym
  have hkeyOf : keyOf symmetry start = some key := by simp only [keyOf, hv, hk]
  have hnil : ∀ {path : List Move} {grid : Grid}, Reaches start path grid →
      path.length = 0 → grid = start := by
    intro path grid hr hlen
    have hp : path = [] := List.eq_nil_of_length_eq_zero hlen
    subst hp
    have := hr.2
    simp only [runPath, Option.some.injEq] at this
    exact this.symm
  have hcov : Cov symmetry start 0 [⟨start, none, key, []⟩] := by
    intro path grid hr hlen
    rw [hnil hr (by omega)]
    exact ⟨0, _, rfl, hkeyOf⟩
  have hone : goal start = false → ∀ {L : Nat},
      (∃ path grid, Reaches start path grid ∧ goal grid = true ∧ path.length = L) →
      1 ≤ L := by
    intro hg L hL
    obtain ⟨path, grid, hr, hgoal, hlen⟩ := hL
    by_contra hlt
    rw [hnil hr (by omega), hg] at hgoal
    cases hgoal
  constructor
  · intro L hL hleast fuel hfuel
    by_cases hg : goal start = true
    · have h0 := hleast [] start (reaches_nil _) hg
      simp only [List.length_nil, Nat.le_zero] at h0
      exact ⟨start, [], by simp only [solvePuzzle, hv, hg, if_true], h0.symm, reaches_nil _, hg⟩
    · have hg' : goal start = false := by simpa using hg
      have inv := @startInv_seed _ goal _ _ hkeyOf hg'
      obtain ⟨grid, path, hfound, hlen⟩ :=
        searchLoop_optimal hsym hfit hsize hcompat hL hleast fuel inv hcov (hone hg' hL)
          (by omega)
      have hsound := searchLoop_sound hsym hsize fuel inv hfound
      rw [← solvePuzzle_seeded hv hg' hk] at hfound
      exact ⟨grid, path, hfound, hlen, hsound.1, hsound.2⟩
  · intro fuel hno path grid hr
    by_contra hgoal
    have hgoal' : goal grid = true := by simpa using hgoal
    have hL : ∃ path' grid', Reaches start path' grid' ∧ goal grid' = true ∧
        path'.length = path.length := ⟨path, grid, hr, hgoal', rfl⟩
    by_cases hg : goal start = true
    · simp only [solvePuzzle, hv, hg, if_true] at hno
      cases hno
    · have hg' : goal start = false := by simpa using hg
      have inv := @startInv_seed _ goal _ _ hkeyOf hg'
      rw [solvePuzzle_seeded hv hg' hk] at hno
      exact searchLoop_no_miss hsym hfit hsize hcompat hL fuel inv hcov (hone hg' hL) hno

/-- C23, as stated, fails on a board whose cell count overflows. The board of width 3 and
height 6148914691236517206, whose cell count `2^64 + 2` is 2 as an `int`, with one
single-cell piece `('A',1)` at `(0, 0)`, is a valid board whose one piece has a non-empty
shape and a valid kind symbol other than `'*'`. The board with the piece at
`(1, 6148914691236517205)` is a valid board of the same puzzle (the tag index of that cell,
`2^64`, is 0 as an `int`) with the same key `"A*"`, and another position. And with the goal
'the piece is at `(1, 0)`', which one valid move (right) reaches, `solvePuzzle` returns no
solution: it panics on the move 'down', tried before. -/
theorem exact_dedup_counterexample :
    (overflowBoard [unitPiece 0 0]).IsValid = true ∧
    (∀ piece ∈ (overflowBoard [unitPiece 0 0]).Pieces, piece.Geometry ≠ []) ∧
    ((overflowBoard [unitPiece 0 0]).Pieces.map (fun piece => piece.Tag.Symbol)).Nodup ∧
    (∀ piece ∈ (overflowBoard [unitPiece 0 0]).Pieces,
      validRune piece.Tag.Symbol ∧ piece.Tag.Symbol ≠ 42) ∧
    ((overflowBoard [unitPiece 0 0]).SamePuzzle
        (overflowBoard [unitPiece 1 6148914691236517205]) ∧
      (overflowBoard [unitPiece 1 6148914691236517205]).IsValid = true ∧
      (overflowBoard [unitPiece 1 6148914691236517205]).OnBoard ⟨1, 6148914691236517205⟩ ∧
      keyOf NoKeySymmetry (overflowBoard [unitPiece 0 0]) = some [65, 42] ∧
      keyOf NoKeySymmetry (overflowBoard [unitPiece 1 6148914691236517205]) = some [65, 42] ∧
      (overflowBoard [unitPiece 0 0]).Pieces.map (fun piece => piece.Position) ≠
        (overflowBoard [unitPiece 1 6148914691236517205]).Pieces.map
          (fun piece => piece.Position)) ∧
    (Reaches (overflowBoard [unitPiece 0 0]) [⟨0, StepRight⟩] (overflowBoard [unitPiece 1 0]) ∧
      (fun g : Grid => decide (g.Pieces.map (fun piece => piece.Position) = [⟨1, 0⟩]))
        (overflowBoard [unitPiece 1 0]) = true ∧
      solvePuzzle 5 (overflowBoard [unitPiece 0 0])
        (fun g => decide (g.Pieces.map (fun piece => piece.Position) = [⟨1, 0⟩]))
        NoKeySymmetry = .panic) := by
  refine ⟨by decide, by decide, by decide, by decide, by decide, by decide⟩

/-- C23, amended. Exactness of deduplication without symmetry: for a valid board whose cell
count `SizeX * SizeY` is a value of type `int` (the product does not overflow), whose pieces
all have a non-empty shape and whose kind symbols are pairwise distinct valid characters
other than the empty marker `'*'` (the positions of the pieces being values of type `int`,
as in every board of the program), under `NoKeySymmetry`: two valid boards sharing its
dimensions and piece list get equal keys if and only if all their piece positions are equal;
every board reached from it by valid moves is such a board, so that two boards reached get
equal keys only when they are the same board (no distinct state is discarded);
`solvePuzzle` returns a shortest solution (fuel `2 * L` is enough for the least length `L`)
whenever some sequence of valid moves reaches a board satisfying the goal, and returns
'no solution' only when none does. -/
theorem exact_dedup (start : Grid) (hvalid : start.IsValid = true)
    (hfit : start.CellCountFits) (hint : start.PositionsInt64)
    (hshape : ∀ piece ∈ start.Pieces, piece.Geometry ≠ [])
    (hkinds : (start.Pieces.map (fun piece => piece.Tag.Symbol)).Nodup)
    (hrunes : ∀ piece ∈ start.Pieces, validRune piece.Tag.Symbol ∧ piece.Tag.Symbol ≠ 42) :
    (∀ g1 g2 : Grid, start.SamePuzzle g1 → start.SamePuzzle g2 → g1.PositionsInt64 →
      g2.PositionsInt64 → g1.IsValid = true → g2.IsValid = true →
      (keyOf NoKeySymmetry g1 = keyOf NoKeySymmetry g2 ↔
        g1.Pieces.map (fun piece => piece.Position) =
          g2.Pieces.map (fun piece => piece.Position))) ∧
    (∀ path grid, Reaches start path grid →
      start.SamePuzzle grid ∧ grid.IsValid = true ∧ grid.PositionsInt64) ∧
    (∀ path1 path2 g1 g2, Reaches start path1 g1 → Reaches start path2 g2 →
      keyOf NoKeySymmetry g1 = keyOf NoKeySymmetry g2 → g1 = g2) ∧
    (∀ (goal : Grid → Bool) (L : Nat),
      (∃ path grid, Reaches start path grid ∧ goal grid = true ∧ path.length = L) →
      (∀ path grid, Reaches start path grid → goal grid = true → L ≤ path.length) →
      ∀ fuel : Nat, 2 * L ≤ fuel →
        ∃ grid path, solvePuzzle fuel start goal NoKeySymmetry = .found grid path ∧
          path.length = L ∧ Reaches start path grid ∧ goal grid = true) ∧
    (∀ (goal : Grid → Bool) (fuel : Nat),
      solvePuzzle fuel start goal NoKeySymmetry = .noSolution →
      ∀ path grid, Reaches start path grid → goal grid = false) := by
  have hreach : ∀ path grid, Reaches start path grid →
      start.SamePuzzle grid ∧ grid.IsValid = true ∧ grid.PositionsInt64 := by
    intro path grid h
    obtain ⟨s1, v1, i1⟩ := reaches_samePuzzle hvalid path grid h
    exact ⟨s1, v1, i1 hint⟩
  have hinj : ∀ path1 path2 g1 g2, Reaches start path1 g1 → Reaches start path2 g2 →
      keyOf NoKeySymmetry g1 = keyOf NoKeySymmetry g2 → g1 = g2 := by
    intro path1 path2 g1 g2 h1 h2 hkey
    obtain ⟨s1, v1, i1⟩ := hreach path1 g1 h1
    obtain ⟨s2, v2, i2⟩ := hreach path2 g2 h2
    exact samePuzzle_key_inj hfit i1 i2 hshape hkinds hrunes s1 s2 v1 v2 hkey
  refine ⟨?_, hreach, hinj, ?_, ?_⟩
  · intro g1 g2 s1 s2 i1 i2 v1 v2
    constructor
    · intro hkey
      rw [samePuzzle_key_inj hfit i1 i2 hshape hkinds hrunes s1 s2 v1 v2 hkey]
    · intro hpos
      have hp := pieces_eq_of_positions (s1.2.2.trans s2.2.2.symm) hpos
      obtain ⟨x1, y1, l1⟩ := g1
      obtain ⟨x2, y2, l2⟩ := g2
      have e1 := s1.1.trans s2.1.symm
      have e2 := s1.2.1.trans s2.2.1.symm
      simp only at e1 e2 hp
      rw [e1, e2, hp]
  · intro goal
    exact (solvePuzzle_compat (Or.inl rfl) hvalid hfit (keyCompatible_of_injective hinj)).1
  · intro goal
    exact (solvePuzzle_compat (Or.inl rfl) hvalid hfit (keyCompatible_of_injective hinj)).2

/-- Witness of C23 (amended): on the 2x2 board with a domino `B` and a single cell `D`, the
board with `D` moved up has another key; and in the 2x1 scenario with one piece `A` the
solver returns the shortest solution, of one move. -/
theorem exact_dedup_witness :
    (keyOf NoKeySymmetry dominoBoard =
        keyOf NoKeySymmetry
          ⟨2, 2, [⟨⟨66, 1⟩, ⟨0, 0⟩, [⟨0, 0⟩, ⟨0, 1⟩]⟩, ⟨⟨68, 1⟩, ⟨1, 0⟩, [⟨0, 0⟩]⟩]⟩ ↔
      dominoBoard.Pieces.map (fun piece => piece.Position) = [⟨0, 0⟩, ⟨1, 0⟩]) ∧
    keyOf NoKeySymmetry dominoBoard = some [66, 42, 66, 68] ∧
    keyOf NoKeySymmetry
      ⟨2, 2, [⟨⟨66, 1⟩, ⟨0, 0⟩, [⟨0, 0⟩, ⟨0, 1⟩]⟩, ⟨⟨68, 1⟩, ⟨1, 0⟩, [⟨0, 0⟩]⟩]⟩ =
        some [66, 68, 66, 42] ∧
    ∃ grid path,
      solvePuzzle 2 (scenarioGrid ⟨65, 1⟩ 0) scenarioGoal NoKeySymmetry = .found grid path ∧
      path.length = 1 ∧ Reaches (scenarioGrid ⟨65, 1⟩ 0) path grid ∧ scenarioGoal grid = true :=
  ⟨(exact_dedup dominoBoard (by decide) (by decide) (by decide) (by decide) (by decide)
      (by decide)).1 dominoBoard
      ⟨2, 2, [⟨⟨66, 1⟩, ⟨0, 0⟩, [⟨0, 0⟩, ⟨0, 1⟩]⟩, ⟨⟨68, 1⟩, ⟨1, 0⟩, [⟨0, 0⟩]⟩]⟩
      (by decide) (by decide) (by decide) (by decide) (by decide) (by decide),
    by decide, by decide,
    (exact_dedup (scenarioGrid ⟨65, 1⟩ 0) (by decide) (by decide) (by decide) (by decide)
      (by decide) (by decide)).2.2.2.1 scenarioGoal 1
      ⟨[⟨0, StepRight⟩], scenarioGrid ⟨65, 1⟩ 1, by decide, by decide, rfl⟩
      (by
        intro path grid hr hg
        rcases path with _ | ⟨m, rest⟩
        · have := hr.2
          simp only [runPath, Option.some.injEq] at this
          subst this
          cases hg
        · simp)
      2 (by decide)⟩

/-! ## C24: the layout of the diagram -/

end Klotski
